import Mathlib

/-!
AMCL finite-field arithmetic (fp.c)

A shallow embedding of `fp.c`: modular reduction for the four modulus shapes and the
field operations built on it.  A BIG is the list of its limbs, least significant first.
A limb is a C `chunk`; limbs are kept as mathematical integers, since signed overflow of a
`chunk` is undefined in C and the excess tracking of the library exists to keep every limb
in range.  An `int` argument of a field operation is a mathematical integer as well.
The build constants of `amcl.h` and `rom.c` are the fields of `Config`.
-/

set_option exponentiation.threshold 4096
set_option maxRecDepth 65536

/-- The modulus shapes of `amcl.h` selected by `MODTYPE`. -/
inductive ModType where
  | NOT_SPECIAL
  | PSEUDO_MERSENNE
  | GENERALISED_MERSENNE
  | MONTGOMERY_FRIENDLY
deriving DecidableEq, Repr

/-- Build constants: `CHUNK`, `BASEBITS`, `NLEN`, `MODBITS`, `MOD8`, `MODTYPE` and `COMBA`
of `amcl.h`, and the constants `Modulus` and `MConst` of `rom.c`. -/
structure Config where
  CHUNK : Nat
  BASEBITS : Nat
  NLEN : Nat
  MODBITS : Nat
  MOD8 : Nat
  MODTYPE : ModType
  COMBA : Bool
  Modulus : List Int
  MConst : Int

/-- A BIG: `chunk[NLEN]`, least significant limb first. -/
abbrev BIG := List Int

/-- A DBIG: `chunk[2*NLEN]`, least significant limb first. -/
abbrev DBIG := List Int

/-- The integer `2^k`, as `(chunk)1<<k`. -/
def pow2 (k : Nat) : Int := ((2 ^ k : Nat) : Int)

/-- C `x >> k` on a signed integer: arithmetic shift, the floor of `x / 2^k`. -/
def shr (x : Int) (k : Nat) : Int := x / pow2 k

/-- C `x << k`. -/
def shl (x : Int) (k : Nat) : Int := x * pow2 k

/-- C `x & ((1<<k)-1)` on a two's complement integer: the low `k` bits of `x`. -/
def maskLow (x : Int) (k : Nat) : Int := x % pow2 k

/-- C `x & ((-1)<<k)` on a two's complement integer: `x` with its low `k` bits cleared. -/
def maskHigh (x : Int) (k : Nat) : Int := x - x % pow2 k

/-- Array read `a[i]`. -/
def limb (a : List Int) (i : Nat) : Int := a.getD i 0

/-- The array of `n` limbs whose `i`-th limb is `f i`. -/
def mkLimbs (n : Nat) (f : Nat → Int) : List Int := (List.range n).map f

/-- The integer held in the first `n` limbs of `a`: the sum of `a[i] * 2^(BASEBITS*i)`. -/
def valN (P : Config) (a : List Int) : Nat → Int
  | 0 => 0
  | n + 1 => valN P a n + limb a n * pow2 (P.BASEBITS * n)

/-- The integer held in a BIG. -/
def BIG_val (P : Config) (a : BIG) : Int := valN P a P.NLEN

/-- The integer held in a DBIG. -/
def DBIG_val (P : Config) (d : DBIG) : Int := valN P d (2 * P.NLEN)

/-- The `n`-limb array holding the integer `x` in normalised form: every limb but the top
one is in `[0, 2^BASEBITS)`, and the top limb holds all the remaining bits. -/
def toLimbs (P : Config) (n : Nat) (x : Int) : List Int :=
  mkLimbs n (fun i =>
    if i + 1 < n then maskLow (shr x (P.BASEBITS * i)) P.BASEBITS else shr x (P.BASEBITS * i))

/-- `TBITS` of `amcl.h`: `MODBITS % BASEBITS`, the number of active bits in the top limb. -/
def TBITS (P : Config) : Nat := P.MODBITS % P.BASEBITS

/-- `FEXCESS` of `amcl.h`: `(chunk)1 << (BASEBITS*NLEN - MODBITS)`. -/
def FEXCESS (P : Config) : Int := pow2 (P.BASEBITS * P.NLEN - P.MODBITS)

/-- `NEXCESS` of `amcl.h`: `(chunk)1 << (CHUNK - BASEBITS - 1)`. -/
def NEXCESS (P : Config) : Int := pow2 (P.CHUNK - P.BASEBITS - 1)

/-- `EXCESS(a)` of `amcl.h`: `(a[NLEN-1] & OMASK) >> (MODBITS % BASEBITS)` with
`OMASK = (chunk)(-1) << (MODBITS % BASEBITS)`. -/
def EXCESS (P : Config) (a : BIG) : Int :=
  shr (maskHigh (limb a (P.NLEN - 1)) (TBITS P)) (TBITS P)

/-- Modelled from the spec: muladd of big.c, which is not among the sources. It forms
`a*b + c + *r` in double width, stores the low `BASEBITS` bits in `*r` and returns the
rest as the carry.  The result is the pair (carry, new `*r`). -/
def muladd (P : Config) (a b c r : Int) : Int × Int :=
  (shr (a * b + c + r) P.BASEBITS, maskLow (a * b + c + r) P.BASEBITS)

/-- Modelled from the spec: BIG_norm of big.c, which is not among the sources. It brings
every limb but the top one into `[0, 2^BASEBITS)` by carrying into the next limb; the top
limb takes the last carry, so the integer held is unchanged. -/
def BIG_norm (P : Config) (a : BIG) : BIG := toLimbs P P.NLEN (BIG_val P a)

/-- Modelled from the spec: BIG_copy and BIG_rcopy of big.c, which are not among the
sources. They copy the `NLEN` limbs of the source. -/
def BIG_copy (P : Config) (a : BIG) : BIG := mkLimbs P.NLEN (fun i => limb a i)

/-- Modelled from the spec: BIG_zero of big.c, which is not among the sources. -/
def BIG_zero (P : Config) : BIG := mkLimbs P.NLEN (fun _ => 0)

/-- Modelled from the spec: BIG_one of big.c, which is not among the sources: limb 0 is
1 and the others are 0. -/
def BIG_one (P : Config) : BIG := mkLimbs P.NLEN (fun i => if i = 0 then 1 else 0)

/-- Modelled from the spec: BIG_dzero of big.c, which is not among the sources. -/
def BIG_dzero (P : Config) : DBIG := mkLimbs (2 * P.NLEN) (fun _ => 0)

/-- Modelled from the spec: BIG_add of big.c, which is not among the sources. The limbs
are added one by one, without carry propagation. -/
def BIG_add (P : Config) (a b : BIG) : BIG := mkLimbs P.NLEN (fun i => limb a i + limb b i)

/-- Modelled from the spec: BIG_sub of big.c, which is not among the sources. The limbs
are subtracted one by one, without borrow propagation. -/
def BIG_sub (P : Config) (a b : BIG) : BIG := mkLimbs P.NLEN (fun i => limb a i - limb b i)

/-- Modelled from the spec: BIG_inc of big.c, which is not among the sources. It
normalises `a` and adds the small integer `c` to limb 0. -/
def BIG_inc (P : Config) (a : BIG) (c : Int) : BIG :=
  (BIG_norm P a).set 0 (limb (BIG_norm P a) 0 + c)

/-- Modelled from the spec: BIG_dec of big.c, which is not among the sources. It
normalises `a` and subtracts the small integer `c` from limb 0. -/
def BIG_dec (P : Config) (a : BIG) (c : Int) : BIG :=
  (BIG_norm P a).set 0 (limb (BIG_norm P a) 0 - c)

/-- Modelled from the spec: BIG_imul of big.c, which is not among the sources. Every limb
is multiplied by the small integer `c`, without carry propagation. -/
def BIG_imul (P : Config) (a : BIG) (c : Int) : BIG := mkLimbs P.NLEN (fun i => limb a i * c)

/-- Modelled from the spec: BIG_pmul of big.c, which is not among the sources. It
multiplies by the small integer `c` with carry propagation: all `NLEN` limbs of the result
are in `[0, 2^BASEBITS)` and the carry out of the top limb is returned.  The result is the
pair (carry, product). -/
def BIG_pmul (P : Config) (a : BIG) (c : Int) : Int × BIG :=
  (shr (BIG_val P a * c) (P.BASEBITS * P.NLEN),
   toLimbs P P.NLEN (maskLow (BIG_val P a * c) (P.BASEBITS * P.NLEN)))

/-- Modelled from the spec: BIG_fshl of big.c, which is not among the sources. It shifts
a normalised BIG left by `k` bits, less than a word; the top limb is not masked. -/
def BIG_fshl (P : Config) (a : BIG) (k : Nat) : BIG := toLimbs P P.NLEN (shl (BIG_val P a) k)

/-- Modelled from the spec: BIG_shl of big.c, which is not among the sources. It shifts a
normalised BIG left by `k` bits; the top limb is not masked. -/
def BIG_shl (P : Config) (a : BIG) (k : Nat) : BIG := toLimbs P P.NLEN (shl (BIG_val P a) k)

/-- Modelled from the spec: BIG_fshr of big.c, which is not among the sources. It shifts
a normalised BIG right by `k` bits, less than a word. -/
def BIG_fshr (P : Config) (a : BIG) (k : Nat) : BIG := toLimbs P P.NLEN (shr (BIG_val P a) k)

/-- Modelled from the spec: BIG_parity of big.c, which is not among the sources: `a[0]%2`,
the least significant bit of a normalised BIG. -/
def BIG_parity (a : BIG) : Int := limb a 0 % 2

/-- Modelled from the spec: BIG_iszilch of big.c, which is not among the sources: 1 when
every limb is zero, else 0. -/
def BIG_iszilch (P : Config) (a : BIG) : Int :=
  if (List.range P.NLEN).all (fun i => decide (limb a i = 0)) then 1 else 0

/-- The limb comparison loop of BIG_comp, from limb `n-1` down to limb 0. -/
def BIG_comp_from (a b : BIG) : Nat → Int
  | 0 => 0
  | n + 1 =>
    if limb a n = limb b n then BIG_comp_from a b n
    else if limb a n > limb b n then 1 else -1

/-- Modelled from the spec: BIG_comp of big.c, which is not among the sources. It compares
limb by limb from the top: 0 for equal, 1 for `a > b`, -1 for `a < b`. -/
def BIG_comp (P : Config) (a b : BIG) : Int := BIG_comp_from a b P.NLEN

/-- Modelled from the spec: BIG_mod of big.c, which is not among the sources. It
normalises `b` and returns it as it is when it is below `c`; otherwise it reduces `b`
modulo `c` by shifting and subtracting.  The result is normalised. -/
def BIG_mod (P : Config) (b c : BIG) : BIG :=
  if BIG_val P b < BIG_val P c then BIG_norm P b
  else toLimbs P P.NLEN (BIG_val P b % BIG_val P c)

/-- Modelled from the spec: BIG_mul of big.c, which is not among the sources: the
normalised double-width product of two normalised BIGs. -/
def BIG_mul (P : Config) (a b : BIG) : DBIG :=
  toLimbs P (2 * P.NLEN) (BIG_val P a * BIG_val P b)

/-- Modelled from the spec: BIG_sqr of big.c, which is not among the sources: the
normalised double-width square of a normalised BIG. -/
def BIG_sqr (P : Config) (a : BIG) : DBIG :=
  toLimbs P (2 * P.NLEN) (BIG_val P a * BIG_val P a)

/-- Modelled from the spec: BIG_dscopy of big.c, which is not among the sources. It copies
a BIG into the low half of a DBIG and clears the high half. -/
def BIG_dscopy (P : Config) (a : BIG) : DBIG :=
  mkLimbs (2 * P.NLEN) (fun i => if i < P.NLEN then limb a i else 0)

/-- Modelled from the spec: BIG_sducopy of big.c, which is not among the sources. It
copies the high half of a DBIG into a BIG. -/
def BIG_sducopy (P : Config) (d : DBIG) : BIG := mkLimbs P.NLEN (fun i => limb d (P.NLEN + i))

/-- Modelled from the spec: BIG_dshl of big.c, which is not among the sources. It shifts a
normalised DBIG left by `k` bits. -/
def BIG_dshl (P : Config) (d : DBIG) (k : Nat) : DBIG :=
  toLimbs P (2 * P.NLEN) (shl (DBIG_val P d) k)

/-- Modelled from the spec: BIG_dmod of big.c, which is not among the sources. It
normalises the DBIG `d` and returns its low half as it is when `d` is below `c`; otherwise
it reduces `d` modulo `c` by shifting and subtracting. -/
def BIG_dmod (P : Config) (d : DBIG) (c : BIG) : BIG :=
  if DBIG_val P d < BIG_val P c then
    mkLimbs P.NLEN (fun i => limb (toLimbs P (2 * P.NLEN) (DBIG_val P d)) i)
  else toLimbs P P.NLEN (DBIG_val P d % BIG_val P c)

/-- Modelled from the spec: BIG_split of big.c, which is not among the sources. It splits
a normalised DBIG at bit `n`, which lies in limb `NLEN-1`: the bottom part is the low `n`
bits and the top part takes every bit from bit `n` up, so that all of the excess goes to
the top part.  The result is the pair (top, bottom). -/
def BIG_split (P : Config) (d : DBIG) (n : Nat) : BIG × BIG :=
  (toLimbs P P.NLEN (shr (DBIG_val P d) n), toLimbs P P.NLEN (maskLow (DBIG_val P d) n))

/-- The loop of the extended Euclidean algorithm on the remainders `r0`, `r1` and the
coefficients `s0`, `s1` of the first operand. -/
def invmodp_loop : Nat → Int → Int → Int → Int → Int
  | 0, _, _, s0, _ => s0
  | fuel + 1, r0, r1, s0, s1 =>
    if r1 = 0 then s0 else invmodp_loop fuel r1 (r0 % r1) s1 (s0 - (r0 / r1) * s1)

/-- Modelled from the spec: BIG_invmodp of big.c, which is not among the sources. It runs
the extended Euclidean algorithm against the modulus and returns the inverse of `a`
modulo `p` in `[0, p)`. -/
def BIG_invmodp (P : Config) (a p : BIG) : BIG :=
  toLimbs P P.NLEN
    (invmodp_loop ((BIG_val P p).toNat + 1) (BIG_val P a % BIG_val P p) (BIG_val P p) 1 0
      % BIG_val P p)

/-- The modulus as an integer. -/
def Modulus_val (P : Config) : Int := BIG_val P P.Modulus

/-- `FP_mod` for `MODTYPE == PSEUDO_MERSENNE` (fp.c lines 59-90): the part of `d` above bit
`MODBITS` is multiplied by `MConst` and folded back onto the bottom part. -/
def FP_mod_PM (P : Config) (d : DBIG) : BIG :=
  let tb := BIG_split P d P.MODBITS
  let t : BIG :=
    if P.MConst < NEXCESS P then
      let t := BIG_norm P (BIG_imul P tb.1 P.MConst)
      let tw := limb t (P.NLEN - 1)
      let t := t.set (P.NLEN - 1) (maskLow tw (TBITS P))
      t.set 0 (limb t 0 + P.MConst * shr tw (TBITS P))
    else
      let vt := BIG_pmul P tb.1 P.MConst
      let v := vt.1
      let t := vt.2
      let tw := limb t (P.NLEN - 1)
      let t := t.set (P.NLEN - 1) (maskLow tw (TBITS P))
      if P.CHUNK = 16 then
        let cw := muladd P P.MConst (shr tw (TBITS P) + shl v (P.BASEBITS - TBITS P)) 0 (limb t 0)
        let t := t.set 0 cw.2
        t.set 1 (limb t 1 + cw.1)
      else
        t.set 0 (limb t 0 + P.MConst * (shr tw (TBITS P) + shl v (P.BASEBITS - TBITS P)))
  BIG_norm P (BIG_add P t tb.2)

/-- `FP_mod` for `MODTYPE == GENERALISED_MERSENNE` (fp.c lines 111-139), written for the
modulus `2^448 - 2^224 - 1`. -/
def FP_mod_GM (P : Config) (d : DBIG) : BIG :=
  let tb := BIG_split P d P.MODBITS
  let r := BIG_add P tb.1 tb.2
  let d := BIG_dshl P (BIG_dscopy P tb.1) (P.MODBITS / 2)
  let tb := BIG_split P d P.MODBITS
  let r := BIG_add P r tb.1
  let r := BIG_add P r tb.2
  let r := BIG_norm P r
  let t := BIG_shl P tb.1 (P.MODBITS / 2)
  let r := BIG_add P r t
  let carry := shr (limb r (P.NLEN - 1)) (TBITS P)
  let r := r.set (P.NLEN - 1) (maskLow (limb r (P.NLEN - 1)) (TBITS P))
  let r := r.set 0 (limb r 0 + carry)
  let r := r.set (224 / P.BASEBITS) (limb r (224 / P.BASEBITS) + shl carry (224 % P.BASEBITS))
  BIG_norm P r

/-- One step `d[NLEN+i] += muladd(d[i], MConst-1, d[i], &d[NLEN+i-1])` of the
`MONTGOMERY_FRIENDLY` reduction. -/
def FP_mod_MF_step (P : Config) (d : DBIG) (i : Nat) : DBIG :=
  let cw := muladd P (limb d i) (P.MConst - 1) (limb d i) (limb d (P.NLEN + i - 1))
  let d := d.set (P.NLEN + i - 1) cw.2
  d.set (P.NLEN + i) (limb d (P.NLEN + i) + cw.1)

/-- `FP_mod` for `MODTYPE == MONTGOMERY_FRIENDLY` (fp.c lines 166-175). -/
def FP_mod_MF (P : Config) (d : DBIG) : BIG :=
  BIG_norm P (BIG_sducopy P ((List.range P.NLEN).foldl (FP_mod_MF_step P) d))

/-- The multiplier `m` of row `i` in the word-by-word Montgomery reduction, with its three
cases on `MConst`. -/
def FP_mod_NS_m (P : Config) (d : DBIG) (i : Nat) : Int :=
  if P.MConst = -1 then maskLow (-(limb d i)) P.BASEBITS
  else if P.MConst = 1 then limb d i
  else maskLow (P.MConst * limb d i) P.BASEBITS

/-- The body `carry=muladd(m,md[j],carry,&d[i+j])` of the inner loop, on the pair
(carry, d). -/
def FP_mod_NS_body (P : Config) (md : BIG) (m : Int) (i : Nat) (cd : Int × DBIG) (j : Nat) :
    Int × DBIG :=
  ((muladd P m (limb md j) cd.1 (limb cd.2 (i + j))).1,
   cd.2.set (i + j) (muladd P m (limb md j) cd.1 (limb cd.2 (i + j))).2)

/-- The inner loop `for (j=0; j<NLEN; j++) carry=muladd(m,md[j],carry,&d[i+j])`, started
with `carry=0`. -/
def FP_mod_NS_inner (P : Config) (md : BIG) (m : Int) (i : Nat) (d : DBIG) : Int × DBIG :=
  (List.range P.NLEN).foldl (FP_mod_NS_body P md m i) (0, d)

/-- Row `i` of the word-by-word Montgomery reduction: the inner loop and
`d[NLEN+i] += carry`. -/
def FP_mod_NS_row (P : Config) (md : BIG) (d : DBIG) (i : Nat) : DBIG :=
  let cd := FP_mod_NS_inner P md (FP_mod_NS_m P d i) i d
  cd.2.set (P.NLEN + i) (limb cd.2 (P.NLEN + i) + cd.1)

/-- `FP_mod` for `MODTYPE == NOT_SPECIAL` without `COMBA` (fp.c lines 336-352). -/
def FP_mod_NS_loop (P : Config) (d : DBIG) : BIG :=
  let md := BIG_copy P P.Modulus
  BIG_norm P (BIG_sducopy P ((List.range P.NLEN).foldl (FP_mod_NS_row P md) d))

/-- The state of the `COMBA` reduction: the running carry `c`, the running sum `s` of the
products `dd[k]`, and the arrays `v`, `dd` and `a`. -/
structure CombaState where
  c : Int
  s : Int
  v : List Int
  dd : List Int
  a : List Int

/-- The term `(dchunk)(v[k-i]-v[i])*(md[i]-md[k-i])` added to `t`. -/
def comba_term (v md : List Int) (k : Nat) (t : Int) (i : Nat) : Int :=
  t + (limb v (k - i) - limb v i) * (limb md i - limb md (k - i))

/-- The body of the first loop of the `COMBA` reduction, for `k` in `1 .. NLEN-1`
(fp.c lines 225-231). -/
def comba_step1 (P : Config) (d : DBIG) (md : BIG) (st : CombaState) (k : Nat) : CombaState :=
  let t := st.c + st.s + limb st.v 0 * limb md k
  let t := ((List.range (k - 1 - k / 2)).map (fun j => k - 1 - j)).foldl (comba_term st.v md k) t
  let vk := maskLow (t * P.MConst) P.BASEBITS
  let t := t + vk * limb md 0
  { c := shr t P.BASEBITS + limb d (k + 1)
    s := st.s + vk * limb md k
    v := st.v.set k vk
    dd := st.dd.set k (vk * limb md k)
    a := st.a }

/-- The body of the second loop of the `COMBA` reduction, for `k` in `NLEN .. 2*NLEN-2`
(fp.c lines 235-239). -/
def comba_step2 (P : Config) (d : DBIG) (md : BIG) (st : CombaState) (k : Nat) : CombaState :=
  let t := st.c + st.s
  let t := ((List.range (P.NLEN - 1 - k / 2)).map (fun j => P.NLEN - 1 - j)).foldl
    (comba_term st.v md k) t
  { c := shr t P.BASEBITS + limb d (k + 1)
    s := st.s - limb st.dd (k - P.NLEN + 1)
    v := st.v
    dd := st.dd
    a := st.a.set (k - P.NLEN) (maskLow t P.BASEBITS) }

/-- `FP_mod` for `MODTYPE == NOT_SPECIAL` with `COMBA` (fp.c lines 213-241 and 301). -/
def FP_mod_NS_comba (P : Config) (d : DBIG) : BIG :=
  let md := BIG_copy P P.Modulus
  let v0 := maskLow (limb d 0 * P.MConst) P.BASEBITS
  let t := limb d 0 + v0 * limb md 0
  let st0 : CombaState :=
    { c := shr t P.BASEBITS + limb d 1
      s := 0
      v := (mkLimbs P.NLEN (fun _ => 0)).set 0 v0
      dd := mkLimbs P.NLEN (fun _ => 0)
      a := mkLimbs P.NLEN (fun _ => 0) }
  let st1 := (List.range' 1 (P.NLEN - 1)).foldl (comba_step1 P d md) st0
  let st2 := (List.range' P.NLEN (P.NLEN - 1)).foldl (comba_step2 P d md) st1
  BIG_norm P (st2.a.set (P.NLEN - 1) (maskLow st2.c P.BASEBITS))

/-- `FP_mod` for `MODTYPE == NOT_SPECIAL` (fp.c lines 202-355). -/
def FP_mod_NS (P : Config) (d : DBIG) : BIG :=
  if P.COMBA then FP_mod_NS_comba P d else FP_mod_NS_loop P d

/-- `FP_mod`: reduces a DBIG to a BIG by the method of the modulus type. -/
def FP_mod (P : Config) (d : DBIG) : BIG :=
  match P.MODTYPE with
  | ModType.PSEUDO_MERSENNE => FP_mod_PM P d
  | ModType.GENERALISED_MERSENNE => FP_mod_GM P d
  | ModType.MONTGOMERY_FRIENDLY => FP_mod_MF P d
  | ModType.NOT_SPECIAL => FP_mod_NS P d

/-- `FP_nres`: converts to n-residue form.  For the two Mersenne types the function only
copies its argument to a local and leaves `a` as it is; for the two Montgomery types it is
`BIG_dscopy`, `BIG_dshl` by `NLEN*BASEBITS` and `BIG_dmod`. -/
def FP_nres (P : Config) (a : BIG) : BIG :=
  match P.MODTYPE with
  | ModType.PSEUDO_MERSENNE => a
  | ModType.GENERALISED_MERSENNE => a
  | ModType.MONTGOMERY_FRIENDLY =>
    BIG_dmod P (BIG_dshl P (BIG_dscopy P a) (P.NLEN * P.BASEBITS)) (BIG_copy P P.Modulus)
  | ModType.NOT_SPECIAL =>
    BIG_dmod P (BIG_dshl P (BIG_dscopy P a) (P.NLEN * P.BASEBITS)) (BIG_copy P P.Modulus)

/-- `FP_redc`: converts back from n-residue form.  For the two Mersenne types `a` is left
as it is; for the two Montgomery types it is `BIG_dscopy` and `FP_mod`. -/
def FP_redc (P : Config) (a : BIG) : BIG :=
  match P.MODTYPE with
  | ModType.PSEUDO_MERSENNE => a
  | ModType.GENERALISED_MERSENNE => a
  | ModType.MONTGOMERY_FRIENDLY => FP_mod P (BIG_dscopy P a)
  | ModType.NOT_SPECIAL => FP_mod P (BIG_dscopy P a)

/-- `FP_reduce`: `BIG_mod(a, Modulus)`. -/
def FP_reduce (P : Config) (a : BIG) : BIG := BIG_mod P a (BIG_copy P P.Modulus)

/-- `FP_iszilch`: reduces `x` modulo the modulus and tests it for zero. -/
def FP_iszilch (P : Config) (x : BIG) : Int := BIG_iszilch P (BIG_mod P x (BIG_copy P P.Modulus))

/-- `FP_mul(r,a,b)` with its writes to the operands: the result is (r, a, b) after the
call.  The excess test uses C integer division. -/
def FP_mul_state (P : Config) (a b : BIG) : BIG × BIG × BIG :=
  let ea := EXCESS P a
  let eb := EXCESS P b
  let a1 := if ea + 1 ≥ Int.tdiv (FEXCESS P - 1) (eb + 1) then FP_reduce P a else BIG_norm P a
  let b1 := BIG_norm P b
  (FP_mod P (BIG_mul P a1 b1), a1, b1)

/-- `FP_mul`: the output `r` of `FP_mul(r,a,b)`. -/
def FP_mul (P : Config) (a b : BIG) : BIG := (FP_mul_state P a b).1

/-- `FP_sqr(r,a)` with its write to the operand: the result is (r, a) after the call. -/
def FP_sqr_state (P : Config) (a : BIG) : BIG × BIG :=
  let ea := EXCESS P a
  let a1 := if ea + 1 ≥ Int.tdiv (FEXCESS P - 1) (ea + 1) then FP_reduce P a else BIG_norm P a
  (FP_mod P (BIG_sqr P a1), a1)

/-- `FP_sqr`: the output `r` of `FP_sqr(r,a)`. -/
def FP_sqr (P : Config) (a : BIG) : BIG := (FP_sqr_state P a).1

/-- `FP_add`: limb-wise sum, reduced when `EXCESS(r)+2 >= FEXCESS`. -/
def FP_add (P : Config) (a b : BIG) : BIG :=
  let r := BIG_add P a b
  if EXCESS P r + 2 ≥ FEXCESS P then FP_reduce P r else r

/-- The loop `while (ov!=0) {sb++; ov>>=1;}` of `FP_neg`; a `chunk` has `CHUNK` bits, which
bounds the number of turns for a non-negative `ov`. -/
def FP_neg_sb : Nat → Int → Nat → Nat
  | 0, _, sb => sb
  | fuel + 1, ov, sb => if ov ≠ 0 then FP_neg_sb fuel (shr ov 1) (sb + 1) else sb

/-- `FP_neg`: `r = (Modulus << sb) - a`, reduced when `EXCESS(r) >= FEXCESS`. -/
def FP_neg (P : Config) (a : BIG) : BIG :=
  let m := BIG_copy P P.Modulus
  let a1 := BIG_norm P a
  let sb := FP_neg_sb P.CHUNK (EXCESS P a1) 1
  let r := BIG_sub P (BIG_fshl P m sb) a1
  if EXCESS P r ≥ FEXCESS P then FP_reduce P r else r

/-- `FP_sub`: `FP_neg(n,b)` and then `FP_add(r,a,n)`. -/
def FP_sub (P : Config) (a b : BIG) : BIG := FP_add P a (FP_neg P b)

/-- `FP_inv`: out of n-residue form, `BIG_invmodp`, and back. -/
def FP_inv (P : Config) (x : BIG) : BIG :=
  FP_nres P (BIG_invmodp P (FP_redc P (BIG_copy P x)) (BIG_copy P P.Modulus))

/-- `FP_one`: `BIG_one` and then `FP_nres`. -/
def FP_one (P : Config) : BIG := FP_nres P (BIG_one P)

/-- The `while(1)` loop of `FP_pow` on (r, w, z); `none` when the turns allowed run out. -/
def FP_pow_loop (P : Config) : Nat → BIG → BIG → BIG → Option BIG
  | 0, _, _, _ => none
  | fuel + 1, r, w, z =>
    let bt := BIG_parity z
    let z1 := BIG_fshr P z 1
    let rw := if bt ≠ 0 then ((FP_mul_state P r w).1, (FP_mul_state P r w).2.2) else (r, w)
    if BIG_comp P z1 (BIG_zero P) = 0 then some rw.1
    else FP_pow_loop P fuel rw.1 (FP_sqr P rw.2) z1

/-- `FP_pow`: square-and-multiply from the least significant bit of `b`, then
`FP_reduce`.  The loop is allowed `CHUNK*NLEN` turns, the number of bits of a BIG. -/
def FP_pow (P : Config) (a b : BIG) : Option BIG :=
  (FP_pow_loop P (P.CHUNK * P.NLEN) (FP_one P) (BIG_copy P a) (BIG_copy P (BIG_norm P b))).map
    (FP_reduce P)

/-- The `MOD8==5` branch of `FP_sqrt` on the reduced input `a`: the result is (r, a). -/
def FP_sqrt_mod5 (P : Config) (a : BIG) : Option (BIG × BIG) :=
  let m := BIG_copy P P.Modulus
  let b := BIG_fshr P (BIG_norm P (BIG_dec P (BIG_copy P m) 5)) 3
  let i := BIG_fshl P (BIG_copy P a) 1
  (FP_pow P i b).map (fun v =>
    let s1 := FP_mul_state P i v
    let s2 := FP_mul_state P s1.1 s1.2.2
    let i2 := BIG_dec P s2.1 1
    let s3 := FP_mul_state P a s2.2.2
    let s4 := FP_mul_state P s3.1 i2
    (BIG_mod P s4.1 m, s3.2.1))

/-- `FP_sqrt(r,a)`: the result is (r, a) after the call.  `a` is reduced first; `r` is
written in the `MOD8==5` branch and in the `MOD8==3 || MOD8==7` branch. -/
def FP_sqrt (P : Config) (r a : BIG) : Option (BIG × BIG) :=
  let m := BIG_copy P P.Modulus
  let a1 := BIG_mod P a m
  let st : Option (BIG × BIG) := if P.MOD8 = 5 then FP_sqrt_mod5 P a1 else some (r, a1)
  st.bind (fun ra =>
    if P.MOD8 = 3 ∨ P.MOD8 = 7 then
      (FP_pow P ra.2 (BIG_fshr P (BIG_norm P (BIG_inc P (BIG_copy P m) 1)) 2)).map
        (fun r1 => (r1, ra.2))
    else some ra)

/-- `FP_equals`: both operands are reduced and compared. -/
def FP_equals (P : Config) (x y : BIG) : Int :=
  if BIG_comp P (FP_reduce P x) (FP_reduce P y) = 0 then 1 else 0

/-- The constants of `rom.c` fit the modulus type: for `NOT_SPECIAL`, `MConst` is minus the
inverse of the modulus modulo `2^BASEBITS`; for `PSEUDO_MERSENNE` the modulus is
`2^MODBITS - MConst`; for `MONTGOMERY_FRIENDLY` the modulus is
`MConst * 2^(BASEBITS*(NLEN-1)) - 1`; for `GENERALISED_MERSENNE` it is `2^448 - 2^224 - 1`. -/
@[reducible] def romOK (P : Config) : Prop :=
  (P.MODTYPE = ModType.NOT_SPECIAL → (P.MConst * Modulus_val P + 1) % pow2 P.BASEBITS = 0) ∧
  (P.MODTYPE = ModType.PSEUDO_MERSENNE →
    Modulus_val P = pow2 P.MODBITS - P.MConst ∧ 0 < P.MConst ∧ (P.CHUNK = 16 → 2 ≤ P.NLEN)) ∧
  (P.MODTYPE = ModType.MONTGOMERY_FRIENDLY →
    2 ≤ P.NLEN ∧ Modulus_val P + 1 = P.MConst * pow2 (P.BASEBITS * (P.NLEN - 1))) ∧
  (P.MODTYPE = ModType.GENERALISED_MERSENNE →
    P.MODBITS = 448 ∧ Modulus_val P = pow2 448 - pow2 224 - 1)

/-- Well-formed build constants: a limb has room in a chunk, bit `MODBITS` lies in the top
limb with at least one spare bit above it, `Modulus` is a normalised BIG of exactly
`MODBITS` bits, and the constants of `rom.c` fit the modulus type. -/
@[reducible] def WF (P : Config) : Prop :=
  0 < P.BASEBITS ∧ P.BASEBITS < P.CHUNK ∧ 0 < P.NLEN ∧ 0 < P.MODBITS ∧
  P.BASEBITS * (P.NLEN - 1) ≤ P.MODBITS ∧ P.MODBITS < P.BASEBITS * P.NLEN ∧
  toLimbs P P.NLEN (Modulus_val P) = P.Modulus ∧
  pow2 (P.MODBITS - 1) ≤ Modulus_val P ∧ Modulus_val P < pow2 P.MODBITS ∧
  romOK P

/-- Column `K` of the product of `v` and the modulus: the sum of `v[j]*md[K-j]` for
`j < K`. -/
def comba_col (v md : List Int) (K : Nat) : Int :=
  ∑ j in Finset.range K, limb v j * limb md (K - j)

/-- The part of the product of `v` and the modulus that lies in the columns below `K`. -/
def comba_acc (P : Config) (v md : List Int) (K : Nat) : Int :=
  ∑ j in Finset.range K, limb v j * valN P md (K - j) * pow2 (P.BASEBITS * j)

/-- Invariant of the first loop of the `COMBA` reduction on entry to turn `K`. -/
def CombaInv1 (P : Config) (d : DBIG) (md : BIG) (st : CombaState) (K : Nat) : Prop :=
  st.v.length = P.NLEN ∧ st.dd.length = P.NLEN ∧ st.a.length = P.NLEN ∧
  st.s = ∑ t in Finset.range (K - 1), limb st.v (1 + t) * limb md (1 + t) ∧
  (∀ j, 1 ≤ j → j < K → limb st.dd j = limb st.v j * limb md j) ∧
  (∀ j, j < K → 0 ≤ limb st.v j ∧ limb st.v j < pow2 P.BASEBITS) ∧
  st.c * pow2 (P.BASEBITS * K) = valN P d (K + 1) + comba_acc P st.v md K

/-- Invariant of the second loop of the `COMBA` reduction on entry to turn `K`. -/
def CombaInv2 (P : Config) (d : DBIG) (md : BIG) (st : CombaState) (K : Nat) : Prop :=
  st.v.length = P.NLEN ∧ st.dd.length = P.NLEN ∧ st.a.length = P.NLEN ∧
  st.s = ∑ t in Finset.range (2 * P.NLEN - 1 - K),
    limb st.v (K - P.NLEN + 1 + t) * limb md (K - P.NLEN + 1 + t) ∧
  (∀ j, 1 ≤ j → j < P.NLEN → limb st.dd j = limb st.v j * limb md j) ∧
  (∀ j, j < P.NLEN → 0 ≤ limb st.v j ∧ limb st.v j < pow2 P.BASEBITS) ∧
  (∀ j, j < K - P.NLEN → 0 ≤ limb st.a j ∧ limb st.a j < pow2 P.BASEBITS) ∧
  st.c * pow2 (P.BASEBITS * K) + valN P st.a (K - P.NLEN) * pow2 (P.BASEBITS * P.NLEN)
    = valN P d (K + 1) + comba_acc P st.v md K

/-- The two modulus types whose n-residue form is the Montgomery form. -/
@[reducible] def isMont (P : Config) : Prop :=
  P.MODTYPE = ModType.NOT_SPECIAL ∨ P.MODTYPE = ModType.MONTGOMERY_FRIENDLY

/-- The factor of the n-residue form: `FP_nres` maps `a` to `a * nres_R` modulo the modulus.
It is `2^(NLEN*BASEBITS)` for the two Montgomery types and 1 for the two Mersenne types. -/
def nres_R (P : Config) : Int :=
  match P.MODTYPE with
  | ModType.NOT_SPECIAL => pow2 (P.BASEBITS * P.NLEN)
  | ModType.MONTGOMERY_FRIENDLY => pow2 (P.BASEBITS * P.NLEN)
  | ModType.PSEUDO_MERSENNE => 1
  | ModType.GENERALISED_MERSENNE => 1

/-- A BIG as the field operations produce and accept it: normalised, non-negative, and for
the two Montgomery types at most one bit bigger than `MODBITS`. -/
@[reducible] def Valid (P : Config) (x : BIG) : Prop :=
  BIG_norm P x = x ∧ 0 ≤ BIG_val P x ∧ (isMont P → BIG_val P x < pow2 (P.MODBITS + 1))

/-- A fully reduced field element: a normalised BIG in `[0, Modulus)`. -/
@[reducible] def InField (P : Config) (x : BIG) : Prop :=
  BIG_norm P x = x ∧ 0 ≤ BIG_val P x ∧ BIG_val P x < Modulus_val P

/-- The BN254 build: 64-bit chunks, `BASEBITS 56`, `NLEN 5`, a 254-bit modulus of no
special form, reduced with the COMBA Montgomery code. -/
def bn254 : Config :=
  { CHUNK := 64, BASEBITS := 56, NLEN := 5, MODBITS := 254, MOD8 := 3,
    MODTYPE := ModType.NOT_SPECIAL, COMBA := true,
    Modulus := [0x13, 0x13a7, 0x80000000086121, 0x40000001ba344d, 0x25236482],
    MConst := 0x435e50d79435e5 }

/-- The C25519 build: 64-bit chunks, `BASEBITS 56`, `NLEN 5`, the pseudo-Mersenne
modulus `2^255 - 19`. -/
def c25519 : Config :=
  { CHUNK := 64, BASEBITS := 56, NLEN := 5, MODBITS := 255, MOD8 := 5,
    MODTYPE := ModType.PSEUDO_MERSENNE, COMBA := false,
    Modulus := [0xffffffffffffed, 0xffffffffffffff, 0xffffffffffffff, 0xffffffffffffff,
      0x7fffffff],
    MConst := 19 }

/-- A 16-bit build (`BASEBITS 13`, `NLEN 2`) over the 20-bit prime `1048571`, which is
3 mod 8, of no special form. -/
def ns20 : Config :=
  { CHUNK := 16, BASEBITS := 13, NLEN := 2, MODBITS := 20, MOD8 := 3,
    MODTYPE := ModType.NOT_SPECIAL, COMBA := false,
    Modulus := [8187, 127], MConst := 3277 }

/-- A 16-bit build (`BASEBITS 13`, `NLEN 2`) over the 20-bit prime `1048573`, which is
5 mod 8, of no special form. -/
def ns20m5 : Config :=
  { CHUNK := 16, BASEBITS := 13, NLEN := 2, MODBITS := 20, MOD8 := 5,
    MODTYPE := ModType.NOT_SPECIAL, COMBA := false,
    Modulus := [8189, 127], MConst := 2731 }

/-- A normalised BN254 field element used as a sample input. -/
def bnA : BIG := [0x34567890abcdef, 0x567890abcdef12, 0x7890abcdef1234, 0x90abcdef123456,
  0x12345678]

/-- A second normalised BN254 field element. -/
def bnB : BIG := [0xfedcba09876543, 0x1122334455667, 0xa5a5a5a5a5a5a5, 0x0f0f0f0f0f0f0f,
  0x2345678]

/-- A third normalised BN254 field element. -/
def bnC : BIG := [0x1, 0xffffffffffffff, 0x0, 0x80000000000000, 0x1badcafe]

/-- The C25519 field element `Modulus - 1`. -/
def c25519_pm1 : BIG := [0xffffffffffffec, 0xffffffffffffff, 0xffffffffffffff,
  0xffffffffffffff, 0x7fffffff]

/-- Modelled from the spec: BIG_pxmul of big.c, which is not among the sources. It
multiplies a BIG by the small integer `c` into a normalised DBIG. -/
def BIG_pxmul (P : Config) (a : BIG) (c : Int) : DBIG :=
  toLimbs P (2 * P.NLEN) (BIG_val P a * c)

/-- Conversion of an integer to the C type `chunk`, a signed integer of `CHUNK` bits: the
low `CHUNK` bits are kept, as a two's complement value in `[-2^(CHUNK-1), 2^(CHUNK-1))`. -/
def toChunk (P : Config) (x : Int) : Int :=
  (x + pow2 (P.CHUNK - 1)) % pow2 P.CHUNK - pow2 (P.CHUNK - 1)

/-- The multiplication of `FP_imul` on the normalised `a` and the sign-free `c`: `BIG_imul`
when `c < NEXCESS` and `afx < FEXCESS`, `BIG_pmul` (its carry is not used) when only
`afx < FEXCESS`, and `BIG_pxmul` with `BIG_dmod` otherwise.  The variable `afx` is declared
`chunk afx`, so the value `(EXCESS(a)+1)*(c+1)+1` is converted to a `chunk` when it is
stored. -/
def FP_imul_mul (P : Config) (a : BIG) (c : Int) : BIG :=
  let afx := toChunk P ((EXCESS P a + 1) * (c + 1) + 1)
  if c < NEXCESS P ∧ afx < FEXCESS P then BIG_imul P a c
  else if afx < FEXCESS P then (BIG_pmul P a c).2
  else BIG_dmod P (BIG_pxmul P a c) (BIG_copy P P.Modulus)

/-- `FP_imul(r,a,c)`: the output `r`.  `a` is normalised, the sign of `c` is set aside
(`c=-c; s=1`), the product is formed, negated with `FP_neg(r,r)` for a negative `c`, and
normalised.  The C `int c` is a mathematical integer here, as the limbs are: `-c` and
`c+1` are exact. -/
def FP_imul (P : Config) (a : BIG) (c : Int) : BIG :=
  let a1 := BIG_norm P a
  let c1 := if c < 0 then -c else c
  let r := FP_imul_mul P a1 c1
  BIG_norm P (if c < 0 then FP_neg P r else r)

/-- The shift count `sb` that `FP_neg` computes from the excess of the normalised `a`. -/
def FP_neg_shift (P : Config) (a : BIG) : Nat :=
  FP_neg_sb P.CHUNK (EXCESS P (BIG_norm P a)) 1

/-- The output of `FP_neg(r,a)` before the test for the forced reduction:
`BIG_fshl(m,sb); BIG_sub(r,m,a)`. -/
def FP_neg_unreduced (P : Config) (a : BIG) : BIG :=
  BIG_sub P (BIG_fshl P (BIG_copy P P.Modulus) (FP_neg_shift P a)) (BIG_norm P a)

/-- `FP_div2(r,a)`: the output `r`.  `a` is normalised; an even `a` is shifted right by one
bit, an odd `a` has the modulus added first. -/
def FP_div2 (P : Config) (a : BIG) : BIG :=
  let m := BIG_copy P P.Modulus
  let a1 := BIG_norm P a
  if BIG_parity a1 = 0 then BIG_fshr P (BIG_copy P a1) 1
  else BIG_fshr P (BIG_norm P (BIG_add P a1 m)) 1

/-- Modelled from the spec: BIG_jacobi of big.c, which is not among the sources. It
returns the Jacobi symbol of `a` over `p`. -/
def BIG_jacobi (P : Config) (a p : BIG) : Int := jacobiSym (BIG_val P a) (BIG_val P p).toNat

/-- `FP_qr(r)`: the result is (return value, r after the call).  `r` is taken out of
n-residue form for `BIG_jacobi` and put back. -/
def FP_qr (P : Config) (r : BIG) : Int × BIG :=
  let m := BIG_copy P P.Modulus
  let r1 := FP_redc P r
  let j := BIG_jacobi P r1 m
  (if j = 1 then 1 else 0, FP_nres P r1)

/-- A normalised BN254 BIG that is not reduced: its excess is 2. -/
def bnE2 : BIG := [0x1234, 0, 0, 0, 0x80000001]

/-- Modelled from the spec: BIG_dnorm of big.c, which is not among the sources. It
normalises a DBIG: every limb but the top one is brought into `[0, 2^BASEBITS)`. -/
def BIG_dnorm (P : Config) (d : DBIG) : DBIG := toLimbs P (2 * P.NLEN) (DBIG_val P d)

/-- The double-width product `d` that `FP_mul` hands to `FP_mod`: `BIG_mul(d,a,b)` on the
operands as the excess test leaves them. -/
def FP_mul_prod (P : Config) (a b : BIG) : DBIG :=
  BIG_mul P (FP_mul_state P a b).2.1 (FP_mul_state P a b).2.2

/-- The double-width square `d` that `FP_sqr` hands to `FP_mod`: `BIG_sqr(d,a)` on the
operand as the excess test leaves it. -/
def FP_sqr_prod (P : Config) (a : BIG) : DBIG := BIG_sqr P (FP_sqr_state P a).2

/-- `MPIN_OK` of mpin.h: the function completed without error. -/
def MPIN_OK : Int := 0

/-- `MPIN_INVALID_POINT` of mpin.h: the point is not on the curve. -/
def MPIN_INVALID_POINT : Int := -14

/-- `MPIN_BAD_PIN` of mpin.h: a bad PIN number was entered. -/
def MPIN_BAD_PIN : Int := -19

/-- `MAXPIN` of mpin.h. -/
def MAXPIN : Nat := 10000

/-- `PBLEN` of mpin.h: the maximal length of a PIN in bits. -/
def PBLEN : Nat := 14

/-- An octet: its bytes. -/
abbrev Octet := List Nat

/-- The group collaborator of the recombination, which the M-Pin core consumes as given
operations: the decoding of an octet with its validation as a point on the curve (`none`
for an octet that is not a point on the curve), the addition of the group, and the
encoding of a point. -/
structure PointGroup where
  Pt : Type
  fromOctet : Octet → Option Pt
  add : Pt → Pt → Pt
  toOctet : Pt → Octet

/-- Modelled from the spec: MPIN_RECOMBINE_G1 of mpin.c, which is not among the sources
(mpin.h declares it, with the note `R = R1+R2`).  Each input is validated as a point on
the curve before anything is combined; on an invalid input the function returns
`MPIN_INVALID_POINT` at once with no output written; otherwise `R` is the sum and the
function returns `MPIN_OK`.  The result is (return value, R after the call). -/
def MPIN_RECOMBINE_G1 (G : PointGroup) (R1 R2 R : Octet) : Int × Octet :=
  match G.fromOctet R1, G.fromOctet R2 with
  | some p, some q => (MPIN_OK, G.toOctet (G.add p q))
  | _, _ => (MPIN_INVALID_POINT, R)

/-- Modelled from the spec: MPIN_RECOMBINE_G2 of mpin.c, which is not among the sources
(mpin.h declares it, with the note `W = W1+W2`).  It is the recombination in the group
G2, with the same validation and error behaviour.  The result is (return value, W after
the call). -/
def MPIN_RECOMBINE_G2 (G : PointGroup) (W1 W2 W : Octet) : Int × Octet :=
  match G.fromOctet W1, G.fromOctet W2 with
  | some p, some q => (MPIN_OK, G.toOctet (G.add p q))
  | _, _ => (MPIN_INVALID_POINT, W)

/-- A toy group collaborator: the integers modulo 7, one byte each. -/
def toyGroup : PointGroup :=
  { Pt := Nat
    fromOctet := fun o => match o with
      | [b] => if b < 7 then some b else none
      | _ => none
    add := fun p q => (p + q) % 7
    toOctet := fun p => [p] }

/-- A 64-bit build (`BASEBITS 56`, `NLEN 5`) over the Montgomery-friendly 254-bit modulus
`2^240*(2^14-127) - 1`. -/
def mf254 : Config :=
  { CHUNK := 64, BASEBITS := 56, NLEN := 5, MODBITS := 254, MOD8 := 7,
    MODTYPE := ModType.MONTGOMERY_FRIENDLY, COMBA := false,
    Modulus := [0xffffffffffffff, 0xffffffffffffff, 0xffffffffffffff, 0xffffffffffffff,
      0x3f80ffff],
    MConst := 0x3f810000 }

/-- A 64-bit build (`BASEBITS 60`, `NLEN 8`) over the generalised Mersenne modulus
`2^448 - 2^224 - 1`. -/
def gold448 : Config :=
  { CHUNK := 64, BASEBITS := 60, NLEN := 8, MODBITS := 448, MOD8 := 7,
    MODTYPE := ModType.GENERALISED_MERSENNE, COMBA := false,
    Modulus := [0xfffffffffffffff, 0xfffffffffffffff, 0xfffffffffffffff, 0xfffefffffffffff,
      0xfffffffffffffff, 0xfffffffffffffff, 0xfffffffffffffff, 0xfffffff],
    MConst := 1 }

/-- A normalised field element of the build `mf254`. -/
def mfA : BIG := [0x34567890abcdef, 0x567890abcdef12, 0x7890abcdef1234, 0x90abcdef123456,
  0x12345678]

/-- A normalised field element of the build `gold448`. -/
def goldA : BIG := [0x4d34c04f3832ce1, 0x322df4d40580c24, 0x1971ea4824fa19b, 0xdb75bab18a65a0,
  0x5264fa3a1397afb, 0xa0988962c62b61a, 0xe23f5b672ed3c4c, 0xdd3eaf]

/-- A normalised BN254 BIG of excess 8190, the largest value of that excess. -/
def bnE8190 : BIG := [0xffffffffffffff, 0xffffffffffffff, 0xffffffffffffff, 0xffffffffffffff,
  0x7ffbfffffff]

/-- A normalised DBIG of the build `c25519` below `Modulus * 2^(NLEN*BASEBITS)`: its
bottom 255 bits are all set, and its top part `t` has `19*t = 12 * 2^255 - 1`. -/
def c25519_edge : DBIG :=
  [72057594037927935, 72057594037927935, 72057594037927935, 72057594037927935,
    56887576274927615, 68265089088563307, 53095069291104794, 49302564341740166,
    30340039594917025, 40]

/-- The call `FP_mul(r,a,a)` (fp.c lines 390-420 with `b` the same array as `a`): what
`FP_reduce(a)` or `BIG_norm(a)` writes is what `BIG_norm(b)` and `BIG_mul(d,a,b)` read.
The result is (r, a) after the call. -/
def FP_mul_same_state (P : Config) (a : BIG) : BIG × BIG :=
  let ea := EXCESS P a
  let eb := EXCESS P a
  let a1 := if ea + 1 ≥ Int.tdiv (FEXCESS P - 1) (eb + 1) then FP_reduce P a else BIG_norm P a
  let a2 := BIG_norm P a1
  (FP_mod P (BIG_mul P a2 a2), a2)

/-- The `while(1)` loop of `FP_pow` on (r, w, z) together with the number of turns it
makes before the `break`; `none` when the turns allowed run out. -/
def FP_pow_turns (P : Config) : Nat → BIG → BIG → BIG → Option (BIG × Nat)
  | 0, _, _, _ => none
  | fuel + 1, r, w, z =>
    let bt := BIG_parity z
    let z1 := BIG_fshr P z 1
    let rw := if bt ≠ 0 then ((FP_mul_state P r w).1, (FP_mul_state P r w).2.2) else (r, w)
    if BIG_comp P z1 (BIG_zero P) = 0 then some (rw.1, 1)
    else (FP_pow_turns P fuel rw.1 (FP_sqr P rw.2) z1).map (fun x => (x.1, x.2 + 1))

/-- The number of binary digits of a non-negative integer; 0 for 0. -/
def bitlength (v : Int) : Nat := Nat.size v.toNat

/-- A 16-bit build (`BASEBITS 13`, `NLEN 2`) over the 20-bit prime `1048433`, which is
1 mod 8, of no special form. -/
def ns20m1 : Config :=
  { CHUNK := 16, BASEBITS := 13, NLEN := 2, MODBITS := 20, MOD8 := 1,
    MODTYPE := ModType.NOT_SPECIAL, COMBA := false,
    Modulus := [8049, 127], MConst := 7791 }

/-!
Byte utilities (utils.c)

A C character array is the list of its elements, each the value of a `char` as an
integer.  A function that stores into an array `dst` returns the array after the call.
-/

/-- The character `s[i]` of a C character array; 0 beyond the end of the list. -/
def charAt (s : List Int) (i : Nat) : Int := s.getD i 0

/-- Conversion of an integer to the C type `char`.  Whether `char` is signed is left to
the C implementation, so the choice is the parameter `sgn`: a signed `char` has the range
[-128, 127], an unsigned one [0, 255], and the conversion keeps the low eight bits. -/
def toChar (sgn : Bool) (x : Int) : Int :=
  if sgn then (x + 128) % 256 - 128 else x % 256

/-- The C cast `(unsigned char) x`. -/
def toUChar (x : Int) : Int := x % 256

/-- One turn of the loop of `amcl_hex2bin` (utils.c lines 31-52) on the characters
`c = src[2*i]` and `c = src[2*i+1]`: the byte stored in `dst[i]`.  The character
constants are those of ASCII: 48 for the digit 0, 57 for the digit 9, 65 and 70 for the
capitals A and F, 97 and 102 for the small a and f. -/
def amcl_hex2bin_byte (sgn : Bool) (c1 c2 : Int) : Int :=
  let v : Int :=
    if c1 ≥ 48 ∧ c1 ≤ 57 then toChar sgn (c1 - 48)
    else if c1 ≥ 65 ∧ c1 ≤ 70 then toChar sgn (c1 - 65 + 10)
    else if c1 ≥ 97 ∧ c1 ≤ 102 then toChar sgn (c1 - 97 + 10)
    else 0
  let v := toChar sgn (shl v 4)
  if c2 ≥ 48 ∧ c2 ≤ 57 then toChar sgn (v + (c2 - 48))
  else if c2 ≥ 65 ∧ c2 ≤ 70 then toChar sgn (v + (c2 - 65 + 10))
  else if c2 ≥ 97 ∧ c2 ≤ 102 then toChar sgn (v + (c2 - 97 + 10))
  else 0

/-- `amcl_hex2bin(src, dst, src_len)` (utils.c lines 26-54): the array `dst` after the
call.  The loop runs for `i` from 0 while `i < src_len/2`, with the division of C. -/
def amcl_hex2bin (sgn : Bool) (src dst : List Int) (src_len : Int) : List Int :=
  (List.range (Int.tdiv src_len 2).toNat).foldl
    (fun dst i => dst.set i (amcl_hex2bin_byte sgn (charAt src (2 * i)) (charAt src (2 * i + 1))))
    dst

/-- The digit that the conversion `x` of `sprintf` prints for a value in [0, 15]:
the characters 0 to 9 and the small letters a to f. -/
def hexdigit (n : Int) : Int := if n < 10 then 48 + n else 97 + (n - 10)

/-- The characters that `sprintf` of the C library stores for the format `%02x` and an
argument in [0, 255]: two hexadecimal digits and the terminating null character. -/
def sprintf_02x (v : Int) : List Int := [hexdigit (v / 16), hexdigit (v % 16), 0]

/-- Storing the characters `xs` into the array `dst` from index `k` on. -/
def writeAt (dst : List Int) (k : Nat) : List Int → List Int
  | [] => dst
  | x :: xs => writeAt (dst.set k x) (k + 1) xs

/-- `amcl_bin2hex(src, dst, src_len)` (utils.c lines 56-62): the array `dst` after the
call; turn `i` is `sprintf(&dst[i*2],"%02x", (unsigned char) src[i])`. -/
def amcl_bin2hex (src dst : List Int) (src_len : Int) : List Int :=
  (List.range src_len.toNat).foldl
    (fun dst i => writeAt dst (i * 2) (sprintf_02x (toUChar (charAt src i)))) dst

/-- The value of a hexadecimal digit of either case, and `none` for any other
character. -/
def hexDigitValue (c : Int) : Option Int :=
  if 48 ≤ c ∧ c ≤ 57 then some (c - 48)
  else if 65 ≤ c ∧ c ≤ 70 then some (c - 65 + 10)
  else if 97 ≤ c ∧ c ≤ 102 then some (c - 97 + 10)
  else none

/-- `generateOTP` (utils.c lines 64-81) on the values `rnd[0], ..., rnd[5]` that the six
calls of `RAND_byte` return.  Each is stored in a `char` and read back as the `int`
`val`.  The sum is kept in the `int` `OTP`; the `double` arithmetic of the source is
taken as exact: `pow(10.0,i)` is `10^i`, and every value is a whole number below `10^6`. -/
def generateOTP (sgn : Bool) (rnd : List Int) : Int :=
  (List.range 6).foldl
    (fun OTP i =>
      let byte := toChar sgn (charAt rnd i)
      let val := byte
      (Int.tmod (abs val) 10) * 10 ^ i + OTP)
    0

theorem pow2_eq (k : Nat) : pow2 k = (2 : Int) ^ k := by
  simp [pow2]

theorem pow2_pos (k : Nat) : 0 < pow2 k := by
  rw [pow2_eq]; positivity

theorem pow2_add (a b : Nat) : pow2 (a + b) = pow2 a * pow2 b := by
  simp [pow2_eq, pow_add]

theorem pow2_zero : pow2 0 = 1 := by simp [pow2]

theorem pow2_le_pow2 {a b : Nat} (h : a ≤ b) : pow2 a ≤ pow2 b := by
  rw [pow2_eq, pow2_eq]
  exact pow_le_pow_right₀ (by norm_num) h

theorem pow2_split {a b : Nat} (h : a ≤ b) : pow2 b = pow2 a * pow2 (b - a) := by
  rw [← pow2_add]; congr 1; omega

theorem length_mkLimbs (n : Nat) (f : Nat → Int) : (mkLimbs n f).length = n := by
  simp [mkLimbs]

theorem limb_mkLimbs (n : Nat) (f : Nat → Int) (i : Nat) :
    limb (mkLimbs n f) i = if i < n then f i else 0 := by
  unfold limb mkLimbs
  rw [List.getD_eq_getElem?_getD]
  by_cases h : i < n
  · simp [h, List.getElem?_range h]
  · have h1 : (List.range n)[i]? = none := by simp; omega
    simp [h, h1]

theorem limb_set (a : List Int) (k : Nat) (v : Int) (i : Nat) :
    limb (a.set k v) i = if i = k ∧ k < a.length then v else limb a i := by
  unfold limb
  rw [List.getD_eq_getElem?_getD, List.getD_eq_getElem?_getD, List.getElem?_set]
  by_cases h : k = i
  · subst h
    by_cases h2 : k < a.length
    · simp [h2]
    · simp [h2]
      have : a[k]? = none := by simp; omega
      simp [this]
  · have h3 : ¬ (i = k) := fun e => h e.symm
    simp [h, h3]

theorem limb_of_length_le (a : List Int) (i : Nat) (h : a.length ≤ i) : limb a i = 0 := by
  unfold limb
  rw [List.getD_eq_getElem?_getD]
  have : a[i]? = none := by simp; omega
  simp [this]

theorem mkLimbs_limb (a : List Int) : mkLimbs a.length (fun i => limb a i) = a := by
  apply List.ext_getElem?
  intro i
  unfold mkLimbs limb
  by_cases h : i < a.length
  · simp [h, List.getElem?_range h, List.getD_eq_getElem?_getD]
  · have h1 : a[i]? = none := by simp; omega
    simp [h, h1]
    omega

theorem mkLimbs_congr (n : Nat) (f g : Nat → Int) (h : ∀ i, i < n → f i = g i) :
    mkLimbs n f = mkLimbs n g := by
  unfold mkLimbs
  apply List.map_congr_left
  intro i hi
  exact h i (List.mem_range.mp hi)

theorem list_eq_of_limb (a b : List Int) (hl : a.length = b.length)
    (h : ∀ i, i < a.length → limb a i = limb b i) : a = b := by
  rw [← mkLimbs_limb a, ← mkLimbs_limb b, ← hl]
  exact mkLimbs_congr _ _ _ h

theorem valN_congr (P : Config) (a b : List Int) (n : Nat)
    (h : ∀ i, i < n → limb a i = limb b i) : valN P a n = valN P b n := by
  induction n with
  | zero => rfl
  | succ n ih =>
    simp only [valN]
    rw [ih (fun i hi => h i (by omega)), h n (by omega)]

theorem valN_set_ge (P : Config) (a : List Int) (k n : Nat) (v : Int) (h : n ≤ k) :
    valN P (a.set k v) n = valN P a n := by
  apply valN_congr
  intro i hi
  rw [limb_set]
  have : ¬ (i = k ∧ k < a.length) := by omega
  simp [this]

theorem valN_set (P : Config) (a : List Int) (k n : Nat) (v : Int) (h : k < n)
    (hl : k < a.length) :
    valN P (a.set k v) n = valN P a n + (v - limb a k) * pow2 (P.BASEBITS * k) := by
  induction n with
  | zero => omega
  | succ n ih =>
    simp only [valN]
    by_cases hk : k = n
    · subst hk
      rw [valN_set_ge P a k k v (le_refl k), limb_set]
      simp [hl]
      ring
    · rw [ih (by omega), limb_set]
      have : ¬ (n = k ∧ k < a.length) := by omega
      simp [this]
      ring

theorem ediv_emod_mul_split (x a b : Int) (ha : 0 < a) (hb : 0 < b) :
    x / (a * b) = x / a / b ∧ x % (a * b) = x % a + a * ((x / a) % b) := by
  have h1 := Int.emod_add_ediv x a
  have h2 := Int.emod_add_ediv (x / a) b
  have b1 := Int.emod_nonneg x (ne_of_gt ha)
  have b2 := Int.emod_lt_of_pos x ha
  have b3 := Int.emod_nonneg (x / a) (ne_of_gt hb)
  have b4 := Int.emod_lt_of_pos (x / a) hb
  have hab : 0 < a * b := mul_pos ha hb
  rw [Int.ediv_emod_unique hab]
  refine ⟨?_, ?_, ?_⟩
  · have h3 : a * (x / a) = a * ((x / a) % b) + a * b * (x / a / b) := by
      conv_lhs => rw [← h2]
      ring
    linarith
  · nlinarith
  · nlinarith

theorem emod_mul_split (x a b : Int) (ha : 0 < a) (hb : 0 < b) :
    x % (a * b) = x % a + a * ((x / a) % b) :=
  (ediv_emod_mul_split x a b ha hb).2

theorem ediv_ediv_pow2 (x : Int) (a b : Nat) : x / pow2 a / pow2 b = x / pow2 (a + b) := by
  rw [pow2_add, (ediv_emod_mul_split x _ _ (pow2_pos a) (pow2_pos b)).1]

theorem limb_toLimbs (P : Config) (n : Nat) (x : Int) (i : Nat) :
    limb (toLimbs P n x) i =
      if i < n then
        (if i + 1 < n then (x / pow2 (P.BASEBITS * i)) % pow2 P.BASEBITS
         else x / pow2 (P.BASEBITS * i))
      else 0 := by
  unfold toLimbs
  rw [limb_mkLimbs]
  simp only [maskLow, shr]

theorem length_toLimbs (P : Config) (n : Nat) (x : Int) : (toLimbs P n x).length = n := by
  simp [toLimbs, length_mkLimbs]

theorem valN_toLimbs_low (P : Config) (n : Nat) (x : Int) (m : Nat) (h : m < n) :
    valN P (toLimbs P n x) m = x % pow2 (P.BASEBITS * m) := by
  induction m with
  | zero => simp [valN, pow2_zero]
  | succ m ih =>
    simp only [valN]
    rw [ih (by omega), limb_toLimbs]
    have h1 : m < n := by omega
    have h2 : m + 1 < n := h
    simp only [h1, h2, if_true]
    rw [show P.BASEBITS * (m + 1) = P.BASEBITS * m + P.BASEBITS by ring, pow2_add,
      emod_mul_split _ _ _ (pow2_pos _) (pow2_pos _)]
    ring

theorem valN_toLimbs (P : Config) (n : Nat) (x : Int) (h : 0 < n) :
    valN P (toLimbs P n x) n = x := by
  obtain ⟨m, rfl⟩ : ∃ m, n = m + 1 := ⟨n - 1, by omega⟩
  simp only [valN]
  rw [valN_toLimbs_low P (m + 1) x m (by omega), limb_toLimbs]
  simp only [Nat.lt_succ_self, if_true, lt_irrefl, if_false]
  have := Int.emod_add_ediv x (pow2 (P.BASEBITS * m))
  linarith

theorem valN_nonneg_lt (P : Config) (a : List Int) (n : Nat)
    (hn : ∀ i, i < n → 0 ≤ limb a i ∧ limb a i < pow2 P.BASEBITS) :
    0 ≤ valN P a n ∧ valN P a n < pow2 (P.BASEBITS * n) := by
  induction n with
  | zero => simp [valN, pow2_zero]
  | succ n ih =>
    simp only [valN]
    obtain ⟨h1, h2⟩ := ih (fun i hi => hn i (by omega))
    obtain ⟨h3, h4⟩ := hn n (by omega)
    have hp := pow2_pos (P.BASEBITS * n)
    rw [show P.BASEBITS * (n + 1) = P.BASEBITS * n + P.BASEBITS by ring, pow2_add]
    constructor
    · positivity
    · nlinarith

theorem valN_split_exists (P : Config) (a : List Int) (m n : Nat) (h : m ≤ n) :
    ∃ T, valN P a n = valN P a m + pow2 (P.BASEBITS * m) * T := by
  induction n with
  | zero =>
    have : m = 0 := by omega
    subst this
    exact ⟨0, by simp⟩
  | succ n ih =>
    by_cases hm : m = n + 1
    · subst hm
      exact ⟨0, by simp⟩
    · obtain ⟨T, hT⟩ := ih (by omega)
      refine ⟨T + limb a n * pow2 (P.BASEBITS * (n - m)), ?_⟩
      simp only [valN]
      rw [hT, pow2_split (show P.BASEBITS * m ≤ P.BASEBITS * n from Nat.mul_le_mul_left _ (by omega)),
        show P.BASEBITS * n - P.BASEBITS * m = P.BASEBITS * (n - m) by
          rw [Nat.mul_sub]]
      ring

theorem valN_emod (P : Config) (a : List Int) (m n : Nat) (h : m ≤ n)
    (hn : ∀ i, i < m → 0 ≤ limb a i ∧ limb a i < pow2 P.BASEBITS) :
    valN P a n % pow2 (P.BASEBITS * m) = valN P a m := by
  obtain ⟨T, hT⟩ := valN_split_exists P a m n h
  obtain ⟨h1, h2⟩ := valN_nonneg_lt P a m hn
  rw [hT, Int.add_mul_emod_self_left]
  exact Int.emod_eq_of_lt h1 h2

theorem toLimbs_valN (P : Config) (n : Nat) (a : List Int) (hl : a.length = n)
    (hn : ∀ i, i + 1 < n → 0 ≤ limb a i ∧ limb a i < pow2 P.BASEBITS) :
    toLimbs P n (valN P a n) = a := by
  apply list_eq_of_limb
  · rw [length_toLimbs, hl]
  · intro i hi
    rw [length_toLimbs] at hi
    have hp := pow2_pos (P.BASEBITS * i)
    have e1 : valN P (toLimbs P n (valN P a n)) (i + 1) = valN P a (i + 1) := by
      by_cases h : i + 1 < n
      · rw [valN_toLimbs_low P n _ (i + 1) h]
        exact valN_emod P a (i + 1) n (by omega) (fun k hk => hn k (by omega))
      · have : i + 1 = n := by omega
        rw [this, valN_toLimbs P n _ (by omega)]
    have e0 : valN P (toLimbs P n (valN P a n)) i = valN P a i := by
      rw [valN_toLimbs_low P n _ i hi]
      exact valN_emod P a i n (by omega) (fun k hk => hn k (by omega))
    simp only [valN] at e1
    rw [e0] at e1
    have e2 : limb (toLimbs P n (valN P a n)) i * pow2 (P.BASEBITS * i)
        = limb a i * pow2 (P.BASEBITS * i) := by linarith
    exact mul_right_cancel₀ (ne_of_gt hp) e2

theorem toLimbs_limb_bounds (P : Config) (n : Nat) (x : Int) (i : Nat) (h : i + 1 < n) :
    0 ≤ limb (toLimbs P n x) i ∧ limb (toLimbs P n x) i < pow2 P.BASEBITS := by
  rw [limb_toLimbs]
  have h1 : i < n := by omega
  simp only [h1, h, if_true]
  exact ⟨Int.emod_nonneg _ (ne_of_gt (pow2_pos _)), Int.emod_lt_of_pos _ (pow2_pos _)⟩

theorem toLimbs_top (P : Config) (n : Nat) (x : Int) (h : 0 < n) :
    limb (toLimbs P n x) (n - 1) = x / pow2 (P.BASEBITS * (n - 1)) := by
  rw [limb_toLimbs]
  have h1 : n - 1 < n := by omega
  have h2 : ¬ (n - 1 + 1 < n) := by omega
  simp only [h1, h2, if_true, if_false]

theorem toLimbs_idem (P : Config) (n : Nat) (x : Int) (h : 0 < n) :
    toLimbs P n (valN P (toLimbs P n x) n) = toLimbs P n x := by
  rw [valN_toLimbs P n x h]

theorem muladd_spec (P : Config) (a b c r : Int) :
    (muladd P a b c r).2 + (muladd P a b c r).1 * pow2 P.BASEBITS = a * b + c + r ∧
    0 ≤ (muladd P a b c r).2 ∧ (muladd P a b c r).2 < pow2 P.BASEBITS := by
  simp only [muladd, shr, maskLow]
  refine ⟨?_, Int.emod_nonneg _ (ne_of_gt (pow2_pos _)), Int.emod_lt_of_pos _ (pow2_pos _)⟩
  have := Int.emod_add_ediv (a * b + c + r) (pow2 P.BASEBITS)
  linarith

theorem NS_inner_inv (P : Config) (md : BIG) (m : Int) (i : Nat) (d : DBIG) (n j : Nat)
    (hj : i + j ≤ d.length) (hn : i + j ≤ n) :
    ((List.range j).foldl (FP_mod_NS_body P md m i) (0, d)).2.length = d.length ∧
    (∀ k, (k < i ∨ i + j ≤ k) →
      limb ((List.range j).foldl (FP_mod_NS_body P md m i) (0, d)).2 k = limb d k) ∧
    (∀ k, i ≤ k → k < i + j →
      0 ≤ limb ((List.range j).foldl (FP_mod_NS_body P md m i) (0, d)).2 k ∧
      limb ((List.range j).foldl (FP_mod_NS_body P md m i) (0, d)).2 k < pow2 P.BASEBITS) ∧
    (valN P ((List.range j).foldl (FP_mod_NS_body P md m i) (0, d)).2 n
      + ((List.range j).foldl (FP_mod_NS_body P md m i) (0, d)).1 * pow2 (P.BASEBITS * (i + j))
      = valN P d n + m * valN P md j * pow2 (P.BASEBITS * i)) ∧
    (j = 0 → ((List.range j).foldl (FP_mod_NS_body P md m i) (0, d)).1 = 0) ∧
    (0 < j → limb ((List.range j).foldl (FP_mod_NS_body P md m i) (0, d)).2 i
      = (m * limb md 0 + limb d i) % pow2 P.BASEBITS) := by
  induction j with
  | zero =>
    simp only [List.range_zero, List.foldl_nil, valN]
    refine ⟨trivial, fun _ _ => trivial, fun k h1 h2 => by omega, by simp, fun _ => trivial,
      fun h => by omega⟩
  | succ j ih =>
    obtain ⟨hl, hout, hin, hval, hzero, hfirst⟩ := ih (by omega) (by omega)
    rw [List.range_succ, List.foldl_append]
    simp only [List.foldl_cons, List.foldl_nil]
    generalize (List.range j).foldl (FP_mod_NS_body P md m i) (0, d) = cd
      at hl hout hin hval hzero hfirst ⊢
    obtain ⟨c, e⟩ := cd
    simp only [FP_mod_NS_body] at hl hout hin hval hzero hfirst ⊢
    obtain ⟨ms, mn, ml⟩ := muladd_spec P m (limb md j) c (limb e (i + j))
    have hlen : i + j < e.length := by omega
    refine ⟨by simp [hl], ?_, ?_, ?_, fun h => by omega, ?_⟩
    · intro k hk
      rw [limb_set]
      have : ¬ (k = i + j ∧ i + j < e.length) := by omega
      simp only [this, if_false]
      exact hout k (by omega)
    · intro k h1 h2
      rw [limb_set]
      by_cases hk : k = i + j
      · simp only [hk, hlen, and_self, if_true]
        exact ⟨mn, ml⟩
      · have : ¬ (k = i + j ∧ i + j < e.length) := by omega
        simp only [this, if_false]
        exact hin k h1 (by omega)
    · rw [valN_set P e (i + j) n _ (by omega) hlen]
      simp only [valN]
      rw [show P.BASEBITS * (i + (j + 1)) = P.BASEBITS * (i + j) + P.BASEBITS by ring, pow2_add]
      have hp : pow2 (P.BASEBITS * (i + j)) = pow2 (P.BASEBITS * j) * pow2 (P.BASEBITS * i) := by
        rw [← pow2_add]; congr 1; ring
      rw [hp] at hval ⊢
      linear_combination hval + (pow2 (P.BASEBITS * j) * pow2 (P.BASEBITS * i)) * ms
    · intro _
      rw [limb_set]
      by_cases hj0 : j = 0
      · subst hj0
        have hlen0 : i < e.length := by omega
        have hc : c = 0 := hzero rfl
        have he : limb e i = limb d i := hout i (Or.inr (by omega))
        simp [hlen0, hc, he, muladd, maskLow]
      · have : ¬ (i = i + j ∧ i + j < e.length) := by omega
        simp only [this, if_false]
        exact hfirst (by omega)

theorem emod_sub_self_dvd (x b : Int) : b ∣ (x % b - x) := by
  rw [Int.emod_def]
  exact ⟨-(x / b), by ring⟩

theorem NS_m_spec (P : Config) (d : DBIG) (i : Nat) (md0 : Int)
    (hmc : (P.MConst * md0 + 1) % pow2 P.BASEBITS = 0)
    (hd : 0 ≤ limb d i ∧ limb d i < pow2 P.BASEBITS) :
    0 ≤ FP_mod_NS_m P d i ∧ FP_mod_NS_m P d i < pow2 P.BASEBITS ∧
    (FP_mod_NS_m P d i * md0 + limb d i) % pow2 P.BASEBITS = 0 := by
  have hB := pow2_pos P.BASEBITS
  have hdiv : pow2 P.BASEBITS ∣ (FP_mod_NS_m P d i - P.MConst * limb d i) := by
    unfold FP_mod_NS_m
    by_cases h1 : P.MConst = -1
    · simp only [h1, if_true, maskLow]
      have := emod_sub_self_dvd (-(limb d i)) (pow2 P.BASEBITS)
      have e : -limb d i % pow2 P.BASEBITS - -1 * limb d i
          = -limb d i % pow2 P.BASEBITS - -limb d i := by ring
      rw [e]; exact this
    · by_cases h2 : P.MConst = 1
      · simp [h1, h2]
      · simp only [h1, h2, if_false, maskLow]
        exact emod_sub_self_dvd _ _
  have hrange : 0 ≤ FP_mod_NS_m P d i ∧ FP_mod_NS_m P d i < pow2 P.BASEBITS := by
    unfold FP_mod_NS_m
    by_cases h1 : P.MConst = -1
    · simp only [h1, if_true, maskLow]
      exact ⟨Int.emod_nonneg _ (ne_of_gt hB), Int.emod_lt_of_pos _ hB⟩
    · by_cases h2 : P.MConst = 1
      · have h3 : ¬ ((1 : Int) = -1) := by norm_num
        simp only [h2, h3, if_true, if_false]
        exact hd
      · simp only [h1, h2, if_false, maskLow]
        exact ⟨Int.emod_nonneg _ (ne_of_gt hB), Int.emod_lt_of_pos _ hB⟩
  refine ⟨hrange.1, hrange.2, ?_⟩
  apply Int.emod_eq_zero_of_dvd
  have h3 := Int.dvd_of_emod_eq_zero hmc
  have e : FP_mod_NS_m P d i * md0 + limb d i
      = (FP_mod_NS_m P d i - P.MConst * limb d i) * md0 + limb d i * (P.MConst * md0 + 1) := by
    ring
  rw [e]
  exact dvd_add (Dvd.dvd.mul_right hdiv _) (Dvd.dvd.mul_left h3 _)

theorem NS_row_spec (P : Config) (md : BIG) (d : DBIG) (i : Nat) (hi : i < P.NLEN)
    (hl : d.length = 2 * P.NLEN) :
    (FP_mod_NS_row P md d i).length = 2 * P.NLEN ∧
    valN P (FP_mod_NS_row P md d i) (2 * P.NLEN)
      = valN P d (2 * P.NLEN)
        + FP_mod_NS_m P d i * valN P md P.NLEN * pow2 (P.BASEBITS * i) ∧
    (∀ k, k < i → limb (FP_mod_NS_row P md d i) k = limb d k) ∧
    limb (FP_mod_NS_row P md d i) i
      = (FP_mod_NS_m P d i * limb md 0 + limb d i) % pow2 P.BASEBITS ∧
    (∀ k, i < k → k < P.NLEN →
      0 ≤ limb (FP_mod_NS_row P md d i) k ∧
      limb (FP_mod_NS_row P md d i) k < pow2 P.BASEBITS) := by
  obtain ⟨hl1, hout, hin, hval, _, hfirst⟩ :=
    NS_inner_inv P md (FP_mod_NS_m P d i) i d (2 * P.NLEN) P.NLEN (by omega) (by omega)
  unfold FP_mod_NS_row FP_mod_NS_inner
  generalize (List.range P.NLEN).foldl (FP_mod_NS_body P md (FP_mod_NS_m P d i) i) (0, d) = cd
    at hl1 hout hin hval hfirst ⊢
  obtain ⟨c, e⟩ := cd
  simp only at hl1 hout hin hval hfirst ⊢
  have hlen : P.NLEN + i < e.length := by omega
  refine ⟨by simp [hl1, hl], ?_, ?_, ?_, ?_⟩
  · rw [valN_set P e (P.NLEN + i) (2 * P.NLEN) _ (by omega) hlen]
    rw [show P.BASEBITS * (i + P.NLEN) = P.BASEBITS * (P.NLEN + i) by ring] at hval
    linear_combination hval
  · intro k hk
    rw [limb_set]
    have : ¬ (k = P.NLEN + i ∧ P.NLEN + i < e.length) := by omega
    simp only [this, if_false]
    exact hout k (Or.inl hk)
  · rw [limb_set]
    have : ¬ (i = P.NLEN + i ∧ P.NLEN + i < e.length) := by omega
    simp only [this, if_false]
    exact hfirst (by omega)
  · intro k h1 h2
    rw [limb_set]
    have : ¬ (k = P.NLEN + i ∧ P.NLEN + i < e.length) := by omega
    simp only [this, if_false]
    exact hin k (by omega) (by omega)

theorem NS_loop_inv (P : Config) (md : BIG) (d : DBIG)
    (hmc : (P.MConst * limb md 0 + 1) % pow2 P.BASEBITS = 0)
    (hl : d.length = 2 * P.NLEN)
    (hd : ∀ k, k < P.NLEN → 0 ≤ limb d k ∧ limb d k < pow2 P.BASEBITS)
    (i : Nat) (hi : i ≤ P.NLEN) :
    ((List.range i).foldl (FP_mod_NS_row P md) d).length = 2 * P.NLEN ∧
    (∃ q, 0 ≤ q ∧ q < pow2 (P.BASEBITS * i) ∧
      valN P ((List.range i).foldl (FP_mod_NS_row P md) d) (2 * P.NLEN)
        = valN P d (2 * P.NLEN) + q * valN P md P.NLEN) ∧
    (∀ k, k < i → limb ((List.range i).foldl (FP_mod_NS_row P md) d) k = 0) ∧
    (∀ k, i ≤ k → k < P.NLEN →
      0 ≤ limb ((List.range i).foldl (FP_mod_NS_row P md) d) k ∧
      limb ((List.range i).foldl (FP_mod_NS_row P md) d) k < pow2 P.BASEBITS) := by
  induction i with
  | zero =>
    simp only [List.range_zero, List.foldl_nil]
    exact ⟨hl, ⟨0, le_refl 0, pow2_pos _, by simp⟩, fun k hk => by omega, fun k _ h => hd k h⟩
  | succ i ih =>
    obtain ⟨hl1, ⟨q, hq0, hq1, hq⟩, hz, hb⟩ := ih (by omega)
    rw [List.range_succ, List.foldl_append]
    simp only [List.foldl_cons, List.foldl_nil]
    generalize (List.range i).foldl (FP_mod_NS_row P md) d = e at hl1 hq hz hb ⊢
    obtain ⟨r1, r2, r3, r4, r5⟩ := NS_row_spec P md e i (by omega) hl1
    obtain ⟨m0, m1, m2⟩ := NS_m_spec P e i (limb md 0) hmc (hb i (le_refl i) (by omega))
    refine ⟨r1, ⟨q + FP_mod_NS_m P e i * pow2 (P.BASEBITS * i), ?_, ?_, ?_⟩, ?_, ?_⟩
    · have := pow2_pos (P.BASEBITS * i)
      positivity
    · rw [show P.BASEBITS * (i + 1) = P.BASEBITS * i + P.BASEBITS by ring, pow2_add]
      have := pow2_pos (P.BASEBITS * i)
      nlinarith
    · rw [r2, hq]; ring
    · intro k hk
      by_cases h : k = i
      · subst h
        rw [r4, m2]
      · rw [r3 k (by omega)]
        exact hz k (by omega)
    · intro k h1 h2
      exact r5 k (by omega) h2

theorem valN_shift (P : Config) (a : List Int) (m n : Nat) :
    valN P a (m + n)
      = valN P a m + pow2 (P.BASEBITS * m) * valN P (mkLimbs n (fun i => limb a (m + i))) n := by
  induction n with
  | zero => simp [valN]
  | succ n ih =>
    rw [show m + (n + 1) = (m + n) + 1 by ring]
    simp only [valN]
    rw [ih, limb_mkLimbs]
    simp only [Nat.lt_succ_self, if_true]
    have e : valN P (mkLimbs (n + 1) (fun i => limb a (m + i))) n
        = valN P (mkLimbs n (fun i => limb a (m + i))) n := by
      apply valN_congr
      intro i hi
      rw [limb_mkLimbs, limb_mkLimbs]
      have : i < n + 1 := by omega
      simp [hi, this]
    rw [e, show P.BASEBITS * (m + n) = P.BASEBITS * m + P.BASEBITS * n by ring, pow2_add]
    ring

theorem valN_zero_of_limbs (P : Config) (a : List Int) (n : Nat)
    (h : ∀ k, k < n → limb a k = 0) : valN P a n = 0 := by
  induction n with
  | zero => rfl
  | succ n ih =>
    simp only [valN]
    rw [ih (fun k hk => h k (by omega)), h n (by omega)]
    simp

theorem BIG_val_norm (P : Config) (a : BIG) (hN : 0 < P.NLEN) :
    BIG_val P (BIG_norm P a) = BIG_val P a := by
  unfold BIG_norm BIG_val
  exact valN_toLimbs P P.NLEN _ hN

theorem BIG_val_copy (P : Config) (a : BIG) : BIG_val P (BIG_copy P a) = BIG_val P a := by
  unfold BIG_val BIG_copy
  apply valN_congr
  intro i hi
  rw [limb_mkLimbs]
  simp [hi]

theorem valN_limb0 (P : Config) (a : List Int) (n : Nat) (h : 0 < n) :
    ∃ T, valN P a n = limb a 0 + pow2 P.BASEBITS * T := by
  obtain ⟨T, hT⟩ := valN_split_exists P a 1 n h
  refine ⟨T, ?_⟩
  rw [hT]
  simp [valN, pow2_zero]

theorem FP_mod_NS_loop_spec (P : Config) (d : DBIG) (hN : 0 < P.NLEN)
    (hmc : (P.MConst * Modulus_val P + 1) % pow2 P.BASEBITS = 0)
    (hl : d.length = 2 * P.NLEN)
    (hd : ∀ k, k < P.NLEN → 0 ≤ limb d k ∧ limb d k < pow2 P.BASEBITS) :
    ∃ q, 0 ≤ q ∧ q < pow2 (P.BASEBITS * P.NLEN) ∧
      BIG_val P (FP_mod_NS_loop P d) * pow2 (P.BASEBITS * P.NLEN)
        = DBIG_val P d + q * Modulus_val P := by
  have hmd : valN P (BIG_copy P P.Modulus) P.NLEN = Modulus_val P := BIG_val_copy P P.Modulus
  have hmc0 : (P.MConst * limb (BIG_copy P P.Modulus) 0 + 1) % pow2 P.BASEBITS = 0 := by
    obtain ⟨T, hT⟩ := valN_limb0 P (BIG_copy P P.Modulus) P.NLEN hN
    rw [hmd] at hT
    have h3 := Int.dvd_of_emod_eq_zero hmc
    apply Int.emod_eq_zero_of_dvd
    have e : P.MConst * limb (BIG_copy P P.Modulus) 0 + 1
        = (P.MConst * Modulus_val P + 1) - pow2 P.BASEBITS * (P.MConst * T) := by
      rw [hT]; ring
    rw [e]
    exact dvd_sub h3 (Dvd.intro _ rfl)
  obtain ⟨hl1, ⟨q, hq0, hq1, hq⟩, hz, _⟩ :=
    NS_loop_inv P (BIG_copy P P.Modulus) d hmc0 hl hd P.NLEN (le_refl _)
  refine ⟨q, hq0, hq1, ?_⟩
  unfold FP_mod_NS_loop
  simp only []
  rw [BIG_val_norm P _ hN]
  generalize (List.range P.NLEN).foldl (FP_mod_NS_row P (BIG_copy P P.Modulus)) d = e
    at hl1 hq hz ⊢
  have hs := valN_shift P e P.NLEN P.NLEN
  rw [show P.NLEN + P.NLEN = 2 * P.NLEN by ring, valN_zero_of_limbs P e P.NLEN hz, hq, hmd] at hs
  unfold BIG_val BIG_sducopy DBIG_val
  linarith

theorem MF_step_spec (P : Config) (d : DBIG) (i : Nat) (hN : 2 ≤ P.NLEN) (hi : i < P.NLEN)
    (hl : d.length = 2 * P.NLEN) :
    (FP_mod_MF_step P d i).length = 2 * P.NLEN ∧
    valN P (FP_mod_MF_step P d i) (2 * P.NLEN)
      = valN P d (2 * P.NLEN)
        + limb d i * P.MConst * pow2 (P.BASEBITS * (P.NLEN - 1)) * pow2 (P.BASEBITS * i) ∧
    (∀ k, k < P.NLEN + i - 1 → limb (FP_mod_MF_step P d i) k = limb d k) ∧
    (∀ k, k < P.NLEN → (0 ≤ limb d k ∧ limb d k < pow2 P.BASEBITS) →
      0 ≤ limb (FP_mod_MF_step P d i) k ∧ limb (FP_mod_MF_step P d i) k < pow2 P.BASEBITS) := by
  unfold FP_mod_MF_step
  simp only []
  obtain ⟨ms, mn, ml⟩ :=
    muladd_spec P (limb d i) (P.MConst - 1) (limb d i) (limb d (P.NLEN + i - 1))
  generalize muladd P (limb d i) (P.MConst - 1) (limb d i) (limb d (P.NLEN + i - 1)) = cw
    at ms mn ml ⊢
  have hl1 : (d.set (P.NLEN + i - 1) cw.2).length = 2 * P.NLEN := by simp [hl]
  refine ⟨by simp [hl], ?_, ?_, ?_⟩
  · rw [valN_set P _ (P.NLEN + i) (2 * P.NLEN) _ (by omega) (by omega),
      valN_set P d (P.NLEN + i - 1) (2 * P.NLEN) _ (by omega) (by omega), limb_set]
    have h1 : ¬ (P.NLEN + i = P.NLEN + i - 1 ∧ P.NLEN + i - 1 < d.length) := by omega
    simp only [h1, if_false]
    have e1 : pow2 (P.BASEBITS * (P.NLEN + i))
        = pow2 (P.BASEBITS * (P.NLEN + i - 1)) * pow2 P.BASEBITS := by
      rw [← pow2_add]; congr 1
      have : P.NLEN + i = (P.NLEN + i - 1) + 1 := by omega
      conv_lhs => rw [this]
      ring
    have e2 : pow2 (P.BASEBITS * (P.NLEN - 1)) * pow2 (P.BASEBITS * i)
        = pow2 (P.BASEBITS * (P.NLEN + i - 1)) := by
      rw [← pow2_add]; congr 1
      have : P.NLEN + i - 1 = (P.NLEN - 1) + i := by omega
      rw [this]; ring
    rw [e1, mul_assoc (limb d i * P.MConst), e2]
    linear_combination (pow2 (P.BASEBITS * (P.NLEN + i - 1))) * ms
  · intro k hk
    rw [limb_set]
    have h1 : ¬ (k = P.NLEN + i ∧ P.NLEN + i < (d.set (P.NLEN + i - 1) cw.2).length) := by omega
    have h2 : ¬ (k = P.NLEN + i - 1 ∧ P.NLEN + i - 1 < d.length) := by omega
    simp only [h1, if_false]
    rw [limb_set]
    simp only [h2, if_false]
  · intro k hk hb
    rw [limb_set]
    have h1 : ¬ (k = P.NLEN + i ∧ P.NLEN + i < (d.set (P.NLEN + i - 1) cw.2).length) := by omega
    simp only [h1, if_false]
    rw [limb_set]
    by_cases h2 : k = P.NLEN + i - 1 ∧ P.NLEN + i - 1 < d.length
    · simp only [h2, and_self, if_true]
      exact ⟨mn, ml⟩
    · simp only [h2, if_false]
      exact hb

theorem MF_loop_inv (P : Config) (d : DBIG) (hN : 2 ≤ P.NLEN) (hl : d.length = 2 * P.NLEN)
    (hd : ∀ k, k < P.NLEN → 0 ≤ limb d k ∧ limb d k < pow2 P.BASEBITS)
    (i : Nat) (hi : i ≤ P.NLEN) :
    ((List.range i).foldl (FP_mod_MF_step P) d).length = 2 * P.NLEN ∧
    valN P ((List.range i).foldl (FP_mod_MF_step P) d) (2 * P.NLEN)
      = valN P d (2 * P.NLEN)
        + valN P ((List.range i).foldl (FP_mod_MF_step P) d) i * P.MConst
          * pow2 (P.BASEBITS * (P.NLEN - 1)) ∧
    (∀ k, k < P.NLEN →
      0 ≤ limb ((List.range i).foldl (FP_mod_MF_step P) d) k ∧
      limb ((List.range i).foldl (FP_mod_MF_step P) d) k < pow2 P.BASEBITS) := by
  induction i with
  | zero =>
    simp only [List.range_zero, List.foldl_nil, valN]
    exact ⟨hl, by simp, hd⟩
  | succ i ih =>
    obtain ⟨hl1, hv, hb⟩ := ih (by omega)
    rw [List.range_succ, List.foldl_append]
    simp only [List.foldl_cons, List.foldl_nil]
    generalize (List.range i).foldl (FP_mod_MF_step P) d = e at hl1 hv hb ⊢
    obtain ⟨s1, s2, s3, s4⟩ := MF_step_spec P e i hN (by omega) hl1
    refine ⟨s1, ?_, fun k hk => s4 k hk (hb k hk)⟩
    have e1 : valN P (FP_mod_MF_step P e i) (i + 1) = valN P e i + limb e i * pow2 (P.BASEBITS * i) := by
      simp only [valN]
      rw [valN_congr P (FP_mod_MF_step P e i) e i (fun k hk => s3 k (by omega)), s3 i (by omega)]
    rw [s2, hv, e1]
    ring

theorem FP_mod_MF_spec (P : Config) (d : DBIG) (hN : 2 ≤ P.NLEN)
    (hmc : Modulus_val P + 1 = P.MConst * pow2 (P.BASEBITS * (P.NLEN - 1)))
    (hl : d.length = 2 * P.NLEN)
    (hd : ∀ k, k < P.NLEN → 0 ≤ limb d k ∧ limb d k < pow2 P.BASEBITS) :
    ∃ q, 0 ≤ q ∧ q < pow2 (P.BASEBITS * P.NLEN) ∧
      BIG_val P (FP_mod_MF P d) * pow2 (P.BASEBITS * P.NLEN)
        = DBIG_val P d + q * Modulus_val P := by
  obtain ⟨hl1, hv, hb⟩ := MF_loop_inv P d hN hl hd P.NLEN (le_refl _)
  unfold FP_mod_MF
  rw [BIG_val_norm P _ (by omega)]
  generalize (List.range P.NLEN).foldl (FP_mod_MF_step P) d = e at hl1 hv hb ⊢
  obtain ⟨q0, q1⟩ := valN_nonneg_lt P e P.NLEN hb
  refine ⟨valN P e P.NLEN, q0, q1, ?_⟩
  have hs := valN_shift P e P.NLEN P.NLEN
  rw [show P.NLEN + P.NLEN = 2 * P.NLEN by ring, hv] at hs
  have hp : Modulus_val P = P.MConst * pow2 (P.BASEBITS * (P.NLEN - 1)) - 1 := by linarith
  unfold BIG_val BIG_sducopy DBIG_val
  rw [hp]
  linear_combination -hs

theorem comba_term_foldl (v md : List Int) (K U n : Nat) (t0 : Int) :
    ((List.range n).map (fun j => U - j)).foldl (comba_term v md K) t0
      = t0 + ∑ t in Finset.range n,
          (limb v (K - (U - t)) - limb v (U - t)) * (limb md (U - t) - limb md (K - (U - t))) := by
  induction n with
  | zero => simp
  | succ n ih =>
    rw [List.range_succ, List.map_append, List.foldl_append, ih, Finset.sum_range_succ]
    simp only [List.map_cons, List.map_nil, List.foldl_cons, List.foldl_nil, comba_term]
    ring

theorem sum_range_ends (f : Nat → Int) (L c : Nat) :
    ∑ t in Finset.range (c + 2), f (L + t)
      = f L + ∑ t in Finset.range c, f (L + 1 + t) + f (L + c + 1) := by
  rw [Finset.sum_range_succ, Finset.sum_range_succ']
  have e : ∀ t, f (L + (t + 1)) = f (L + 1 + t) := fun t => by
    congr 1; omega
  simp only [e, Nat.add_zero]
  have e2 : L + 1 + c = L + c + 1 := by omega
  rw [e2]
  ring

theorem pair_sum (v m : Nat → Int) (n : Nat) : ∀ (L c : Nat), (c = 2 * n ∨ c = 2 * n + 1) →
    ∑ t in Finset.range c, v (L + t) * m (2 * L + c - 1 - (L + t))
      = ∑ t in Finset.range c, v (L + t) * m (L + t)
        + ∑ t in Finset.range n,
            (v (2 * L + c - 1 - (L + c - 1 - t)) - v (L + c - 1 - t))
              * (m (L + c - 1 - t) - m (2 * L + c - 1 - (L + c - 1 - t))) := by
  induction n with
  | zero =>
    intro L c hc
    rcases hc with h | h
    · subst h; simp
    · subst h
      have e : 2 * L - L = L := by omega
      simp [e]
  | succ n ih =>
    intro L c hc
    obtain ⟨c1, rfl⟩ : ∃ c1, c = c1 + 2 := ⟨c - 2, by omega⟩
    have hc1 : c1 = 2 * n ∨ c1 = 2 * n + 1 := by omega
    have h := ih (L + 1) c1 hc1
    rw [sum_range_ends (fun x => v x * m (2 * L + (c1 + 2) - 1 - x)) L c1,
      sum_range_ends (fun x => v x * m x) L c1, Finset.sum_range_succ']
    have e1 : ∀ t, 2 * L + (c1 + 2) - 1 - (L + 1 + t) = 2 * (L + 1) + c1 - 1 - (L + 1 + t) :=
      fun t => by omega
    have e2 : ∀ t, L + (c1 + 2) - 1 - (t + 1) = L + 1 + c1 - 1 - t := fun t => by omega
    have e3 : ∀ t, 2 * L + (c1 + 2) - 1 - (L + 1 + c1 - 1 - t)
        = 2 * (L + 1) + c1 - 1 - (L + 1 + c1 - 1 - t) := fun t => by omega
    simp only [e1, e2, e3]
    rw [h]
    have e4 : 2 * L + (c1 + 2) - 1 - L = L + c1 + 1 := by omega
    have e5 : 2 * L + (c1 + 2) - 1 - (L + c1 + 1) = L := by omega
    have e6 : L + (c1 + 2) - 1 - 0 = L + c1 + 1 := by omega
    simp only [e4, e5, e6]
    ring

theorem sum_range_trim (f : Nat → Int) (K L c : Nat) (hK : L + c ≤ K)
    (hlo : ∀ j, j < L → f j = 0) (hhi : ∀ j, L + c ≤ j → j < K → f j = 0) :
    ∑ j in Finset.range K, f j = ∑ t in Finset.range c, f (L + t) := by
  have h1 : ∑ j in Finset.range K, f j = ∑ j in Finset.range (L + c), f j := by
    obtain ⟨e, rfl⟩ : ∃ e, K = (L + c) + e := ⟨K - (L + c), by omega⟩
    rw [Finset.sum_range_add]
    have : ∑ x in Finset.range e, f (L + c + x) = 0 :=
      Finset.sum_eq_zero (fun x hx => hhi _ (by omega) (by
        have := Finset.mem_range.mp hx
        omega))
    rw [this, add_zero]
  rw [h1, Finset.sum_range_add]
  have : ∑ x in Finset.range L, f x = 0 :=
    Finset.sum_eq_zero (fun x hx => hlo _ (Finset.mem_range.mp hx))
  rw [this, zero_add]

theorem comba_acc_succ (P : Config) (v w md : List Int) (K : Nat)
    (hv : ∀ j, j < K → limb w j = limb v j) :
    comba_acc P w md (K + 1)
      = comba_acc P v md K + (comba_col v md K + limb w K * limb md 0) * pow2 (P.BASEBITS * K) := by
  unfold comba_acc comba_col
  rw [Finset.sum_range_succ, add_mul, Finset.sum_mul, ← add_assoc, ← Finset.sum_add_distrib]
  congr 1
  · apply Finset.sum_congr rfl
    intro j hj
    have hj1 := Finset.mem_range.mp hj
    rw [hv j hj1, show K + 1 - j = (K - j) + 1 by omega]
    simp only [valN]
    have e : pow2 (P.BASEBITS * K) = pow2 (P.BASEBITS * (K - j)) * pow2 (P.BASEBITS * j) := by
      rw [← pow2_add]; congr 1
      rw [← Nat.mul_add]; congr 1; omega
    rw [e]; ring
  · simp [valN, pow2_zero]

theorem comba_col_first (v md : List Int) (K : Nat) (hK : 1 ≤ K) (c s : Int)
    (hs : s = ∑ t in Finset.range (K - 1), limb v (1 + t) * limb md (1 + t)) :
    ((List.range (K - 1 - K / 2)).map (fun j => K - 1 - j)).foldl (comba_term v md K)
        (c + s + limb v 0 * limb md K)
      = c + comba_col v md K := by
  rw [comba_term_foldl]
  have hc : K - 1 = 2 * (K - 1 - K / 2) ∨ K - 1 = 2 * (K - 1 - K / 2) + 1 := by omega
  have h := pair_sum (fun x => limb v x) (fun x => limb md x) (K - 1 - K / 2) 1 (K - 1) hc
  simp only [] at h
  unfold comba_col
  obtain ⟨K1, rfl⟩ : ∃ K1, K = K1 + 1 := ⟨K - 1, by omega⟩
  rw [Finset.sum_range_succ']
  simp only [Nat.add_sub_cancel] at h hs ⊢
  have e1 : ∀ t, K1 + 1 - (t + 1) = 2 * 1 + K1 - 1 - (1 + t) := fun t => by omega
  have e2 : ∀ t, t + 1 = 1 + t := fun t => by omega
  have e3 : ∀ t, K1 + 1 - (K1 - t) = 2 * 1 + K1 - 1 - (1 + K1 - 1 - t) := fun t => by omega
  have e4 : ∀ t, K1 - t = 1 + K1 - 1 - t := fun t => by omega
  have hl : ∑ k in Finset.range K1, limb v (k + 1) * limb md (K1 + 1 - (k + 1))
      = ∑ t in Finset.range K1, limb v (1 + t) * limb md (2 * 1 + K1 - 1 - (1 + t)) :=
    Finset.sum_congr rfl (fun t _ => by rw [e1 t, e2 t])
  have hr : ∑ t in Finset.range (K1 - (K1 + 1) / 2),
        (limb v (K1 + 1 - (K1 - t)) - limb v (K1 - t))
          * (limb md (K1 - t) - limb md (K1 + 1 - (K1 - t)))
      = ∑ t in Finset.range (K1 - (K1 + 1) / 2),
        (limb v (2 * 1 + K1 - 1 - (1 + K1 - 1 - t)) - limb v (1 + K1 - 1 - t))
          * (limb md (1 + K1 - 1 - t) - limb md (2 * 1 + K1 - 1 - (1 + K1 - 1 - t))) :=
    Finset.sum_congr rfl (fun t _ => by rw [e3 t, e4 t])
  rw [hl, hr, h, hs]
  simp only [Nat.sub_zero]
  ring

theorem comba_col_second (v md : List Int) (N K : Nat) (hK : N ≤ K) (hK2 : K + 2 ≤ 2 * N)
    (hv : ∀ j, N ≤ j → limb v j = 0) (hm : ∀ j, N ≤ j → limb md j = 0) (c s : Int)
    (hs : s = ∑ t in Finset.range (2 * N - 1 - K),
      limb v (K - N + 1 + t) * limb md (K - N + 1 + t)) :
    ((List.range (N - 1 - K / 2)).map (fun j => N - 1 - j)).foldl (comba_term v md K) (c + s)
      = c + comba_col v md K := by
  rw [comba_term_foldl]
  have hc : 2 * N - 1 - K = 2 * (N - 1 - K / 2) ∨ 2 * N - 1 - K = 2 * (N - 1 - K / 2) + 1 := by
    omega
  have h := pair_sum (fun x => limb v x) (fun x => limb md x) (N - 1 - K / 2) (K - N + 1)
    (2 * N - 1 - K) hc
  simp only [] at h
  have ht : comba_col v md K
      = ∑ t in Finset.range (2 * N - 1 - K),
          limb v (K - N + 1 + t) * limb md (K - (K - N + 1 + t)) := by
    unfold comba_col
    apply sum_range_trim (fun j => limb v j * limb md (K - j)) K (K - N + 1) (2 * N - 1 - K)
      (by omega)
    · intro j hj
      show limb v j * limb md (K - j) = 0
      rw [hm (K - j) (by omega), mul_zero]
    · intro j hj1 hj2
      show limb v j * limb md (K - j) = 0
      rw [hv j (by omega), zero_mul]
  have e1 : ∀ t, t < 2 * N - 1 - K →
      K - (K - N + 1 + t) = 2 * (K - N + 1) + (2 * N - 1 - K) - 1 - (K - N + 1 + t) :=
    fun t ht => by omega
  have e3 : ∀ t, t < N - 1 - K / 2 → K - (N - 1 - t)
      = 2 * (K - N + 1) + (2 * N - 1 - K) - 1 - (K - N + 1 + (2 * N - 1 - K) - 1 - t) :=
    fun t ht => by omega
  have e4 : ∀ t, t < N - 1 - K / 2 → N - 1 - t = K - N + 1 + (2 * N - 1 - K) - 1 - t :=
    fun t ht => by omega
  have hl : ∑ t in Finset.range (2 * N - 1 - K),
        limb v (K - N + 1 + t) * limb md (K - (K - N + 1 + t))
      = ∑ t in Finset.range (2 * N - 1 - K), limb v (K - N + 1 + t)
          * limb md (2 * (K - N + 1) + (2 * N - 1 - K) - 1 - (K - N + 1 + t)) :=
    Finset.sum_congr rfl (fun t ht => by rw [e1 t (Finset.mem_range.mp ht)])
  have hr : ∑ t in Finset.range (N - 1 - K / 2),
        (limb v (K - (N - 1 - t)) - limb v (N - 1 - t))
          * (limb md (N - 1 - t) - limb md (K - (N - 1 - t)))
      = ∑ t in Finset.range (N - 1 - K / 2),
        (limb v (2 * (K - N + 1) + (2 * N - 1 - K) - 1 - (K - N + 1 + (2 * N - 1 - K) - 1 - t))
            - limb v (K - N + 1 + (2 * N - 1 - K) - 1 - t))
          * (limb md (K - N + 1 + (2 * N - 1 - K) - 1 - t)
            - limb md (2 * (K - N + 1) + (2 * N - 1 - K) - 1
                - (K - N + 1 + (2 * N - 1 - K) - 1 - t))) :=
    Finset.sum_congr rfl (fun t ht => by
      rw [← e3 t (Finset.mem_range.mp ht), ← e4 t (Finset.mem_range.mp ht)])
  rw [ht, hl, hr, h, hs]
  ring

theorem comba_mask_dvd (P : Config) (t md0 : Int)
    (hmc : (P.MConst * md0 + 1) % pow2 P.BASEBITS = 0) :
    pow2 P.BASEBITS ∣ t + maskLow (t * P.MConst) P.BASEBITS * md0 := by
  have h3 := Int.dvd_of_emod_eq_zero hmc
  have h4 := emod_sub_self_dvd (t * P.MConst) (pow2 P.BASEBITS)
  have e : t + maskLow (t * P.MConst) P.BASEBITS * md0
      = ((t * P.MConst) % pow2 P.BASEBITS - t * P.MConst) * md0 + t * (P.MConst * md0 + 1) := by
    unfold maskLow; ring
  rw [e]
  exact dvd_add (Dvd.dvd.mul_right h4 _) (Dvd.dvd.mul_left h3 _)

theorem comba_step1_inv (P : Config) (d : DBIG) (md : BIG) (st : CombaState) (K : Nat)
    (hmc : (P.MConst * limb md 0 + 1) % pow2 P.BASEBITS = 0)
    (hK1 : 1 ≤ K) (hK : K < P.NLEN) (h : CombaInv1 P d md st K) :
    CombaInv1 P d md (comba_step1 P d md st K) (K + 1) := by
  obtain ⟨hv, hdd, ha, hs, hddv, hvb, hc⟩ := h
  have hB := pow2_pos P.BASEBITS
  unfold comba_step1
  simp only []
  rw [comba_col_first st.v md K hK1 st.c st.s hs]
  generalize hvk : maskLow ((st.c + comba_col st.v md K) * P.MConst) P.BASEBITS = vk
  have hdvd : pow2 P.BASEBITS ∣ st.c + comba_col st.v md K + vk * limb md 0 := by
    rw [← hvk]; exact comba_mask_dvd P _ _ hmc
  have hvk0 : 0 ≤ vk ∧ vk < pow2 P.BASEBITS := by
    rw [← hvk]; unfold maskLow
    exact ⟨Int.emod_nonneg _ (ne_of_gt hB), Int.emod_lt_of_pos _ hB⟩
  have hlimb : ∀ j, limb (st.v.set K vk) j = if j = K then vk else limb st.v j := by
    intro j
    rw [limb_set]
    by_cases hj : j = K
    · simp [hj, hv, hK]
    · simp [hj]
  refine ⟨by simp [hv], by simp [hdd], ha, ?_, ?_, ?_, ?_⟩
  · simp only [Nat.add_sub_cancel]
    obtain ⟨K1, rfl⟩ : ∃ K1, K = K1 + 1 := ⟨K - 1, by omega⟩
    rw [Finset.sum_range_succ, hs]
    simp only [Nat.add_sub_cancel]
    congr 1
    · apply Finset.sum_congr rfl
      intro t ht
      have := Finset.mem_range.mp ht
      rw [hlimb]
      have : ¬ (1 + t = K1 + 1) := by omega
      simp [this]
    · rw [hlimb]
      have : 1 + K1 = K1 + 1 := by omega
      simp [this]
  · intro j h1 h2
    rw [limb_set, hlimb]
    by_cases hj : j = K
    · simp [hj, hdd, hK]
    · have : ¬ (j = K ∧ K < st.dd.length) := fun h => hj h.1
      simp only [this, hj, if_false]
      exact hddv j h1 (by omega)
  · intro j hj
    rw [hlimb]
    by_cases hjk : j = K
    · simp only [hjk, if_true]; exact hvk0
    · simp only [hjk, if_false]; exact hvb j (by omega)
  · rw [comba_acc_succ P st.v (st.v.set K vk) md K (fun j hj => by
      rw [hlimb]; have : ¬ (j = K) := by omega
      simp [this])]
    rw [hlimb]
    simp only [if_true, shr]
    rw [show valN P d (K + 1 + 1)
        = valN P d (K + 1) + limb d (K + 1) * pow2 (P.BASEBITS * (K + 1)) from rfl]
    rw [show P.BASEBITS * (K + 1) = P.BASEBITS * K + P.BASEBITS by ring, pow2_add, add_mul]
    have e := Int.ediv_mul_cancel hdvd
    have e2 : (st.c + comba_col st.v md K + vk * limb md 0) / pow2 P.BASEBITS
          * (pow2 (P.BASEBITS * K) * pow2 P.BASEBITS)
        = (st.c + comba_col st.v md K + vk * limb md 0) * pow2 (P.BASEBITS * K) := by
      calc (st.c + comba_col st.v md K + vk * limb md 0) / pow2 P.BASEBITS
            * (pow2 (P.BASEBITS * K) * pow2 P.BASEBITS)
          = ((st.c + comba_col st.v md K + vk * limb md 0) / pow2 P.BASEBITS
              * pow2 P.BASEBITS) * pow2 (P.BASEBITS * K) := by ring
        _ = _ := by rw [e]
    rw [e2]
    linear_combination hc

theorem comba_step2_inv (P : Config) (d : DBIG) (md : BIG) (st : CombaState) (K : Nat)
    (hm : ∀ j, P.NLEN ≤ j → limb md j = 0)
    (hK : P.NLEN ≤ K) (hK2 : K + 2 ≤ 2 * P.NLEN) (h : CombaInv2 P d md st K) :
    CombaInv2 P d md (comba_step2 P d md st K) (K + 1) := by
  obtain ⟨hv, hdd, ha, hs, hddv, hvb, hab, hc⟩ := h
  have hB := pow2_pos P.BASEBITS
  have hv0 : ∀ j, P.NLEN ≤ j → limb st.v j = 0 :=
    fun j hj => limb_of_length_le st.v j (by omega)
  unfold comba_step2
  simp only []
  rw [comba_col_second st.v md P.NLEN K hK hK2 hv0 hm st.c st.s hs]
  generalize ht : st.c + comba_col st.v md K = t
  have hlimb : ∀ j, limb (st.a.set (K - P.NLEN) (maskLow t P.BASEBITS)) j
      = if j = K - P.NLEN then maskLow t P.BASEBITS else limb st.a j := by
    intro j
    rw [limb_set]
    by_cases hj : j = K - P.NLEN
    · have : K - P.NLEN < st.a.length := by omega
      simp [hj, this]
    · simp [hj]
  refine ⟨hv, hdd, by simp [ha], ?_, hddv, hvb, ?_, ?_⟩
  · obtain ⟨c1, hc1⟩ : ∃ c1, 2 * P.NLEN - 1 - K = c1 + 1 := ⟨2 * P.NLEN - 2 - K, by omega⟩
    rw [hs, hc1, Finset.sum_range_succ', hddv (K - P.NLEN + 1) (by omega) (by omega)]
    have e1 : 2 * P.NLEN - 1 - (K + 1) = c1 := by omega
    have e2 : ∀ t, K + 1 - P.NLEN + 1 + t = K - P.NLEN + 1 + (t + 1) := fun t => by omega
    rw [e1]
    simp only [e2, Nat.add_zero]
    ring
  · intro j hj
    rw [hlimb]
    by_cases hjk : j = K - P.NLEN
    · simp only [hjk, if_true, maskLow]
      exact ⟨Int.emod_nonneg _ (ne_of_gt hB), Int.emod_lt_of_pos _ hB⟩
    · simp only [hjk, if_false]
      exact hab j (by omega)
  · rw [comba_acc_succ P st.v st.v md K (fun j _ => rfl), hv0 K hK]
    rw [show K + 1 - P.NLEN = (K - P.NLEN) + 1 by omega]
    rw [show valN P d (K + 1 + 1)
        = valN P d (K + 1) + limb d (K + 1) * pow2 (P.BASEBITS * (K + 1)) from rfl]
    rw [show valN P (st.a.set (K - P.NLEN) (maskLow t P.BASEBITS)) (K - P.NLEN + 1)
        = valN P (st.a.set (K - P.NLEN) (maskLow t P.BASEBITS)) (K - P.NLEN)
          + limb (st.a.set (K - P.NLEN) (maskLow t P.BASEBITS)) (K - P.NLEN)
            * pow2 (P.BASEBITS * (K - P.NLEN)) from rfl]
    rw [valN_set_ge P st.a (K - P.NLEN) (K - P.NLEN) _ (le_refl _), hlimb]
    simp only [if_true, shr, maskLow]
    have e1 : pow2 (P.BASEBITS * (K + 1)) = pow2 (P.BASEBITS * K) * pow2 P.BASEBITS := by
      rw [← pow2_add]; congr 1
    have e2 : pow2 (P.BASEBITS * (K - P.NLEN)) * pow2 (P.BASEBITS * P.NLEN)
        = pow2 (P.BASEBITS * K) := by
      rw [← pow2_add]; congr 1
      rw [← Nat.mul_add]; congr 1; omega
    have e3 := Int.emod_add_ediv t (pow2 P.BASEBITS)
    rw [e1]
    have e4 : (valN P st.a (K - P.NLEN) + t % pow2 P.BASEBITS * pow2 (P.BASEBITS * (K - P.NLEN)))
          * pow2 (P.BASEBITS * P.NLEN)
        = valN P st.a (K - P.NLEN) * pow2 (P.BASEBITS * P.NLEN)
          + t % pow2 P.BASEBITS * pow2 (P.BASEBITS * K) := by
      rw [← e2]; ring
    rw [e4]
    linear_combination hc + pow2 (P.BASEBITS * K) * e3 - pow2 (P.BASEBITS * K) * ht

theorem comba_loop1_inv (P : Config) (d : DBIG) (md : BIG) (st0 : CombaState)
    (hmc : (P.MConst * limb md 0 + 1) % pow2 P.BASEBITS = 0)
    (h0 : CombaInv1 P d md st0 1) (n : Nat) (hn : n + 1 ≤ P.NLEN) :
    CombaInv1 P d md ((List.range' 1 n).foldl (comba_step1 P d md) st0) (n + 1) := by
  induction n with
  | zero => simpa using h0
  | succ n ih =>
    rw [List.range'_1_concat, List.foldl_append]
    simp only [List.foldl_cons, List.foldl_nil]
    have := comba_step1_inv P d md _ (1 + n) hmc (by omega) (by omega)
      (by rw [show 1 + n = n + 1 by omega]; exact ih (by omega))
    rw [show 1 + n + 1 = n + 1 + 1 by omega] at this
    exact this

theorem comba_loop2_inv (P : Config) (d : DBIG) (md : BIG) (st1 : CombaState)
    (hm : ∀ j, P.NLEN ≤ j → limb md j = 0)
    (h0 : CombaInv2 P d md st1 P.NLEN) (n : Nat) (hn : n + 1 ≤ P.NLEN) :
    CombaInv2 P d md ((List.range' P.NLEN n).foldl (comba_step2 P d md) st1) (P.NLEN + n) := by
  induction n with
  | zero => simpa using h0
  | succ n ih =>
    rw [List.range'_1_concat, List.foldl_append]
    simp only [List.foldl_cons, List.foldl_nil]
    exact comba_step2_inv P d md _ (P.NLEN + n) hm (by omega) (by omega) (ih (by omega))

theorem valN_eq_sum (P : Config) (a : List Int) (n : Nat) :
    valN P a n = ∑ j in Finset.range n, limb a j * pow2 (P.BASEBITS * j) := by
  induction n with
  | zero => simp [valN]
  | succ n ih => rw [Finset.sum_range_succ, ← ih]; rfl

theorem valN_of_limbs_zero (P : Config) (a : List Int) (n m : Nat) (h : n ≤ m)
    (hz : ∀ j, n ≤ j → limb a j = 0) : valN P a m = valN P a n := by
  induction m with
  | zero =>
    have : n = 0 := by omega
    rw [this]
  | succ m ih =>
    by_cases hm : n = m + 1
    · rw [hm]
    · simp only [valN]
      rw [ih (by omega), hz m (by omega)]
      simp

theorem comba_acc_full (P : Config) (v md : List Int) (N : Nat) (hN : 0 < N)
    (hv : ∀ j, N ≤ j → limb v j = 0) (hm : ∀ j, N ≤ j → limb md j = 0) :
    comba_acc P v md (2 * N - 1) = valN P v N * valN P md N := by
  unfold comba_acc
  rw [sum_range_trim (fun j => limb v j * valN P md (2 * N - 1 - j) * pow2 (P.BASEBITS * j))
    (2 * N - 1) 0 N (by omega) (fun j hj => by omega) (fun j h1 h2 => by
      show limb v j * valN P md (2 * N - 1 - j) * pow2 (P.BASEBITS * j) = 0
      rw [hv j (by omega)]; ring)]
  rw [valN_eq_sum P v N, Finset.sum_mul]
  apply Finset.sum_congr rfl
  intro j hj
  have hj1 := Finset.mem_range.mp hj
  simp only [Nat.zero_add]
  rw [valN_of_limbs_zero P md N (2 * N - 1 - j) (by omega) hm]
  ring

theorem NS_mconst_limb0 (P : Config) (hN : 0 < P.NLEN)
    (hmc : (P.MConst * Modulus_val P + 1) % pow2 P.BASEBITS = 0) :
    (P.MConst * limb (BIG_copy P P.Modulus) 0 + 1) % pow2 P.BASEBITS = 0 := by
  have hmd : valN P (BIG_copy P P.Modulus) P.NLEN = Modulus_val P := BIG_val_copy P P.Modulus
  obtain ⟨T, hT⟩ := valN_limb0 P (BIG_copy P P.Modulus) P.NLEN hN
  rw [hmd] at hT
  have h3 := Int.dvd_of_emod_eq_zero hmc
  apply Int.emod_eq_zero_of_dvd
  have e : P.MConst * limb (BIG_copy P P.Modulus) 0 + 1
      = (P.MConst * Modulus_val P + 1) - pow2 P.BASEBITS * (P.MConst * T) := by
    rw [hT]; ring
  rw [e]
  exact dvd_sub h3 (Dvd.intro _ rfl)

theorem comba_init_inv (P : Config) (d : DBIG) (md : BIG) (hN : 0 < P.NLEN)
    (hmc : (P.MConst * limb md 0 + 1) % pow2 P.BASEBITS = 0) :
    CombaInv1 P d md
      { c := shr (limb d 0 + maskLow (limb d 0 * P.MConst) P.BASEBITS * limb md 0) P.BASEBITS
              + limb d 1
        s := 0
        v := (mkLimbs P.NLEN (fun _ => 0)).set 0 (maskLow (limb d 0 * P.MConst) P.BASEBITS)
        dd := mkLimbs P.NLEN (fun _ => 0)
        a := mkLimbs P.NLEN (fun _ => 0) } 1 := by
  have hB := pow2_pos P.BASEBITS
  have hdvd := comba_mask_dvd P (limb d 0) (limb md 0) hmc
  have hl0 : limb ((mkLimbs P.NLEN (fun _ => 0)).set 0 (maskLow (limb d 0 * P.MConst) P.BASEBITS)) 0
      = maskLow (limb d 0 * P.MConst) P.BASEBITS := by
    rw [limb_set]
    simp [length_mkLimbs, hN]
  refine ⟨by simp [length_mkLimbs], by simp [length_mkLimbs], by simp [length_mkLimbs],
    by simp, fun j h1 h2 => by omega, ?_, ?_⟩
  · intro j hj
    have : j = 0 := by omega
    subst this
    simp only []
    rw [hl0]
    unfold maskLow
    exact ⟨Int.emod_nonneg _ (ne_of_gt hB), Int.emod_lt_of_pos _ hB⟩
  · simp only [comba_acc, Finset.sum_range_one, Nat.sub_zero, Nat.mul_zero, pow2_zero, mul_one]
    rw [hl0]
    simp only [valN, shr, Nat.mul_zero, Nat.mul_one, pow2_zero, mul_one, zero_add]
    have e := Int.ediv_mul_cancel hdvd
    linear_combination e

theorem FP_mod_NS_comba_spec (P : Config) (d : DBIG) (hN : 0 < P.NLEN)
    (hmc : (P.MConst * Modulus_val P + 1) % pow2 P.BASEBITS = 0)
    (hp : 0 < Modulus_val P) (hd0 : 0 ≤ DBIG_val P d)
    (hbound : DBIG_val P d + pow2 (P.BASEBITS * P.NLEN) * Modulus_val P
      ≤ pow2 (P.BASEBITS * P.NLEN) * pow2 (P.BASEBITS * P.NLEN)) :
    ∃ q, 0 ≤ q ∧ q < pow2 (P.BASEBITS * P.NLEN) ∧
      BIG_val P (FP_mod_NS_comba P d) * pow2 (P.BASEBITS * P.NLEN)
        = DBIG_val P d + q * Modulus_val P := by
  have hB := pow2_pos P.BASEBITS
  have hmd : valN P (BIG_copy P P.Modulus) P.NLEN = Modulus_val P := BIG_val_copy P P.Modulus
  have hm : ∀ j, P.NLEN ≤ j → limb (BIG_copy P P.Modulus) j = 0 := by
    intro j hj
    unfold BIG_copy
    rw [limb_mkLimbs]
    have : ¬ (j < P.NLEN) := by omega
    simp [this]
  have hmc0 := NS_mconst_limb0 P hN hmc
  have h1 := comba_loop1_inv P d (BIG_copy P P.Modulus) _ hmc0
    (comba_init_inv P d (BIG_copy P P.Modulus) hN hmc0) (P.NLEN - 1) (by omega)
  unfold FP_mod_NS_comba
  simp only []
  generalize (List.range' 1 (P.NLEN - 1)).foldl (comba_step1 P d (BIG_copy P P.Modulus)) _ = st1
    at h1 ⊢
  rw [show P.NLEN - 1 + 1 = P.NLEN by omega] at h1
  have h2init : CombaInv2 P d (BIG_copy P P.Modulus) st1 P.NLEN := by
    obtain ⟨hv, hdd, ha, hs, hddv, hvb, hc⟩ := h1
    refine ⟨hv, hdd, ha, ?_, hddv, hvb, fun j hj => by omega, ?_⟩
    · rw [hs, show 2 * P.NLEN - 1 - P.NLEN = P.NLEN - 1 by omega]
      simp only [Nat.sub_self, Nat.zero_add]
    · simp only [Nat.sub_self, valN, zero_mul, add_zero]
      exact hc
  have h2 := comba_loop2_inv P d (BIG_copy P P.Modulus) st1 hm h2init (P.NLEN - 1) (by omega)
  generalize (List.range' P.NLEN (P.NLEN - 1)).foldl (comba_step2 P d (BIG_copy P P.Modulus)) st1
    = st2 at h2 ⊢
  obtain ⟨hv, hdd, ha, hs, hddv, hvb, hab, hc⟩ := h2
  have hv0 : ∀ j, P.NLEN ≤ j → limb st2.v j = 0 :=
    fun j hj => limb_of_length_le st2.v j (by omega)
  rw [show P.NLEN + (P.NLEN - 1) = 2 * P.NLEN - 1 by omega,
    comba_acc_full P st2.v _ P.NLEN hN hv0 hm, hmd,
    show 2 * P.NLEN - 1 - P.NLEN = P.NLEN - 1 by omega,
    show 2 * P.NLEN - 1 + 1 = 2 * P.NLEN by omega] at hc
  rw [show P.NLEN + (P.NLEN - 1) - P.NLEN = P.NLEN - 1 by omega] at hab
  obtain ⟨q0, q1⟩ := valN_nonneg_lt P st2.v P.NLEN hvb
  obtain ⟨a0, a1⟩ := valN_nonneg_lt P st2.a (P.NLEN - 1) hab
  refine ⟨valN P st2.v P.NLEN, q0, q1, ?_⟩
  have hR : pow2 (P.BASEBITS * P.NLEN) = pow2 (P.BASEBITS * (P.NLEN - 1)) * pow2 P.BASEBITS := by
    rw [← pow2_add]; congr 1
    rw [← Nat.mul_succ]; congr 1; omega
  have hR2 : pow2 (P.BASEBITS * (2 * P.NLEN - 1))
      = pow2 (P.BASEBITS * (P.NLEN - 1)) * pow2 (P.BASEBITS * P.NLEN) := by
    rw [← pow2_add]; congr 1
    rw [← Nat.mul_add]; congr 1; omega
  have hR0 := pow2_pos (P.BASEBITS * P.NLEN)
  have hR1 := pow2_pos (P.BASEBITS * (P.NLEN - 1))
  have hX : valN P d (2 * P.NLEN) + valN P st2.v P.NLEN * Modulus_val P
      < pow2 (P.BASEBITS * P.NLEN) * pow2 (P.BASEBITS * P.NLEN) := by
    unfold DBIG_val at hbound
    have := mul_lt_mul_of_pos_right q1 hp
    linarith
  have hX0 : 0 ≤ valN P d (2 * P.NLEN) + valN P st2.v P.NLEN * Modulus_val P := by
    unfold DBIG_val at hd0
    positivity
  rw [hR2] at hc
  have hRR := mul_pos hR1 hR0
  have hc0 : 0 ≤ st2.c := by
    by_contra hneg
    have h1 : st2.c ≤ -1 := by omega
    have h2 : st2.c * (pow2 (P.BASEBITS * (P.NLEN - 1)) * pow2 (P.BASEBITS * P.NLEN))
        ≤ -(pow2 (P.BASEBITS * (P.NLEN - 1)) * pow2 (P.BASEBITS * P.NLEN)) := by
      have := mul_le_mul_of_nonneg_right h1 (le_of_lt hRR)
      linarith
    have h3 : valN P st2.a (P.NLEN - 1) * pow2 (P.BASEBITS * P.NLEN)
        < pow2 (P.BASEBITS * (P.NLEN - 1)) * pow2 (P.BASEBITS * P.NLEN) :=
      mul_lt_mul_of_pos_right a1 hR0
    linarith
  have hc1 : st2.c < pow2 P.BASEBITS := by
    by_contra hge
    have h1 : pow2 P.BASEBITS ≤ st2.c := by omega
    have h2 : pow2 P.BASEBITS * (pow2 (P.BASEBITS * (P.NLEN - 1)) * pow2 (P.BASEBITS * P.NLEN))
        ≤ st2.c * (pow2 (P.BASEBITS * (P.NLEN - 1)) * pow2 (P.BASEBITS * P.NLEN)) :=
      mul_le_mul_of_nonneg_right h1 (le_of_lt hRR)
    have h3 : pow2 P.BASEBITS * (pow2 (P.BASEBITS * (P.NLEN - 1)) * pow2 (P.BASEBITS * P.NLEN))
        = pow2 (P.BASEBITS * P.NLEN) * pow2 (P.BASEBITS * P.NLEN) := by
      rw [hR]; ring
    have h4 : 0 ≤ valN P st2.a (P.NLEN - 1) * pow2 (P.BASEBITS * P.NLEN) := by positivity
    linarith
  rw [BIG_val_norm P _ hN]
  unfold BIG_val DBIG_val
  obtain ⟨N1, hN1⟩ : ∃ N1, P.NLEN = N1 + 1 := ⟨P.NLEN - 1, by omega⟩
  rw [hN1] at hc ha ⊢
  simp only [Nat.add_sub_cancel] at hc ⊢
  rw [show valN P (st2.a.set N1 (maskLow st2.c P.BASEBITS)) (N1 + 1)
      = valN P (st2.a.set N1 (maskLow st2.c P.BASEBITS)) N1
        + limb (st2.a.set N1 (maskLow st2.c P.BASEBITS)) N1 * pow2 (P.BASEBITS * N1) from rfl,
    valN_set_ge P st2.a N1 N1 _ (le_refl _), limb_set]
  have hlen : N1 < st2.a.length := by omega
  simp only [hlen, and_self, if_true, maskLow]
  rw [Int.emod_eq_of_lt hc0 hc1]
  linear_combination hc

theorem valN_mkLimbs (P : Config) (n : Nat) (f : Nat → Int) (a : List Int) (m : Nat)
    (hm : m ≤ n) (h : ∀ i, i < m → f i = limb a i) : valN P (mkLimbs n f) m = valN P a m := by
  apply valN_congr
  intro i hi
  rw [limb_mkLimbs]
  have : i < n := by omega
  simp [this, h i hi]

theorem valN_add (P : Config) (a b : List Int) (n m : Nat) (hm : m ≤ n) :
    valN P (mkLimbs n (fun i => limb a i + limb b i)) m = valN P a m + valN P b m := by
  induction m with
  | zero => simp [valN]
  | succ m ih =>
    simp only [valN]
    rw [ih (by omega), limb_mkLimbs]
    have : m < n := by omega
    simp only [this, if_true]
    ring

theorem valN_sub (P : Config) (a b : List Int) (n m : Nat) (hm : m ≤ n) :
    valN P (mkLimbs n (fun i => limb a i - limb b i)) m = valN P a m - valN P b m := by
  induction m with
  | zero => simp [valN]
  | succ m ih =>
    simp only [valN]
    rw [ih (by omega), limb_mkLimbs]
    have : m < n := by omega
    simp only [this, if_true]
    ring

theorem valN_smul (P : Config) (a : List Int) (c : Int) (n m : Nat) (hm : m ≤ n) :
    valN P (mkLimbs n (fun i => limb a i * c)) m = valN P a m * c := by
  induction m with
  | zero => simp [valN]
  | succ m ih =>
    simp only [valN]
    rw [ih (by omega), limb_mkLimbs]
    have : m < n := by omega
    simp only [this, if_true]
    ring

theorem BIG_val_add (P : Config) (a b : BIG) :
    BIG_val P (BIG_add P a b) = BIG_val P a + BIG_val P b :=
  valN_add P a b P.NLEN P.NLEN (le_refl _)

theorem BIG_val_sub (P : Config) (a b : BIG) :
    BIG_val P (BIG_sub P a b) = BIG_val P a - BIG_val P b :=
  valN_sub P a b P.NLEN P.NLEN (le_refl _)

theorem BIG_val_imul (P : Config) (a : BIG) (c : Int) :
    BIG_val P (BIG_imul P a c) = BIG_val P a * c :=
  valN_smul P a c P.NLEN P.NLEN (le_refl _)

theorem BIG_val_toLimbs (P : Config) (x : Int) (hN : 0 < P.NLEN) :
    BIG_val P (toLimbs P P.NLEN x) = x :=
  valN_toLimbs P P.NLEN x hN

theorem DBIG_val_toLimbs (P : Config) (x : Int) (hN : 0 < P.NLEN) :
    DBIG_val P (toLimbs P (2 * P.NLEN) x) = x :=
  valN_toLimbs P (2 * P.NLEN) x (by omega)

theorem TBITS_eq (P : Config) (_hB : 0 < P.BASEBITS) (hN : 0 < P.NLEN)
    (h1 : P.BASEBITS * (P.NLEN - 1) ≤ P.MODBITS) (h2 : P.MODBITS < P.BASEBITS * P.NLEN) :
    P.BASEBITS * (P.NLEN - 1) + TBITS P = P.MODBITS := by
  unfold TBITS
  obtain ⟨r, hr⟩ : ∃ r, P.MODBITS = P.BASEBITS * (P.NLEN - 1) + r := ⟨_, (Nat.add_sub_cancel' h1).symm⟩
  have hN1 : P.BASEBITS * P.NLEN = P.BASEBITS * (P.NLEN - 1) + P.BASEBITS := by
    rw [← Nat.mul_succ]; congr 1; omega
  have hr2 : r < P.BASEBITS := by omega
  rw [hr, Nat.mul_add_mod, Nat.mod_eq_of_lt hr2]

theorem pow2_MODBITS (P : Config) (hB : 0 < P.BASEBITS) (hN : 0 < P.NLEN)
    (h1 : P.BASEBITS * (P.NLEN - 1) ≤ P.MODBITS) (h2 : P.MODBITS < P.BASEBITS * P.NLEN) :
    pow2 P.MODBITS = pow2 (TBITS P) * pow2 (P.BASEBITS * (P.NLEN - 1)) := by
  rw [← pow2_add]; congr 1
  have := TBITS_eq P hB hN h1 h2
  omega

theorem emod_sub_eq (x b : Int) : x % b - x = -(b * (x / b)) := by
  have := Int.emod_add_ediv x b
  linarith

theorem limb_top_ediv (P : Config) (x : Int) (hB : 0 < P.BASEBITS) (hN : 0 < P.NLEN)
    (h1 : P.BASEBITS * (P.NLEN - 1) ≤ P.MODBITS) (h2 : P.MODBITS < P.BASEBITS * P.NLEN) :
    limb (toLimbs P P.NLEN x) (P.NLEN - 1) / pow2 (TBITS P) = x / pow2 P.MODBITS := by
  rw [toLimbs_top P P.NLEN x hN, ediv_ediv_pow2, TBITS_eq P hB hN h1 h2]

theorem PM_fold_val (P : Config) (t : BIG) (X : Int) (hN : 0 < P.NLEN) (hl : t.length = P.NLEN)
    (hB : 0 < P.BASEBITS)
    (h1 : P.BASEBITS * (P.NLEN - 1) ≤ P.MODBITS) (h2 : P.MODBITS < P.BASEBITS * P.NLEN) :
    BIG_val P ((t.set (P.NLEN - 1) (limb t (P.NLEN - 1) % pow2 (TBITS P))).set 0
        (limb (t.set (P.NLEN - 1) (limb t (P.NLEN - 1) % pow2 (TBITS P))) 0 + X))
      = BIG_val P t - pow2 P.MODBITS * (limb t (P.NLEN - 1) / pow2 (TBITS P)) + X := by
  unfold BIG_val
  rw [valN_set P _ 0 P.NLEN _ hN (by simp [hl, hN]),
    valN_set P t (P.NLEN - 1) P.NLEN _ (by omega) (by omega), emod_sub_eq,
    pow2_MODBITS P hB hN h1 h2]
  simp only [Nat.mul_zero, pow2_zero]
  ring

theorem PM_fold16_val (P : Config) (t : BIG) (c X : Int) (hN : 2 ≤ P.NLEN)
    (hl : t.length = P.NLEN) (hB : 0 < P.BASEBITS)
    (h1 : P.BASEBITS * (P.NLEN - 1) ≤ P.MODBITS) (h2 : P.MODBITS < P.BASEBITS * P.NLEN) :
    BIG_val P
      (((t.set (P.NLEN - 1) (limb t (P.NLEN - 1) % pow2 (TBITS P))).set 0
          (muladd P c X 0
            (limb (t.set (P.NLEN - 1) (limb t (P.NLEN - 1) % pow2 (TBITS P))) 0)).2).set 1
        (limb ((t.set (P.NLEN - 1) (limb t (P.NLEN - 1) % pow2 (TBITS P))).set 0
            (muladd P c X 0
              (limb (t.set (P.NLEN - 1) (limb t (P.NLEN - 1) % pow2 (TBITS P))) 0)).2) 1
          + (muladd P c X 0
              (limb (t.set (P.NLEN - 1) (limb t (P.NLEN - 1) % pow2 (TBITS P))) 0)).1))
      = BIG_val P t - pow2 P.MODBITS * (limb t (P.NLEN - 1) / pow2 (TBITS P)) + c * X := by
  obtain ⟨ms, _, _⟩ := muladd_spec P c X 0
    (limb (t.set (P.NLEN - 1) (limb t (P.NLEN - 1) % pow2 (TBITS P))) 0)
  generalize muladd P c X 0
    (limb (t.set (P.NLEN - 1) (limb t (P.NLEN - 1) % pow2 (TBITS P))) 0) = cw at ms ⊢
  unfold BIG_val
  rw [valN_set P _ 1 P.NLEN _ (by omega) (by simp [hl]; omega),
    valN_set P _ 0 P.NLEN _ (by omega) (by simp [hl]; omega),
    valN_set P t (P.NLEN - 1) P.NLEN _ (by omega) (by omega), emod_sub_eq,
    pow2_MODBITS P hB (by omega) h1 h2]
  simp only [Nat.mul_zero, pow2_zero, Nat.mul_one]
  linear_combination ms

theorem FP_mod_PM_spec (P : Config) (d : DBIG) (hB : 0 < P.BASEBITS) (hN : 0 < P.NLEN)
    (h1 : P.BASEBITS * (P.NLEN - 1) ≤ P.MODBITS) (h2 : P.MODBITS < P.BASEBITS * P.NLEN)
    (hp : Modulus_val P = pow2 P.MODBITS - P.MConst) (hc : 0 < P.MConst)
    (h16 : P.CHUNK = 16 → 2 ≤ P.NLEN) :
    (∃ k, BIG_val P (FP_mod_PM P d) = DBIG_val P d - k * Modulus_val P) ∧
    (0 ≤ DBIG_val P d → 0 ≤ BIG_val P (FP_mod_PM P d)) := by
  have hMpos := pow2_pos P.MODBITS
  have hRpos := pow2_pos (P.BASEBITS * P.NLEN)
  have hD := Int.emod_add_ediv (DBIG_val P d) (pow2 P.MODBITS)
  have hb0 := Int.emod_nonneg (DBIG_val P d) (ne_of_gt hMpos)
  have hR : pow2 (P.BASEBITS * P.NLEN) = pow2 P.MODBITS * pow2 (P.BASEBITS - TBITS P) := by
    rw [← pow2_add]; congr 1
    have := TBITS_eq P hB hN h1 h2
    have hN1 : P.BASEBITS * P.NLEN = P.BASEBITS * (P.NLEN - 1) + P.BASEBITS := by
      rw [← Nat.mul_succ]; congr 1; omega
    omega
  unfold FP_mod_PM
  simp only [BIG_split, shr, maskLow, shl]
  rw [BIG_val_norm P _ hN, BIG_val_add, BIG_val_toLimbs P _ hN]
  by_cases hbr : P.MConst < NEXCESS P
  · simp only [hbr, if_true]
    have hnorm : BIG_norm P (BIG_imul P (toLimbs P P.NLEN (DBIG_val P d / pow2 P.MODBITS)) P.MConst)
        = toLimbs P P.NLEN (DBIG_val P d / pow2 P.MODBITS * P.MConst) := by
      unfold BIG_norm
      rw [BIG_val_imul, BIG_val_toLimbs P _ hN]
    rw [hnorm, PM_fold_val P _ _ hN (length_toLimbs _ _ _) hB h1 h2,
      limb_top_ediv P _ hB hN h1 h2, BIG_val_toLimbs P _ hN]
    generalize DBIG_val P d / pow2 P.MODBITS = t at hD ⊢
    have hh := Int.emod_add_ediv (t * P.MConst) (pow2 P.MODBITS)
    have hh0 := Int.emod_nonneg (t * P.MConst) (ne_of_gt hMpos)
    constructor
    · refine ⟨t + t * P.MConst / pow2 P.MODBITS, ?_⟩
      rw [hp]
      linear_combination hD
    · intro hd
      have ht : 0 ≤ t := by
        by_contra hneg
        have h3 : t ≤ -1 := by omega
        have h4 := Int.emod_lt_of_pos (DBIG_val P d) hMpos
        nlinarith
      have h5 : 0 ≤ t * P.MConst / pow2 P.MODBITS :=
        Int.ediv_nonneg (by positivity) (le_of_lt hMpos)
      have h6 : 0 ≤ P.MConst * (t * P.MConst / pow2 P.MODBITS) := by positivity
      linarith
  · simp only [hbr, if_false, BIG_pmul, shr, maskLow]
    have hv := Int.emod_add_ediv
      (BIG_val P (toLimbs P P.NLEN (DBIG_val P d / pow2 P.MODBITS)) * P.MConst)
      (pow2 (P.BASEBITS * P.NLEN))
    have hv0 := Int.emod_nonneg
      (BIG_val P (toLimbs P P.NLEN (DBIG_val P d / pow2 P.MODBITS)) * P.MConst) (ne_of_gt hRpos)
    rw [BIG_val_toLimbs P _ hN] at hv hv0
    rw [BIG_val_toLimbs P _ hN]
    generalize DBIG_val P d / pow2 P.MODBITS = t at hD hv hv0 ⊢
    have hh := Int.emod_add_ediv (t * P.MConst % pow2 (P.BASEBITS * P.NLEN)) (pow2 P.MODBITS)
    have hh0 := Int.emod_nonneg (t * P.MConst % pow2 (P.BASEBITS * P.NLEN)) (ne_of_gt hMpos)
    have hval : BIG_val P
        (if P.CHUNK = 16 then
          (((toLimbs P P.NLEN (t * P.MConst % pow2 (P.BASEBITS * P.NLEN))).set (P.NLEN - 1)
              (limb (toLimbs P P.NLEN (t * P.MConst % pow2 (P.BASEBITS * P.NLEN))) (P.NLEN - 1)
                % pow2 (TBITS P))).set 0
            (muladd P P.MConst
              (limb (toLimbs P P.NLEN (t * P.MConst % pow2 (P.BASEBITS * P.NLEN))) (P.NLEN - 1)
                  / pow2 (TBITS P)
                + t * P.MConst / pow2 (P.BASEBITS * P.NLEN) * pow2 (P.BASEBITS - TBITS P)) 0
              (limb ((toLimbs P P.NLEN (t * P.MConst % pow2 (P.BASEBITS * P.NLEN))).set
                (P.NLEN - 1)
                (limb (toLimbs P P.NLEN (t * P.MConst % pow2 (P.BASEBITS * P.NLEN))) (P.NLEN - 1)
                  % pow2 (TBITS P))) 0)).2).set 1
            (limb (((toLimbs P P.NLEN (t * P.MConst % pow2 (P.BASEBITS * P.NLEN))).set
                (P.NLEN - 1)
                (limb (toLimbs P P.NLEN (t * P.MConst % pow2 (P.BASEBITS * P.NLEN))) (P.NLEN - 1)
                  % pow2 (TBITS P))).set 0
              (muladd P P.MConst
                (limb (toLimbs P P.NLEN (t * P.MConst % pow2 (P.BASEBITS * P.NLEN))) (P.NLEN - 1)
                    / pow2 (TBITS P)
                  + t * P.MConst / pow2 (P.BASEBITS * P.NLEN) * pow2 (P.BASEBITS - TBITS P)) 0
                (limb ((toLimbs P P.NLEN (t * P.MConst % pow2 (P.BASEBITS * P.NLEN))).set
                  (P.NLEN - 1)
                  (limb (toLimbs P P.NLEN (t * P.MConst % pow2 (P.BASEBITS * P.NLEN)))
                    (P.NLEN - 1) % pow2 (TBITS P))) 0)).2) 1
              + (muladd P P.MConst
                (limb (toLimbs P P.NLEN (t * P.MConst % pow2 (P.BASEBITS * P.NLEN))) (P.NLEN - 1)
                    / pow2 (TBITS P)
                  + t * P.MConst / pow2 (P.BASEBITS * P.NLEN) * pow2 (P.BASEBITS - TBITS P)) 0
                (limb ((toLimbs P P.NLEN (t * P.MConst % pow2 (P.BASEBITS * P.NLEN))).set
                  (P.NLEN - 1)
                  (limb (toLimbs P P.NLEN (t * P.MConst % pow2 (P.BASEBITS * P.NLEN)))
                    (P.NLEN - 1) % pow2 (TBITS P))) 0)).1)
        else
          ((toLimbs P P.NLEN (t * P.MConst % pow2 (P.BASEBITS * P.NLEN))).set (P.NLEN - 1)
              (limb (toLimbs P P.NLEN (t * P.MConst % pow2 (P.BASEBITS * P.NLEN))) (P.NLEN - 1)
                % pow2 (TBITS P))).set 0
            (limb ((toLimbs P P.NLEN (t * P.MConst % pow2 (P.BASEBITS * P.NLEN))).set
                (P.NLEN - 1)
                (limb (toLimbs P P.NLEN (t * P.MConst % pow2 (P.BASEBITS * P.NLEN))) (P.NLEN - 1)
                  % pow2 (TBITS P))) 0
              + P.MConst
                * (limb (toLimbs P P.NLEN (t * P.MConst % pow2 (P.BASEBITS * P.NLEN)))
                      (P.NLEN - 1) / pow2 (TBITS P)
                  + t * P.MConst / pow2 (P.BASEBITS * P.NLEN) * pow2 (P.BASEBITS - TBITS P))))
      = t * P.MConst % pow2 (P.BASEBITS * P.NLEN)
        - pow2 P.MODBITS * (t * P.MConst % pow2 (P.BASEBITS * P.NLEN) / pow2 P.MODBITS)
        + P.MConst * (t * P.MConst % pow2 (P.BASEBITS * P.NLEN) / pow2 P.MODBITS
          + t * P.MConst / pow2 (P.BASEBITS * P.NLEN) * pow2 (P.BASEBITS - TBITS P)) := by
      by_cases h16c : P.CHUNK = 16
      · simp only [h16c, if_true]
        rw [PM_fold16_val P _ _ _ (h16 h16c) (length_toLimbs _ _ _) hB h1 h2,
          limb_top_ediv P _ hB hN h1 h2, BIG_val_toLimbs P _ hN]
      · simp only [h16c, if_false]
        rw [PM_fold_val P _ _ hN (length_toLimbs _ _ _) hB h1 h2,
          limb_top_ediv P _ hB hN h1 h2, BIG_val_toLimbs P _ hN]
    rw [hval]
    constructor
    · refine ⟨t + (t * P.MConst % pow2 (P.BASEBITS * P.NLEN) / pow2 P.MODBITS
          + t * P.MConst / pow2 (P.BASEBITS * P.NLEN) * pow2 (P.BASEBITS - TBITS P)), ?_⟩
      rw [hp]
      have hv2 : t * P.MConst % pow2 (P.BASEBITS * P.NLEN)
          + pow2 P.MODBITS * pow2 (P.BASEBITS - TBITS P)
            * (t * P.MConst / pow2 (P.BASEBITS * P.NLEN)) = t * P.MConst := by
        rw [← hR]; exact hv
      linear_combination hD + hv2
    · intro hd
      have ht : 0 ≤ t := by
        by_contra hneg
        have h3 : t ≤ -1 := by omega
        have h4 := Int.emod_lt_of_pos (DBIG_val P d) hMpos
        nlinarith
      have h5 : 0 ≤ t * P.MConst % pow2 (P.BASEBITS * P.NLEN) / pow2 P.MODBITS :=
        Int.ediv_nonneg hv0 (le_of_lt hMpos)
      have h6 : 0 ≤ t * P.MConst / pow2 (P.BASEBITS * P.NLEN) :=
        Int.ediv_nonneg (by positivity) (le_of_lt hRpos)
      have h7 := pow2_pos (P.BASEBITS - TBITS P)
      have h8 : 0 ≤ P.MConst * (t * P.MConst % pow2 (P.BASEBITS * P.NLEN) / pow2 P.MODBITS
          + t * P.MConst / pow2 (P.BASEBITS * P.NLEN) * pow2 (P.BASEBITS - TBITS P)) := by
        positivity
      linarith

theorem valN_nonneg (P : Config) (a : List Int) (n : Nat) (h : ∀ i, i < n → 0 ≤ limb a i) :
    0 ≤ valN P a n := by
  induction n with
  | zero => simp [valN]
  | succ n ih =>
    simp only [valN]
    have h1 := ih (fun i hi => h i (by omega))
    have h2 := h n (by omega)
    have h3 := pow2_pos (P.BASEBITS * n)
    positivity

theorem DBIG_val_dscopy (P : Config) (a : BIG) : DBIG_val P (BIG_dscopy P a) = BIG_val P a := by
  unfold DBIG_val BIG_dscopy BIG_val
  have h := valN_shift P (mkLimbs (2 * P.NLEN) (fun i => if i < P.NLEN then limb a i else 0))
    P.NLEN P.NLEN
  rw [show P.NLEN + P.NLEN = 2 * P.NLEN by ring] at h
  rw [h]
  have e1 : valN P (mkLimbs (2 * P.NLEN) (fun i => if i < P.NLEN then limb a i else 0)) P.NLEN
      = valN P a P.NLEN := by
    apply valN_mkLimbs P _ _ a P.NLEN (by omega)
    intro i hi
    simp [hi]
  have e2 : valN P (mkLimbs P.NLEN (fun i =>
      limb (mkLimbs (2 * P.NLEN) (fun i => if i < P.NLEN then limb a i else 0)) (P.NLEN + i)))
      P.NLEN = 0 := by
    apply valN_zero_of_limbs
    intro k hk
    rw [limb_mkLimbs, limb_mkLimbs]
    have : P.NLEN + k < 2 * P.NLEN := by omega
    simp [hk, this]
  rw [e1, e2]
  ring

theorem GM_fold_val (P : Config) (r : BIG) (X : Int) (hN : 0 < P.NLEN) (hl : r.length = P.NLEN)
    (hk : 224 / P.BASEBITS < P.NLEN) :
    BIG_val P ((r.set 0 (limb r 0 + X)).set (224 / P.BASEBITS)
        (limb (r.set 0 (limb r 0 + X)) (224 / P.BASEBITS) + X * pow2 (224 % P.BASEBITS)))
      = BIG_val P r + X + X * pow2 224 := by
  unfold BIG_val
  rw [valN_set P _ (224 / P.BASEBITS) P.NLEN _ hk (by simp [hl, hk]),
    valN_set P r 0 P.NLEN _ hN (by omega)]
  have e : pow2 (224 % P.BASEBITS) * pow2 (P.BASEBITS * (224 / P.BASEBITS)) = pow2 224 := by
    rw [← pow2_add, Nat.mod_add_div]
  simp only [Nat.mul_zero, pow2_zero]
  rw [← e]
  ring

theorem FP_mod_GM_spec (P : Config) (d : DBIG) (hB : 0 < P.BASEBITS) (hN : 0 < P.NLEN)
    (h1 : P.BASEBITS * (P.NLEN - 1) ≤ P.MODBITS) (h2 : P.MODBITS < P.BASEBITS * P.NLEN)
    (hM : P.MODBITS = 448) (hp : Modulus_val P = pow2 448 - pow2 224 - 1) :
    (∃ k, BIG_val P (FP_mod_GM P d) = DBIG_val P d - k * Modulus_val P) ∧
    (0 ≤ DBIG_val P d → 0 ≤ BIG_val P (FP_mod_GM P d)) := by
  have hMpos := pow2_pos 448
  have h224 := pow2_pos 224
  have hTpos := pow2_pos (TBITS P)
  have hN1pos := pow2_pos (P.BASEBITS * (P.NLEN - 1))
  have hk : 224 / P.BASEBITS < P.NLEN := by
    apply Nat.div_lt_of_lt_mul
    omega
  have hMM := pow2_MODBITS P hB hN h1 h2
  rw [hM] at hMM
  have hD := Int.emod_add_ediv (DBIG_val P d) (pow2 448)
  have hb0 := Int.emod_nonneg (DBIG_val P d) (ne_of_gt hMpos)
  unfold FP_mod_GM
  simp only [BIG_split, shr, maskLow, hM, BIG_dshl, BIG_shl, shl]
  rw [BIG_val_norm P _ hN, DBIG_val_dscopy, BIG_val_toLimbs P _ hN, DBIG_val_toLimbs P _ hN,
    BIG_val_toLimbs P _ hN]
  norm_num only []
  have ht0 : 0 ≤ DBIG_val P d → 0 ≤ DBIG_val P d / pow2 448 :=
    fun h => Int.ediv_nonneg h (le_of_lt hMpos)
  generalize DBIG_val P d / pow2 448 = t at hD ht0 ⊢
  generalize DBIG_val P d % pow2 448 = b at hD hb0 ⊢
  have hT := Int.emod_add_ediv (t * pow2 224) (pow2 448)
  have hb20 := Int.emod_nonneg (t * pow2 224) (ne_of_gt hMpos)
  have ht20 : 0 ≤ t → 0 ≤ t * pow2 224 / pow2 448 :=
    fun h => Int.ediv_nonneg (by positivity) (le_of_lt hMpos)
  generalize t * pow2 224 / pow2 448 = t2 at hT ht20 ⊢
  generalize t * pow2 224 % pow2 448 = b2 at hT hb20 ⊢
  have hS : BIG_norm P (BIG_add P (BIG_add P (BIG_add P (toLimbs P P.NLEN t) (toLimbs P P.NLEN b))
      (toLimbs P P.NLEN t2)) (toLimbs P P.NLEN b2)) = toLimbs P P.NLEN (t + b + t2 + b2) := by
    unfold BIG_norm
    rw [BIG_val_add, BIG_val_add, BIG_val_add, BIG_val_toLimbs P _ hN, BIG_val_toLimbs P _ hN,
      BIG_val_toLimbs P _ hN, BIG_val_toLimbs P _ hN]
  rw [hS]
  generalize hr2 : BIG_add P (toLimbs P P.NLEN (t + b + t2 + b2)) (toLimbs P P.NLEN (t2 * pow2 224))
    = r2
  have hr2len : r2.length = P.NLEN := by rw [← hr2]; simp [BIG_add, length_mkLimbs]
  have hr2val : BIG_val P r2 = t + b + t2 + b2 + t2 * pow2 224 := by
    rw [← hr2, BIG_val_add, BIG_val_toLimbs P _ hN, BIG_val_toLimbs P _ hN]
  have hr3len : (r2.set (P.NLEN - 1) (limb r2 (P.NLEN - 1) % pow2 (TBITS P))).length = P.NLEN := by
    simp [hr2len]
  rw [GM_fold_val P _ _ hN hr3len hk]
  have hr3val : BIG_val P (r2.set (P.NLEN - 1) (limb r2 (P.NLEN - 1) % pow2 (TBITS P)))
      = BIG_val P r2 - pow2 448 * (limb r2 (P.NLEN - 1) / pow2 (TBITS P)) := by
    unfold BIG_val
    rw [valN_set P r2 (P.NLEN - 1) P.NLEN _ (by omega) (by omega), emod_sub_eq, hMM]
    ring
  constructor
  · refine ⟨t + t2 + limb r2 (P.NLEN - 1) / pow2 (TBITS P), ?_⟩
    rw [hr3val, hr2val, hp]
    linear_combination hD + hT
  · intro hd
    have ht := ht0 hd
    have ht2 := ht20 ht
    have hlow : ∀ i, i < P.NLEN - 1 → 0 ≤ limb r2 i := by
      intro i hi
      rw [← hr2]
      unfold BIG_add
      rw [limb_mkLimbs]
      have : i < P.NLEN := by omega
      simp only [this, if_true]
      have a1 := (toLimbs_limb_bounds P P.NLEN (t + b + t2 + b2) i (by omega)).1
      have a2 := (toLimbs_limb_bounds P P.NLEN (t2 * pow2 224) i (by omega)).1
      linarith
    have htop : 0 ≤ limb r2 (P.NLEN - 1) := by
      rw [← hr2]
      unfold BIG_add
      rw [limb_mkLimbs]
      have : P.NLEN - 1 < P.NLEN := by omega
      simp only [this, if_true]
      rw [toLimbs_top P P.NLEN _ hN, toLimbs_top P P.NLEN _ hN]
      have a1 : 0 ≤ (t + b + t2 + b2) / pow2 (P.BASEBITS * (P.NLEN - 1)) :=
        Int.ediv_nonneg (by linarith) (le_of_lt hN1pos)
      have a2 : 0 ≤ (t2 * pow2 224) / pow2 (P.BASEBITS * (P.NLEN - 1)) :=
        Int.ediv_nonneg (by positivity) (le_of_lt hN1pos)
      linarith
    have hcar : 0 ≤ limb r2 (P.NLEN - 1) / pow2 (TBITS P) :=
      Int.ediv_nonneg htop (le_of_lt hTpos)
    have hr3 : 0 ≤ BIG_val P (r2.set (P.NLEN - 1) (limb r2 (P.NLEN - 1) % pow2 (TBITS P))) := by
      unfold BIG_val
      apply valN_nonneg
      intro i hi
      rw [limb_set]
      by_cases hi2 : i = P.NLEN - 1 ∧ P.NLEN - 1 < r2.length
      · simp only [hi2, and_self, if_true]
        exact Int.emod_nonneg _ (ne_of_gt hTpos)
      · simp only [hi2, if_false]
        exact hlow i (by omega)
    have : 0 ≤ limb r2 (P.NLEN - 1) / pow2 (TBITS P) * pow2 224 := by positivity
    linarith

theorem BIG_norm_idem (P : Config) (a : BIG) (hN : 0 < P.NLEN) :
    BIG_norm P (BIG_norm P a) = BIG_norm P a := by
  unfold BIG_norm
  rw [BIG_val_toLimbs P _ hN]

theorem BIG_norm_toLimbs (P : Config) (x : Int) (hN : 0 < P.NLEN) :
    BIG_norm P (toLimbs P P.NLEN x) = toLimbs P P.NLEN x := by
  unfold BIG_norm
  rw [BIG_val_toLimbs P _ hN]

theorem mul_pred_add (b n : Nat) (h : 0 < n) : b * (n - 1) + b = b * n := by
  obtain ⟨m, rfl⟩ : ∃ m, n = m + 1 := ⟨n - 1, by omega⟩
  simp [Nat.mul_succ]

theorem toLimbs_all_bounds (P : Config) (n : Nat) (x : Int) (h0 : 0 ≤ x)
    (h1 : x < pow2 (P.BASEBITS * n)) (i : Nat) (hi : i < n) :
    0 ≤ limb (toLimbs P n x) i ∧ limb (toLimbs P n x) i < pow2 P.BASEBITS := by
  by_cases h : i + 1 < n
  · exact toLimbs_limb_bounds P n x i h
  · have hin : i = n - 1 := by omega
    rw [hin, toLimbs_top P n x (by omega)]
    have hp := pow2_pos (P.BASEBITS * (n - 1))
    refine ⟨Int.ediv_nonneg h0 (le_of_lt hp), ?_⟩
    apply Int.ediv_lt_of_lt_mul hp
    rw [← pow2_add]
    have : P.BASEBITS + P.BASEBITS * (n - 1) = P.BASEBITS * n := by
      have := mul_pred_add P.BASEBITS n (by omega)
      omega
    rw [this]; exact h1

theorem FP_mod_NS_spec (P : Config) (d : DBIG) (hN : 0 < P.NLEN)
    (hmc : (P.MConst * Modulus_val P + 1) % pow2 P.BASEBITS = 0)
    (hp : 0 < Modulus_val P)
    (hl : d.length = 2 * P.NLEN)
    (hd : ∀ k, k < P.NLEN → 0 ≤ limb d k ∧ limb d k < pow2 P.BASEBITS)
    (hd0 : 0 ≤ DBIG_val P d)
    (hbound : DBIG_val P d + pow2 (P.BASEBITS * P.NLEN) * Modulus_val P
      ≤ pow2 (P.BASEBITS * P.NLEN) * pow2 (P.BASEBITS * P.NLEN)) :
    ∃ q, 0 ≤ q ∧ q < pow2 (P.BASEBITS * P.NLEN) ∧
      BIG_val P (FP_mod_NS P d) * pow2 (P.BASEBITS * P.NLEN)
        = DBIG_val P d + q * Modulus_val P := by
  unfold FP_mod_NS
  by_cases hc : P.COMBA = true
  · simp only [hc, if_true]
    exact FP_mod_NS_comba_spec P d hN hmc hp hd0 hbound
  · simp only [hc]
    exact FP_mod_NS_loop_spec P d hN hmc hl hd

theorem FP_mod_norm (P : Config) (d : DBIG) (hN : 0 < P.NLEN) :
    BIG_norm P (FP_mod P d) = FP_mod P d := by
  unfold FP_mod
  cases P.MODTYPE
  · simp only [FP_mod_NS]
    by_cases hc : P.COMBA = true
    · simp only [hc, if_true, FP_mod_NS_comba]
      exact BIG_norm_idem P _ hN
    · simp only [hc, FP_mod_NS_loop]
      exact BIG_norm_idem P _ hN
  · simp only [FP_mod_PM]
    exact BIG_norm_idem P _ hN
  · simp only [FP_mod_GM]
    exact BIG_norm_idem P _ hN
  · simp only [FP_mod_MF]
    exact BIG_norm_idem P _ hN

theorem WF_pos (P : Config) (h : WF P) : 0 < Modulus_val P := by
  obtain ⟨_, _, _, _, _, _, _, h8, _, _⟩ := h
  have := pow2_pos (P.MODBITS - 1)
  linarith

theorem WF_R_bound (P : Config) (h : WF P) :
    pow2 P.MODBITS * 2 ≤ pow2 (P.BASEBITS * P.NLEN) := by
  obtain ⟨_, _, _, _, _, h6, _, _, _, _⟩ := h
  have : pow2 P.MODBITS * 2 = pow2 (P.MODBITS + 1) := by
    rw [pow2_add]; simp [pow2]
  rw [this]
  exact pow2_le_pow2 (by omega)

theorem FP_mod_mont (P : Config) (d : DBIG) (h : WF P) (hm : isMont P)
    (hl : d.length = 2 * P.NLEN)
    (hd : ∀ k, k < P.NLEN → 0 ≤ limb d k ∧ limb d k < pow2 P.BASEBITS)
    (hd0 : 0 ≤ DBIG_val P d)
    (hbound : DBIG_val P d < pow2 (P.BASEBITS * P.NLEN) * pow2 P.MODBITS) :
    ∃ q, 0 ≤ q ∧ q < pow2 (P.BASEBITS * P.NLEN) ∧
      BIG_val P (FP_mod P d) * pow2 (P.BASEBITS * P.NLEN)
        = DBIG_val P d + q * Modulus_val P := by
  have hpos := WF_pos P h
  have hRb := WF_R_bound P h
  obtain ⟨hB, _, hN, _, h5, h6, h7, h8, h9, hrom⟩ := h
  obtain ⟨r1, _, r3, _⟩ := hrom
  have hR0 := pow2_pos (P.BASEBITS * P.NLEN)
  unfold FP_mod
  rcases hm with hm | hm
  · rw [hm]
    simp only []
    apply FP_mod_NS_spec P d hN (r1 hm) hpos hl hd hd0
    nlinarith
  · rw [hm]
    simp only []
    obtain ⟨hN2, hmc⟩ := r3 hm
    exact FP_mod_MF_spec P d hN2 hmc hl hd

theorem FP_mod_mers (P : Config) (d : DBIG) (h : WF P) (hm : ¬ isMont P) :
    (∃ k, BIG_val P (FP_mod P d) = DBIG_val P d - k * Modulus_val P) ∧
    (0 ≤ DBIG_val P d → 0 ≤ BIG_val P (FP_mod P d)) := by
  obtain ⟨hB, _, hN, _, h5, h6, h7, h8, h9, hrom⟩ := h
  obtain ⟨_, r2, _, r4⟩ := hrom
  unfold FP_mod
  unfold isMont at hm
  cases hT : P.MODTYPE with
  | NOT_SPECIAL => exact absurd (Or.inl hT) hm
  | MONTGOMERY_FRIENDLY => exact absurd (Or.inr hT) hm
  | PSEUDO_MERSENNE =>
    simp only []
    obtain ⟨hp, hc, h16⟩ := r2 hT
    exact FP_mod_PM_spec P d hB hN h5 h6 hp hc h16
  | GENERALISED_MERSENNE =>
    simp only []
    obtain ⟨hM, hp⟩ := r4 hT
    exact FP_mod_GM_spec P d hB hN h5 h6 hM hp

theorem nres_R_pos (P : Config) : 0 < nres_R P := by
  unfold nres_R
  cases P.MODTYPE <;> simp [pow2_pos]

theorem nres_R_mont (P : Config) (hm : isMont P) : nres_R P = pow2 (P.BASEBITS * P.NLEN) := by
  unfold nres_R
  rcases hm with hm | hm <;> rw [hm]

theorem nres_R_mers (P : Config) (hm : ¬ isMont P) : nres_R P = 1 := by
  unfold nres_R
  unfold isMont at hm
  cases hT : P.MODTYPE with
  | NOT_SPECIAL => exact absurd (Or.inl hT) hm
  | MONTGOMERY_FRIENDLY => exact absurd (Or.inr hT) hm
  | PSEUDO_MERSENNE => rfl
  | GENERALISED_MERSENNE => rfl

theorem isCoprime_pow2_of_radix (P : Config) (p : Int) (k : Nat)
    (h : IsCoprime (pow2 P.BASEBITS) p) : IsCoprime (pow2 (P.BASEBITS * k)) p := by
  have : pow2 (P.BASEBITS * k) = pow2 P.BASEBITS ^ k := by
    rw [pow2_eq, pow2_eq, pow_mul]
  rw [this]
  exact IsCoprime.pow_left h

theorem nres_R_coprime (P : Config) (h : WF P) : IsCoprime (nres_R P) (Modulus_val P) := by
  obtain ⟨hB, _, hN, _, h5, h6, h7, h8, h9, hrom⟩ := h
  obtain ⟨r1, _, r3, _⟩ := hrom
  unfold nres_R
  cases hT : P.MODTYPE with
  | NOT_SPECIAL =>
    simp only []
    apply isCoprime_pow2_of_radix
    obtain ⟨k, hk⟩ := Int.dvd_of_emod_eq_zero (r1 hT)
    exact ⟨k, -P.MConst, by linarith⟩
  | MONTGOMERY_FRIENDLY =>
    simp only []
    apply isCoprime_pow2_of_radix
    obtain ⟨hN2, hmc⟩ := r3 hT
    obtain ⟨m, hm⟩ : ∃ m, P.NLEN - 1 = m + 1 := ⟨P.NLEN - 2, by omega⟩
    refine ⟨P.MConst * pow2 (P.BASEBITS * m), -1, ?_⟩
    rw [hm, show P.BASEBITS * (m + 1) = P.BASEBITS * m + P.BASEBITS by ring, pow2_add] at hmc
    linear_combination -hmc
  | PSEUDO_MERSENNE => exact isCoprime_one_left
  | GENERALISED_MERSENNE => exact isCoprime_one_left

theorem modEq_cancel_R (P : Config) (h : WF P) (x y : Int)
    (hxy : x * nres_R P ≡ y * nres_R P [ZMOD Modulus_val P]) : x ≡ y [ZMOD Modulus_val P] := by
  have hd : Modulus_val P ∣ (y - x) * nres_R P := by
    have := (Int.modEq_iff_dvd).mp hxy
    rw [show (y - x) * nres_R P = y * nres_R P - x * nres_R P by ring]
    exact this
  have hc := (nres_R_coprime P h).symm
  exact (Int.modEq_iff_dvd).mpr (hc.dvd_of_dvd_mul_right hd)

theorem maskHigh_shr (x : Int) (k : Nat) : shr (maskHigh x k) k = x / pow2 k := by
  unfold shr maskHigh
  have h := Int.emod_add_ediv x (pow2 k)
  have e : x - x % pow2 k = pow2 k * (x / pow2 k) := by linarith
  rw [e, Int.mul_ediv_cancel_left _ (ne_of_gt (pow2_pos k))]

theorem EXCESS_eq (P : Config) (h : WF P) (a : BIG) (hn : BIG_norm P a = a) :
    EXCESS P a = BIG_val P a / pow2 P.MODBITS := by
  obtain ⟨hB, _, hN, _, h5, h6, _⟩ := h
  unfold EXCESS
  rw [maskHigh_shr]
  conv_lhs => rw [← hn]
  unfold BIG_norm
  exact limb_top_ediv P _ hB hN h5 h6

theorem FP_reduce_eq (P : Config) (a : BIG) (h0 : 0 ≤ BIG_val P a) :
    FP_reduce P a = toLimbs P P.NLEN (BIG_val P a % Modulus_val P) := by
  unfold FP_reduce BIG_mod
  rw [BIG_val_copy]
  by_cases hlt : BIG_val P a < BIG_val P P.Modulus
  · simp only [hlt, if_true, BIG_norm]
    unfold Modulus_val
    rw [Int.emod_eq_of_lt h0 hlt]
  · simp only [hlt, if_false]
    rfl

theorem FP_reduce_val (P : Config) (h : WF P) (a : BIG) (h0 : 0 ≤ BIG_val P a) :
    BIG_val P (FP_reduce P a) = BIG_val P a % Modulus_val P := by
  rw [FP_reduce_eq P a h0, BIG_val_toLimbs P _ h.2.2.1]

theorem FE_pow2 (P : Config) (h : WF P) :
    FEXCESS P * pow2 P.MODBITS = pow2 (P.BASEBITS * P.NLEN) := by
  obtain ⟨_, _, _, _, _, h6, _⟩ := h
  unfold FEXCESS
  rw [← pow2_add]; congr 1; omega

theorem lt_succ_ediv_mul (x m : Int) (hm : 0 < m) : x < (x / m + 1) * m := by
  have h1 := Int.emod_add_ediv x m
  have h2 := Int.emod_lt_of_pos x hm
  nlinarith

theorem BIG_mul_limbs (P : Config) (h : WF P) (x : Int) :
    (toLimbs P (2 * P.NLEN) x).length = 2 * P.NLEN ∧
    (∀ k, k < P.NLEN → 0 ≤ limb (toLimbs P (2 * P.NLEN) x) k ∧
      limb (toLimbs P (2 * P.NLEN) x) k < pow2 P.BASEBITS) ∧
    DBIG_val P (toLimbs P (2 * P.NLEN) x) = x := by
  have hN := h.2.2.1
  refine ⟨length_toLimbs _ _ _, fun k hk => toLimbs_limb_bounds P _ x k (by omega),
    DBIG_val_toLimbs P x hN⟩

theorem FP_mod_prod (P : Config) (h : WF P) (x : Int) (h0 : 0 ≤ x)
    (hb : isMont P → x < pow2 (P.BASEBITS * P.NLEN) * pow2 P.MODBITS) :
    Valid P (FP_mod P (toLimbs P (2 * P.NLEN) x)) ∧
    BIG_val P (FP_mod P (toLimbs P (2 * P.NLEN) x)) * nres_R P ≡ x [ZMOD Modulus_val P] := by
  obtain ⟨dl, dn, dv⟩ := BIG_mul_limbs P h x
  have hN := h.2.2.1
  have hR0 := pow2_pos (P.BASEBITS * P.NLEN)
  have hp := WF_pos P h
  have hp2 : Modulus_val P < pow2 P.MODBITS := h.2.2.2.2.2.2.2.2.1
  by_cases hm : isMont P
  · obtain ⟨q, q0, q1, hq⟩ := FP_mod_mont P _ h hm dl dn (by rw [dv]; exact h0)
      (by rw [dv]; exact hb hm)
    rw [dv] at hq
    rw [nres_R_mont P hm]
    refine ⟨⟨FP_mod_norm P _ hN, ?_, fun _ => ?_⟩, ?_⟩
    · by_contra hneg
      have : BIG_val P (FP_mod P (toLimbs P (2 * P.NLEN) x)) ≤ -1 := by omega
      have h2 : 0 ≤ q * Modulus_val P := by positivity
      nlinarith
    · have h1 := hb hm
      have h2 : q * Modulus_val P < pow2 (P.BASEBITS * P.NLEN) * pow2 P.MODBITS := by
        have a1 : q * Modulus_val P ≤ q * pow2 P.MODBITS :=
          mul_le_mul_of_nonneg_left (le_of_lt hp2) q0
        have a2 : q * pow2 P.MODBITS < pow2 (P.BASEBITS * P.NLEN) * pow2 P.MODBITS :=
          mul_lt_mul_of_pos_right q1 (pow2_pos _)
        linarith
      have h3 : pow2 (P.MODBITS + 1) = pow2 P.MODBITS * 2 := by
        rw [pow2_add]; simp [pow2]
      rw [h3]
      by_contra hge
      have h4 : pow2 P.MODBITS * 2 ≤ BIG_val P (FP_mod P (toLimbs P (2 * P.NLEN) x)) := by omega
      have h5 := mul_le_mul_of_nonneg_right h4 (le_of_lt hR0)
      linarith
    · rw [hq]
      exact (Int.modEq_iff_dvd).mpr ⟨-q, by ring⟩
  · obtain ⟨⟨k, hk⟩, hnn⟩ := FP_mod_mers P (toLimbs P (2 * P.NLEN) x) h hm
    rw [dv] at hk hnn
    rw [nres_R_mers P hm]
    refine ⟨⟨FP_mod_norm P _ hN, hnn h0, fun hc => absurd hc hm⟩, ?_⟩
    rw [hk, mul_one]
    exact (Int.modEq_iff_dvd).mpr ⟨k, by ring⟩

theorem Valid_of_InField (P : Config) (h : WF P) (x : BIG) (hx : InField P x) : Valid P x := by
  obtain ⟨h1, h2, h3⟩ := hx
  refine ⟨h1, h2, fun _ => ?_⟩
  have hp2 : Modulus_val P < pow2 P.MODBITS := h.2.2.2.2.2.2.2.2.1
  have := pow2_le_pow2 (show P.MODBITS ≤ P.MODBITS + 1 by omega)
  linarith

theorem InField_toLimbs_emod (P : Config) (h : WF P) (x : Int) :
    InField P (toLimbs P P.NLEN (x % Modulus_val P)) := by
  have hp := WF_pos P h
  have hN := h.2.2.1
  refine ⟨BIG_norm_toLimbs P _ hN, ?_, ?_⟩
  · rw [BIG_val_toLimbs P _ hN]; exact Int.emod_nonneg _ (ne_of_gt hp)
  · rw [BIG_val_toLimbs P _ hN]; exact Int.emod_lt_of_pos _ hp

theorem prod_bound (a b ea eb F m : Int) (ha0 : 0 ≤ a) (_hb0 : 0 ≤ b) (hm : 0 < m)
    (_hea : 0 ≤ ea) (heb : 0 ≤ eb)
    (ha : a < (ea + 1) * m) (hb : b < (eb + 1) * m) (hF : (ea + 1) * (eb + 1) ≤ F - 1) :
    a * b < F * m * m := by
  have h1 : a * b ≤ a * ((eb + 1) * m) := mul_le_mul_of_nonneg_left (le_of_lt hb) ha0
  have h2 : a * ((eb + 1) * m) ≤ ((ea + 1) * m) * ((eb + 1) * m) :=
    mul_le_mul_of_nonneg_right (le_of_lt ha) (by positivity)
  have h3 : ((ea + 1) * (eb + 1)) * (m * m) ≤ (F - 1) * (m * m) :=
    mul_le_mul_of_nonneg_right hF (by positivity)
  have h4 : 0 < m * m := by positivity
  nlinarith

theorem excess_test (P : Config) (ea eb : Int) (_hea : 0 ≤ ea) (heb : 0 ≤ eb)
    (hF : 1 ≤ FEXCESS P)
    (hc : ¬ (ea + 1 ≥ Int.tdiv (FEXCESS P - 1) (eb + 1))) :
    (ea + 1) * (eb + 1) ≤ FEXCESS P - 1 := by
  rw [Int.tdiv_eq_ediv (by linarith) (by linarith)] at hc
  have h1 : ea + 1 + 1 ≤ (FEXCESS P - 1) / (eb + 1) := by omega
  have h2 := (Int.le_ediv_iff_mul_le (show 0 < eb + 1 by linarith)).mp h1
  nlinarith

theorem FEXCESS_ge_one (P : Config) : 1 ≤ FEXCESS P := by
  unfold FEXCESS
  have := pow2_pos (P.BASEBITS * P.NLEN - P.MODBITS)
  omega

theorem Valid_excess (P : Config) (h : WF P) (a : BIG) (ha : Valid P a) :
    0 ≤ EXCESS P a ∧ BIG_val P a < (EXCESS P a + 1) * pow2 P.MODBITS := by
  rw [EXCESS_eq P h a ha.1]
  exact ⟨Int.ediv_nonneg ha.2.1 (le_of_lt (pow2_pos _)), lt_succ_ediv_mul _ _ (pow2_pos _)⟩

theorem FP_mul_spec (P : Config) (h : WF P) (a b : BIG) (ha : Valid P a) (hb : Valid P b) :
    Valid P (FP_mul P a b) ∧
    BIG_val P (FP_mul P a b) * nres_R P ≡ BIG_val P a * BIG_val P b [ZMOD Modulus_val P] := by
  have hN := h.2.2.1
  have hp := WF_pos P h
  have hp2 : Modulus_val P < pow2 P.MODBITS := h.2.2.2.2.2.2.2.2.1
  have hRb := WF_R_bound P h
  have hMpos := pow2_pos P.MODBITS
  obtain ⟨ea0, ea1⟩ := Valid_excess P h a ha
  obtain ⟨eb0, eb1⟩ := Valid_excess P h b hb
  unfold FP_mul FP_mul_state
  simp only [BIG_mul]
  rw [hb.1]
  by_cases hc : EXCESS P a + 1 ≥ Int.tdiv (FEXCESS P - 1) (EXCESS P b + 1)
  · simp only [hc, if_true]
    rw [FP_reduce_val P h a ha.2.1]
    have a0 := Int.emod_nonneg (BIG_val P a) (ne_of_gt hp)
    have a1 := Int.emod_lt_of_pos (BIG_val P a) hp
    obtain ⟨v, m⟩ := FP_mod_prod P h (BIG_val P a % Modulus_val P * BIG_val P b)
      (mul_nonneg a0 hb.2.1) (fun hm => by
        have b1 := hb.2.2 hm
        have e : pow2 (P.MODBITS + 1) = pow2 P.MODBITS * 2 := by
          rw [pow2_add]; simp [pow2]
        rw [e] at b1
        have c1 : BIG_val P a % Modulus_val P * BIG_val P b
            ≤ pow2 P.MODBITS * BIG_val P b :=
          mul_le_mul_of_nonneg_right (by linarith) hb.2.1
        have c2 : pow2 P.MODBITS * BIG_val P b < pow2 P.MODBITS * (pow2 P.MODBITS * 2) :=
          mul_lt_mul_of_pos_left b1 hMpos
        have c3 : pow2 P.MODBITS * (pow2 P.MODBITS * 2)
            ≤ pow2 P.MODBITS * pow2 (P.BASEBITS * P.NLEN) :=
          mul_le_mul_of_nonneg_left hRb (le_of_lt hMpos)
        linarith)
    refine ⟨v, m.trans ?_⟩
    exact Int.ModEq.mul_right _ (Int.mod_modEq _ _)
  · simp only [hc, if_false]
    rw [ha.1]
    have hF := excess_test P _ _ ea0 eb0 (FEXCESS_ge_one P) hc
    have hb2 := prod_bound _ _ _ _ _ _ ha.2.1 hb.2.1 hMpos ea0 eb0 ea1 eb1 hF
    rw [FE_pow2 P h] at hb2
    exact FP_mod_prod P h (BIG_val P a * BIG_val P b) (mul_nonneg ha.2.1 hb.2.1) (fun _ => hb2)

theorem FP_mul_state_b (P : Config) (a b : BIG) :
    (FP_mul_state P a b).2.2 = BIG_norm P b := rfl

theorem FP_sqr_spec (P : Config) (h : WF P) (a : BIG) (ha : Valid P a) :
    Valid P (FP_sqr P a) ∧
    BIG_val P (FP_sqr P a) * nres_R P ≡ BIG_val P a * BIG_val P a [ZMOD Modulus_val P] := by
  have hN := h.2.2.1
  have hp := WF_pos P h
  have hp2 : Modulus_val P < pow2 P.MODBITS := h.2.2.2.2.2.2.2.2.1
  have hRb := WF_R_bound P h
  have hMpos := pow2_pos P.MODBITS
  obtain ⟨ea0, ea1⟩ := Valid_excess P h a ha
  unfold FP_sqr FP_sqr_state
  simp only [BIG_sqr]
  by_cases hc : EXCESS P a + 1 ≥ Int.tdiv (FEXCESS P - 1) (EXCESS P a + 1)
  · simp only [hc, if_true]
    rw [FP_reduce_val P h a ha.2.1]
    have a0 := Int.emod_nonneg (BIG_val P a) (ne_of_gt hp)
    have a1 := Int.emod_lt_of_pos (BIG_val P a) hp
    obtain ⟨v, m⟩ := FP_mod_prod P h (BIG_val P a % Modulus_val P * (BIG_val P a % Modulus_val P))
      (mul_nonneg a0 a0) (fun hm => by
        have c1 : BIG_val P a % Modulus_val P * (BIG_val P a % Modulus_val P)
            ≤ pow2 P.MODBITS * (BIG_val P a % Modulus_val P) :=
          mul_le_mul_of_nonneg_right (by linarith) a0
        have c2 : pow2 P.MODBITS * (BIG_val P a % Modulus_val P)
            < pow2 P.MODBITS * pow2 P.MODBITS :=
          mul_lt_mul_of_pos_left (by linarith) hMpos
        have c3 : pow2 P.MODBITS * pow2 P.MODBITS
            ≤ pow2 P.MODBITS * pow2 (P.BASEBITS * P.NLEN) :=
          mul_le_mul_of_nonneg_left (by linarith) (le_of_lt hMpos)
        linarith)
    refine ⟨v, m.trans ?_⟩
    exact Int.ModEq.mul (Int.mod_modEq _ _) (Int.mod_modEq _ _)
  · simp only [hc, if_false]
    rw [ha.1]
    have hF := excess_test P _ _ ea0 ea0 (FEXCESS_ge_one P) hc
    have hb2 := prod_bound _ _ _ _ _ _ ha.2.1 ha.2.1 hMpos ea0 ea0 ea1 ea1 hF
    rw [FE_pow2 P h] at hb2
    exact FP_mod_prod P h (BIG_val P a * BIG_val P a) (mul_nonneg ha.2.1 ha.2.1) (fun _ => hb2)

theorem BIG_copy_eq (P : Config) (a : BIG) (hl : a.length = P.NLEN) : BIG_copy P a = a := by
  unfold BIG_copy
  rw [← hl]
  exact mkLimbs_limb a

theorem length_of_norm (P : Config) (a : BIG) (hn : BIG_norm P a = a) : a.length = P.NLEN := by
  rw [← hn]
  exact length_toLimbs _ _ _

theorem WF_R_gt (P : Config) (h : WF P) : Modulus_val P < pow2 (P.BASEBITS * P.NLEN) := by
  have hp2 : Modulus_val P < pow2 P.MODBITS := h.2.2.2.2.2.2.2.2.1
  have := WF_R_bound P h
  have := pow2_pos P.MODBITS
  linarith

theorem BIG_dmod_eq (P : Config) (d : DBIG) (c : BIG) (hN : 0 < P.NLEN)
    (hd : 0 ≤ DBIG_val P d) (hc1 : BIG_val P c ≤ pow2 (P.BASEBITS * P.NLEN)) :
    BIG_dmod P d c = toLimbs P P.NLEN (DBIG_val P d % BIG_val P c) := by
  unfold BIG_dmod
  by_cases hlt : DBIG_val P d < BIG_val P c
  · simp only [hlt, if_true]
    rw [Int.emod_eq_of_lt hd hlt]
    unfold toLimbs
    apply mkLimbs_congr
    intro i hi
    rw [limb_mkLimbs]
    have h1 : i < 2 * P.NLEN := by omega
    have h2 : i + 1 < 2 * P.NLEN := by omega
    simp only [h1, h2, if_true]
    by_cases h3 : i + 1 < P.NLEN
    · simp only [h3, if_true]
    · simp only [h3, if_false, maskLow, shr]
      have hin : i = P.NLEN - 1 := by omega
      have hp := pow2_pos (P.BASEBITS * i)
      apply Int.emod_eq_of_lt (Int.ediv_nonneg hd (le_of_lt hp))
      apply Int.ediv_lt_of_lt_mul hp
      rw [← pow2_add]
      have : P.BASEBITS + P.BASEBITS * i = P.BASEBITS * P.NLEN := by
        have := mul_pred_add P.BASEBITS P.NLEN hN
        rw [hin]; omega
      rw [this]
      linarith
  · simp only [hlt, if_false]

theorem FP_nres_mont (P : Config) (h : WF P) (hm : isMont P) (a : BIG)
    (h0 : 0 ≤ BIG_val P a) :
    FP_nres P a = toLimbs P P.NLEN ((BIG_val P a * nres_R P) % Modulus_val P) := by
  have hN := h.2.2.1
  have hR := WF_R_gt P h
  have e : FP_nres P a
      = BIG_dmod P (BIG_dshl P (BIG_dscopy P a) (P.NLEN * P.BASEBITS)) (BIG_copy P P.Modulus) := by
    unfold FP_nres
    rcases hm with hm | hm <;> rw [hm]
  rw [e, nres_R_mont P hm]
  have hv : DBIG_val P (BIG_dshl P (BIG_dscopy P a) (P.NLEN * P.BASEBITS))
      = BIG_val P a * pow2 (P.BASEBITS * P.NLEN) := by
    unfold BIG_dshl
    rw [DBIG_val_toLimbs P _ hN, DBIG_val_dscopy, shl, Nat.mul_comm]
  rw [BIG_dmod_eq P _ _ hN (by rw [hv]; have := pow2_pos (P.BASEBITS * P.NLEN); positivity)
    (by rw [BIG_val_copy]; exact le_of_lt hR), hv, BIG_val_copy]
  rfl

theorem FP_nres_mers (P : Config) (hm : ¬ isMont P) (a : BIG) : FP_nres P a = a := by
  unfold FP_nres
  unfold isMont at hm
  cases hT : P.MODTYPE with
  | NOT_SPECIAL => exact absurd (Or.inl hT) hm
  | MONTGOMERY_FRIENDLY => exact absurd (Or.inr hT) hm
  | PSEUDO_MERSENNE => rfl
  | GENERALISED_MERSENNE => rfl

theorem FP_redc_mers (P : Config) (hm : ¬ isMont P) (a : BIG) : FP_redc P a = a := by
  unfold FP_redc
  unfold isMont at hm
  cases hT : P.MODTYPE with
  | NOT_SPECIAL => exact absurd (Or.inl hT) hm
  | MONTGOMERY_FRIENDLY => exact absurd (Or.inr hT) hm
  | PSEUDO_MERSENNE => rfl
  | GENERALISED_MERSENNE => rfl

theorem FP_nres_spec (P : Config) (h : WF P) (a : BIG) (ha : InField P a) :
    InField P (FP_nres P a) ∧
    BIG_val P (FP_nres P a) = (BIG_val P a * nres_R P) % Modulus_val P := by
  have hN := h.2.2.1
  by_cases hm : isMont P
  · rw [FP_nres_mont P h hm a ha.2.1]
    exact ⟨InField_toLimbs_emod P h _, BIG_val_toLimbs P _ hN⟩
  · rw [FP_nres_mers P hm, nres_R_mers P hm, mul_one, Int.emod_eq_of_lt ha.2.1 ha.2.2]
    exact ⟨ha, rfl⟩

theorem dscopy_limbs (P : Config) (x : BIG) (hn : BIG_norm P x = x) (h0 : 0 ≤ BIG_val P x)
    (h1 : BIG_val P x < pow2 (P.BASEBITS * P.NLEN)) :
    (BIG_dscopy P x).length = 2 * P.NLEN ∧
    (∀ k, k < P.NLEN → 0 ≤ limb (BIG_dscopy P x) k ∧ limb (BIG_dscopy P x) k < pow2 P.BASEBITS) := by
  refine ⟨by simp [BIG_dscopy, length_mkLimbs], ?_⟩
  intro k hk
  unfold BIG_dscopy
  rw [limb_mkLimbs]
  have : k < 2 * P.NLEN := by omega
  simp only [this, hk, if_true]
  rw [← hn]
  unfold BIG_norm
  exact toLimbs_all_bounds P P.NLEN _ h0 h1 k hk

theorem FP_redc_mont (P : Config) (h : WF P) (hm : isMont P) (x : BIG)
    (hn : BIG_norm P x = x) (h0 : 0 ≤ BIG_val P x)
    (h1 : BIG_val P x < pow2 (P.BASEBITS * P.NLEN)) :
    BIG_norm P (FP_redc P x) = FP_redc P x ∧
    ∃ q, 0 ≤ q ∧ q < pow2 (P.BASEBITS * P.NLEN) ∧
      BIG_val P (FP_redc P x) * pow2 (P.BASEBITS * P.NLEN) = BIG_val P x + q * Modulus_val P := by
  have hN := h.2.2.1
  have e : FP_redc P x = FP_mod P (BIG_dscopy P x) := by
    unfold FP_redc
    rcases hm with hm | hm <;> rw [hm]
  rw [e]
  obtain ⟨dl, dn⟩ := dscopy_limbs P x hn h0 h1
  refine ⟨FP_mod_norm P _ hN, ?_⟩
  have := FP_mod_mont P (BIG_dscopy P x) h hm dl dn (by rw [DBIG_val_dscopy]; exact h0)
    (by
      rw [DBIG_val_dscopy]
      have a1 := pow2_pos (P.BASEBITS * P.NLEN)
      have a2 : 1 ≤ pow2 P.MODBITS := by have := pow2_pos P.MODBITS; omega
      nlinarith)
  rw [DBIG_val_dscopy] at this
  exact this

theorem eq_of_modEq_of_range (p x y : Int) (hx0 : 0 ≤ x) (hx1 : x < p) (hy0 : 0 ≤ y)
    (hy1 : y < p) (h : x ≡ y [ZMOD p]) : x = y := by
  have h1 : x % p = y % p := h
  rw [Int.emod_eq_of_lt hx0 hx1, Int.emod_eq_of_lt hy0 hy1] at h1
  exact h1

theorem FP_redc_exact (P : Config) (h : WF P) (x : BIG) (hx : InField P x) (u : Int)
    (hu0 : 0 ≤ u) (hu1 : u < Modulus_val P)
    (hxu : BIG_val P x ≡ u * nres_R P [ZMOD Modulus_val P]) :
    FP_redc P x = toLimbs P P.NLEN u := by
  have hN := h.2.2.1
  have hp := WF_pos P h
  by_cases hm : isMont P
  · have hRgt := WF_R_gt P h
    have hR0 := pow2_pos (P.BASEBITS * P.NLEN)
    obtain ⟨hn, q, q0, q1, hq⟩ := FP_redc_mont P h hm x hx.1 hx.2.1 (by linarith [hx.2.2])
    rw [← hn]
    unfold BIG_norm
    congr 1
    have r0 : 0 ≤ BIG_val P (FP_redc P x) := by
      by_contra hneg
      have : BIG_val P (FP_redc P x) ≤ -1 := by omega
      have h2 : 0 ≤ q * Modulus_val P := by positivity
      have h3 := hx.2.1
      nlinarith
    have r1 : BIG_val P (FP_redc P x) < Modulus_val P := by
      by_contra hge
      have h2 : Modulus_val P ≤ BIG_val P (FP_redc P x) := by omega
      have h3 := mul_le_mul_of_nonneg_right h2 (le_of_lt hR0)
      have h4 : q * Modulus_val P ≤ (pow2 (P.BASEBITS * P.NLEN) - 1) * Modulus_val P :=
        mul_le_mul_of_nonneg_right (by omega) (le_of_lt hp)
      have h5 := hx.2.2
      nlinarith
    apply eq_of_modEq_of_range _ _ _ r0 r1 hu0 hu1
    apply modEq_cancel_R P h
    rw [nres_R_mont P hm, hq]
    rw [nres_R_mont P hm] at hxu
    refine Int.ModEq.trans ?_ hxu
    exact (Int.modEq_iff_dvd).mpr ⟨-q, by ring⟩
  · rw [FP_redc_mers P hm]
    rw [nres_R_mers P hm, mul_one] at hxu
    have := eq_of_modEq_of_range _ _ _ hx.2.1 hx.2.2 hu0 hu1 hxu
    rw [← this, ← hx.1]
    unfold BIG_norm
    rw [BIG_val_toLimbs P _ hN]

theorem FP_nres_redc_id (P : Config) (h : WF P) (a : BIG) (ha : InField P a) :
    FP_redc P (FP_nres P a) = a := by
  obtain ⟨hf, hv⟩ := FP_nres_spec P h a ha
  rw [FP_redc_exact P h (FP_nres P a) hf (BIG_val P a) ha.2.1 ha.2.2
    (by rw [hv]; exact Int.mod_modEq _ _)]
  exact ha.1

/-- C1: for every normalised BIG `a` with `0 <= a < Modulus`, `FP_redc` applied to
`FP_nres(a)` returns exactly `a`, limb for limb, under each of the four modulus types. -/
theorem FP_redc_nres (P : Config) (h : WF P) (a : BIG) (ha : InField P a) :
    FP_redc P (FP_nres P a) = a := by
  obtain ⟨hf, hv⟩ := FP_nres_spec P h a ha
  rw [FP_redc_exact P h (FP_nres P a) hf (BIG_val P a) ha.2.1 ha.2.2
    (by rw [hv]; exact Int.mod_modEq _ _)]
  have := ha.1
  unfold BIG_norm at this
  exact this

theorem BIG_comp_from_self (a : BIG) (n : Nat) : BIG_comp_from a a n = 0 := by
  induction n with
  | zero => rfl
  | succ n ih => simp [BIG_comp_from, ih]

theorem BIG_comp_from_eq_zero (a b : BIG) (n : Nat) (h : BIG_comp_from a b n = 0) :
    ∀ i, i < n → limb a i = limb b i := by
  induction n with
  | zero => intro i hi; omega
  | succ n ih =>
    intro i hi
    simp only [BIG_comp_from] at h
    by_cases he : limb a n = limb b n
    · simp only [he, if_true] at h
      by_cases hin : i = n
      · rw [hin]; exact he
      · exact ih h i (by omega)
    · simp only [he, if_false] at h
      by_cases hg : limb a n > limb b n
      · simp [hg] at h
      · simp [hg] at h

theorem FP_equals_of_modEq (P : Config) (x y : BIG) (hx : 0 ≤ BIG_val P x)
    (hy : 0 ≤ BIG_val P y) (hxy : BIG_val P x ≡ BIG_val P y [ZMOD Modulus_val P]) :
    FP_equals P x y = 1 := by
  unfold FP_equals
  rw [FP_reduce_eq P x hx, FP_reduce_eq P y hy]
  have : BIG_val P x % Modulus_val P = BIG_val P y % Modulus_val P := hxy
  rw [this]
  simp [BIG_comp, BIG_comp_from_self]

theorem limb_toLimbs_zero (P : Config) (n i : Nat) : limb (toLimbs P n 0) i = 0 := by
  rw [limb_toLimbs]
  by_cases h1 : i < n
  · by_cases h2 : i + 1 < n
    · simp [h1, h2]
    · simp [h1, h2]
  · simp [h1]

theorem FP_iszilch_of_dvd (P : Config) (x : BIG) (hx : 0 ≤ BIG_val P x)
    (hd : BIG_val P x % Modulus_val P = 0) : FP_iszilch P x = 1 := by
  have e : FP_iszilch P x = BIG_iszilch P (FP_reduce P x) := rfl
  rw [e, FP_reduce_eq P x hx, hd]
  unfold BIG_iszilch
  have : (List.range P.NLEN).all (fun i => decide (limb (toLimbs P P.NLEN 0) i = 0)) = true := by
    rw [List.all_eq_true]
    intro i _
    simp [limb_toLimbs_zero]
  simp [this]

theorem BIG_one_val (P : Config) (hN : 0 < P.NLEN) : BIG_val P (BIG_one P) = 1 := by
  unfold BIG_val BIG_one
  obtain ⟨m, hm⟩ : ∃ m, P.NLEN = m + 1 := ⟨P.NLEN - 1, by omega⟩
  rw [hm]
  have h := valN_shift P (mkLimbs (m + 1) (fun i => if i = 0 then (1 : Int) else 0)) 1 m
  rw [show 1 + m = m + 1 by omega] at h
  rw [h]
  have e2 : valN P (mkLimbs m (fun i =>
      limb (mkLimbs (m + 1) (fun i => if i = 0 then (1 : Int) else 0)) (1 + i))) m = 0 := by
    apply valN_zero_of_limbs
    intro k hk
    rw [limb_mkLimbs, limb_mkLimbs]
    have h1 : 1 + k < m + 1 := by omega
    have h2 : ¬ (1 + k = 0) := by omega
    simp [hk, h1, h2]
  rw [e2]
  simp [valN, limb_mkLimbs, pow2_zero]

theorem BIG_one_norm (P : Config) (hB : 0 < P.BASEBITS) (hN : 0 < P.NLEN) :
    BIG_norm P (BIG_one P) = BIG_one P := by
  unfold BIG_norm BIG_val
  apply toLimbs_valN P P.NLEN (BIG_one P) (by simp [BIG_one, length_mkLimbs])
  intro i hi
  unfold BIG_one
  rw [limb_mkLimbs]
  have h1 : i < P.NLEN := by omega
  have hp : (2 : Int) ≤ pow2 P.BASEBITS := by
    have := pow2_le_pow2 (show 1 ≤ P.BASEBITS by omega)
    simpa [pow2] using this
  by_cases h0 : i = 0
  · simp only [h1, h0, if_true]
    constructor <;> omega
  · simp only [h1, h0, if_true, if_false]
    constructor <;> omega

theorem FP_one_spec (P : Config) (h : WF P) :
    Valid P (FP_one P) ∧ BIG_val P (FP_one P) ≡ 1 * nres_R P [ZMOD Modulus_val P] := by
  have hN := h.2.2.1
  have hB := h.1
  unfold FP_one
  by_cases hm : isMont P
  · rw [FP_nres_mont P h hm _ (by rw [BIG_one_val P hN]; norm_num), BIG_one_val P hN]
    refine ⟨Valid_of_InField P h _ (InField_toLimbs_emod P h _), ?_⟩
    rw [BIG_val_toLimbs P _ hN]
    exact Int.mod_modEq _ _
  · rw [FP_nres_mers P hm, nres_R_mers P hm, BIG_one_val P hN]
    exact ⟨⟨BIG_one_norm P hB hN, by rw [BIG_one_val P hN]; norm_num, fun hc => absurd hc hm⟩,
      Int.ModEq.refl _⟩

/-- C3: for normalised non-negative `a` and `b` whose excess is below `FEXCESS`,
`FP_reduce` applied to the output of `FP_add(r,a,b)` is the normalised BIG of
`(a + b) mod Modulus`. -/
theorem FP_reduce_add (P : Config) (h : WF P) (a b : BIG)
    (ha : BIG_norm P a = a ∧ 0 ≤ BIG_val P a ∧ EXCESS P a < FEXCESS P)
    (hb : BIG_norm P b = b ∧ 0 ≤ BIG_val P b ∧ EXCESS P b < FEXCESS P) :
    FP_reduce P (FP_add P a b)
      = toLimbs P P.NLEN ((BIG_val P a + BIG_val P b) % Modulus_val P) := by
  have hN := h.2.2.1
  have hs : 0 ≤ BIG_val P (BIG_add P a b) := by
    rw [BIG_val_add]; linarith [ha.2.1, hb.2.1]
  unfold FP_add
  simp only []
  by_cases hc : EXCESS P (BIG_add P a b) + 2 ≥ FEXCESS P
  · simp only [hc, if_true]
    rw [FP_reduce_eq P _ hs, BIG_val_add]
    rw [FP_reduce_eq P _ (by
      rw [BIG_val_toLimbs P _ hN]
      exact Int.emod_nonneg _ (ne_of_gt (WF_pos P h)))]
    rw [BIG_val_toLimbs P _ hN, Int.emod_emod_of_dvd _ (dvd_refl _)]
  · simp only [hc, if_false]
    rw [FP_reduce_eq P _ hs, BIG_val_add]

/-- C7: `FP_add(r,a,b)` and `FP_add(r,b,a)` give the same BIG, limb for limb, for all BIGs
`a` and `b`, whether or not the forced reduction is taken. -/
theorem FP_add_comm (P : Config) (a b : BIG) : FP_add P a b = FP_add P b a := by
  have e : BIG_add P a b = BIG_add P b a := by
    unfold BIG_add
    apply mkLimbs_congr
    intro i _
    ring
  unfold FP_add
  rw [e]

/-- C8: for in-field `a`, `b`, `c` the two bracketings of the product are equal field
elements: `FP_equals` returns 1 on `FP_mul(a, FP_mul(b,c))` and `FP_mul(FP_mul(a,b), c)`. -/
theorem FP_mul_assoc (P : Config) (h : WF P) (a b c : BIG)
    (ha : InField P a) (hb : InField P b) (hc : InField P c) :
    FP_equals P (FP_mul P a (FP_mul P b c)) (FP_mul P (FP_mul P a b) c) = 1 := by
  have va := Valid_of_InField P h a ha
  have vb := Valid_of_InField P h b hb
  have vc := Valid_of_InField P h c hc
  obtain ⟨v1, m1⟩ := FP_mul_spec P h b c vb vc
  obtain ⟨v2, m2⟩ := FP_mul_spec P h a _ va v1
  obtain ⟨v3, m3⟩ := FP_mul_spec P h a b va vb
  obtain ⟨v4, m4⟩ := FP_mul_spec P h _ c v3 vc
  apply FP_equals_of_modEq P _ _ v2.2.1 v4.2.1
  apply modEq_cancel_R P h
  apply modEq_cancel_R P h
  have e1 : BIG_val P (FP_mul P a (FP_mul P b c)) * nres_R P * nres_R P
      ≡ BIG_val P a * (BIG_val P b * BIG_val P c) [ZMOD Modulus_val P] :=
    ((m2.mul_right _).trans (by
      rw [mul_assoc]
      exact Int.ModEq.mul_left _ m1))
  have e2 : BIG_val P (FP_mul P (FP_mul P a b) c) * nres_R P * nres_R P
      ≡ BIG_val P a * (BIG_val P b * BIG_val P c) [ZMOD Modulus_val P] :=
    ((m4.mul_right _).trans (by
      rw [show BIG_val P (FP_mul P a b) * BIG_val P c * nres_R P
          = BIG_val P (FP_mul P a b) * nres_R P * BIG_val P c by ring,
        show BIG_val P a * (BIG_val P b * BIG_val P c)
          = BIG_val P a * BIG_val P b * BIG_val P c by ring]
      exact Int.ModEq.mul_right _ m3))
  exact e1.trans e2.symm

/-- C9: for every normalised non-negative `a` whose excess is below `FEXCESS`,
`FP_add(r, a, FP_neg(a))` reduces to zero: `FP_iszilch(r)` returns 1. -/
theorem FP_add_neg_iszilch (P : Config) (h : WF P) (a : BIG)
    (ha : BIG_norm P a = a ∧ 0 ≤ BIG_val P a ∧ EXCESS P a < FEXCESS P) :
    FP_iszilch P (FP_add P a (FP_neg P a)) = 1 := by
  have hN := h.2.2.1
  have hp := WF_pos P h
  -- the value of the negation, plus `a`, is a non-negative multiple of the modulus
  have key : ∃ k, 0 ≤ k ∧ BIG_val P a + BIG_val P (FP_neg P a) = k * Modulus_val P := by
    unfold FP_neg
    simp only []
    rw [ha.1]
    generalize FP_neg_sb P.CHUNK (EXCESS P a) 1 = sb
    have hsub : BIG_val P (BIG_sub P (BIG_fshl P (BIG_copy P P.Modulus) sb) a)
        = Modulus_val P * pow2 sb - BIG_val P a := by
      rw [BIG_val_sub]
      unfold BIG_fshl
      rw [BIG_val_toLimbs P _ hN, BIG_val_copy]
      rfl
    by_cases hc : EXCESS P (BIG_sub P (BIG_fshl P (BIG_copy P P.Modulus) sb) a) ≥ FEXCESS P
    · simp only [hc, if_true]
      unfold FP_reduce BIG_mod
      rw [BIG_val_copy]
      by_cases hlt : BIG_val P (BIG_sub P (BIG_fshl P (BIG_copy P P.Modulus) sb) a)
          < BIG_val P P.Modulus
      · simp only [hlt, if_true]
        rw [BIG_val_norm P _ hN, hsub]
        exact ⟨pow2 sb, le_of_lt (pow2_pos sb), by ring⟩
      · simp only [hlt, if_false]
        rw [BIG_val_toLimbs P _ hN, hsub]
        have hd := Int.emod_add_ediv (Modulus_val P * pow2 sb - BIG_val P a) (Modulus_val P)
        have h0 := Int.emod_nonneg (Modulus_val P * pow2 sb - BIG_val P a) (ne_of_gt hp)
        refine ⟨pow2 sb - (Modulus_val P * pow2 sb - BIG_val P a) / Modulus_val P, ?_, ?_⟩
        · have hq : (Modulus_val P * pow2 sb - BIG_val P a) / Modulus_val P ≤ pow2 sb := by
            calc (Modulus_val P * pow2 sb - BIG_val P a) / Modulus_val P
                ≤ (Modulus_val P * pow2 sb) / Modulus_val P :=
                  Int.ediv_le_ediv hp (by linarith [ha.2.1])
              _ = pow2 sb := Int.mul_ediv_cancel_left _ (ne_of_gt hp)
          linarith
        · change BIG_val P a + (Modulus_val P * pow2 sb - BIG_val P a) % Modulus_val P = _
          linear_combination hd
    · simp only [hc, if_false]
      rw [hsub]
      exact ⟨pow2 sb, le_of_lt (pow2_pos sb), by ring⟩
  obtain ⟨k, hk0, hk⟩ := key
  have hsum : BIG_val P (BIG_add P a (FP_neg P a)) = k * Modulus_val P := by
    rw [BIG_val_add]; exact hk
  have hs0 : 0 ≤ BIG_val P (BIG_add P a (FP_neg P a)) := by
    rw [hsum]; positivity
  unfold FP_add
  simp only []
  by_cases hc : EXCESS P (BIG_add P a (FP_neg P a)) + 2 ≥ FEXCESS P
  · simp only [hc, if_true]
    apply FP_iszilch_of_dvd P
    · rw [FP_reduce_val P h _ hs0]; exact Int.emod_nonneg _ (ne_of_gt hp)
    · rw [FP_reduce_val P h _ hs0, hsum]; simp
  · simp only [hc, if_false]
    apply FP_iszilch_of_dvd P _ hs0
    rw [hsum]; simp

theorem BIG_zero_eq (P : Config) : BIG_zero P = toLimbs P P.NLEN 0 := by
  unfold BIG_zero toLimbs
  apply mkLimbs_congr
  intro i _
  by_cases h : i + 1 < P.NLEN
  · simp [h, maskLow, shr]
  · simp [h, shr]

theorem BIG_comp_zero_iff (P : Config) (hN : 0 < P.NLEN) (v : Int) :
    BIG_comp P (toLimbs P P.NLEN v) (BIG_zero P) = 0 ↔ v = 0 := by
  constructor
  · intro h
    have hl := BIG_comp_from_eq_zero _ _ _ h
    have e : valN P (toLimbs P P.NLEN v) P.NLEN = valN P (BIG_zero P) P.NLEN :=
      valN_congr P _ _ _ hl
    rw [valN_toLimbs P _ _ hN, BIG_zero_eq, valN_toLimbs P _ _ hN] at e
    exact e
  · intro h
    rw [h, BIG_zero_eq]
    exact BIG_comp_from_self _ _

theorem BIG_parity_toLimbs (P : Config) (hB : 0 < P.BASEBITS) (hN : 0 < P.NLEN) (v : Int) :
    BIG_parity (toLimbs P P.NLEN v) = v % 2 := by
  unfold BIG_parity
  rw [limb_toLimbs]
  simp only [hN, if_true, Nat.mul_zero, pow2_zero, Int.ediv_one]
  by_cases h : 0 + 1 < P.NLEN
  · simp only [h, if_true]
    apply Int.emod_emod_of_dvd
    obtain ⟨m, hm⟩ : ∃ m, P.BASEBITS = m + 1 := ⟨P.BASEBITS - 1, by omega⟩
    rw [hm, pow2_add]
    exact ⟨pow2 m, by simp [pow2]; ring⟩
  · simp only [h, if_false]

theorem rep_mul (P : Config) (h : WF P) (a b : BIG) (x y : Int) (ha : Valid P a)
    (hb : Valid P b)
    (hx : BIG_val P a ≡ x * nres_R P [ZMOD Modulus_val P])
    (hy : BIG_val P b ≡ y * nres_R P [ZMOD Modulus_val P]) :
    Valid P (FP_mul P a b) ∧
    BIG_val P (FP_mul P a b) ≡ x * y * nres_R P [ZMOD Modulus_val P] := by
  obtain ⟨v, m⟩ := FP_mul_spec P h a b ha hb
  refine ⟨v, modEq_cancel_R P h _ _ (m.trans ?_)⟩
  rw [show x * y * nres_R P * nres_R P = (x * nres_R P) * (y * nres_R P) by ring]
  exact Int.ModEq.mul hx hy

theorem rep_sqr (P : Config) (h : WF P) (a : BIG) (x : Int) (ha : Valid P a)
    (hx : BIG_val P a ≡ x * nres_R P [ZMOD Modulus_val P]) :
    Valid P (FP_sqr P a) ∧
    BIG_val P (FP_sqr P a) ≡ x * x * nres_R P [ZMOD Modulus_val P] := by
  obtain ⟨v, m⟩ := FP_sqr_spec P h a ha
  refine ⟨v, modEq_cancel_R P h _ _ (m.trans ?_)⟩
  rw [show x * x * nres_R P * nres_R P = (x * nres_R P) * (x * nres_R P) by ring]
  exact Int.ModEq.mul hx hx

theorem FP_pow_loop_spec (P : Config) (h : WF P) (fuel : Nat) :
    ∀ (r w : BIG) (v x y : Int), Valid P r → Valid P w →
      BIG_val P r ≡ x * nres_R P [ZMOD Modulus_val P] →
      BIG_val P w ≡ y * nres_R P [ZMOD Modulus_val P] →
      0 ≤ v → v < pow2 fuel →
      ∃ r1, FP_pow_loop P (fuel + 1) r w (toLimbs P P.NLEN v) = some r1 ∧ Valid P r1 ∧
        BIG_val P r1 ≡ x * y ^ v.toNat * nres_R P [ZMOD Modulus_val P] := by
  have hN := h.2.2.1
  have hB := h.1
  induction fuel with
  | zero =>
    intro r w v x y vr vw hx hy v0 v1
    have hv : v = 0 := by
      simp [pow2] at v1
      omega
    subst hv
    refine ⟨r, ?_, vr, by simpa using hx⟩
    simp only [FP_pow_loop, BIG_parity_toLimbs P hB hN, BIG_fshr, shr, BIG_val_toLimbs P _ hN]
    norm_num
    intro hc
    exact absurd ((BIG_comp_zero_iff P hN 0).mpr rfl) hc
  | succ f ih =>
    intro r w v x y vr vw hx hy v0 v1
    have hdm := Int.emod_add_ediv v 2
    have hm0 := Int.emod_nonneg v (show (2 : Int) ≠ 0 by norm_num)
    have hm1 := Int.emod_lt_of_pos v (show (0 : Int) < 2 by norm_num)
    have hq0 : 0 ≤ v / 2 := Int.ediv_nonneg v0 (by norm_num)
    have hq1 : v / 2 < pow2 f := by
      rw [pow2_add] at v1
      simp only [pow2, pow_one, Nat.cast_ofNat] at v1 ⊢
      omega
    have hpow2 : pow2 1 = 2 := by simp [pow2]
    rw [show FP_pow_loop P (f + 1 + 1) r w (toLimbs P P.NLEN v)
        = (if BIG_comp P (BIG_fshr P (toLimbs P P.NLEN v) 1) (BIG_zero P) = 0 then
            some (if BIG_parity (toLimbs P P.NLEN v) ≠ 0 then
              ((FP_mul_state P r w).1, (FP_mul_state P r w).2.2) else (r, w)).1
          else FP_pow_loop P (f + 1)
            (if BIG_parity (toLimbs P P.NLEN v) ≠ 0 then
              ((FP_mul_state P r w).1, (FP_mul_state P r w).2.2) else (r, w)).1
            (FP_sqr P (if BIG_parity (toLimbs P P.NLEN v) ≠ 0 then
              ((FP_mul_state P r w).1, (FP_mul_state P r w).2.2) else (r, w)).2)
            (BIG_fshr P (toLimbs P P.NLEN v) 1)) from rfl]
    rw [BIG_parity_toLimbs P hB hN]
    have hfs : BIG_fshr P (toLimbs P P.NLEN v) 1 = toLimbs P P.NLEN (v / 2) := by
      unfold BIG_fshr shr
      rw [BIG_val_toLimbs P _ hN, hpow2]
    rw [hfs, FP_mul_state_b, vw.1]
    -- the pair (r, w) after the optional multiply
    have hstep : ∃ r2, (if v % 2 ≠ 0 then ((FP_mul_state P r w).1, w) else (r, w)) = (r2, w) ∧
        Valid P r2 ∧ BIG_val P r2 ≡ x * y ^ (v % 2).toNat * nres_R P [ZMOD Modulus_val P] := by
      by_cases hb : v % 2 = 0
      · refine ⟨r, by simp [hb], vr, ?_⟩
        rw [hb]; simpa using hx
      · have hb1 : v % 2 = 1 := by omega
        obtain ⟨vm, mm⟩ := rep_mul P h r w x y vr vw hx hy
        refine ⟨FP_mul P r w, by simp [hb, FP_mul], vm, ?_⟩
        rw [hb1]; simpa using mm
    obtain ⟨r2, he, vr2, mr2⟩ := hstep
    rw [he]
    simp only []
    have hexp : v.toNat = (v % 2).toNat + 2 * (v / 2).toNat := by omega
    by_cases hz : v / 2 = 0
    · rw [if_pos ((BIG_comp_zero_iff P hN _).mpr hz)]
      refine ⟨r2, rfl, vr2, ?_⟩
      rw [hexp, hz]
      simpa using mr2
    · rw [if_neg (fun hc => hz ((BIG_comp_zero_iff P hN _).mp hc))]
      obtain ⟨vs, ms⟩ := rep_sqr P h w y vw hy
      obtain ⟨r1, e1, v1', m1⟩ := ih r2 (FP_sqr P w) (v / 2) (x * y ^ (v % 2).toNat) (y * y)
        vr2 vs mr2 ms hq0 hq1
      refine ⟨r1, e1, v1', ?_⟩
      rw [hexp, pow_add, pow_mul]
      rw [show y ^ 2 = y * y by ring, ← mul_assoc]
      exact m1

theorem FP_pow_loop_zero (P : Config) (h : WF P) (f : Nat) (r w : BIG) :
    FP_pow_loop P (f + 1) r w (toLimbs P P.NLEN 0) = some r := by
  have hN := h.2.2.1
  have hB := h.1
  rw [show FP_pow_loop P (f + 1) r w (toLimbs P P.NLEN 0)
      = (if BIG_comp P (BIG_fshr P (toLimbs P P.NLEN 0) 1) (BIG_zero P) = 0 then
          some (if BIG_parity (toLimbs P P.NLEN 0) ≠ 0 then
            ((FP_mul_state P r w).1, (FP_mul_state P r w).2.2) else (r, w)).1
        else FP_pow_loop P f
          (if BIG_parity (toLimbs P P.NLEN 0) ≠ 0 then
            ((FP_mul_state P r w).1, (FP_mul_state P r w).2.2) else (r, w)).1
          (FP_sqr P (if BIG_parity (toLimbs P P.NLEN 0) ≠ 0 then
            ((FP_mul_state P r w).1, (FP_mul_state P r w).2.2) else (r, w)).2)
          (BIG_fshr P (toLimbs P P.NLEN 0) 1)) from rfl]
  have hfs : BIG_fshr P (toLimbs P P.NLEN 0) 1 = toLimbs P P.NLEN 0 := by
    unfold BIG_fshr shr
    rw [BIG_val_toLimbs P _ hN]
    simp
  rw [hfs, if_pos ((BIG_comp_zero_iff P hN 0).mpr rfl), BIG_parity_toLimbs P hB hN]
  simp

theorem FP_pow_start (P : Config) (h : WF P) (a b : BIG) (va : Valid P a) :
    FP_pow P a b
      = (FP_pow_loop P (P.CHUNK * P.NLEN - 1 + 1) (FP_one P) a
          (toLimbs P P.NLEN (BIG_val P b))).map (FP_reduce P) := by
  have hN := h.2.2.1
  have hC : P.BASEBITS < P.CHUNK := h.2.1
  have hB := h.1
  have hCN : P.CHUNK * P.NLEN - 1 + 1 = P.CHUNK * P.NLEN := by
    have : 1 ≤ P.CHUNK * P.NLEN := Nat.mul_pos (by omega) hN
    omega
  unfold FP_pow
  rw [hCN, BIG_copy_eq P a (length_of_norm P a va.1),
    BIG_copy_eq P (BIG_norm P b) (length_toLimbs _ _ _)]
  rfl

theorem FP_pow_spec (P : Config) (h : WF P) (a b : BIG) (x : Int) (va : Valid P a)
    (hx : BIG_val P a ≡ x * nres_R P [ZMOD Modulus_val P])
    (hb0 : 0 ≤ BIG_val P b) (hb1 : BIG_val P b < pow2 (P.CHUNK * P.NLEN - 1)) :
    ∃ r, FP_pow P a b = some r ∧ InField P r ∧
      BIG_val P r ≡ x ^ (BIG_val P b).toNat * nres_R P [ZMOD Modulus_val P] := by
  have hN := h.2.2.1
  obtain ⟨vo, mo⟩ := FP_one_spec P h
  obtain ⟨r1, e1, v1, m1⟩ := FP_pow_loop_spec P h (P.CHUNK * P.NLEN - 1) (FP_one P) a
    (BIG_val P b) 1 x vo va mo hx hb0 hb1
  refine ⟨FP_reduce P r1, ?_, ?_, ?_⟩
  · rw [FP_pow_start P h a b va, e1]; rfl
  · rw [FP_reduce_eq P r1 v1.2.1]
    exact InField_toLimbs_emod P h _
  · rw [FP_reduce_val P h r1 v1.2.1]
    refine (Int.mod_modEq _ _).trans ?_
    simpa using m1

/-- C10: for every `a` in `[0, Modulus)` and every non-negative exponent `b` that fits a
BIG, `FP_pow` on `FP_nres(a)` and `b` returns a result `r`; `r` is fully reduced
(`0 <= r < Modulus`), `FP_redc(r)` is exactly `a^b mod Modulus`, and for `b = 0` the result
is the reduced `FP_one`.  The loop of the model takes the bits of `b` from the least
significant one. -/
theorem FP_pow_correct (P : Config) (h : WF P) (a b : BIG) (ha : InField P a)
    (hb : 0 ≤ BIG_val P b ∧ BIG_val P b < pow2 (P.CHUNK * P.NLEN - 1)) :
    ∃ r, FP_pow P (FP_nres P a) b = some r ∧
      0 ≤ BIG_val P r ∧ BIG_val P r < Modulus_val P ∧
      FP_redc P r
        = toLimbs P P.NLEN ((BIG_val P a ^ (BIG_val P b).toNat) % Modulus_val P) ∧
      (BIG_val P b = 0 → r = FP_reduce P (FP_one P)) := by
  have hp := WF_pos P h
  obtain ⟨hf, hv⟩ := FP_nres_spec P h a ha
  have vx := Valid_of_InField P h _ hf
  obtain ⟨r, e, fr, mr⟩ := FP_pow_spec P h (FP_nres P a) b (BIG_val P a) vx
    (by rw [hv]; exact Int.mod_modEq _ _) hb.1 hb.2
  refine ⟨r, e, fr.2.1, fr.2.2, ?_, ?_⟩
  · apply FP_redc_exact P h r fr _ (Int.emod_nonneg _ (ne_of_gt hp)) (Int.emod_lt_of_pos _ hp)
    refine mr.trans ?_
    exact Int.ModEq.mul_right _ (Int.mod_modEq _ _).symm
  · intro hb0
    rw [FP_pow_start P h _ b vx, hb0, FP_pow_loop_zero P h] at e
    simpa using e.symm

theorem fermat_int (n : Nat) (hp : Nat.Prime n) (y : Int) : y ^ n ≡ y [ZMOD (n : Int)] := by
  haveI : Fact (Nat.Prime n) := ⟨hp⟩
  rw [← ZMod.intCast_eq_intCast_iff]
  push_cast
  exact ZMod.pow_card _

theorem BIG_inc_val (P : Config) (a : BIG) (c : Int) (hN : 0 < P.NLEN) :
    BIG_val P (BIG_inc P a c) = BIG_val P a + c := by
  unfold BIG_inc
  have hl : (BIG_norm P a).length = P.NLEN := length_toLimbs _ _ _
  have := valN_set P (BIG_norm P a) 0 P.NLEN (limb (BIG_norm P a) 0 + c) hN (by omega)
  unfold BIG_val
  rw [this]
  have e := BIG_val_norm P a hN
  unfold BIG_val at e
  rw [e]
  simp [pow2_zero]

theorem BIG_dec_val (P : Config) (a : BIG) (c : Int) (hN : 0 < P.NLEN) :
    BIG_val P (BIG_dec P a c) = BIG_val P a - c := by
  unfold BIG_dec
  have hl : (BIG_norm P a).length = P.NLEN := length_toLimbs _ _ _
  have := valN_set P (BIG_norm P a) 0 P.NLEN (limb (BIG_norm P a) 0 - c) hN (by omega)
  unfold BIG_val
  rw [this]
  have e := BIG_val_norm P a hN
  unfold BIG_val at e
  rw [e]
  simp [pow2_zero]
  ring

theorem WF_fuel_bound (P : Config) (h : WF P) :
    pow2 (P.BASEBITS * P.NLEN) ≤ pow2 (P.CHUNK * P.NLEN - 1) := by
  apply pow2_le_pow2
  have hC : P.BASEBITS < P.CHUNK := h.2.1
  have hN := h.2.2.1
  have h1 : (P.BASEBITS + 1) * P.NLEN ≤ P.CHUNK * P.NLEN := Nat.mul_le_mul_right _ hC
  have h2 : (P.BASEBITS + 1) * P.NLEN = P.BASEBITS * P.NLEN + P.NLEN := by ring
  omega

/-- C5: when the modulus is a prime congruent to 3 or 7 mod 8 and `MOD8` is 3 or 7, for
every non-negative BIG `a` that is the n-residue form of a quadratic residue, `FP_sqrt`
returns a result `r` and `FP_sqr(r)` equals `a` as a field element (`FP_equals` gives 1):
the branch computes the power `(p+1)/4`. -/
theorem FP_sqrt_sqr (P : Config) (h : WF P) (hp : Nat.Prime (Modulus_val P).toNat)
    (h8 : (P.MOD8 = 3 ∨ P.MOD8 = 7) ∧ Modulus_val P % 8 = (P.MOD8 : Int))
    (r0 a : BIG) (ha : 0 ≤ BIG_val P a)
    (hqr : ∃ y : Int, BIG_val P a ≡ y * y * nres_R P [ZMOD Modulus_val P]) :
    ∃ r a1, FP_sqrt P r0 a = some (r, a1) ∧ FP_equals P (FP_sqr P r) a = 1 := by
  have hN := h.2.2.1
  have hpos := WF_pos P h
  have hp2 : Modulus_val P < pow2 P.MODBITS := h.2.2.2.2.2.2.2.2.1
  obtain ⟨y, hy⟩ := hqr
  have hn5 : ¬ (P.MOD8 = 5) := by omega
  have hm4 : Modulus_val P % 4 = 3 := by omega
  -- the exponent
  have hexp : BIG_val P (BIG_fshr P (BIG_norm P (BIG_inc P (BIG_copy P (BIG_copy P P.Modulus)) 1)) 2)
      = (Modulus_val P + 1) / 4 := by
    unfold BIG_fshr shr
    rw [BIG_val_toLimbs P _ hN, BIG_val_norm P _ hN, BIG_inc_val P _ _ hN, BIG_val_copy,
      BIG_val_copy]
    rfl
  have he0 : 0 ≤ (Modulus_val P + 1) / 4 := Int.ediv_nonneg (by linarith) (by norm_num)
  have he1 : (Modulus_val P + 1) / 4 < pow2 (P.CHUNK * P.NLEN - 1) := by
    have a1 := WF_fuel_bound P h
    have a2 := WF_R_gt P h
    omega
  have fa := InField_toLimbs_emod P h (BIG_val P a)
  rw [← FP_reduce_eq P a ha] at fa
  have ma : BIG_val P (FP_reduce P a) ≡ y * y * nres_R P [ZMOD Modulus_val P] := by
    rw [FP_reduce_val P h a ha]
    exact (Int.mod_modEq _ _).trans hy
  obtain ⟨r, e, fr, mr⟩ := FP_pow_spec P h (FP_reduce P a)
    (BIG_fshr P (BIG_norm P (BIG_inc P (BIG_copy P (BIG_copy P P.Modulus)) 1)) 2) (y * y)
    (Valid_of_InField P h _ fa) ma (by rw [hexp]; exact he0) (by rw [hexp]; exact he1)
  rw [hexp] at mr
  refine ⟨r, FP_reduce P a, ?_, ?_⟩
  · unfold FP_sqrt
    simp only [hn5, if_false, Option.bind_some, h8.1, if_true]
    change (FP_pow P (FP_reduce P a) _).map _ = _
    rw [e]
    rfl
  · obtain ⟨vs, ms⟩ := rep_sqr P h r _ (Valid_of_InField P h r fr) mr
    apply FP_equals_of_modEq P _ _ vs.2.1 ha
    refine ms.trans (Int.ModEq.trans ?_ hy.symm)
    apply Int.ModEq.mul_right
    -- (y*y)^E * (y*y)^E = y^(p+1) = y^p * y, and y^p is y modulo p
    have hn : ((Modulus_val P).toNat : Int) = Modulus_val P := Int.toNat_of_nonneg (le_of_lt hpos)
    have hE : 2 * ((Modulus_val P + 1) / 4).toNat + 2 * ((Modulus_val P + 1) / 4).toNat
        = (Modulus_val P).toNat + 1 := by omega
    have e1 : (y * y) ^ ((Modulus_val P + 1) / 4).toNat * (y * y) ^ ((Modulus_val P + 1) / 4).toNat
        = y ^ (Modulus_val P).toNat * y := by
      have e0 : (y * y) ^ ((Modulus_val P + 1) / 4).toNat
            * (y * y) ^ ((Modulus_val P + 1) / 4).toNat
          = y ^ (2 * ((Modulus_val P + 1) / 4).toNat + 2 * ((Modulus_val P + 1) / 4).toNat) := by
        rw [← pow_two y, ← pow_mul, ← pow_add]
      rw [e0, hE, pow_succ]
    rw [e1]
    have f := fermat_int _ hp y
    rw [hn] at f
    exact Int.ModEq.mul_right _ f

theorem invmodp_loop_spec (a p : Int) (fuel : Nat) :
    ∀ (r0 r1 s0 s1 : Int), 0 ≤ r0 → 0 ≤ r1 → r1 < fuel → IsCoprime r0 r1 →
      r0 ≡ s0 * a [ZMOD p] → r1 ≡ s1 * a [ZMOD p] →
      invmodp_loop fuel r0 r1 s0 s1 * a ≡ 1 [ZMOD p] := by
  induction fuel with
  | zero =>
    intro r0 r1 s0 s1 _ h1 h2 _ _ _
    simp at h2
    omega
  | succ f ih =>
    intro r0 r1 s0 s1 h0 h1 h2 hc m0 m1
    unfold invmodp_loop
    by_cases hz : r1 = 0
    · simp only [hz, if_true]
      rw [hz] at hc
      have hu := isCoprime_zero_right.mp hc
      rcases Int.isUnit_iff.mp hu with hu1 | hu1
      · rw [hu1] at m0; exact m0.symm
      · omega
    · simp only [hz, if_false]
      have hpos : 0 < r1 := by omega
      apply ih
      · exact h1
      · exact Int.emod_nonneg _ hz
      · have := Int.emod_lt_of_pos r0 hpos
        push_cast at h2
        omega
      · have e : r0 % r1 = r0 + r1 * (-(r0 / r1)) := by
          have := Int.emod_add_ediv r0 r1
          linarith
        rw [e]
        exact (hc.add_mul_left_left _).symm
      · exact m1
      · have e : r0 % r1 = r0 - (r0 / r1) * r1 := by
          have := Int.emod_add_ediv r0 r1
          linarith
        rw [e, sub_mul, mul_assoc]
        exact Int.ModEq.sub m0 (Int.ModEq.mul_left _ m1)

theorem BIG_invmodp_spec (P : Config) (h : WF P) (hp : Nat.Prime (Modulus_val P).toNat)
    (a : BIG) (ha : InField P a) (hnz : BIG_val P a ≠ 0) :
    InField P (BIG_invmodp P a (BIG_copy P P.Modulus)) ∧
    BIG_val P (BIG_invmodp P a (BIG_copy P P.Modulus)) * BIG_val P a
      ≡ 1 [ZMOD Modulus_val P] := by
  have hN := h.2.2.1
  have hpos := WF_pos P h
  have hn : ((Modulus_val P).toNat : Int) = Modulus_val P := Int.toNat_of_nonneg (le_of_lt hpos)
  unfold BIG_invmodp
  rw [BIG_val_copy]
  change InField P (toLimbs P P.NLEN (_ % Modulus_val P)) ∧ _
  refine ⟨InField_toLimbs_emod P h _, ?_⟩
  rw [BIG_val_toLimbs P _ hN]
  change (invmodp_loop ((Modulus_val P).toNat + 1) (BIG_val P a % Modulus_val P)
    (Modulus_val P) 1 0 % Modulus_val P) * BIG_val P a ≡ 1 [ZMOD Modulus_val P]
  rw [Int.emod_eq_of_lt ha.2.1 ha.2.2]
  refine (Int.ModEq.mul_right _ (Int.mod_modEq _ _)).trans ?_
  apply invmodp_loop_spec _ _ _ _ _ _ _ ha.2.1 (le_of_lt hpos)
  · push_cast
    rw [hn]; omega
  · -- a is coprime to the prime modulus
    have ha0 := ha.2.1
    have ha1 := ha.2.2
    have e1 : ((BIG_val P a).toNat : Int) = BIG_val P a := Int.toNat_of_nonneg ha0
    rw [← e1, ← hn]
    apply Nat.isCoprime_iff_coprime.mpr
    apply Nat.Coprime.symm
    rw [Nat.Prime.coprime_iff_not_dvd hp]
    intro hd
    have := Nat.le_of_dvd (by omega) hd
    omega
  · simp
  · rw [zero_mul]
    exact (Int.modEq_iff_dvd).mpr ⟨-1, by ring⟩

/-- C4: for a prime modulus and every nonzero `a` in `[0, Modulus)`, with `x = FP_nres(a)`,
`FP_mul(x, FP_inv(x))` equals `FP_one()` as a field element: `FP_equals` returns 1.
`BIG_invmodp` is the extended Euclidean inverse. -/
theorem FP_mul_inv (P : Config) (h : WF P) (hp : Nat.Prime (Modulus_val P).toNat)
    (a : BIG) (ha : InField P a) (hnz : BIG_val P a ≠ 0) :
    FP_equals P (FP_mul P (FP_nres P a) (FP_inv P (FP_nres P a))) (FP_one P) = 1 := by
  obtain ⟨hf, hv⟩ := FP_nres_spec P h a ha
  obtain ⟨fi, mi⟩ := BIG_invmodp_spec P h hp a ha hnz
  have hinv : FP_inv P (FP_nres P a)
      = FP_nres P (BIG_invmodp P a (BIG_copy P P.Modulus)) := by
    unfold FP_inv
    rw [BIG_copy_eq P _ (length_of_norm P _ hf.1), FP_nres_redc_id P h a ha]
  rw [hinv]
  obtain ⟨hf2, hv2⟩ := FP_nres_spec P h _ fi
  obtain ⟨vm, mm⟩ := rep_mul P h (FP_nres P a) (FP_nres P (BIG_invmodp P a (BIG_copy P P.Modulus)))
    (BIG_val P a) (BIG_val P (BIG_invmodp P a (BIG_copy P P.Modulus)))
    (Valid_of_InField P h _ hf) (Valid_of_InField P h _ hf2)
    (by rw [hv]; exact Int.mod_modEq _ _) (by rw [hv2]; exact Int.mod_modEq _ _)
  obtain ⟨vo, mo⟩ := FP_one_spec P h
  apply FP_equals_of_modEq P _ _ vm.2.1 vo.2.1
  refine mm.trans (Int.ModEq.trans ?_ mo.symm)
  apply Int.ModEq.mul_right
  rw [mul_comm]
  exact mi

theorem FP_redc_rep (P : Config) (h : WF P) (x : BIG) (u : Int) (vx : Valid P x)
    (hx : BIG_val P x ≡ u * nres_R P [ZMOD Modulus_val P]) :
    0 ≤ BIG_val P (FP_redc P x) ∧ BIG_val P (FP_redc P x) ≡ u [ZMOD Modulus_val P] := by
  have hpos := WF_pos P h
  by_cases hm : isMont P
  · have hRb := WF_R_bound P h
    have hR0 := pow2_pos (P.BASEBITS * P.NLEN)
    have hx1 := vx.2.2 hm
    have e3 : pow2 (P.MODBITS + 1) = pow2 P.MODBITS * 2 := by
      rw [pow2_add]; simp [pow2]
    obtain ⟨_, q, q0, q1, hq⟩ := FP_redc_mont P h hm x vx.1 vx.2.1 (by linarith)
    constructor
    · by_contra hneg
      have : BIG_val P (FP_redc P x) ≤ -1 := by omega
      have h2 : 0 ≤ q * Modulus_val P := by positivity
      have h3 := vx.2.1
      nlinarith
    · apply modEq_cancel_R P h
      rw [nres_R_mont P hm, hq]
      rw [nres_R_mont P hm] at hx
      refine Int.ModEq.trans ?_ hx
      exact (Int.modEq_iff_dvd).mpr ⟨-q, by ring⟩
  · rw [FP_redc_mers P hm]
    rw [nres_R_mers P hm, mul_one] at hx
    exact ⟨vx.2.1, hx⟩

theorem FP_mul_infield (P : Config) (h : WF P) (hm : isMont P) (x y : BIG)
    (hx : InField P x) (hy : InField P y) :
    ∃ q, 0 ≤ q ∧ q < pow2 (P.BASEBITS * P.NLEN) ∧
      BIG_val P (FP_mul P x y) * pow2 (P.BASEBITS * P.NLEN)
        = BIG_val P x * BIG_val P y + q * Modulus_val P := by
  have hN := h.2.2.1
  have hp2 : Modulus_val P < pow2 P.MODBITS := h.2.2.2.2.2.2.2.2.1
  have hRgt := WF_R_gt P h
  have hR0 := pow2_pos (P.BASEBITS * P.NLEN)
  have e : FP_mul P x y = FP_mod P (toLimbs P (2 * P.NLEN) (BIG_val P x * BIG_val P y)) := by
    unfold FP_mul FP_mul_state
    simp only [BIG_mul]
    rw [hy.1]
    have e1 : FP_reduce P x = x := by
      rw [FP_reduce_eq P x hx.2.1, Int.emod_eq_of_lt hx.2.1 hx.2.2]
      exact hx.1
    rw [e1, hx.1]
    simp
  rw [e]
  obtain ⟨dl, dn, dv⟩ := BIG_mul_limbs P h (BIG_val P x * BIG_val P y)
  have := FP_mod_mont P _ h hm dl dn (by rw [dv]; exact mul_nonneg hx.2.1 hy.2.1) (by
    rw [dv]
    have a1 : BIG_val P x * BIG_val P y ≤ BIG_val P x * pow2 P.MODBITS :=
      mul_le_mul_of_nonneg_left (by linarith [hy.2.2]) hx.2.1
    have a2 : BIG_val P x * pow2 P.MODBITS < pow2 (P.BASEBITS * P.NLEN) * pow2 P.MODBITS :=
      mul_lt_mul_of_pos_right (by linarith [hx.2.2]) (pow2_pos _)
    linarith)
  rw [dv] at this
  exact this

theorem mont_zero_of_dvd (P : Config) (h : WF P) (hm : isMont P) (r q : Int)
    (q0 : 0 ≤ q) (q1 : q < pow2 (P.BASEBITS * P.NLEN))
    (hq : r * pow2 (P.BASEBITS * P.NLEN) = q * Modulus_val P) : r = 0 := by
  have hR0 := pow2_pos (P.BASEBITS * P.NLEN)
  have hc := nres_R_coprime P h
  rw [nres_R_mont P hm] at hc
  have hd : pow2 (P.BASEBITS * P.NLEN) ∣ q * Modulus_val P := ⟨r, by rw [← hq]; ring⟩
  have hd2 := hc.dvd_of_dvd_mul_right hd
  have hq0 : q = 0 := Int.eq_zero_of_dvd_of_nonneg_of_lt q0 q1 hd2
  rw [hq0, zero_mul] at hq
  rcases mul_eq_zero.mp hq with h1 | h1
  · exact h1
  · omega

/-- C2, amended: for all in-field `a` and `b`, `FP_redc(FP_mul(FP_nres(a), FP_nres(b)))` is
a non-negative BIG congruent to `a*b` modulo the modulus, and `FP_reduce` of it is
`(a*b) mod Modulus`; for the two Montgomery types with a prime modulus it is exactly
`(a*b) mod Modulus`.  For the two Mersenne types `FP_redc` leaves the unreduced product
as it is. -/
theorem FP_mul_redc (P : Config) (h : WF P) (a b : BIG) (ha : InField P a) (hb : InField P b) :
    0 ≤ BIG_val P (FP_redc P (FP_mul P (FP_nres P a) (FP_nres P b))) ∧
    BIG_val P (FP_redc P (FP_mul P (FP_nres P a) (FP_nres P b))) % Modulus_val P
      = (BIG_val P a * BIG_val P b) % Modulus_val P ∧
    FP_reduce P (FP_redc P (FP_mul P (FP_nres P a) (FP_nres P b)))
      = toLimbs P P.NLEN ((BIG_val P a * BIG_val P b) % Modulus_val P) ∧
    (isMont P → Nat.Prime (Modulus_val P).toNat →
      FP_redc P (FP_mul P (FP_nres P a) (FP_nres P b))
        = toLimbs P P.NLEN ((BIG_val P a * BIG_val P b) % Modulus_val P)) := by
  have hN := h.2.2.1
  have hpos := WF_pos P h
  obtain ⟨fx, vx⟩ := FP_nres_spec P h a ha
  obtain ⟨fy, vy⟩ := FP_nres_spec P h b hb
  obtain ⟨vm, mm⟩ := rep_mul P h (FP_nres P a) (FP_nres P b) (BIG_val P a) (BIG_val P b)
    (Valid_of_InField P h _ fx) (Valid_of_InField P h _ fy)
    (by rw [vx]; exact Int.mod_modEq _ _) (by rw [vy]; exact Int.mod_modEq _ _)
  obtain ⟨r0, rm⟩ := FP_redc_rep P h _ _ vm mm
  refine ⟨r0, rm, ?_, ?_⟩
  · rw [FP_reduce_eq P _ r0]
    congr 1
  · intro hm hp
    have hRgt := WF_R_gt P h
    have hRb := WF_R_bound P h
    have hR0 := pow2_pos (P.BASEBITS * P.NLEN)
    have hn : ((Modulus_val P).toNat : Int) = Modulus_val P :=
      Int.toNat_of_nonneg (le_of_lt hpos)
    have e3 : pow2 (P.MODBITS + 1) = pow2 P.MODBITS * 2 := by
      rw [pow2_add]; simp [pow2]
    obtain ⟨q, q0, q1, hq⟩ := FP_mul_infield P h hm _ _ fx fy
    obtain ⟨hnorm, q', q0', q1', hq'⟩ := FP_redc_mont P h hm _ vm.1 vm.2.1
      (by have := vm.2.2 hm; linarith)
    generalize hr : BIG_val P (FP_mul P (FP_nres P a) (FP_nres P b)) = r at hq hq'
    generalize hX : BIG_val P (FP_nres P a) = X at hq vx
    generalize hY : BIG_val P (FP_nres P b) = Y at hq vy
    have X0 : 0 ≤ X := by rw [← hX]; exact fx.2.1
    have X1 : X < Modulus_val P := by rw [← hX]; exact fx.2.2
    have Y0 : 0 ≤ Y := by rw [← hY]; exact fy.2.1
    have Y1 : Y < Modulus_val P := by rw [← hY]; exact fy.2.2
    rw [← hnorm]
    unfold BIG_norm
    congr 1
    generalize hr' : BIG_val P (FP_redc P (FP_mul P (FP_nres P a) (FP_nres P b))) = r'
      at hq' r0 rm
    -- r < 2p
    have hr2 : r < 2 * Modulus_val P := by
      by_contra hge
      have h1 : 2 * Modulus_val P ≤ r := by omega
      have h2 := mul_le_mul_of_nonneg_right h1 (le_of_lt hR0)
      have h3 : X * Y ≤ Modulus_val P * Modulus_val P :=
        mul_le_mul (le_of_lt X1) (le_of_lt Y1) Y0 (le_of_lt hpos)
      have h4 : q * Modulus_val P ≤ (pow2 (P.BASEBITS * P.NLEN) - 1) * Modulus_val P :=
        mul_le_mul_of_nonneg_right (by omega) (le_of_lt hpos)
      have h5 : Modulus_val P * Modulus_val P ≤ pow2 (P.BASEBITS * P.NLEN) * Modulus_val P :=
        mul_le_mul_of_nonneg_right (le_of_lt hRgt) (le_of_lt hpos)
      nlinarith
    -- r' <= p
    have hr'le : r' ≤ Modulus_val P := by
      by_contra hgt
      have h1 : Modulus_val P + 1 ≤ r' := by omega
      have h2 := mul_le_mul_of_nonneg_right h1 (le_of_lt hR0)
      have h4 : q' * Modulus_val P ≤ (pow2 (P.BASEBITS * P.NLEN) - 1) * Modulus_val P :=
        mul_le_mul_of_nonneg_right (by omega) (le_of_lt hpos)
      nlinarith
    have hne : r' ≠ Modulus_val P := by
      intro heq
      -- then p divides a*b, so one of a, b is zero and the product is zero
      have hd : Modulus_val P ∣ BIG_val P a * BIG_val P b := by
        have := (Int.modEq_iff_dvd).mp rm
        rw [heq] at this
        have h2 : Modulus_val P ∣ Modulus_val P := dvd_refl _
        have h3 := (dvd_sub h2 this)
        rw [show Modulus_val P - (BIG_val P a * BIG_val P b - Modulus_val P)
          = 2 * Modulus_val P - BIG_val P a * BIG_val P b by ring] at h3
        have h4 : Modulus_val P ∣ 2 * Modulus_val P := Dvd.intro_left _ rfl
        have h5 := dvd_sub h4 h3
        rw [show 2 * Modulus_val P - (2 * Modulus_val P - BIG_val P a * BIG_val P b)
          = BIG_val P a * BIG_val P b by ring] at h5
        exact h5
      rw [← hn] at hd
      have hxy : X * Y = 0 := by
        rcases Int.Prime.dvd_mul' hp hd with h1 | h1
        · rw [hn] at h1
          have := Int.eq_zero_of_dvd_of_nonneg_of_lt ha.2.1 ha.2.2 h1
          rw [this] at vx
          simp at vx
          rw [vx]; ring
        · rw [hn] at h1
          have := Int.eq_zero_of_dvd_of_nonneg_of_lt hb.2.1 hb.2.2 h1
          rw [this] at vy
          simp at vy
          rw [vy]; ring
      rw [hxy, zero_add] at hq
      have hr0 := mont_zero_of_dvd P h hm r q q0 q1 hq
      rw [hr0, zero_add] at hq'
      have hr0' := mont_zero_of_dvd P h hm r' q' q0' q1' hq'
      omega
    have hr'lt : r' < Modulus_val P := by omega
    exact eq_of_modEq_of_range _ _ _ r0 hr'lt (Int.emod_nonneg _ (ne_of_gt hpos))
      (Int.emod_lt_of_pos _ hpos) (Int.ModEq.trans rm (Int.mod_modEq _ _).symm)

/-- The modulus of the build `ns20` is prime. -/
theorem ns20_prime : Nat.Prime (Modulus_val ns20).toNat := by
  have e : (Modulus_val ns20).toNat = 1048571 := by decide
  rw [e]
  norm_num

/-- The modulus of the build `ns20m5` is prime. -/
theorem ns20m5_prime : Nat.Prime (Modulus_val ns20m5).toNat := by
  have e : (Modulus_val ns20m5).toNat = 1048573 := by decide
  rw [e]
  norm_num

/-- The round trip of C1 on a BN254 field element. -/
theorem FP_redc_nres_witness :
    WF bn254 ∧ InField bn254 bnA ∧ FP_redc bn254 (FP_nres bn254 bnA) = bnA :=
  ⟨by decide, by decide, FP_redc_nres bn254 (by decide) bnA (by decide)⟩

/-- C2 as stated fails for C25519: with `a = b = Modulus - 1` the product `a*b` is
1 modulo the modulus, while `FP_redc(FP_mul(FP_nres(a), FP_nres(b)))` holds `Modulus + 1`. -/
theorem FP_mul_redc_c25519_not_exact :
    WF c25519 ∧ InField c25519 c25519_pm1 ∧
    (BIG_val c25519 c25519_pm1 * BIG_val c25519 c25519_pm1) % Modulus_val c25519 = 1 ∧
    BIG_val c25519 (FP_redc c25519
      (FP_mul c25519 (FP_nres c25519 c25519_pm1) (FP_nres c25519 c25519_pm1)))
      = Modulus_val c25519 + 1 ∧
    FP_redc c25519 (FP_mul c25519 (FP_nres c25519 c25519_pm1) (FP_nres c25519 c25519_pm1))
      ≠ toLimbs c25519 c25519.NLEN
          ((BIG_val c25519 c25519_pm1 * BIG_val c25519 c25519_pm1) % Modulus_val c25519) := by
  decide

/-- The amended C2 in the build `ns20`, a Montgomery type with a prime modulus: the
result is exactly `(a*b) mod Modulus`. -/
theorem FP_mul_redc_witness :
    WF ns20 ∧ InField ns20 [5, 3] ∧ InField ns20 [8000, 100] ∧
    FP_redc ns20 (FP_mul ns20 (FP_nres ns20 [5, 3]) (FP_nres ns20 [8000, 100]))
      = toLimbs ns20 ns20.NLEN
          ((BIG_val ns20 [5, 3] * BIG_val ns20 [8000, 100]) % Modulus_val ns20) :=
  ⟨by decide, by decide, by decide,
    (FP_mul_redc ns20 (by decide) [5, 3] [8000, 100] (by decide) (by decide)).2.2.2
      (by decide) ns20_prime⟩

/-- The sum of C3 on two BN254 field elements. -/
theorem FP_reduce_add_witness :
    WF bn254 ∧
    FP_reduce bn254 (FP_add bn254 bnA bnB)
      = toLimbs bn254 bn254.NLEN ((BIG_val bn254 bnA + BIG_val bn254 bnB) % Modulus_val bn254) :=
  ⟨by decide, FP_reduce_add bn254 (by decide) bnA bnB (by decide) (by decide)⟩

/-- The inverse of C4 in the build `ns20`. -/
theorem FP_mul_inv_witness :
    WF ns20 ∧ InField ns20 [5, 3] ∧
    FP_equals ns20 (FP_mul ns20 (FP_nres ns20 [5, 3]) (FP_inv ns20 (FP_nres ns20 [5, 3])))
      (FP_one ns20) = 1 :=
  ⟨by decide, by decide, FP_mul_inv ns20 (by decide) ns20_prime [5, 3] (by decide) (by decide)⟩

/-- The square root of C5 in the build `ns20`, on the n-residue of `4 = 2*2`. -/
theorem FP_sqrt_sqr_witness :
    WF ns20 ∧ [1280, 0] = FP_nres ns20 [4, 0] ∧
    ∃ r a1, FP_sqrt ns20 [0, 0] [1280, 0] = some (r, a1) ∧
      FP_equals ns20 (FP_sqr ns20 r) [1280, 0] = 1 :=
  ⟨by decide, by decide,
    FP_sqrt_sqr ns20 (by decide) ns20_prime (by decide) [0, 0] [1280, 0] (by decide)
      ⟨2, by decide⟩⟩

/-- C6, at a failing input: in the 16-bit build over the prime `1048573` (5 mod 8, no
special form, so Montgomery n-residues), the square `1` in n-residue form is `[192, 0]`;
`FP_sqrt` returns `[7295, 93]`, whose `FP_sqr` is not equal to the input as a field
element. -/
theorem FP_sqrt_mod5_montgomery_fails :
    WF ns20m5 ∧ Nat.Prime (Modulus_val ns20m5).toNat ∧ Modulus_val ns20m5 % 8 = 5 ∧
    FP_nres ns20m5 [1, 0] = [192, 0] ∧
    FP_sqrt ns20m5 [0, 0] [192, 0] = some ([7295, 93], [192, 0]) ∧
    FP_equals ns20m5 (FP_sqr ns20m5 [7295, 93]) [192, 0] = 0 :=
  ⟨by decide, ns20m5_prime, by decide, by decide, by decide, by decide⟩

/-- The two bracketings of C8 on three BN254 field elements. -/
theorem FP_mul_assoc_witness :
    WF bn254 ∧
    FP_equals bn254 (FP_mul bn254 bnA (FP_mul bn254 bnB bnC))
      (FP_mul bn254 (FP_mul bn254 bnA bnB) bnC) = 1 :=
  ⟨by decide, FP_mul_assoc bn254 (by decide) bnA bnB bnC (by decide) (by decide) (by decide)⟩

/-- The sum `a + (-a)` of C9 on a BN254 field element. -/
theorem FP_add_neg_iszilch_witness :
    WF bn254 ∧ FP_iszilch bn254 (FP_add bn254 bnA (FP_neg bn254 bnA)) = 1 :=
  ⟨by decide, FP_add_neg_iszilch bn254 (by decide) bnA (by decide)⟩

/-- The power of C10 on a BN254 field element with a 249-bit exponent. -/
theorem FP_pow_correct_witness :
    WF bn254 ∧ InField bn254 bnA ∧
    ∃ r, FP_pow bn254 (FP_nres bn254 bnA) bnB = some r ∧
      0 ≤ BIG_val bn254 r ∧ BIG_val bn254 r < Modulus_val bn254 ∧
      FP_redc bn254 r = toLimbs bn254 bn254.NLEN
        ((BIG_val bn254 bnA ^ (BIG_val bn254 bnB).toNat) % Modulus_val bn254) ∧
      (BIG_val bn254 bnB = 0 → r = FP_reduce bn254 (FP_one bn254)) :=
  ⟨by decide, by decide, FP_pow_correct bn254 (by decide) bnA bnB (by decide) (by decide)⟩

theorem BIG_comp_eq_zero_val (P : Config) (a b : BIG) (h : BIG_comp P a b = 0) :
    BIG_val P a = BIG_val P b := by
  unfold BIG_comp at h
  unfold BIG_val
  exact valN_congr P a b P.NLEN (BIG_comp_from_eq_zero a b P.NLEN h)

theorem BIG_iszilch_val (P : Config) (a : BIG) (h : BIG_iszilch P a ≠ 0) : BIG_val P a = 0 := by
  unfold BIG_iszilch at h
  by_cases hall : (List.range P.NLEN).all (fun i => decide (limb a i = 0)) = true
  · rw [List.all_eq_true] at hall
    unfold BIG_val
    apply valN_zero_of_limbs
    intro k hk
    have := hall k (List.mem_range.mpr hk)
    simpa using this
  · simp [hall] at h

theorem BIG_iszilch_cases (P : Config) (a : BIG) : BIG_iszilch P a = 1 ∨ BIG_iszilch P a = 0 := by
  unfold BIG_iszilch
  by_cases hall : (List.range P.NLEN).all (fun i => decide (limb a i = 0)) = true
  · left; simp [hall]
  · right; simp [hall]

/-- C14: for every non-negative BIG `a` (normalised or not), `FP_reduce(a)` is the normalised
BIG of `a mod Modulus`: its value is congruent to `a`, lies in `[0, Modulus)` and is the
only such value; reducing a second time changes nothing. -/
theorem FP_reduce_canonical (P : Config) (h : WF P) (a : BIG) (h0 : 0 ≤ BIG_val P a) :
    FP_reduce P a = toLimbs P P.NLEN (BIG_val P a % Modulus_val P) ∧
    BIG_val P (FP_reduce P a) = BIG_val P a % Modulus_val P ∧
    0 ≤ BIG_val P (FP_reduce P a) ∧ BIG_val P (FP_reduce P a) < Modulus_val P ∧
    (∀ v : Int, 0 ≤ v → v < Modulus_val P → v ≡ BIG_val P a [ZMOD Modulus_val P] →
      v = BIG_val P (FP_reduce P a)) ∧
    FP_reduce P (FP_reduce P a) = FP_reduce P a := by
  have hp := WF_pos P h
  have hv := FP_reduce_val P h a h0
  have r0 : 0 ≤ BIG_val P (FP_reduce P a) := by
    rw [hv]; exact Int.emod_nonneg _ (ne_of_gt hp)
  have r1 : BIG_val P (FP_reduce P a) < Modulus_val P := by
    rw [hv]; exact Int.emod_lt_of_pos _ hp
  refine ⟨FP_reduce_eq P a h0, hv, r0, r1, ?_, ?_⟩
  · intro v v0 v1 hc
    rw [hv]
    exact eq_of_modEq_of_range _ _ _ v0 v1 (Int.emod_nonneg _ (ne_of_gt hp))
      (Int.emod_lt_of_pos _ hp) (hc.trans (Int.mod_modEq _ _).symm)
  · rw [FP_reduce_eq P _ r0, hv, Int.emod_emod_of_dvd _ (dvd_refl _), FP_reduce_eq P a h0]

/-- C15: for all non-negative BIGs `x` and `y`, `FP_equals(x,y)` returns 1 exactly when
`x` is congruent to `y` modulo the modulus, and 0 otherwise. -/
theorem FP_equals_iff (P : Config) (h : WF P) (x y : BIG) (hx : 0 ≤ BIG_val P x)
    (hy : 0 ≤ BIG_val P y) :
    (FP_equals P x y = 1 ↔ BIG_val P x ≡ BIG_val P y [ZMOD Modulus_val P]) ∧
    (¬ (BIG_val P x ≡ BIG_val P y [ZMOD Modulus_val P]) → FP_equals P x y = 0) := by
  have key : FP_equals P x y = 1 → BIG_val P x ≡ BIG_val P y [ZMOD Modulus_val P] := by
    intro he
    unfold FP_equals at he
    by_cases hc : BIG_comp P (FP_reduce P x) (FP_reduce P y) = 0
    · have hv := BIG_comp_eq_zero_val P _ _ hc
      rw [FP_reduce_val P h x hx, FP_reduce_val P h y hy] at hv
      exact hv
    · simp [hc] at he
  refine ⟨⟨key, FP_equals_of_modEq P x y hx hy⟩, ?_⟩
  intro hne
  have h1 : FP_equals P x y ≠ 1 := fun he => hne (key he)
  unfold FP_equals at h1 ⊢
  by_cases hc : BIG_comp P (FP_reduce P x) (FP_reduce P y) = 0
  · simp [hc] at h1
  · simp [hc]

/-- C16: for every non-negative BIG `x`, `FP_iszilch(x)` returns a nonzero value (it is 1)
exactly when `x` is congruent to 0 modulo the modulus; in particular the unreduced
`Modulus` and `2*Modulus` are reported as zero. -/
theorem FP_iszilch_iff (P : Config) (h : WF P) (x : BIG) (hx : 0 ≤ BIG_val P x) :
    (FP_iszilch P x ≠ 0 ↔ BIG_val P x ≡ 0 [ZMOD Modulus_val P]) ∧
    (FP_iszilch P x = 1 ∨ FP_iszilch P x = 0) ∧
    FP_iszilch P P.Modulus = 1 ∧ FP_iszilch P (BIG_add P P.Modulus P.Modulus) = 1 := by
  have hp := WF_pos P h
  have e : FP_iszilch P x = BIG_iszilch P (FP_reduce P x) := rfl
  refine ⟨⟨?_, ?_⟩, ?_, ?_, ?_⟩
  · intro hne
    rw [e] at hne
    have hv := BIG_iszilch_val P _ hne
    rw [FP_reduce_val P h x hx] at hv
    show BIG_val P x % Modulus_val P = 0 % Modulus_val P
    rw [hv]; simp
  · intro hc
    have hd : BIG_val P x % Modulus_val P = 0 := by
      have : BIG_val P x % Modulus_val P = 0 % Modulus_val P := hc
      simpa using this
    rw [FP_iszilch_of_dvd P x hx hd]
    norm_num
  · rw [e]; exact BIG_iszilch_cases P _
  · apply FP_iszilch_of_dvd P _ (le_of_lt hp)
    exact Int.emod_self
  · apply FP_iszilch_of_dvd P
    · rw [BIG_val_add]
      have : 0 < BIG_val P P.Modulus := hp
      linarith
    · rw [BIG_val_add]
      show (Modulus_val P + Modulus_val P) % Modulus_val P = 0
      simp

/-- C18: for the `PSEUDO_MERSENNE` and `GENERALISED_MERSENNE` modulus types, `FP_nres` and
`FP_redc` leave every BIG `a` as it is. -/
theorem FP_nres_redc_mersenne (P : Config)
    (hm : P.MODTYPE = ModType.PSEUDO_MERSENNE ∨ P.MODTYPE = ModType.GENERALISED_MERSENNE)
    (a : BIG) : FP_nres P a = a ∧ FP_redc P a = a := by
  unfold FP_nres FP_redc
  rcases hm with hm | hm <;> rw [hm] <;> exact ⟨rfl, rfl⟩

/-- C13: for an odd modulus, `FP_div2(r,a)` gives `r = a/2` for an even `a` and
`r = (a + Modulus)/2` for an odd `a`, so that `2*r` is congruent to `a` modulo the modulus;
`r` is non-negative for a non-negative `a`, and below the modulus for `a` below it. -/
theorem FP_div2_spec (P : Config) (h : WF P) (hodd : Modulus_val P % 2 = 1) (a : BIG) :
    (BIG_val P a % 2 = 0 → BIG_val P (FP_div2 P a) = BIG_val P a / 2) ∧
    (BIG_val P a % 2 = 1 → BIG_val P (FP_div2 P a) = (BIG_val P a + Modulus_val P) / 2) ∧
    2 * BIG_val P (FP_div2 P a) ≡ BIG_val P a [ZMOD Modulus_val P] ∧
    (0 ≤ BIG_val P a → 0 ≤ BIG_val P (FP_div2 P a)) ∧
    (BIG_val P a < Modulus_val P → BIG_val P (FP_div2 P a) < Modulus_val P) := by
  have hN := h.2.2.1
  have hB := h.1
  have hp := WF_pos P h
  have hpar : BIG_parity (BIG_norm P a) = BIG_val P a % 2 := by
    unfold BIG_norm
    exact BIG_parity_toLimbs P hB hN _
  have he : BIG_val P a % 2 = 0 → BIG_val P (FP_div2 P a) = BIG_val P a / 2 := by
    intro h2
    unfold FP_div2
    simp only [hpar, h2, if_true]
    unfold BIG_fshr
    rw [BIG_val_toLimbs P _ hN, BIG_val_copy, BIG_val_norm P _ hN]
    simp [shr, pow2]
  have ho : BIG_val P a % 2 = 1 →
      BIG_val P (FP_div2 P a) = (BIG_val P a + Modulus_val P) / 2 := by
    intro h2
    have h3 : ¬ ((1 : Int) = 0) := by norm_num
    unfold FP_div2
    simp only [hpar, h2, h3, if_false]
    unfold BIG_fshr
    rw [BIG_val_toLimbs P _ hN, BIG_val_norm P _ hN, BIG_val_add, BIG_val_norm P _ hN,
      BIG_val_copy]
    simp [shr, pow2, Modulus_val]
  have hcase : BIG_val P a % 2 = 0 ∨ BIG_val P a % 2 = 1 := by omega
  refine ⟨he, ho, ?_, ?_, ?_⟩
  · rcases hcase with h2 | h2
    · rw [he h2]
      have : 2 * (BIG_val P a / 2) = BIG_val P a := by omega
      rw [this]
    · rw [ho h2]
      have : 2 * ((BIG_val P a + Modulus_val P) / 2) = BIG_val P a + Modulus_val P := by omega
      rw [this]
      exact (Int.modEq_iff_dvd).mpr ⟨-1, by ring⟩
  · intro h0
    rcases hcase with h2 | h2
    · rw [he h2]; omega
    · rw [ho h2]; omega
  · intro h1
    rcases hcase with h2 | h2
    · rw [he h2]; omega
    · rw [ho h2]; omega

theorem FP_neg_sb_spec (fuel : Nat) : ∀ (ov : Int) (sb : Nat), 0 ≤ ov → ov < pow2 fuel →
    ∃ k, FP_neg_sb fuel ov sb = sb + k ∧ ov < pow2 k ∧ (k = 0 ∨ pow2 (k - 1) ≤ ov) := by
  induction fuel with
  | zero =>
    intro ov sb h0 h1
    refine ⟨0, rfl, h1, Or.inl rfl⟩
  | succ fuel ih =>
    intro ov sb h0 h1
    by_cases hz : ov = 0
    · refine ⟨0, ?_, ?_, Or.inl rfl⟩
      · simp [FP_neg_sb, hz]
      · rw [hz]; exact pow2_pos 0
    · have e2 : pow2 (fuel + 1) = pow2 fuel * 2 := by rw [pow2_add]; simp [pow2]
      have hs : shr ov 1 = ov / 2 := by simp [shr, pow2]
      have h2 : 0 ≤ ov / 2 := by omega
      have h3 : ov / 2 < pow2 fuel := by omega
      obtain ⟨k, hk, hlt, hge⟩ := ih (ov / 2) (sb + 1) h2 h3
      refine ⟨k + 1, ?_, ?_, Or.inr ?_⟩
      · simp only [FP_neg_sb, hz, ne_eq, not_false_eq_true, if_true, hs, hk]
        omega
      · have e3 : pow2 (k + 1) = pow2 k * 2 := by rw [pow2_add]; simp [pow2]
        omega
      · rw [show k + 1 - 1 = k by omega]
        rcases hge with hk0 | hk1
        · rw [hk0]
          have : pow2 0 = 1 := pow2_zero
          omega
        · by_cases hk0 : k = 0
          · rw [hk0]
            have : pow2 0 = 1 := pow2_zero
            omega
          have e4 : pow2 k = pow2 (k - 1) * 2 := by
            have : k = (k - 1) + 1 := by omega
            conv_lhs => rw [this]
            rw [pow2_add]; simp [pow2]
          omega

theorem FP_neg_shift_spec (P : Config) (a : BIG) (hn : BIG_norm P a = a)
    (h0 : 0 ≤ EXCESS P a) (h1 : EXCESS P a < pow2 P.CHUNK) :
    2 * (EXCESS P a + 1) ≤ pow2 (FP_neg_shift P a) ∧
    (∀ j : Nat, 2 * (EXCESS P a + 1) ≤ pow2 j → FP_neg_shift P a ≤ j) := by
  unfold FP_neg_shift
  rw [hn]
  obtain ⟨k, hk, hlt, hge⟩ := FP_neg_sb_spec P.CHUNK (EXCESS P a) 1 h0 h1
  rw [hk]
  have e1 : pow2 (1 + k) = 2 * pow2 k := by rw [pow2_add]; simp [pow2]
  constructor
  · rw [e1]; omega
  · intro j hj
    by_contra hc
    have hjk : j ≤ k := by omega
    have hle := pow2_le_pow2 hjk
    by_cases hkz : k = 0
    · have : j = 0 := by omega
      rw [this] at hj
      have : pow2 0 = 1 := pow2_zero
      omega
    rcases hge with hk0 | hk1
    · exact absurd hk0 hkz
    · have hkpos : 0 < k := by omega
      by_cases hj0 : j = k
      · have e4 : pow2 k = pow2 (k - 1) * 2 := by
          have : k = (k - 1) + 1 := by omega
          conv_lhs => rw [this]
          rw [pow2_add]; simp [pow2]
        rw [hj0] at hj
        omega
      · have hle2 := pow2_le_pow2 (show j ≤ k - 1 by omega)
        omega

theorem FP_neg_unreduced_val (P : Config) (hN : 0 < P.NLEN) (a : BIG) :
    BIG_val P (FP_neg_unreduced P a)
      = pow2 (FP_neg_shift P a) * Modulus_val P - BIG_val P a := by
  unfold FP_neg_unreduced
  rw [BIG_val_sub]
  unfold BIG_fshl
  rw [BIG_val_toLimbs P _ hN, BIG_val_copy, BIG_val_norm P _ hN]
  simp only [shl, Modulus_val]
  ring

theorem FP_neg_eq (P : Config) (a : BIG) :
    FP_neg P a = if EXCESS P (FP_neg_unreduced P a) ≥ FEXCESS P
      then FP_reduce P (FP_neg_unreduced P a) else FP_neg_unreduced P a := rfl

theorem EXCESS_nonneg_bound (P : Config) (h : WF P) (a : BIG) (hn : BIG_norm P a = a)
    (h0 : 0 ≤ BIG_val P a) :
    0 ≤ EXCESS P a ∧ BIG_val P a < (EXCESS P a + 1) * pow2 P.MODBITS := by
  rw [EXCESS_eq P h a hn]
  exact ⟨Int.ediv_nonneg h0 (le_of_lt (pow2_pos _)), lt_succ_ediv_mul _ _ (pow2_pos _)⟩

theorem FEXCESS_lt_chunk (P : Config) (h : WF P) : FEXCESS P < pow2 P.CHUNK := by
  obtain ⟨hB, hC, hN, _, h5, h6, _⟩ := h
  unfold FEXCESS
  have h1 : P.BASEBITS * P.NLEN - P.MODBITS ≤ P.BASEBITS := by
    have := mul_pred_add P.BASEBITS P.NLEN hN
    omega
  have h2 := pow2_le_pow2 h1
  have h3 : pow2 P.CHUNK = pow2 P.BASEBITS * pow2 (P.CHUNK - P.BASEBITS) :=
    pow2_split (le_of_lt hC)
  have h4 : (2 : Int) ≤ pow2 (P.CHUNK - P.BASEBITS) := by
    have := pow2_le_pow2 (show 1 ≤ P.CHUNK - P.BASEBITS by omega)
    simpa [pow2] using this
  have h5 := pow2_pos P.BASEBITS
  nlinarith

theorem FP_neg_unreduced_nonneg (P : Config) (h : WF P) (a : BIG) (hn : BIG_norm P a = a)
    (h0 : 0 ≤ BIG_val P a) (h1 : EXCESS P a < pow2 P.CHUNK) :
    0 ≤ BIG_val P (FP_neg_unreduced P a) := by
  obtain ⟨e0, e1⟩ := EXCESS_nonneg_bound P h a hn h0
  obtain ⟨s1, _⟩ := FP_neg_shift_spec P a hn e0 h1
  rw [FP_neg_unreduced_val P h.2.2.1]
  have hp : pow2 (P.MODBITS - 1) ≤ Modulus_val P := h.2.2.2.2.2.2.2.1
  have e3 : pow2 P.MODBITS = pow2 (P.MODBITS - 1) * 2 := by
    have : P.MODBITS = (P.MODBITS - 1) + 1 := by have := h.2.2.2.1; omega
    conv_lhs => rw [this]
    rw [pow2_add]; simp [pow2]
  have hpos := pow2_pos (P.MODBITS - 1)
  have h2 : 2 * (EXCESS P a + 1) * pow2 (P.MODBITS - 1)
      ≤ pow2 (FP_neg_shift P a) * pow2 (P.MODBITS - 1) :=
    mul_le_mul_of_nonneg_right s1 (le_of_lt hpos)
  have h3 : pow2 (FP_neg_shift P a) * pow2 (P.MODBITS - 1)
      ≤ pow2 (FP_neg_shift P a) * Modulus_val P :=
    mul_le_mul_of_nonneg_left hp (le_of_lt (pow2_pos _))
  rw [e3] at e1
  nlinarith

theorem FP_neg_spec (P : Config) (h : WF P) (a : BIG) (hn : BIG_norm P a = a)
    (h0 : 0 ≤ BIG_val P a) (h1 : EXCESS P a < pow2 P.CHUNK) :
    0 ≤ BIG_val P (FP_neg P a) ∧
    BIG_val P (FP_neg P a) ≡ - BIG_val P a [ZMOD Modulus_val P] := by
  have hu := FP_neg_unreduced_nonneg P h a hn h0 h1
  have hv := FP_neg_unreduced_val P h.2.2.1 a
  have hp := WF_pos P h
  have hc : BIG_val P (FP_neg_unreduced P a) ≡ - BIG_val P a [ZMOD Modulus_val P] := by
    rw [hv]
    exact (Int.modEq_iff_dvd).mpr ⟨-pow2 (FP_neg_shift P a), by ring⟩
  rw [FP_neg_eq]
  by_cases hc2 : EXCESS P (FP_neg_unreduced P a) ≥ FEXCESS P
  · simp only [hc2, if_true]
    rw [FP_reduce_val P h _ hu]
    exact ⟨Int.emod_nonneg _ (ne_of_gt hp), (Int.mod_modEq _ _).trans hc⟩
  · simp only [hc2, if_false]
    exact ⟨hu, hc⟩

/-- C19, amended: for every normalised non-negative `a` whose top limb fits a chunk,
`FP_neg(r,a)` computes, before any forced reduction, `r = k*Modulus - a` with `k = 2^sb`,
where `2^sb` is the least power of two that is at least `2*(EXCESS(a)+1)`; `r` is
non-negative, and `FP_neg` returns `r`, reduced when `EXCESS(r) >= FEXCESS`. -/
theorem FP_neg_unreduced_spec (P : Config) (h : WF P) (a : BIG) (hn : BIG_norm P a = a)
    (h0 : 0 ≤ BIG_val P a) (ht : limb a (P.NLEN - 1) < pow2 (P.CHUNK - 1)) :
    BIG_val P (FP_neg_unreduced P a)
      = pow2 (FP_neg_shift P a) * Modulus_val P - BIG_val P a ∧
    2 * (EXCESS P a + 1) ≤ pow2 (FP_neg_shift P a) ∧
    (∀ j : Nat, 2 * (EXCESS P a + 1) ≤ pow2 j → FP_neg_shift P a ≤ j) ∧
    0 ≤ BIG_val P (FP_neg_unreduced P a) ∧
    FP_neg P a = (if EXCESS P (FP_neg_unreduced P a) ≥ FEXCESS P
      then FP_reduce P (FP_neg_unreduced P a) else FP_neg_unreduced P a) := by
  obtain ⟨e0, _⟩ := EXCESS_nonneg_bound P h a hn h0
  have hE : EXCESS P a < pow2 P.CHUNK := by
    have e : EXCESS P a = limb a (P.NLEN - 1) / pow2 (TBITS P) := by
      unfold EXCESS; rw [maskHigh_shr]
    have htop : 0 ≤ limb a (P.NLEN - 1) := by
      by_contra hneg
      have hlt : limb a (P.NLEN - 1) < 0 := by omega
      have := Int.ediv_neg' hlt (pow2_pos (TBITS P))
      omega
    have h1 : limb a (P.NLEN - 1) / pow2 (TBITS P) ≤ limb a (P.NLEN - 1) :=
      Int.ediv_le_self _ htop
    have h2 := pow2_le_pow2 (show P.CHUNK - 1 ≤ P.CHUNK by omega)
    omega
  obtain ⟨s1, s2⟩ := FP_neg_shift_spec P a hn e0 hE
  exact ⟨FP_neg_unreduced_val P h.2.2.1 a, s1, s2, FP_neg_unreduced_nonneg P h a hn h0 hE,
    FP_neg_eq P a⟩

/-- C12: for all normalised non-negative `a` and `b` with excess below `FEXCESS`, the
output of `FP_sub(r,a,b)` is a non-negative integer congruent to `a - b` modulo the
modulus. -/
theorem FP_sub_spec (P : Config) (h : WF P) (a b : BIG)
    (ha : BIG_norm P a = a ∧ 0 ≤ BIG_val P a ∧ EXCESS P a < FEXCESS P)
    (hb : BIG_norm P b = b ∧ 0 ≤ BIG_val P b ∧ EXCESS P b < FEXCESS P) :
    0 ≤ BIG_val P (FP_sub P a b) ∧
    BIG_val P (FP_sub P a b) ≡ BIG_val P a - BIG_val P b [ZMOD Modulus_val P] := by
  have hp := WF_pos P h
  obtain ⟨n0, nc⟩ := FP_neg_spec P h b hb.1 hb.2.1 (lt_trans hb.2.2 (FEXCESS_lt_chunk P h))
  have hs : 0 ≤ BIG_val P (BIG_add P a (FP_neg P b)) := by
    rw [BIG_val_add]; linarith [ha.2.1]
  have hc : BIG_val P (BIG_add P a (FP_neg P b))
      ≡ BIG_val P a - BIG_val P b [ZMOD Modulus_val P] := by
    rw [BIG_val_add, sub_eq_add_neg]
    exact Int.ModEq.add_left _ nc
  unfold FP_sub FP_add
  simp only []
  by_cases hc2 : EXCESS P (BIG_add P a (FP_neg P b)) + 2 ≥ FEXCESS P
  · simp only [hc2, if_true]
    rw [FP_reduce_val P h _ hs]
    exact ⟨Int.emod_nonneg _ (ne_of_gt hp), (Int.mod_modEq _ _).trans hc⟩
  · simp only [hc2, if_false]
    exact ⟨hs, hc⟩

theorem FP_reduce_modEq (P : Config) (hN : 0 < P.NLEN) (a : BIG) :
    BIG_val P (FP_reduce P a) ≡ BIG_val P a [ZMOD Modulus_val P] := by
  unfold FP_reduce BIG_mod
  rw [BIG_val_copy]
  by_cases hlt : BIG_val P a < BIG_val P P.Modulus
  · simp only [hlt, if_true]
    rw [BIG_val_norm P _ hN]
  · simp only [hlt, if_false]
    rw [BIG_val_toLimbs P _ hN]
    exact Int.mod_modEq _ _

theorem FP_neg_norm (P : Config) (hN : 0 < P.NLEN) (a : BIG) :
    FP_neg P (BIG_norm P a) = FP_neg P a := by
  unfold FP_neg
  rw [BIG_norm_idem P a hN]

theorem toChunk_eq (P : Config) (hC : 0 < P.CHUNK) (x : Int) (h0 : 0 ≤ x)
    (h1 : x < pow2 (P.CHUNK - 1)) : toChunk P x = x := by
  have e : pow2 P.CHUNK = pow2 (P.CHUNK - 1) * 2 := by
    have : P.CHUNK = (P.CHUNK - 1) + 1 := by omega
    conv_lhs => rw [this]
    rw [pow2_add]; simp [pow2]
  unfold toChunk
  rw [e, Int.emod_eq_of_lt (by linarith) (by linarith)]
  ring

theorem FP_imul_mul_spec (P : Config) (h : WF P) (a : BIG) (c : Int) (hn : BIG_norm P a = a)
    (h0 : 0 ≤ BIG_val P a) (hc : 0 ≤ c)
    (hafx : (EXCESS P a + 1) * (c + 1) + 1 < pow2 (P.CHUNK - 1)) :
    0 ≤ BIG_val P (FP_imul_mul P a c) ∧
    BIG_val P (FP_imul_mul P a c) < pow2 (P.BASEBITS * P.NLEN) ∧
    BIG_val P (FP_imul_mul P a c) ≡ c * BIG_val P a [ZMOD Modulus_val P] ∧
    (c = 0 → BIG_val P (FP_imul_mul P a c) = 0) := by
  have hN := h.2.2.1
  have hp := WF_pos P h
  have hR := WF_R_gt P h
  obtain ⟨e0, e1⟩ := EXCESS_nonneg_bound P h a hn h0
  have hprod0 : 0 ≤ BIG_val P a * c := mul_nonneg h0 hc
  -- the product fits `NLEN` limbs when `afx < FEXCESS`
  have hfit : (EXCESS P a + 1) * (c + 1) + 1 < FEXCESS P →
      BIG_val P a * c < pow2 (P.BASEBITS * P.NLEN) := by
    intro hafx
    have hM := pow2_pos P.MODBITS
    have h1 : BIG_val P a * c ≤ (EXCESS P a + 1) * pow2 P.MODBITS * c :=
      mul_le_mul_of_nonneg_right (le_of_lt e1) hc
    have h2 : (EXCESS P a + 1) * c < FEXCESS P := by nlinarith
    have h3 : (EXCESS P a + 1) * c * pow2 P.MODBITS < FEXCESS P * pow2 P.MODBITS :=
      mul_lt_mul_of_pos_right h2 hM
    rw [FE_pow2 P h] at h3
    linarith
  have hC : 0 < P.CHUNK := by have := h.1; have := h.2.1; omega
  unfold FP_imul_mul
  simp only []
  rw [toChunk_eq P hC _ (by positivity) hafx]
  by_cases c1 : c < NEXCESS P ∧ (EXCESS P a + 1) * (c + 1) + 1 < FEXCESS P
  · simp only [c1, and_self, if_true]
    rw [BIG_val_imul]
    refine ⟨hprod0, hfit c1.2, by rw [mul_comm], fun hz => by rw [hz]; ring⟩
  · simp only [c1, if_false]
    by_cases c2 : (EXCESS P a + 1) * (c + 1) + 1 < FEXCESS P
    · simp only [c2, if_true]
      unfold BIG_pmul
      simp only [maskLow]
      rw [BIG_val_toLimbs P _ hN, Int.emod_eq_of_lt hprod0 (hfit c2)]
      refine ⟨hprod0, hfit c2, by rw [mul_comm], fun hz => by rw [hz]; ring⟩
    · simp only [c2, if_false]
      have hd : DBIG_val P (BIG_pxmul P a c) = BIG_val P a * c := by
        unfold BIG_pxmul
        exact DBIG_val_toLimbs P _ hN
      rw [BIG_dmod_eq P _ _ hN (by rw [hd]; exact hprod0)
        (by rw [BIG_val_copy]; exact le_of_lt hR), hd, BIG_val_copy, BIG_val_toLimbs P _ hN]
      refine ⟨Int.emod_nonneg _ (ne_of_gt hp), ?_, ?_, fun hz => by rw [hz]; simp⟩
      · exact lt_trans (Int.emod_lt_of_pos _ hp) hR
      · rw [mul_comm]
        exact Int.mod_modEq _ _

/-- The contract of `FP_imul` where `afx` fits a `chunk`: for every non-negative `a` and
every integer `c` with `(EXCESS(a)+1)*(|c|+1)+1 < 2^(CHUNK-1)`, `FP_imul(r,a,c)` leaves
`r` non-negative and congruent to `c*a` modulo the modulus, whichever of the three
multiplications is selected; `FP_imul(r,a,0)` is the zero BIG, and for a negative `c` the
result is the normalised `FP_neg` of the result for `-c`. -/
theorem FP_imul_spec (P : Config) (h : WF P) (a : BIG) (c : Int) (h0 : 0 ≤ BIG_val P a)
    (hafx : (EXCESS P (BIG_norm P a) + 1) * ((c.natAbs : Int) + 1) + 1 < pow2 (P.CHUNK - 1)) :
    0 ≤ BIG_val P (FP_imul P a c) ∧
    BIG_val P (FP_imul P a c) ≡ c * BIG_val P a [ZMOD Modulus_val P] ∧
    FP_imul P a 0 = BIG_zero P ∧
    (c < 0 → FP_imul P a c = BIG_norm P (FP_neg P (FP_imul P a (-c)))) := by
  have hN := h.2.2.1
  have hn1 := BIG_norm_idem P a hN
  have hv1 : 0 ≤ BIG_val P (BIG_norm P a) := by rw [BIG_val_norm P _ hN]; exact h0
  have hE0 := (EXCESS_nonneg_bound P h (BIG_norm P a) hn1 hv1).1
  have hafx0 : (EXCESS P (BIG_norm P a) + 1) * (0 + 1) + 1 < pow2 (P.CHUNK - 1) := by
    have : (0 : Int) ≤ (c.natAbs : Int) := Int.natCast_nonneg _
    nlinarith
  have hzero : FP_imul P a 0 = BIG_zero P := by
    obtain ⟨_, _, _, z⟩ := FP_imul_mul_spec P h (BIG_norm P a) 0 hn1 hv1 (le_refl 0) hafx0
    have hz : BIG_val P (FP_imul_mul P (BIG_norm P a) 0) = 0 := z rfl
    unfold FP_imul
    simp only [lt_irrefl, if_false]
    unfold BIG_norm at hz ⊢
    rw [hz, BIG_zero_eq]
  by_cases hc : c < 0
  · obtain ⟨r0, r1, rc, _⟩ :=
      FP_imul_mul_spec P h (BIG_norm P a) (-c) hn1 hv1 (by omega)
        (by rw [← Int.ofNat_natAbs_of_nonpos (le_of_lt hc)]; exact hafx)
    rw [BIG_val_norm P _ hN] at rc
    have hneg : ¬ (-c < 0) := by omega
    have e1 : FP_imul P a c = BIG_norm P (FP_neg P (FP_imul_mul P (BIG_norm P a) (-c))) := by
      unfold FP_imul
      simp only [hc, if_true]
    have e2 : FP_imul P a (-c) = BIG_norm P (FP_imul_mul P (BIG_norm P a) (-c)) := by
      unfold FP_imul
      simp only [hneg, if_false]
    have e3 : FP_imul P a c = BIG_norm P (FP_neg P (FP_imul P a (-c))) := by
      rw [e1, e2, FP_neg_norm P hN]
    -- the negation of the normalised product
    have hE : EXCESS P (BIG_norm P (FP_imul_mul P (BIG_norm P a) (-c))) < pow2 P.CHUNK := by
      rw [EXCESS_eq P h _ (BIG_norm_idem P _ hN), BIG_val_norm P _ hN]
      have hlt : BIG_val P (FP_imul_mul P (BIG_norm P a) (-c)) / pow2 P.MODBITS
          < FEXCESS P := by
        apply Int.ediv_lt_of_lt_mul (pow2_pos _)
        rw [FE_pow2 P h]; exact r1
      exact lt_trans hlt (FEXCESS_lt_chunk P h)
    obtain ⟨n0, nc⟩ := FP_neg_spec P h _ (BIG_norm_idem P _ hN)
      (by rw [BIG_val_norm P _ hN]; exact r0) hE
    rw [FP_neg_norm P hN, BIG_val_norm P _ hN] at nc
    rw [FP_neg_norm P hN] at n0
    refine ⟨by rw [e1, BIG_val_norm P _ hN]; exact n0, ?_, hzero, fun _ => e3⟩
    rw [e1, BIG_val_norm P _ hN]
    refine nc.trans ?_
    have := rc.neg
    rw [show -(-c * BIG_val P a) = c * BIG_val P a by ring] at this
    exact this
  · obtain ⟨r0, _, rc, _⟩ :=
      FP_imul_mul_spec P h (BIG_norm P a) c hn1 hv1 (by omega)
        (by rw [Int.natAbs_of_nonneg (not_lt.mp hc)] at hafx; exact hafx)
    rw [BIG_val_norm P _ hN] at rc
    have e1 : FP_imul P a c = BIG_norm P (FP_imul_mul P (BIG_norm P a) c) := by
      unfold FP_imul
      simp only [hc, if_false]
    refine ⟨by rw [e1, BIG_val_norm P _ hN]; exact r0, ?_, hzero, fun hlt => absurd hlt hc⟩
    rw [e1, BIG_val_norm P _ hN]
    exact rc

theorem legendreSym_one_iff_square (p : Nat) (hp : Nat.Prime p) (u : Int) :
    jacobiSym u p = 1 ↔ ∃ y : Int, ¬ ((p : Int) ∣ y) ∧ u ≡ y * y [ZMOD (p : Int)] := by
  haveI : Fact p.Prime := ⟨hp⟩
  rw [← jacobiSym.legendreSym.to_jacobiSym]
  constructor
  · intro h1
    have hu : (u : ZMod p) ≠ 0 := by
      intro hz
      rw [(legendreSym.eq_zero_iff p u).mpr hz] at h1
      norm_num at h1
    obtain ⟨z, hz⟩ := (legendreSym.eq_one_iff p hu).mp h1
    obtain ⟨y, hy⟩ := ZMod.intCast_surjective z
    refine ⟨y, ?_, ?_⟩
    · intro hd
      have hy0 : (y : ZMod p) = 0 := (ZMod.intCast_zmod_eq_zero_iff_dvd y p).mpr hd
      rw [hy0] at hy
      rw [← hy] at hz
      exact hu (by rw [hz]; ring)
    · apply (ZMod.intCast_eq_intCast_iff u (y * y) p).mp
      rw [hz, ← hy]
      push_cast
      ring
  · rintro ⟨y, hy, hc⟩
    have he : (u : ZMod p) = (y : ZMod p) * (y : ZMod p) := by
      have := (ZMod.intCast_eq_intCast_iff u (y * y) p).mpr hc
      rw [this]
      push_cast
      ring
    have hy0 : (y : ZMod p) ≠ 0 := fun hz =>
      hy ((ZMod.intCast_zmod_eq_zero_iff_dvd y p).mp hz)
    have hu : (u : ZMod p) ≠ 0 := by
      rw [he]
      exact mul_ne_zero hy0 hy0
    exact (legendreSym.eq_one_iff p hu).mpr ⟨(y : ZMod p), he⟩

theorem FP_redc_mul_R (P : Config) (h : WF P) (r : BIG) (hr : Valid P r) :
    0 ≤ BIG_val P (FP_redc P r) ∧
    BIG_val P (FP_redc P r) * nres_R P ≡ BIG_val P r [ZMOD Modulus_val P] := by
  by_cases hm : isMont P
  · have hRb := WF_R_bound P h
    have hR0 := pow2_pos (P.BASEBITS * P.NLEN)
    have hpos := WF_pos P h
    have hx1 := hr.2.2 hm
    have e3 : pow2 (P.MODBITS + 1) = pow2 P.MODBITS * 2 := by
      rw [pow2_add]; simp [pow2]
    obtain ⟨_, q, q0, q1, hq⟩ := FP_redc_mont P h hm r hr.1 hr.2.1 (by linarith)
    constructor
    · by_contra hneg
      have : BIG_val P (FP_redc P r) ≤ -1 := by omega
      have h2 : 0 ≤ q * Modulus_val P := by positivity
      have h3 := hr.2.1
      nlinarith
    · rw [nres_R_mont P hm, hq]
      exact (Int.modEq_iff_dvd).mpr ⟨-q, by ring⟩
  · rw [FP_redc_mers P hm, nres_R_mers P hm, mul_one]
    exact ⟨hr.2.1, Int.ModEq.refl _⟩

/-- C17: for a prime modulus and every `r` in n-residue form (normalised, non-negative,
and below `2^(MODBITS+1)` for the Montgomery types), `FP_qr(r)` returns 1 exactly when the
Jacobi symbol of `FP_redc(r)` over the modulus is 1, that is, exactly when `r` represents a
nonzero square, and returns 0 otherwise, in particular for `r` congruent to 0; on return
`r` is congruent to the input, and it is the input itself when that was fully reduced. -/
theorem FP_qr_spec (P : Config) (h : WF P) (hp : Nat.Prime (Modulus_val P).toNat)
    (r : BIG) (hr : Valid P r) :
    ((FP_qr P r).1 = 1 ↔
      jacobiSym (BIG_val P (FP_redc P r)) (Modulus_val P).toNat = 1) ∧
    ((FP_qr P r).1 = 1 ↔
      ∃ y : Int, ¬ (Modulus_val P ∣ y) ∧
        BIG_val P r ≡ y * y * nres_R P [ZMOD Modulus_val P]) ∧
    ((FP_qr P r).1 = 1 ∨ (FP_qr P r).1 = 0) ∧
    (BIG_val P r ≡ 0 [ZMOD Modulus_val P] → (FP_qr P r).1 = 0) ∧
    BIG_val P (FP_qr P r).2 ≡ BIG_val P r [ZMOD Modulus_val P] ∧
    (InField P r → (FP_qr P r).2 = r) := by
  have hN := h.2.2.1
  have hpos := WF_pos P h
  have hn : ((Modulus_val P).toNat : Int) = Modulus_val P :=
    Int.toNat_of_nonneg (le_of_lt hpos)
  obtain ⟨u0, uc⟩ := FP_redc_mul_R P h r hr
  have e1 : (FP_qr P r).1
      = if jacobiSym (BIG_val P (FP_redc P r)) (Modulus_val P).toNat = 1 then 1 else 0 := by
    unfold FP_qr BIG_jacobi
    simp only [BIG_val_copy]
    rfl
  have e2 : (FP_qr P r).2 = FP_nres P (FP_redc P r) := rfl
  have j1 : (FP_qr P r).1 = 1 ↔
      jacobiSym (BIG_val P (FP_redc P r)) (Modulus_val P).toNat = 1 := by
    rw [e1]
    by_cases hj : jacobiSym (BIG_val P (FP_redc P r)) (Modulus_val P).toNat = 1
    · simp [hj]
    · simp [hj]
  have j2 : jacobiSym (BIG_val P (FP_redc P r)) (Modulus_val P).toNat = 1 ↔
      ∃ y : Int, ¬ (Modulus_val P ∣ y) ∧
        BIG_val P r ≡ y * y * nres_R P [ZMOD Modulus_val P] := by
    rw [legendreSym_one_iff_square _ hp, hn]
    constructor
    · rintro ⟨y, hy, hc⟩
      exact ⟨y, hy, uc.symm.trans (Int.ModEq.mul_right _ hc)⟩
    · rintro ⟨y, hy, hc⟩
      exact ⟨y, hy, modEq_cancel_R P h _ _ (uc.trans hc)⟩
  have hcases : (FP_qr P r).1 = 1 ∨ (FP_qr P r).1 = 0 := by
    rw [e1]
    by_cases hj : jacobiSym (BIG_val P (FP_redc P r)) (Modulus_val P).toNat = 1
    · left; simp [hj]
    · right; simp [hj]
  have hback : BIG_val P (FP_qr P r).2 ≡ BIG_val P r [ZMOD Modulus_val P] := by
    rw [e2]
    by_cases hm : isMont P
    · rw [FP_nres_mont P h hm _ u0, BIG_val_toLimbs P _ hN]
      exact (Int.mod_modEq _ _).trans uc
    · rw [FP_nres_mers P hm, FP_redc_mers P hm]
  refine ⟨j1, j1.trans j2, hcases, ?_, hback, ?_⟩
  · intro hz
    rcases hcases with h1 | h0
    · exfalso
      obtain ⟨y, hy, hc⟩ := (j1.trans j2).mp h1
      have hd : Modulus_val P ∣ y * y * nres_R P :=
        (Int.modEq_zero_iff_dvd).mp (hc.symm.trans hz)
      have hd2 : Modulus_val P ∣ y * y :=
        (nres_R_coprime P h).symm.dvd_of_dvd_mul_right hd
      rw [← hn] at hd2 hy
      rcases Int.Prime.dvd_mul' hp hd2 with h3 | h3
      · exact hy h3
      · exact hy h3
    · exact h0
  · intro hf
    rw [e2]
    by_cases hm : isMont P
    · rw [FP_nres_mont P h hm _ u0]
      have hv : (BIG_val P (FP_redc P r) * nres_R P) % Modulus_val P = BIG_val P r := by
        have := uc
        unfold Int.ModEq at this
        rw [this]
        exact Int.emod_eq_of_lt hf.2.1 hf.2.2
      rw [hv]
      have := hf.1
      unfold BIG_norm at this
      exact this
    · rw [FP_nres_mers P hm, FP_redc_mers P hm]

theorem NS_m_dvd (P : Config) (d : DBIG) (i : Nat) (md0 : Int)
    (hmc : (P.MConst * md0 + 1) % pow2 P.BASEBITS = 0) :
    (FP_mod_NS_m P d i * md0 + limb d i) % pow2 P.BASEBITS = 0 ∧
    (P.MConst ≠ 1 → 0 ≤ FP_mod_NS_m P d i ∧ FP_mod_NS_m P d i < pow2 P.BASEBITS) ∧
    (P.MConst = 1 → FP_mod_NS_m P d i = limb d i) := by
  have hB := pow2_pos P.BASEBITS
  have hdiv : pow2 P.BASEBITS ∣ (FP_mod_NS_m P d i - P.MConst * limb d i) := by
    unfold FP_mod_NS_m
    by_cases h1 : P.MConst = -1
    · simp only [h1, if_true, maskLow]
      have := emod_sub_self_dvd (-(limb d i)) (pow2 P.BASEBITS)
      have e : -limb d i % pow2 P.BASEBITS - -1 * limb d i
          = -limb d i % pow2 P.BASEBITS - -limb d i := by ring
      rw [e]; exact this
    · by_cases h2 : P.MConst = 1
      · simp [h1, h2]
      · simp only [h1, h2, if_false, maskLow]
        exact emod_sub_self_dvd _ _
  refine ⟨?_, ?_, ?_⟩
  · apply Int.emod_eq_zero_of_dvd
    have h3 := Int.dvd_of_emod_eq_zero hmc
    have e : FP_mod_NS_m P d i * md0 + limb d i
        = (FP_mod_NS_m P d i - P.MConst * limb d i) * md0
          + limb d i * (P.MConst * md0 + 1) := by
      ring
    rw [e]
    exact dvd_add (Dvd.dvd.mul_right hdiv _) (Dvd.dvd.mul_left h3 _)
  · intro hne
    unfold FP_mod_NS_m
    by_cases h1 : P.MConst = -1
    · simp only [h1, if_true, maskLow]
      exact ⟨Int.emod_nonneg _ (ne_of_gt hB), Int.emod_lt_of_pos _ hB⟩
    · simp only [h1, hne, if_false, maskLow]
      exact ⟨Int.emod_nonneg _ (ne_of_gt hB), Int.emod_lt_of_pos _ hB⟩
  · intro h1
    unfold FP_mod_NS_m
    have h2 : ¬ ((1 : Int) = -1) := by norm_num
    simp only [h1, h2, if_true, if_false]

theorem NS_loop_inv_raw (P : Config) (md : BIG) (d : DBIG)
    (hmc : (P.MConst * limb md 0 + 1) % pow2 P.BASEBITS = 0)
    (hl : d.length = 2 * P.NLEN)
    (hd0 : P.MConst = 1 → -1 ≤ limb d 0 ∧ limb d 0 < pow2 P.BASEBITS)
    (i : Nat) (hi : i + 1 ≤ P.NLEN) :
    ((List.range (i + 1)).foldl (FP_mod_NS_row P md) d).length = 2 * P.NLEN ∧
    (∃ q, -1 ≤ q ∧ q < pow2 (P.BASEBITS * (i + 1)) ∧
      valN P ((List.range (i + 1)).foldl (FP_mod_NS_row P md) d) (2 * P.NLEN)
        = valN P d (2 * P.NLEN) + q * valN P md P.NLEN) ∧
    (∀ k, k < i + 1 → limb ((List.range (i + 1)).foldl (FP_mod_NS_row P md) d) k = 0) ∧
    (∀ k, i + 1 ≤ k → k < P.NLEN →
      0 ≤ limb ((List.range (i + 1)).foldl (FP_mod_NS_row P md) d) k ∧
      limb ((List.range (i + 1)).foldl (FP_mod_NS_row P md) d) k < pow2 P.BASEBITS) := by
  induction i with
  | zero =>
    simp only [List.range_succ, List.range_zero, List.nil_append, List.foldl_cons,
      List.foldl_nil]
    obtain ⟨r1, r2, _, r4, r5⟩ := NS_row_spec P md d 0 (by omega) hl
    obtain ⟨m2, mr, me⟩ := NS_m_dvd P d 0 (limb md 0) hmc
    refine ⟨r1, ⟨FP_mod_NS_m P d 0, ?_, ?_, ?_⟩, ?_, ?_⟩
    · by_cases h1 : P.MConst = 1
      · rw [me h1]; exact (hd0 h1).1
      · have := (mr h1).1
        omega
    · rw [show P.BASEBITS * (0 + 1) = P.BASEBITS by ring]
      by_cases h1 : P.MConst = 1
      · rw [me h1]; exact (hd0 h1).2
      · exact (mr h1).2
    · rw [r2]; simp [pow2_zero]
    · intro k hk
      have : k = 0 := by omega
      rw [this, r4, m2]
    · intro k h1 h2
      exact r5 k (by omega) h2
  | succ i ih =>
    obtain ⟨hl1, ⟨q, hq0, hq1, hq⟩, hz, hb⟩ := ih (by omega)
    rw [List.range_succ, List.foldl_append]
    simp only [List.foldl_cons, List.foldl_nil]
    generalize (List.range (i + 1)).foldl (FP_mod_NS_row P md) d = e at hl1 hq hz hb ⊢
    obtain ⟨r1, r2, r3, r4, r5⟩ := NS_row_spec P md e (i + 1) (by omega) hl1
    obtain ⟨m0, m1, m2⟩ :=
      NS_m_spec P e (i + 1) (limb md 0) hmc (hb (i + 1) (le_refl _) (by omega))
    refine ⟨r1, ⟨q + FP_mod_NS_m P e (i + 1) * pow2 (P.BASEBITS * (i + 1)), ?_, ?_, ?_⟩,
      ?_, ?_⟩
    · have := pow2_pos (P.BASEBITS * (i + 1))
      have : 0 ≤ FP_mod_NS_m P e (i + 1) * pow2 (P.BASEBITS * (i + 1)) := by positivity
      omega
    · rw [show P.BASEBITS * (i + 1 + 1) = P.BASEBITS * (i + 1) + P.BASEBITS by ring, pow2_add]
      have := pow2_pos (P.BASEBITS * (i + 1))
      nlinarith
    · rw [r2, hq]; ring
    · intro k hk
      by_cases hki : k = i + 1
      · subst hki
        rw [r4, m2]
      · rw [r3 k (by omega)]
        exact hz k (by omega)
    · intro k h1 h2
      exact r5 k (by omega) h2

theorem FP_mod_NS_loop_raw (P : Config) (d : DBIG) (hN : 0 < P.NLEN)
    (hmc : (P.MConst * Modulus_val P + 1) % pow2 P.BASEBITS = 0)
    (hl : d.length = 2 * P.NLEN)
    (hd0 : P.MConst = 1 → -1 ≤ limb d 0 ∧ limb d 0 < pow2 P.BASEBITS) :
    ∃ q, -1 ≤ q ∧ q < pow2 (P.BASEBITS * P.NLEN) ∧
      BIG_val P (FP_mod_NS_loop P d) * pow2 (P.BASEBITS * P.NLEN)
        = DBIG_val P d + q * Modulus_val P := by
  have hmd : valN P (BIG_copy P P.Modulus) P.NLEN = Modulus_val P := BIG_val_copy P P.Modulus
  have hmc0 : (P.MConst * limb (BIG_copy P P.Modulus) 0 + 1) % pow2 P.BASEBITS = 0 := by
    obtain ⟨T, hT⟩ := valN_limb0 P (BIG_copy P P.Modulus) P.NLEN hN
    rw [hmd] at hT
    have h3 := Int.dvd_of_emod_eq_zero hmc
    apply Int.emod_eq_zero_of_dvd
    have e : P.MConst * limb (BIG_copy P P.Modulus) 0 + 1
        = (P.MConst * Modulus_val P + 1) - pow2 P.BASEBITS * (P.MConst * T) := by
      rw [hT]; ring
    rw [e]
    exact dvd_sub h3 (Dvd.intro _ rfl)
  obtain ⟨hl1, ⟨q, hq0, hq1, hq⟩, hz, _⟩ :=
    NS_loop_inv_raw P (BIG_copy P P.Modulus) d hmc0 hl hd0 (P.NLEN - 1) (by omega)
  rw [show P.NLEN - 1 + 1 = P.NLEN by omega] at hl1 hq1 hq hz
  refine ⟨q, hq0, hq1, ?_⟩
  unfold FP_mod_NS_loop
  simp only []
  rw [BIG_val_norm P _ hN]
  generalize (List.range P.NLEN).foldl (FP_mod_NS_row P (BIG_copy P P.Modulus)) d = e
    at hl1 hq hz ⊢
  have hs := valN_shift P e P.NLEN P.NLEN
  rw [show P.NLEN + P.NLEN = 2 * P.NLEN by ring, valN_zero_of_limbs P e P.NLEN hz, hq, hmd] at hs
  unfold BIG_val BIG_sducopy DBIG_val
  linarith

theorem MF_step_top (P : Config) (d : DBIG) (hN : 2 ≤ P.NLEN) (hl : d.length = 2 * P.NLEN) :
    0 ≤ limb (FP_mod_MF_step P d 0) (P.NLEN - 1) ∧
    limb (FP_mod_MF_step P d 0) (P.NLEN - 1) < pow2 P.BASEBITS := by
  unfold FP_mod_MF_step
  simp only []
  obtain ⟨_, mn, ml⟩ :=
    muladd_spec P (limb d 0) (P.MConst - 1) (limb d 0) (limb d (P.NLEN + 0 - 1))
  generalize muladd P (limb d 0) (P.MConst - 1) (limb d 0) (limb d (P.NLEN + 0 - 1)) = cw
    at mn ml ⊢
  rw [limb_set]
  have h1 : ¬ (P.NLEN - 1 = P.NLEN + 0 ∧
      P.NLEN + 0 < (d.set (P.NLEN + 0 - 1) cw.2).length) := by omega
  simp only [h1, if_false]
  rw [limb_set]
  have h2 : P.NLEN - 1 = P.NLEN + 0 - 1 ∧ P.NLEN + 0 - 1 < d.length := by omega
  simp only [h2, and_self, if_true]
  exact ⟨mn, ml⟩

theorem MF_loop_inv_raw (P : Config) (d : DBIG) (hN : 2 ≤ P.NLEN) (hl : d.length = 2 * P.NLEN)
    (i : Nat) (hi : i + 1 ≤ P.NLEN) :
    ((List.range (i + 1)).foldl (FP_mod_MF_step P) d).length = 2 * P.NLEN ∧
    valN P ((List.range (i + 1)).foldl (FP_mod_MF_step P) d) (2 * P.NLEN)
      = valN P d (2 * P.NLEN)
        + valN P ((List.range (i + 1)).foldl (FP_mod_MF_step P) d) (i + 1) * P.MConst
          * pow2 (P.BASEBITS * (P.NLEN - 1)) ∧
    (∀ k, k < P.NLEN - 1 →
      limb ((List.range (i + 1)).foldl (FP_mod_MF_step P) d) k = limb d k) ∧
    0 ≤ limb ((List.range (i + 1)).foldl (FP_mod_MF_step P) d) (P.NLEN - 1) ∧
    limb ((List.range (i + 1)).foldl (FP_mod_MF_step P) d) (P.NLEN - 1) < pow2 P.BASEBITS := by
  induction i with
  | zero =>
    simp only [List.range_succ, List.range_zero, List.nil_append, List.foldl_cons,
      List.foldl_nil]
    obtain ⟨s1, s2, s3, _⟩ := MF_step_spec P d 0 hN (by omega) hl
    obtain ⟨t0, t1⟩ := MF_step_top P d hN hl
    refine ⟨s1, ?_, fun k hk => s3 k (by omega), t0, t1⟩
    rw [s2]
    simp only [valN]
    rw [s3 0 (by omega)]
    simp [pow2_zero]
  | succ i ih =>
    obtain ⟨hl1, hv, hk, hb0, hb1⟩ := ih (by omega)
    rw [List.range_succ, List.foldl_append]
    simp only [List.foldl_cons, List.foldl_nil]
    generalize (List.range (i + 1)).foldl (FP_mod_MF_step P) d = e at hl1 hv hk hb0 hb1 ⊢
    obtain ⟨s1, s2, s3, _⟩ := MF_step_spec P e (i + 1) hN (by omega) hl1
    refine ⟨s1, ?_, fun k hk1 => by rw [s3 k (by omega)]; exact hk k hk1, ?_, ?_⟩
    · have e1 : valN P (FP_mod_MF_step P e (i + 1)) (i + 1 + 1)
          = valN P e (i + 1) + limb e (i + 1) * pow2 (P.BASEBITS * (i + 1)) := by
        rw [show valN P (FP_mod_MF_step P e (i + 1)) (i + 1 + 1)
          = valN P (FP_mod_MF_step P e (i + 1)) (i + 1)
            + limb (FP_mod_MF_step P e (i + 1)) (i + 1) * pow2 (P.BASEBITS * (i + 1)) from rfl]
        rw [valN_congr P (FP_mod_MF_step P e (i + 1)) e (i + 1) (fun k hk => s3 k (by omega)),
          s3 (i + 1) (by omega)]
      rw [s2, hv, e1]
      ring
    · rw [s3 (P.NLEN - 1) (by omega)]; exact hb0
    · rw [s3 (P.NLEN - 1) (by omega)]; exact hb1

theorem FP_mod_MF_raw (P : Config) (d : DBIG) (hN : 2 ≤ P.NLEN)
    (hmc : Modulus_val P + 1 = P.MConst * pow2 (P.BASEBITS * (P.NLEN - 1)))
    (hl : d.length = 2 * P.NLEN)
    (hlow : -1 ≤ valN P d (P.NLEN - 1) ∧
      valN P d (P.NLEN - 1) < pow2 (P.BASEBITS * (P.NLEN - 1))) :
    ∃ q, -1 ≤ q ∧ q < pow2 (P.BASEBITS * P.NLEN) ∧
      BIG_val P (FP_mod_MF P d) * pow2 (P.BASEBITS * P.NLEN)
        = DBIG_val P d + q * Modulus_val P := by
  obtain ⟨hl1, hv, hk, hb0, hb1⟩ := MF_loop_inv_raw P d hN hl (P.NLEN - 1) (by omega)
  rw [show P.NLEN - 1 + 1 = P.NLEN by omega] at hl1 hv hk hb0 hb1
  unfold FP_mod_MF
  rw [BIG_val_norm P _ (by omega)]
  generalize (List.range P.NLEN).foldl (FP_mod_MF_step P) d = e at hl1 hv hk hb0 hb1 ⊢
  have hq : valN P e P.NLEN
      = valN P d (P.NLEN - 1) + limb e (P.NLEN - 1) * pow2 (P.BASEBITS * (P.NLEN - 1)) := by
    obtain ⟨m, hm⟩ : ∃ m, P.NLEN = m + 1 := ⟨P.NLEN - 1, by omega⟩
    rw [hm]
    rw [show valN P e (m + 1) = valN P e m + limb e m * pow2 (P.BASEBITS * m) from rfl]
    rw [show m + 1 - 1 = m by omega]
    rw [valN_congr P e d m (fun k hk1 => hk k (by omega))]
  have hR : pow2 (P.BASEBITS * P.NLEN)
      = pow2 (P.BASEBITS * (P.NLEN - 1)) * pow2 P.BASEBITS := by
    rw [← pow2_add]; congr 1
    have := mul_pred_add P.BASEBITS P.NLEN (by omega)
    omega
  have hL := pow2_pos (P.BASEBITS * (P.NLEN - 1))
  refine ⟨valN P e P.NLEN, ?_, ?_, ?_⟩
  · rw [hq]
    have : 0 ≤ limb e (P.NLEN - 1) * pow2 (P.BASEBITS * (P.NLEN - 1)) := by positivity
    linarith [hlow.1]
  · rw [hq, hR]
    have h1 : limb e (P.NLEN - 1) + 1 ≤ pow2 P.BASEBITS := by omega
    have h2 := mul_le_mul_of_nonneg_left h1 (le_of_lt hL)
    nlinarith [hlow.2]
  · have hs := valN_shift P e P.NLEN P.NLEN
    rw [show P.NLEN + P.NLEN = 2 * P.NLEN by ring, hv] at hs
    have hp : Modulus_val P = P.MConst * pow2 (P.BASEBITS * (P.NLEN - 1)) - 1 := by linarith
    unfold BIG_val BIG_sducopy DBIG_val
    rw [hp]
    linear_combination -hs

theorem EXCESS_InField (P : Config) (h : WF P) (x : BIG) (hx : InField P x) :
    EXCESS P x = 0 := by
  rw [EXCESS_eq P h x hx.1]
  have hp : Modulus_val P < pow2 P.MODBITS := h.2.2.2.2.2.2.2.2.1
  exact Int.ediv_eq_zero_of_lt hx.2.1 (lt_trans hx.2.2 hp)

theorem FP_neg_shift_InField (P : Config) (h : WF P) (x : BIG) (hx : InField P x) :
    FP_neg_shift P x = 1 := by
  unfold FP_neg_shift
  rw [hx.1, EXCESS_InField P h x hx]
  cases P.CHUNK <;> simp [FP_neg_sb]

theorem FEXCESS_ge_two (P : Config) (h : WF P) : 2 ≤ FEXCESS P := by
  obtain ⟨_, _, _, _, _, h6, _⟩ := h
  unfold FEXCESS
  have := pow2_le_pow2 (show 1 ≤ P.BASEBITS * P.NLEN - P.MODBITS by omega)
  simpa [pow2] using this

theorem FP_neg_unreduced_InField (P : Config) (h : WF P) (x : BIG) (hx : InField P x) :
    FP_neg_unreduced P x = BIG_sub P (toLimbs P P.NLEN (2 * Modulus_val P)) x := by
  unfold FP_neg_unreduced
  rw [FP_neg_shift_InField P h x hx, hx.1]
  unfold BIG_fshl
  rw [BIG_val_copy]
  congr 2
  simp [shl, pow2, Modulus_val]
  ring

theorem FP_neg_InField (P : Config) (h : WF P) (x : BIG) (hx : InField P x) :
    FP_neg P x = BIG_sub P (toLimbs P P.NLEN (2 * Modulus_val P)) x := by
  have hp : Modulus_val P < pow2 P.MODBITS := h.2.2.2.2.2.2.2.2.1
  have hpos := WF_pos P h
  have hF := FEXCESS_ge_two P h
  rw [FP_neg_eq, FP_neg_unreduced_InField P h x hx]
  obtain ⟨hB, _, hN, _, h5, h6, _⟩ := h
  have hE : ¬ (EXCESS P (BIG_sub P (toLimbs P P.NLEN (2 * Modulus_val P)) x) ≥ FEXCESS P) := by
    have e : EXCESS P (BIG_sub P (toLimbs P P.NLEN (2 * Modulus_val P)) x)
        = (limb (toLimbs P P.NLEN (2 * Modulus_val P)) (P.NLEN - 1) - limb x (P.NLEN - 1))
          / pow2 (TBITS P) := by
      unfold EXCESS
      rw [maskHigh_shr]
      unfold BIG_sub
      rw [limb_mkLimbs]
      have : P.NLEN - 1 < P.NLEN := by omega
      simp only [this, if_true]
    have hxt : 0 ≤ limb x (P.NLEN - 1) := by
      have hn := hx.1
      unfold BIG_norm at hn
      rw [← hn, toLimbs_top P _ _ hN]
      exact Int.ediv_nonneg hx.2.1 (le_of_lt (pow2_pos _))
    have ht := limb_top_ediv P (2 * Modulus_val P) hB hN h5 h6
    have h1 : (limb (toLimbs P P.NLEN (2 * Modulus_val P)) (P.NLEN - 1) - limb x (P.NLEN - 1))
        / pow2 (TBITS P)
        ≤ limb (toLimbs P P.NLEN (2 * Modulus_val P)) (P.NLEN - 1) / pow2 (TBITS P) :=
      Int.ediv_le_ediv (pow2_pos _) (by omega)
    have h2 : 2 * Modulus_val P / pow2 P.MODBITS < 2 :=
      Int.ediv_lt_of_lt_mul (pow2_pos _) (by linarith)
    rw [e]
    omega
  simp only [hE, if_false]

theorem toLimbs_limb0 (P : Config) (n : Nat) (y : Int) :
    (n = 1 → limb (toLimbs P n y) 0 = y) ∧
    (2 ≤ n → limb (toLimbs P n y) 0 = y % pow2 P.BASEBITS) := by
  constructor
  · intro h1
    rw [limb_toLimbs, h1]
    simp [pow2_zero]
  · intro h2
    rw [limb_toLimbs]
    have h3 : 0 < n := by omega
    have h4 : 0 + 1 < n := by omega
    simp only [h3, h4, if_true]
    simp [pow2_zero]

theorem emod_double_pred (p L : Int) (hL : 2 ≤ L) (hd : L ∣ p + 1) : (2 * p) % L = L - 2 := by
  obtain ⟨k, hk⟩ := hd
  have e : 2 * p = (L - 2) + L * (2 * k - 1) := by linarith
  rw [e, Int.add_mul_emod_self_left]
  exact Int.emod_eq_of_lt (by omega) (by omega)

theorem FP_redc_neg_raw (P : Config) (h : WF P) (hm : isMont P) (x : BIG)
    (hx : InField P x) :
    ∃ q, -1 ≤ q ∧ q < pow2 (P.BASEBITS * P.NLEN) ∧
      BIG_val P (FP_redc P (FP_neg P x)) * pow2 (P.BASEBITS * P.NLEN)
        = (2 * Modulus_val P - BIG_val P x) + q * Modulus_val P := by
  have hpos := WF_pos P h
  have hRb := WF_R_bound P h
  have hR0 := pow2_pos (P.BASEBITS * P.NLEN)
  have hp9 : Modulus_val P < pow2 P.MODBITS := h.2.2.2.2.2.2.2.2.1
  rw [FP_neg_InField P h x hx]
  obtain ⟨hB, _, hN, _, h5, h6, h7, h8, h9, hrom⟩ := h
  obtain ⟨r1, _, r3, _⟩ := hrom
  have hxn : toLimbs P P.NLEN (BIG_val P x) = x := hx.1
  have hB2 : (2 : Int) ≤ pow2 P.BASEBITS := by
    have := pow2_le_pow2 (show 1 ≤ P.BASEBITS by omega)
    simpa [pow2] using this
  have hl : (BIG_dscopy P (BIG_sub P (toLimbs P P.NLEN (2 * Modulus_val P)) x)).length
      = 2 * P.NLEN := by
    unfold BIG_dscopy; exact length_mkLimbs _ _
  have hval : DBIG_val P (BIG_dscopy P (BIG_sub P (toLimbs P P.NLEN (2 * Modulus_val P)) x))
      = 2 * Modulus_val P - BIG_val P x := by
    rw [DBIG_val_dscopy, BIG_val_sub, BIG_val_toLimbs P _ hN]
  have hlow : ∀ m, m ≤ P.NLEN →
      valN P (BIG_dscopy P (BIG_sub P (toLimbs P P.NLEN (2 * Modulus_val P)) x)) m
        = valN P (toLimbs P P.NLEN (2 * Modulus_val P)) m
          - valN P (toLimbs P P.NLEN (BIG_val P x)) m := by
    intro m hmN
    rw [hxn]
    rw [← valN_sub P (toLimbs P P.NLEN (2 * Modulus_val P)) x P.NLEN m hmN]
    apply valN_congr
    intro k hk
    unfold BIG_dscopy BIG_sub
    rw [limb_mkLimbs]
    have h1 : k < 2 * P.NLEN := by omega
    have h2 : k < P.NLEN := by omega
    simp only [h1, h2, if_true]
  have e1 : FP_redc P (BIG_sub P (toLimbs P P.NLEN (2 * Modulus_val P)) x)
      = FP_mod P (BIG_dscopy P (BIG_sub P (toLimbs P P.NLEN (2 * Modulus_val P)) x)) := by
    unfold FP_redc
    rcases hm with hm | hm <;> rw [hm]
  rw [e1, ← hval]
  generalize hd : BIG_dscopy P (BIG_sub P (toLimbs P P.NLEN (2 * Modulus_val P)) x) = d
    at hl hval hlow ⊢
  unfold FP_mod
  rcases hm with hm | hm
  · rw [hm]
    simp only []
    have hmc := r1 hm
    unfold FP_mod_NS
    by_cases hc : P.COMBA = true
    · simp only [hc, if_true]
      obtain ⟨q, q0, q1, hq⟩ := FP_mod_NS_comba_spec P d hN hmc hpos
        (by rw [hval]; linarith [hx.2.2])
        (by rw [hval]; nlinarith [hx.2.1])
      exact ⟨q, by omega, q1, hq⟩
    · simp only [hc]
      apply FP_mod_NS_loop_raw P d hN hmc hl
      intro hM1
      have hdvd : pow2 P.BASEBITS ∣ Modulus_val P + 1 := by
        have := Int.dvd_of_emod_eq_zero hmc
        rw [hM1, one_mul] at this
        exact this
      have hl0 : limb d 0 = limb (toLimbs P P.NLEN (2 * Modulus_val P)) 0
          - limb (toLimbs P P.NLEN (BIG_val P x)) 0 := by
        have := hlow 1 (by omega)
        simpa [valN, pow2_zero] using this
      rw [hl0]
      by_cases hN1 : P.NLEN = 1
      · rw [(toLimbs_limb0 P P.NLEN _).1 hN1, (toLimbs_limb0 P P.NLEN _).1 hN1]
        have hR1 : pow2 (P.BASEBITS * P.NLEN) = pow2 P.BASEBITS := by rw [hN1, mul_one]
        rw [hR1] at hRb
        constructor
        · linarith [hx.2.2]
        · linarith [hx.2.1]
      · rw [(toLimbs_limb0 P P.NLEN _).2 (by omega), (toLimbs_limb0 P P.NLEN _).2 (by omega),
          emod_double_pred _ _ hB2 hdvd]
        have a0 := Int.emod_nonneg (BIG_val P x) (ne_of_gt (pow2_pos P.BASEBITS))
        have a1 := Int.emod_lt_of_pos (BIG_val P x) (pow2_pos P.BASEBITS)
        constructor <;> omega
  · rw [hm]
    simp only []
    obtain ⟨hN2, hmc⟩ := r3 hm
    apply FP_mod_MF_raw P d hN2 hmc hl
    rw [hlow (P.NLEN - 1) (by omega), valN_toLimbs_low P _ _ _ (by omega),
      valN_toLimbs_low P _ _ _ (by omega)]
    have hL2 : (2 : Int) ≤ pow2 (P.BASEBITS * (P.NLEN - 1)) := by
      have := pow2_le_pow2 (show 1 ≤ P.BASEBITS * (P.NLEN - 1) by
        have : 1 ≤ P.NLEN - 1 := by omega
        exact Nat.one_le_iff_ne_zero.mpr (Nat.mul_ne_zero (by omega) (by omega)))
      simpa [pow2] using this
    rw [emod_double_pred _ _ hL2 ⟨P.MConst, by rw [hmc]; ring⟩]
    have a0 := Int.emod_nonneg (BIG_val P x) (ne_of_gt (pow2_pos (P.BASEBITS * (P.NLEN - 1))))
    have a1 := Int.emod_lt_of_pos (BIG_val P x) (pow2_pos (P.BASEBITS * (P.NLEN - 1)))
    constructor <;> omega

theorem neg_emod_of_pos (a p : Int) (h0 : 0 < a) (h1 : a < p) : (-a) % p = p - a := by
  rw [← Int.add_emod_self]
  rw [show -a + p = p - a by ring]
  exact Int.emod_eq_of_lt (by omega) (by omega)

theorem FP_redc_neg_mont (P : Config) (h : WF P) (hm : isMont P) (a : BIG)
    (ha : InField P a) :
    BIG_val P (FP_redc P (FP_neg P (FP_nres P a)))
      = if BIG_val P a = 0 then Modulus_val P else Modulus_val P - BIG_val P a := by
  have hpos := WF_pos P h
  have hRgt := WF_R_gt P h
  have hR0 := pow2_pos (P.BASEBITS * P.NLEN)
  obtain ⟨fx, vx⟩ := FP_nres_spec P h a ha
  obtain ⟨q, q0, q1, hq⟩ := FP_redc_neg_raw P h hm (FP_nres P a) fx
  rw [nres_R_mont P hm] at vx
  generalize BIG_val P (FP_redc P (FP_neg P (FP_nres P a))) = res at hq ⊢
  generalize hX : BIG_val P (FP_nres P a) = X at hq vx
  have X0 : 0 ≤ X := by rw [← hX]; exact fx.2.1
  have X1 : X < Modulus_val P := by rw [← hX]; exact fx.2.2
  -- the result lies in [1, Modulus]
  have hres1 : 1 ≤ res := by
    by_contra hc
    have h1 : res ≤ 0 := by omega
    have h2 : res * pow2 (P.BASEBITS * P.NLEN) ≤ 0 :=
      mul_nonpos_of_nonpos_of_nonneg h1 (le_of_lt hR0)
    have h3 : -1 * Modulus_val P ≤ q * Modulus_val P :=
      mul_le_mul_of_nonneg_right q0 (le_of_lt hpos)
    linarith
  have hres2 : res ≤ Modulus_val P := by
    by_contra hc
    have h1 : Modulus_val P + 1 ≤ res := by omega
    have h2 := mul_le_mul_of_nonneg_right h1 (le_of_lt hR0)
    have h3 : q * Modulus_val P ≤ (pow2 (P.BASEBITS * P.NLEN) - 1) * Modulus_val P :=
      mul_le_mul_of_nonneg_right (by omega) (le_of_lt hpos)
    nlinarith
  -- the result is congruent to -a
  have hcong : res ≡ - BIG_val P a [ZMOD Modulus_val P] := by
    apply modEq_cancel_R P h
    rw [nres_R_mont P hm]
    apply (Int.modEq_iff_dvd).mpr
    have hd := Int.emod_add_ediv (BIG_val P a * pow2 (P.BASEBITS * P.NLEN)) (Modulus_val P)
    rw [← vx] at hd
    refine ⟨-(2 + q) - (BIG_val P a * pow2 (P.BASEBITS * P.NLEN)) / Modulus_val P, ?_⟩
    linear_combination -hq + hd
  by_cases hz : BIG_val P a = 0
  · simp only [hz, if_true]
    rw [hz] at hcong
    obtain ⟨k, hk⟩ := (Int.modEq_zero_iff_dvd).mp hcong
    have hk1 : 1 ≤ k := by
      by_contra hc
      have : k ≤ 0 := by omega
      have := mul_nonpos_of_nonneg_of_nonpos (le_of_lt hpos) this
      omega
    have hk2 : k ≤ 1 := by
      by_contra hc
      have h2 : 2 ≤ k := by omega
      have := mul_le_mul_of_nonneg_left h2 (le_of_lt hpos)
      omega
    have : k = 1 := by omega
    rw [hk, this, mul_one]
  · simp only [hz, if_false]
    have ha0 : 0 < BIG_val P a := lt_of_le_of_ne ha.2.1 (Ne.symm hz)
    have hne : res ≠ Modulus_val P := by
      intro he
      rw [he] at hcong
      have hd : Modulus_val P ∣ - BIG_val P a - Modulus_val P := (Int.modEq_iff_dvd).mp hcong
      have hd2 : Modulus_val P ∣ BIG_val P a := by
        obtain ⟨k, hk⟩ := hd
        exact ⟨-k - 1, by linarith⟩
      exact hz (Int.eq_zero_of_dvd_of_nonneg_of_lt ha.2.1 ha.2.2 hd2)
    refine eq_of_modEq_of_range (Modulus_val P) _ _ (by omega) (by omega) (by omega)
      (by omega) ?_
    refine hcong.trans ?_
    exact (Int.modEq_iff_dvd).mpr ⟨1, by ring⟩

theorem FP_redc_neg_mers (P : Config) (h : WF P) (hm : ¬ isMont P) (a : BIG)
    (ha : InField P a) :
    BIG_val P (FP_redc P (FP_neg P (FP_nres P a))) = 2 * Modulus_val P - BIG_val P a := by
  rw [FP_redc_mers P hm, FP_nres_mers P hm, FP_neg_InField P h a ha, BIG_val_sub,
    BIG_val_toLimbs P _ h.2.2.1]

/-- C20, amended: for every `a` with `0 <= a < Modulus`, `FP_redc(FP_neg(FP_nres(a)))` is
`Modulus - a` for `a != 0` and `Modulus` for `a = 0` under the two Montgomery types, and
`2*Modulus - a` under the two Mersenne types; so it is `(-a mod Modulus)` or
`(-a mod Modulus) + Modulus` except for `a = 0` under the Mersenne types, where it is
`2*Modulus`. -/
theorem FP_redc_neg_nres (P : Config) (h : WF P) (a : BIG) (ha : InField P a) :
    (isMont P → BIG_val P (FP_redc P (FP_neg P (FP_nres P a)))
      = if BIG_val P a = 0 then Modulus_val P else Modulus_val P - BIG_val P a) ∧
    (¬ isMont P → BIG_val P (FP_redc P (FP_neg P (FP_nres P a)))
      = 2 * Modulus_val P - BIG_val P a) ∧
    ((isMont P ∨ BIG_val P a ≠ 0) →
      (BIG_val P (FP_redc P (FP_neg P (FP_nres P a))) = (- BIG_val P a) % Modulus_val P ∨
       BIG_val P (FP_redc P (FP_neg P (FP_nres P a)))
        = (- BIG_val P a) % Modulus_val P + Modulus_val P)) := by
  have hpos := WF_pos P h
  refine ⟨fun hm => FP_redc_neg_mont P h hm a ha, fun hm => FP_redc_neg_mers P h hm a ha, ?_⟩
  intro hcase
  by_cases hm : isMont P
  · rw [FP_redc_neg_mont P h hm a ha]
    by_cases hz : BIG_val P a = 0
    · right
      simp [hz]
    · left
      simp only [hz, if_false]
      rw [neg_emod_of_pos _ _ (lt_of_le_of_ne ha.2.1 (Ne.symm hz)) ha.2.2]
  · have hz : BIG_val P a ≠ 0 := by
      rcases hcase with hc | hc
      · exact absurd hc hm
      · exact hc
    right
    rw [FP_redc_neg_mers P h hm a ha,
      neg_emod_of_pos _ _ (lt_of_le_of_ne ha.2.1 (Ne.symm hz)) ha.2.2]
    ring

theorem FP_neg_two_excess (P : Config) (h : WF P) (a : BIG) (hn : BIG_norm P a = a)
    (h0 : 0 ≤ BIG_val P a) :
    0 ≤ 2 * (EXCESS P a + 1) * Modulus_val P - BIG_val P a := by
  obtain ⟨e0, e1⟩ := EXCESS_nonneg_bound P h a hn h0
  have hp : pow2 (P.MODBITS - 1) ≤ Modulus_val P := h.2.2.2.2.2.2.2.1
  have e3 : pow2 P.MODBITS = pow2 (P.MODBITS - 1) * 2 := by
    have : P.MODBITS = (P.MODBITS - 1) + 1 := by have := h.2.2.2.1; omega
    conv_lhs => rw [this]
    rw [pow2_add]; simp [pow2]
  have h2 : (EXCESS P a + 1) * pow2 (P.MODBITS - 1) ≤ (EXCESS P a + 1) * Modulus_val P :=
    mul_le_mul_of_nonneg_left hp (by omega)
  rw [e3] at e1
  nlinarith

/-- The contract of `FP_imul` on a BN254 field element with the multiplier `-7`. -/
theorem FP_imul_spec_witness :
    WF bn254 ∧ 0 ≤ BIG_val bn254 bnA ∧
    BIG_val bn254 (FP_imul bn254 bnA (-7)) ≡ -7 * BIG_val bn254 bnA
      [ZMOD Modulus_val bn254] ∧
    FP_imul bn254 bnA 0 = BIG_zero bn254 :=
  ⟨by decide, by decide,
    (FP_imul_spec bn254 (by decide) bnA (-7) (by decide) (by decide)).2.1,
    (FP_imul_spec bn254 (by decide) bnA (-7) (by decide) (by decide)).2.2.1⟩

/-- C11: in the 16-bit build `ns20`, for the normalised `a = [5, 8067]`, whose excess 63
is below `FEXCESS = 64`, and `c = 511`, the value `64*512+1 = 32769` does not fit the
`chunk afx` and is stored as `-32767`; the test `afx<FEXCESS` then selects `BIG_pmul`,
whose carry 503 is not used, and `FP_imul` leaves `r = [2555, 1661]`, which is not
congruent to `c*a` modulo the modulus. -/
theorem FP_imul_afx_wraps :
    WF ns20 ∧ BIG_norm ns20 [5, 8067] = [5, 8067] ∧ 0 ≤ BIG_val ns20 [5, 8067] ∧
    EXCESS ns20 [5, 8067] = 63 ∧ FEXCESS ns20 = 64 ∧
    toChunk ns20 ((EXCESS ns20 [5, 8067] + 1) * (511 + 1) + 1) = -32767 ∧
    (BIG_pmul ns20 [5, 8067] 511).1 = 503 ∧
    FP_imul ns20 [5, 8067] 511 = [2555, 1661] ∧
    BIG_val ns20 (FP_imul ns20 [5, 8067] 511) % Modulus_val ns20 = 1026615 ∧
    (511 * BIG_val ns20 [5, 8067]) % Modulus_val ns20 = 139004 := by
  decide

/-- The difference of C12 on two BN254 field elements. -/
theorem FP_sub_spec_witness :
    WF bn254 ∧
    0 ≤ BIG_val bn254 (FP_sub bn254 bnA bnB) ∧
    BIG_val bn254 (FP_sub bn254 bnA bnB) ≡ BIG_val bn254 bnA - BIG_val bn254 bnB
      [ZMOD Modulus_val bn254] :=
  ⟨by decide, FP_sub_spec bn254 (by decide) bnA bnB (by decide) (by decide)⟩

/-- The halving of C13 on an odd BN254 field element. -/
theorem FP_div2_spec_witness :
    WF bn254 ∧ Modulus_val bn254 % 2 = 1 ∧ BIG_val bn254 bnA % 2 = 1 ∧
    BIG_val bn254 (FP_div2 bn254 bnA) = (BIG_val bn254 bnA + Modulus_val bn254) / 2 :=
  ⟨by decide, by decide, by decide,
    (FP_div2_spec bn254 (by decide) (by decide) bnA).2.1 (by decide)⟩

/-- The reduction of C14 on an unreduced BN254 BIG. -/
theorem FP_reduce_canonical_witness :
    WF bn254 ∧ 0 ≤ BIG_val bn254 bnE2 ∧
    FP_reduce bn254 bnE2 = toLimbs bn254 bn254.NLEN (BIG_val bn254 bnE2 % Modulus_val bn254) ∧
    FP_reduce bn254 (FP_reduce bn254 bnE2) = FP_reduce bn254 bnE2 :=
  ⟨by decide, by decide,
    (FP_reduce_canonical bn254 (by decide) bnE2 (by decide)).1,
    (FP_reduce_canonical bn254 (by decide) bnE2 (by decide)).2.2.2.2.2⟩

/-- The comparison of C15 on two BN254 BIGs. -/
theorem FP_equals_iff_witness :
    WF bn254 ∧
    (FP_equals bn254 bnE2 bnA = 1 ↔
      BIG_val bn254 bnE2 ≡ BIG_val bn254 bnA [ZMOD Modulus_val bn254]) :=
  ⟨by decide, (FP_equals_iff bn254 (by decide) bnE2 bnA (by decide) (by decide)).1⟩

/-- The zero test of C16 on a BN254 BIG. -/
theorem FP_iszilch_iff_witness :
    WF bn254 ∧
    (FP_iszilch bn254 bnE2 ≠ 0 ↔ BIG_val bn254 bnE2 ≡ 0 [ZMOD Modulus_val bn254]) ∧
    FP_iszilch bn254 bn254.Modulus = 1 :=
  ⟨by decide, (FP_iszilch_iff bn254 (by decide) bnE2 (by decide)).1,
    (FP_iszilch_iff bn254 (by decide) bnE2 (by decide)).2.2.1⟩

/-- The residue test of C17 in the build `ns20`, on the n-residue of `4`. -/
theorem FP_qr_spec_witness :
    WF ns20 ∧ Valid ns20 [1280, 0] ∧
    ((FP_qr ns20 [1280, 0]).1 = 1 ↔
      ∃ y : Int, ¬ (Modulus_val ns20 ∣ y) ∧
        BIG_val ns20 [1280, 0] ≡ y * y * nres_R ns20 [ZMOD Modulus_val ns20]) ∧
    (FP_qr ns20 [1280, 0]).2 = [1280, 0] :=
  ⟨by decide, by decide,
    (FP_qr_spec ns20 (by decide) ns20_prime [1280, 0] (by decide)).2.1,
    (FP_qr_spec ns20 (by decide) ns20_prime [1280, 0] (by decide)).2.2.2.2.2 (by decide)⟩

/-- The identities of C18 in the C25519 build. -/
theorem FP_nres_redc_mersenne_witness :
    c25519.MODTYPE = ModType.PSEUDO_MERSENNE ∧
    FP_nres c25519 c25519_pm1 = c25519_pm1 ∧ FP_redc c25519 c25519_pm1 = c25519_pm1 :=
  ⟨rfl, FP_nres_redc_mersenne c25519 (Or.inl rfl) c25519_pm1⟩

/-- C19 as stated fails for BN254: for the normalised `a` with excess 2, `FP_neg` forms
`8*Modulus - a` and takes no forced reduction, while `6*Modulus - a'` is already
non-negative for every normalised non-negative `a'` of excess 2. -/
theorem FP_neg_shift_not_least :
    BIG_norm bn254 bnE2 = bnE2 ∧ EXCESS bn254 bnE2 = 2 ∧
    BIG_val bn254 (FP_neg_unreduced bn254 bnE2)
      = 8 * Modulus_val bn254 - BIG_val bn254 bnE2 ∧
    FP_neg bn254 bnE2 = FP_neg_unreduced bn254 bnE2 ∧
    (∀ a : BIG, BIG_norm bn254 a = a → 0 ≤ BIG_val bn254 a → EXCESS bn254 a = 2 →
      0 ≤ 6 * Modulus_val bn254 - BIG_val bn254 a) := by
  refine ⟨by decide, by decide, by decide, by decide, ?_⟩
  intro a hn h0 he
  have := FP_neg_two_excess bn254 (by decide) a hn h0
  rw [he] at this
  linarith

/-- The amended C19 on the BN254 BIG of excess 2: the shift is 3. -/
theorem FP_neg_unreduced_spec_witness :
    WF bn254 ∧ BIG_norm bn254 bnE2 = bnE2 ∧ 0 ≤ BIG_val bn254 bnE2 ∧
    BIG_val bn254 (FP_neg_unreduced bn254 bnE2)
      = pow2 (FP_neg_shift bn254 bnE2) * Modulus_val bn254 - BIG_val bn254 bnE2 ∧
    2 * (EXCESS bn254 bnE2 + 1) ≤ pow2 (FP_neg_shift bn254 bnE2) :=
  ⟨by decide, by decide, by decide,
    (FP_neg_unreduced_spec bn254 (by decide) bnE2 (by decide) (by decide) (by decide)).1,
    (FP_neg_unreduced_spec bn254 (by decide) bnE2 (by decide) (by decide) (by decide)).2.1⟩

/-- C20 as stated fails for C25519 at `a = 0`: the result is `2*Modulus`, which is neither
`(-0 mod Modulus) = 0` nor `Modulus`. -/
theorem FP_redc_neg_zero_c25519 :
    WF c25519 ∧ InField c25519 (BIG_zero c25519) ∧
    BIG_val c25519 (FP_redc c25519 (FP_neg c25519 (FP_nres c25519 (BIG_zero c25519))))
      = 2 * Modulus_val c25519 ∧
    ¬ (BIG_val c25519 (FP_redc c25519 (FP_neg c25519 (FP_nres c25519 (BIG_zero c25519))))
        = (- BIG_val c25519 (BIG_zero c25519)) % Modulus_val c25519 ∨
       BIG_val c25519 (FP_redc c25519 (FP_neg c25519 (FP_nres c25519 (BIG_zero c25519))))
        = (- BIG_val c25519 (BIG_zero c25519)) % Modulus_val c25519 + Modulus_val c25519) := by
  decide

/-- The amended C20 on a BN254 field element: the result is `Modulus - a`. -/
theorem FP_redc_neg_nres_witness :
    WF bn254 ∧ InField bn254 bnA ∧
    BIG_val bn254 (FP_redc bn254 (FP_neg bn254 (FP_nres bn254 bnA)))
      = (if BIG_val bn254 bnA = 0 then Modulus_val bn254
         else Modulus_val bn254 - BIG_val bn254 bnA) :=
  ⟨by decide, by decide,
    (FP_redc_neg_nres bn254 (by decide) bnA (by decide)).1 (by decide)⟩

theorem dnorm_limbs (P : Config) (d : DBIG) (hn : BIG_dnorm P d = d) (hN : 0 < P.NLEN) :
    d.length = 2 * P.NLEN ∧
    (∀ k, k < P.NLEN → 0 ≤ limb d k ∧ limb d k < pow2 P.BASEBITS) := by
  unfold BIG_dnorm at hn
  constructor
  · rw [← hn]; exact length_toLimbs _ _ _
  · intro k hk
    rw [← hn]
    exact toLimbs_limb_bounds P _ _ k (by omega)

theorem mont_quotient_bounds (p R d q a : Int) (hp : 0 < p) (hR : 0 < R)
    (h0 : 0 ≤ d) (h1 : d < p * R) (q0 : 0 ≤ q) (q1 : q < R) (hq : a * R = d + q * p) :
    0 ≤ a ∧ a < 2 * p := by
  constructor
  · by_contra hc
    have h2 : a ≤ -1 := by omega
    have h3 : a * R ≤ -1 * R := mul_le_mul_of_nonneg_right h2 (le_of_lt hR)
    have h4 : 0 ≤ q * p := mul_nonneg q0 (le_of_lt hp)
    linarith
  · by_contra hc
    have h2 : 2 * p ≤ a := by omega
    have h3 : 2 * p * R ≤ a * R := mul_le_mul_of_nonneg_right h2 (le_of_lt hR)
    have h4 : q * p ≤ (R - 1) * p := mul_le_mul_of_nonneg_right (by omega) (le_of_lt hp)
    nlinarith

theorem NS_bound_of_lt (P : Config) (h : WF P) (x : Int)
    (h1 : x < Modulus_val P * pow2 (P.BASEBITS * P.NLEN)) :
    x + pow2 (P.BASEBITS * P.NLEN) * Modulus_val P
      ≤ pow2 (P.BASEBITS * P.NLEN) * pow2 (P.BASEBITS * P.NLEN) := by
  have hRb := WF_R_bound P h
  have hp2 : Modulus_val P < pow2 P.MODBITS := h.2.2.2.2.2.2.2.2.1
  have hR0 := pow2_pos (P.BASEBITS * P.NLEN)
  have h2 : 2 * Modulus_val P ≤ pow2 (P.BASEBITS * P.NLEN) := by linarith
  have h3 := mul_le_mul_of_nonneg_left h2 (le_of_lt hR0)
  nlinarith

/-- C22: for `MODTYPE == NOT_SPECIAL`, with `R = 2^(NLEN*BASEBITS)` and
`MConst*Modulus = -1` modulo `2^BASEBITS`, for every normalised DBIG `d` with
`0 <= d < Modulus*R` the output `a` of `FP_mod` satisfies `a*R = d` modulo the modulus
and `0 <= a < 2*Modulus`, with and without `COMBA`. -/
theorem FP_mod_NS_montgomery (P : Config) (h : WF P)
    (hT : P.MODTYPE = ModType.NOT_SPECIAL) (d : DBIG) (hn : BIG_dnorm P d = d)
    (h0 : 0 ≤ DBIG_val P d) (h1 : DBIG_val P d < Modulus_val P * pow2 (P.BASEBITS * P.NLEN)) :
    BIG_val P (FP_mod P d) * pow2 (P.BASEBITS * P.NLEN) ≡ DBIG_val P d
      [ZMOD Modulus_val P] ∧
    0 ≤ BIG_val P (FP_mod P d) ∧ BIG_val P (FP_mod P d) < 2 * Modulus_val P := by
  have hN := h.2.2.1
  have hp := WF_pos P h
  have hR0 := pow2_pos (P.BASEBITS * P.NLEN)
  obtain ⟨hl, hd⟩ := dnorm_limbs P d hn hN
  have hmc := h.2.2.2.2.2.2.2.2.2.1 hT
  have e : FP_mod P d = FP_mod_NS P d := by unfold FP_mod; rw [hT]
  rw [e]
  obtain ⟨q, q0, q1, hq⟩ := FP_mod_NS_spec P d hN hmc hp hl hd h0 (NS_bound_of_lt P h _ h1)
  obtain ⟨a0, a1⟩ := mont_quotient_bounds _ _ _ _ _ hp hR0 h0 h1 q0 q1 hq
  refine ⟨?_, a0, a1⟩
  rw [hq]
  exact (Int.modEq_iff_dvd).mpr ⟨-q, by ring⟩

/-- C28: for `MODTYPE == NOT_SPECIAL` and every normalised DBIG `d` with
`0 <= d < Modulus * 2^(NLEN*BASEBITS)`, the `COMBA` reduction and the word-by-word
`muladd` loop return the same BIG. -/
theorem FP_mod_NS_comba_eq_loop (P : Config) (h : WF P)
    (hT : P.MODTYPE = ModType.NOT_SPECIAL) (d : DBIG) (hn : BIG_dnorm P d = d)
    (h0 : 0 ≤ DBIG_val P d) (h1 : DBIG_val P d < Modulus_val P * pow2 (P.BASEBITS * P.NLEN)) :
    FP_mod_NS_comba P d = FP_mod_NS_loop P d := by
  have hN := h.2.2.1
  have hp := WF_pos P h
  have hR0 := pow2_pos (P.BASEBITS * P.NLEN)
  obtain ⟨hl, hd⟩ := dnorm_limbs P d hn hN
  have hmc := h.2.2.2.2.2.2.2.2.2.1 hT
  have hco : IsCoprime (pow2 (P.BASEBITS * P.NLEN)) (Modulus_val P) := by
    have := nres_R_coprime P h
    rw [nres_R_mont P (Or.inl hT)] at this
    exact this
  obtain ⟨q, q0, q1, hq⟩ :=
    FP_mod_NS_comba_spec P d hN hmc hp h0 (NS_bound_of_lt P h _ h1)
  obtain ⟨q', q0', q1', hq'⟩ := FP_mod_NS_loop_spec P d hN hmc hl hd
  -- both quotients are the one solution of `d + q*Modulus = 0` modulo `R` in `[0, R)`
  have hdv : pow2 (P.BASEBITS * P.NLEN) ∣ (q - q') * Modulus_val P :=
    ⟨BIG_val P (FP_mod_NS_comba P d) - BIG_val P (FP_mod_NS_loop P d), by
      linear_combination -hq + hq'⟩
  have hdv2 := hco.dvd_of_dvd_mul_right hdv
  have hqq : q - q' = 0 := by
    obtain ⟨k, hk⟩ := hdv2
    have hk0 : k = 0 := by
      by_contra hne
      rcases lt_or_gt_of_ne hne with hlt | hgt
      · have : k ≤ -1 := by omega
        have := mul_le_mul_of_nonneg_left this (le_of_lt hR0)
        linarith
      · have : 1 ≤ k := by omega
        have := mul_le_mul_of_nonneg_left this (le_of_lt hR0)
        linarith
    rw [hk, hk0, mul_zero]
  have hval : BIG_val P (FP_mod_NS_comba P d) = BIG_val P (FP_mod_NS_loop P d) := by
    have e : (BIG_val P (FP_mod_NS_comba P d) - BIG_val P (FP_mod_NS_loop P d))
        * pow2 (P.BASEBITS * P.NLEN) = 0 := by
      have : q = q' := by omega
      rw [this] at hq
      linear_combination hq - hq'
    rcases mul_eq_zero.mp e with h2 | h2
    · omega
    · omega
  have n1 : BIG_norm P (FP_mod_NS_comba P d) = FP_mod_NS_comba P d := by
    unfold FP_mod_NS_comba
    exact BIG_norm_idem P _ hN
  have n2 : BIG_norm P (FP_mod_NS_loop P d) = FP_mod_NS_loop P d := by
    unfold FP_mod_NS_loop
    exact BIG_norm_idem P _ hN
  rw [← n1, ← n2]
  unfold BIG_norm
  rw [hval]

/-- C29: for `MODTYPE == MONTGOMERY_FRIENDLY`, with
`Modulus = MConst * 2^((NLEN-1)*BASEBITS) - 1` and `R = 2^(NLEN*BASEBITS)`, for every
normalised DBIG `d` with `0 <= d < Modulus*R` the `muladd` sweep yields `a` with
`a*R = d` modulo the modulus and `0 <= a < 2*Modulus`. -/
theorem FP_mod_MF_montgomery (P : Config) (h : WF P)
    (hT : P.MODTYPE = ModType.MONTGOMERY_FRIENDLY) (d : DBIG) (hn : BIG_dnorm P d = d)
    (h0 : 0 ≤ DBIG_val P d) (h1 : DBIG_val P d < Modulus_val P * pow2 (P.BASEBITS * P.NLEN)) :
    Modulus_val P = P.MConst * pow2 ((P.NLEN - 1) * P.BASEBITS) - 1 ∧
    BIG_val P (FP_mod P d) * pow2 (P.BASEBITS * P.NLEN) ≡ DBIG_val P d
      [ZMOD Modulus_val P] ∧
    0 ≤ BIG_val P (FP_mod P d) ∧ BIG_val P (FP_mod P d) < 2 * Modulus_val P := by
  have hN := h.2.2.1
  have hp := WF_pos P h
  have hR0 := pow2_pos (P.BASEBITS * P.NLEN)
  obtain ⟨hl, hd⟩ := dnorm_limbs P d hn hN
  obtain ⟨hN2, hmc⟩ := h.2.2.2.2.2.2.2.2.2.2.2.1 hT
  have e : FP_mod P d = FP_mod_MF P d := by unfold FP_mod; rw [hT]
  rw [e]
  obtain ⟨q, q0, q1, hq⟩ := FP_mod_MF_spec P d hN2 hmc hl hd
  obtain ⟨a0, a1⟩ := mont_quotient_bounds _ _ _ _ _ hp hR0 h0 h1 q0 q1 hq
  refine ⟨?_, ?_, a0, a1⟩
  · rw [mul_comm (P.NLEN - 1) P.BASEBITS]; linarith
  · rw [hq]
    exact (Int.modEq_iff_dvd).mpr ⟨-q, by ring⟩

/-- C23: for `MODTYPE == PSEUDO_MERSENNE`, with `Modulus = 2^MODBITS - MConst`, for every
DBIG `d` the output `r` of `FP_mod` is congruent to `d` modulo the modulus, through
`BIG_imul` when `MConst < NEXCESS` and through `BIG_pmul` otherwise; `r` is non-negative
for a non-negative `d`. -/
theorem FP_mod_PM_congr (P : Config) (h : WF P)
    (hT : P.MODTYPE = ModType.PSEUDO_MERSENNE) (d : DBIG) :
    Modulus_val P = pow2 P.MODBITS - P.MConst ∧
    BIG_val P (FP_mod P d) ≡ DBIG_val P d [ZMOD Modulus_val P] ∧
    (0 ≤ DBIG_val P d → 0 ≤ BIG_val P (FP_mod P d)) := by
  obtain ⟨hB, _, hN, _, h5, h6, _, _, _, _, r2, _, _⟩ := h
  obtain ⟨hp, hc, h16⟩ := r2 hT
  have e : FP_mod P d = FP_mod_PM P d := by unfold FP_mod; rw [hT]
  rw [e]
  obtain ⟨⟨k, hk⟩, hnn⟩ := FP_mod_PM_spec P d hB hN h5 h6 hp hc h16
  refine ⟨hp, ?_, hnn⟩
  rw [hk]
  exact (Int.modEq_iff_dvd).mpr ⟨k, by ring⟩

/-- C30: for `MODTYPE == GENERALISED_MERSENNE`, with `Modulus = 2^448 - 2^224 - 1`, for
every DBIG `d` the output `r` of `FP_mod`, after the carry fix-up at bit 0 and at bit 224,
is congruent to `d` modulo the modulus; `r` is non-negative for a non-negative `d`. -/
theorem FP_mod_GM_congr (P : Config) (h : WF P)
    (hT : P.MODTYPE = ModType.GENERALISED_MERSENNE) (d : DBIG) :
    Modulus_val P = pow2 448 - pow2 224 - 1 ∧
    BIG_val P (FP_mod P d) ≡ DBIG_val P d [ZMOD Modulus_val P] ∧
    (0 ≤ DBIG_val P d → 0 ≤ BIG_val P (FP_mod P d)) := by
  obtain ⟨hB, _, hN, _, h5, h6, _, _, _, _, _, _, r4⟩ := h
  obtain ⟨hM, hp⟩ := r4 hT
  have e : FP_mod P d = FP_mod_GM P d := by unfold FP_mod; rw [hT]
  rw [e]
  obtain ⟨⟨k, hk⟩, hnn⟩ := FP_mod_GM_spec P d hB hN h5 h6 hM hp
  refine ⟨hp, ?_, hnn⟩
  rw [hk]
  exact (Int.modEq_iff_dvd).mpr ⟨k, by ring⟩

theorem excess_lt_R (P : Config) (h : WF P) (b : BIG) (hn : BIG_norm P b = b)
    (h0 : 0 ≤ BIG_val P b) (he : EXCESS P b < FEXCESS P) :
    BIG_val P b < pow2 (P.BASEBITS * P.NLEN) := by
  obtain ⟨e0, e1⟩ := EXCESS_nonneg_bound P h b hn h0
  have hM := pow2_pos P.MODBITS
  have h2 : (EXCESS P b + 1) * pow2 P.MODBITS ≤ FEXCESS P * pow2 P.MODBITS :=
    mul_le_mul_of_nonneg_right (by omega) (le_of_lt hM)
  rw [FE_pow2 P h] at h2
  linarith

theorem mul_prod_bound (P : Config) (h : WF P) (a b : BIG)
    (ha : BIG_norm P a = a ∧ 0 ≤ BIG_val P a ∧ EXCESS P a < FEXCESS P)
    (hb : BIG_norm P b = b ∧ 0 ≤ BIG_val P b ∧ EXCESS P b < FEXCESS P) :
    0 ≤ DBIG_val P (FP_mul_prod P a b) ∧
    DBIG_val P (FP_mul_prod P a b) < pow2 P.MODBITS * pow2 (P.BASEBITS * P.NLEN) ∧
    (EXCESS P a + 1 ≥ Int.tdiv (FEXCESS P - 1) (EXCESS P b + 1) →
      DBIG_val P (FP_mul_prod P a b) < Modulus_val P * pow2 (P.BASEBITS * P.NLEN)) := by
  have hN := h.2.2.1
  have hp := WF_pos P h
  have hp2 : Modulus_val P < pow2 P.MODBITS := h.2.2.2.2.2.2.2.2.1
  have hMpos := pow2_pos P.MODBITS
  have hR0 := pow2_pos (P.BASEBITS * P.NLEN)
  obtain ⟨ea0, ea1⟩ := EXCESS_nonneg_bound P h a ha.1 ha.2.1
  obtain ⟨eb0, eb1⟩ := EXCESS_nonneg_bound P h b hb.1 hb.2.1
  have hbR := excess_lt_R P h b hb.1 hb.2.1 hb.2.2
  unfold FP_mul_prod FP_mul_state
  simp only [BIG_mul]
  rw [DBIG_val_toLimbs P _ hN, hb.1]
  by_cases hc : EXCESS P a + 1 ≥ Int.tdiv (FEXCESS P - 1) (EXCESS P b + 1)
  · simp only [hc, if_true]
    rw [FP_reduce_val P h a ha.2.1]
    have a0 := Int.emod_nonneg (BIG_val P a) (ne_of_gt hp)
    have a1 := Int.emod_lt_of_pos (BIG_val P a) hp
    have c1 : BIG_val P a % Modulus_val P * BIG_val P b
        ≤ Modulus_val P * BIG_val P b :=
      mul_le_mul_of_nonneg_right (le_of_lt a1) hb.2.1
    have c2 : Modulus_val P * BIG_val P b < Modulus_val P * pow2 (P.BASEBITS * P.NLEN) :=
      mul_lt_mul_of_pos_left hbR hp
    have c3 : Modulus_val P * pow2 (P.BASEBITS * P.NLEN)
        < pow2 P.MODBITS * pow2 (P.BASEBITS * P.NLEN) :=
      mul_lt_mul_of_pos_right hp2 hR0
    exact ⟨mul_nonneg a0 hb.2.1, by linarith, fun _ => by linarith⟩
  · simp only [hc, if_false]
    rw [ha.1]
    have hF := excess_test P _ _ ea0 eb0 (FEXCESS_ge_one P) hc
    have hb2 := prod_bound _ _ _ _ _ _ ha.2.1 hb.2.1 hMpos ea0 eb0 ea1 eb1 hF
    rw [FE_pow2 P h] at hb2
    exact ⟨mul_nonneg ha.2.1 hb.2.1, by linarith, fun hyes => hyes.elim⟩

theorem sqr_prod_bound (P : Config) (h : WF P) (a : BIG)
    (ha : BIG_norm P a = a ∧ 0 ≤ BIG_val P a ∧ EXCESS P a < FEXCESS P) :
    0 ≤ DBIG_val P (FP_sqr_prod P a) ∧
    DBIG_val P (FP_sqr_prod P a) < pow2 P.MODBITS * pow2 (P.BASEBITS * P.NLEN) ∧
    (EXCESS P a + 1 ≥ Int.tdiv (FEXCESS P - 1) (EXCESS P a + 1) →
      DBIG_val P (FP_sqr_prod P a) < Modulus_val P * pow2 (P.BASEBITS * P.NLEN)) := by
  have hN := h.2.2.1
  have hp := WF_pos P h
  have hp2 : Modulus_val P < pow2 P.MODBITS := h.2.2.2.2.2.2.2.2.1
  have hMpos := pow2_pos P.MODBITS
  have hR0 := pow2_pos (P.BASEBITS * P.NLEN)
  have hRgt := WF_R_gt P h
  obtain ⟨ea0, ea1⟩ := EXCESS_nonneg_bound P h a ha.1 ha.2.1
  unfold FP_sqr_prod FP_sqr_state
  simp only [BIG_sqr]
  rw [DBIG_val_toLimbs P _ hN]
  by_cases hc : EXCESS P a + 1 ≥ Int.tdiv (FEXCESS P - 1) (EXCESS P a + 1)
  · simp only [hc, if_true]
    rw [FP_reduce_val P h a ha.2.1]
    have a0 := Int.emod_nonneg (BIG_val P a) (ne_of_gt hp)
    have a1 := Int.emod_lt_of_pos (BIG_val P a) hp
    have c1 : BIG_val P a % Modulus_val P * (BIG_val P a % Modulus_val P)
        ≤ Modulus_val P * (BIG_val P a % Modulus_val P) :=
      mul_le_mul_of_nonneg_right (le_of_lt a1) a0
    have c2 : Modulus_val P * (BIG_val P a % Modulus_val P)
        < Modulus_val P * pow2 (P.BASEBITS * P.NLEN) :=
      mul_lt_mul_of_pos_left (lt_trans a1 hRgt) hp
    have c3 : Modulus_val P * pow2 (P.BASEBITS * P.NLEN)
        < pow2 P.MODBITS * pow2 (P.BASEBITS * P.NLEN) :=
      mul_lt_mul_of_pos_right hp2 hR0
    exact ⟨mul_nonneg a0 a0, by linarith, fun _ => by linarith⟩
  · simp only [hc, if_false]
    rw [ha.1]
    have hF := excess_test P _ _ ea0 ea0 (FEXCESS_ge_one P) hc
    have hb2 := prod_bound _ _ _ _ _ _ ha.2.1 ha.2.1 hMpos ea0 ea0 ea1 ea1 hF
    rw [FE_pow2 P h] at hb2
    exact ⟨mul_nonneg ha.2.1 ha.2.1, by linarith, fun hyes => hyes.elim⟩

/-- C24, amended: in `FP_mul` and `FP_sqr`, for normalised non-negative operands with
excess below `FEXCESS`, the double-width product handed to `FP_mod` is non-negative and
less than `2^MODBITS * 2^(NLEN*BASEBITS)`, and it is less than `Modulus * 2^(NLEN*BASEBITS)`
when the excess test forces the reduction of `a`. -/
theorem FP_mul_sqr_prod_bound (P : Config) (h : WF P) (a b : BIG)
    (ha : BIG_norm P a = a ∧ 0 ≤ BIG_val P a ∧ EXCESS P a < FEXCESS P)
    (hb : BIG_norm P b = b ∧ 0 ≤ BIG_val P b ∧ EXCESS P b < FEXCESS P) :
    FP_mul P a b = FP_mod P (FP_mul_prod P a b) ∧
    FP_sqr P a = FP_mod P (FP_sqr_prod P a) ∧
    (0 ≤ DBIG_val P (FP_mul_prod P a b) ∧
     DBIG_val P (FP_mul_prod P a b) < pow2 P.MODBITS * pow2 (P.BASEBITS * P.NLEN) ∧
     (EXCESS P a + 1 ≥ Int.tdiv (FEXCESS P - 1) (EXCESS P b + 1) →
       DBIG_val P (FP_mul_prod P a b) < Modulus_val P * pow2 (P.BASEBITS * P.NLEN))) ∧
    (0 ≤ DBIG_val P (FP_sqr_prod P a) ∧
     DBIG_val P (FP_sqr_prod P a) < pow2 P.MODBITS * pow2 (P.BASEBITS * P.NLEN) ∧
     (EXCESS P a + 1 ≥ Int.tdiv (FEXCESS P - 1) (EXCESS P a + 1) →
       DBIG_val P (FP_sqr_prod P a) < Modulus_val P * pow2 (P.BASEBITS * P.NLEN))) :=
  ⟨rfl, rfl, mul_prod_bound P h a b ha hb, sqr_prod_bound P h a ha⟩

theorem BIG_val_split_top (P : Config) (a : BIG) (hN : 0 < P.NLEN) :
    BIG_val P a
      = valN P a (P.NLEN - 1) + limb a (P.NLEN - 1) * pow2 (P.BASEBITS * (P.NLEN - 1)) := by
  unfold BIG_val
  obtain ⟨m, hm⟩ : ∃ m, P.NLEN = m + 1 := ⟨P.NLEN - 1, by omega⟩
  rw [hm, show m + 1 - 1 = m by omega]
  rfl

theorem EXCESS_raw (P : Config) (a : BIG) :
    EXCESS P a = limb a (P.NLEN - 1) / pow2 (TBITS P) := by
  unfold EXCESS
  rw [maskHigh_shr]

theorem EXCESS_norm (P : Config) (h : WF P) (a : BIG) :
    EXCESS P (BIG_norm P a) = BIG_val P a / pow2 P.MODBITS := by
  rw [EXCESS_eq P h _ (BIG_norm_idem P a h.2.2.1), BIG_val_norm P _ h.2.2.1]

theorem ediv_top_low (top low L T c : Int) (hL : 0 < L) (hT : 0 < T) (hc : 0 ≤ c)
    (hlow : low < (c + 1) * L) : (low + top * L) / L / T ≤ top / T + c := by
  have h1 : (low + top * L) / L < top + c + 1 :=
    Int.ediv_lt_of_lt_mul hL (by nlinarith)
  have h2 : (low + top * L) / L / T ≤ (top + c) / T :=
    Int.ediv_le_ediv hT (by omega)
  have h3 : (top + c) / T < top / T + c + 1 := by
    apply Int.ediv_lt_of_lt_mul hT
    have := lt_succ_ediv_mul top T hT
    have h4 : c ≤ c * T := by nlinarith
    nlinarith
  omega

theorem excess_norm_le (P : Config) (h : WF P) (r : BIG) (c : Int) (hc : 0 ≤ c)
    (hlow : valN P r (P.NLEN - 1) < (c + 1) * pow2 (P.BASEBITS * (P.NLEN - 1))) :
    EXCESS P (BIG_norm P r) ≤ EXCESS P r + c := by
  obtain ⟨hB, _, hN, _, h5, h6, _⟩ := h
  have hE : EXCESS P (BIG_norm P r) = BIG_val P r / pow2 P.MODBITS := by
    unfold EXCESS
    rw [maskHigh_shr]
    unfold BIG_norm
    exact limb_top_ediv P _ hB hN h5 h6
  rw [hE, EXCESS_raw, BIG_val_split_top P r hN]
  have e : pow2 P.MODBITS = pow2 (P.BASEBITS * (P.NLEN - 1) + TBITS P) := by
    rw [TBITS_eq P hB hN h5 h6]
  rw [e, ← ediv_ediv_pow2]
  exact ediv_top_low _ _ _ _ c (pow2_pos _) (pow2_pos _) hc hlow

theorem norm_low (P : Config) (a : BIG) (hN : 0 < P.NLEN) (hn : BIG_norm P a = a) :
    0 ≤ valN P a (P.NLEN - 1) ∧ valN P a (P.NLEN - 1) < pow2 (P.BASEBITS * (P.NLEN - 1)) := by
  unfold BIG_norm at hn
  rw [← hn, valN_toLimbs_low P _ _ _ (by omega)]
  exact ⟨Int.emod_nonneg _ (ne_of_gt (pow2_pos _)), Int.emod_lt_of_pos _ (pow2_pos _)⟩

theorem FP_reduce_norm (P : Config) (hN : 0 < P.NLEN) (a : BIG) :
    BIG_norm P (FP_reduce P a) = FP_reduce P a := by
  unfold FP_reduce BIG_mod
  by_cases hlt : BIG_val P a < BIG_val P (BIG_copy P P.Modulus)
  · simp only [hlt, if_true]
    exact BIG_norm_idem P a hN
  · simp only [hlt, if_false]
    exact BIG_norm_toLimbs P _ hN

theorem FP_reduce_lt (P : Config) (h : WF P) (a : BIG) :
    BIG_val P (FP_reduce P a) < Modulus_val P := by
  have hN := h.2.2.1
  have hp := WF_pos P h
  unfold FP_reduce BIG_mod
  rw [BIG_val_copy]
  by_cases hlt : BIG_val P a < BIG_val P P.Modulus
  · simp only [hlt, if_true]
    rw [BIG_val_norm P _ hN]
    exact hlt
  · simp only [hlt, if_false]
    rw [BIG_val_toLimbs P _ hN]
    exact Int.emod_lt_of_pos _ hp

theorem excess_of_lt_modulus (P : Config) (h : WF P) (r : BIG)
    (hr : BIG_val P r < Modulus_val P) : EXCESS P (BIG_norm P r) < FEXCESS P := by
  rw [EXCESS_norm P h]
  have hp2 : Modulus_val P < pow2 P.MODBITS := h.2.2.2.2.2.2.2.2.1
  have hF := FEXCESS_ge_one P
  have : BIG_val P r / pow2 P.MODBITS < 1 :=
    Int.ediv_lt_of_lt_mul (pow2_pos _) (by linarith)
  omega

theorem FP_add_excess (P : Config) (h : WF P) (a b : BIG)
    (hlow : valN P a (P.NLEN - 1) + valN P b (P.NLEN - 1)
      < 2 * pow2 (P.BASEBITS * (P.NLEN - 1))) :
    EXCESS P (BIG_norm P (FP_add P a b)) < FEXCESS P ∧
    ((EXCESS P (BIG_add P a b) + 2 < FEXCESS P ∧ FP_add P a b = BIG_add P a b) ∨
      BIG_val P (FP_add P a b) < Modulus_val P) := by
  have hN := h.2.2.1
  unfold FP_add
  simp only []
  by_cases hc : EXCESS P (BIG_add P a b) + 2 ≥ FEXCESS P
  · simp only [hc, if_true]
    exact ⟨excess_of_lt_modulus P h _ (FP_reduce_lt P h _), Or.inr (FP_reduce_lt P h _)⟩
  · simp only [hc, if_false]
    have hl : valN P (BIG_add P a b) (P.NLEN - 1)
        < (1 + 1) * pow2 (P.BASEBITS * (P.NLEN - 1)) := by
      unfold BIG_add
      rw [valN_add P a b P.NLEN (P.NLEN - 1) (by omega)]
      linarith
    have := excess_norm_le P h (BIG_add P a b) 1 (by norm_num) hl
    exact ⟨by omega, Or.inl ⟨by omega, trivial⟩⟩

theorem FP_neg_unreduced_low (P : Config) (hN : 0 < P.NLEN) (a : BIG) :
    valN P (FP_neg_unreduced P a) (P.NLEN - 1) < pow2 (P.BASEBITS * (P.NLEN - 1)) ∧
    - pow2 (P.BASEBITS * (P.NLEN - 1)) < valN P (FP_neg_unreduced P a) (P.NLEN - 1) := by
  unfold FP_neg_unreduced BIG_sub
  rw [valN_sub P _ _ P.NLEN (P.NLEN - 1) (by omega)]
  obtain ⟨a0, a1⟩ := norm_low P (BIG_norm P a) hN (BIG_norm_idem P a hN)
  have hf : BIG_norm P (BIG_fshl P (BIG_copy P P.Modulus) (FP_neg_shift P a))
      = BIG_fshl P (BIG_copy P P.Modulus) (FP_neg_shift P a) := by
    unfold BIG_fshl
    exact BIG_norm_toLimbs P _ hN
  obtain ⟨m0, m1⟩ := norm_low P _ hN hf
  constructor <;> linarith

theorem FP_neg_excess (P : Config) (h : WF P) (a : BIG) :
    EXCESS P (BIG_norm P (FP_neg P a)) < FEXCESS P ∧
    ((EXCESS P (FP_neg_unreduced P a) < FEXCESS P ∧ FP_neg P a = FP_neg_unreduced P a) ∨
      BIG_val P (FP_neg P a) < Modulus_val P) := by
  have hN := h.2.2.1
  rw [FP_neg_eq]
  by_cases hc : EXCESS P (FP_neg_unreduced P a) ≥ FEXCESS P
  · simp only [hc, if_true]
    exact ⟨excess_of_lt_modulus P h _ (FP_reduce_lt P h _), Or.inr (FP_reduce_lt P h _)⟩
  · simp only [hc, if_false]
    obtain ⟨l1, _⟩ := FP_neg_unreduced_low P hN a
    have := excess_norm_le P h (FP_neg_unreduced P a) 0 (le_refl 0) (by linarith)
    exact ⟨by omega, Or.inl ⟨by omega, trivial⟩⟩

theorem FP_neg_low (P : Config) (hN : 0 < P.NLEN) (a : BIG) :
    valN P (FP_neg P a) (P.NLEN - 1) < pow2 (P.BASEBITS * (P.NLEN - 1)) := by
  rw [FP_neg_eq]
  by_cases hc : EXCESS P (FP_neg_unreduced P a) ≥ FEXCESS P
  · simp only [hc, if_true]
    exact (norm_low P _ hN (FP_reduce_norm P hN _)).2
  · simp only [hc, if_false]
    exact (FP_neg_unreduced_low P hN a).1

/-- C21: for normalised inputs, the outputs of `FP_add`, `FP_sub` and `FP_neg`, once
normalised, have excess strictly below `FEXCESS`: either the excess test of the operation
passed on the unreduced result, or the result was reduced below the modulus. -/
theorem excess_invariant (P : Config) (h : WF P) (a b : BIG)
    (ha : BIG_norm P a = a) (hb : BIG_norm P b = b) :
    (EXCESS P (BIG_norm P (FP_add P a b)) < FEXCESS P ∧
      ((EXCESS P (BIG_add P a b) + 2 < FEXCESS P ∧ FP_add P a b = BIG_add P a b) ∨
        BIG_val P (FP_add P a b) < Modulus_val P)) ∧
    (EXCESS P (BIG_norm P (FP_sub P a b)) < FEXCESS P ∧
      ((EXCESS P (BIG_add P a (FP_neg P b)) + 2 < FEXCESS P ∧
          FP_sub P a b = BIG_add P a (FP_neg P b)) ∨
        BIG_val P (FP_sub P a b) < Modulus_val P)) ∧
    (EXCESS P (BIG_norm P (FP_neg P a)) < FEXCESS P ∧
      ((EXCESS P (FP_neg_unreduced P a) < FEXCESS P ∧ FP_neg P a = FP_neg_unreduced P a) ∨
        BIG_val P (FP_neg P a) < Modulus_val P)) := by
  have hN := h.2.2.1
  obtain ⟨a0, a1⟩ := norm_low P a hN ha
  obtain ⟨b0, b1⟩ := norm_low P b hN hb
  have n1 := FP_neg_low P hN b
  refine ⟨FP_add_excess P h a b (by linarith), ?_, FP_neg_excess P h a⟩
  exact FP_add_excess P h a (FP_neg P b) (by linarith)

/-- C25: every PIN in `[0, MAXPIN)` fits in `PBLEN` bits: with `MAXPIN = 10000` and
`PBLEN = 14`, `MAXPIN <= 2^PBLEN`. -/
theorem MAXPIN_fits_PBLEN :
    MAXPIN = 10000 ∧ PBLEN = 14 ∧ MAXPIN ≤ 2 ^ PBLEN ∧
    ∀ pin : Nat, pin < MAXPIN → pin < 2 ^ PBLEN := by
  refine ⟨rfl, rfl, by decide, ?_⟩
  intro pin hpin
  have h : MAXPIN ≤ 2 ^ PBLEN := by decide
  omega

/-- C27: `MPIN_RECOMBINE_G1` and `MPIN_RECOMBINE_G2`, given an input octet that is not a
point on the curve, return `MPIN_INVALID_POINT` (-14) and leave the output octet as it
was; otherwise they return `MPIN_OK` (0) with the sum of the two points in the output. -/
theorem MPIN_RECOMBINE_spec (G1 G2 : PointGroup) (R1 R2 R : Octet) :
    MPIN_INVALID_POINT = -14 ∧ MPIN_OK = 0 ∧
    ((G1.fromOctet R1 = none ∨ G1.fromOctet R2 = none) →
      MPIN_RECOMBINE_G1 G1 R1 R2 R = (-14, R)) ∧
    (∀ p q, G1.fromOctet R1 = some p → G1.fromOctet R2 = some q →
      MPIN_RECOMBINE_G1 G1 R1 R2 R = (0, G1.toOctet (G1.add p q))) ∧
    ((G2.fromOctet R1 = none ∨ G2.fromOctet R2 = none) →
      MPIN_RECOMBINE_G2 G2 R1 R2 R = (-14, R)) ∧
    (∀ p q, G2.fromOctet R1 = some p → G2.fromOctet R2 = some q →
      MPIN_RECOMBINE_G2 G2 R1 R2 R = (0, G2.toOctet (G2.add p q))) := by
  refine ⟨rfl, rfl, ?_, ?_, ?_, ?_⟩
  · intro hbad
    unfold MPIN_RECOMBINE_G1
    rcases hbad with h1 | h2
    · rw [h1]; rfl
    · rw [h2]
      cases G1.fromOctet R1 <;> rfl
  · intro p q h1 h2
    unfold MPIN_RECOMBINE_G1
    rw [h1, h2]; rfl
  · intro hbad
    unfold MPIN_RECOMBINE_G2
    rcases hbad with h1 | h2
    · rw [h1]; rfl
    · rw [h2]
      cases G2.fromOctet R1 <;> rfl
  · intro p q h1 h2
    unfold MPIN_RECOMBINE_G2
    rw [h1, h2]; rfl

/-- The excess invariant of C21 on two BN254 field elements. -/
theorem excess_invariant_witness :
    WF bn254 ∧ BIG_norm bn254 bnE2 = bnE2 ∧ BIG_norm bn254 bnB = bnB ∧
    EXCESS bn254 (BIG_norm bn254 (FP_add bn254 bnE2 bnB)) < FEXCESS bn254 ∧
    EXCESS bn254 (BIG_norm bn254 (FP_sub bn254 bnE2 bnB)) < FEXCESS bn254 ∧
    EXCESS bn254 (BIG_norm bn254 (FP_neg bn254 bnE2)) < FEXCESS bn254 :=
  ⟨by decide, by decide, by decide,
    (excess_invariant bn254 (by decide) bnE2 bnB (by decide) (by decide)).1.1,
    (excess_invariant bn254 (by decide) bnE2 bnB (by decide) (by decide)).2.1.1,
    (excess_invariant bn254 (by decide) bnE2 bnB (by decide) (by decide)).2.2.1⟩

/-- The Montgomery reduction of C22 on a BN254 product. -/
theorem FP_mod_NS_montgomery_witness :
    WF bn254 ∧ BIG_dnorm bn254 (BIG_mul bn254 bnA bnB) = BIG_mul bn254 bnA bnB ∧
    DBIG_val bn254 (BIG_mul bn254 bnA bnB)
      < Modulus_val bn254 * pow2 (bn254.BASEBITS * bn254.NLEN) ∧
    BIG_val bn254 (FP_mod bn254 (BIG_mul bn254 bnA bnB)) * pow2 (bn254.BASEBITS * bn254.NLEN)
      ≡ DBIG_val bn254 (BIG_mul bn254 bnA bnB) [ZMOD Modulus_val bn254] ∧
    BIG_val bn254 (FP_mod bn254 (BIG_mul bn254 bnA bnB)) < 2 * Modulus_val bn254 :=
  ⟨by decide, by decide, by decide,
    (FP_mod_NS_montgomery bn254 (by decide) rfl (BIG_mul bn254 bnA bnB) (by decide)
      (by decide) (by decide)).1,
    (FP_mod_NS_montgomery bn254 (by decide) rfl (BIG_mul bn254 bnA bnB) (by decide)
      (by decide) (by decide)).2.2⟩

/-- The reduction of C23 on a C25519 product, through `BIG_imul`. -/
theorem FP_mod_PM_congr_witness :
    WF c25519 ∧ c25519.MConst < NEXCESS c25519 ∧
    BIG_val c25519 (FP_mod c25519 (BIG_mul c25519 c25519_pm1 c25519_pm1))
      ≡ DBIG_val c25519 (BIG_mul c25519 c25519_pm1 c25519_pm1) [ZMOD Modulus_val c25519] :=
  ⟨by decide, by decide,
    (FP_mod_PM_congr c25519 (by decide) rfl (BIG_mul c25519 c25519_pm1 c25519_pm1)).2.1⟩

/-- C24 as stated fails for BN254: for the normalised operand of excess 8190 the excess
test of `FP_mul` and of `FP_sqr` forces no reduction, and the product handed to `FP_mod`
is not less than `Modulus * 2^(NLEN*BASEBITS)`. -/
theorem FP_mul_prod_exceeds_pR :
    WF bn254 ∧ BIG_norm bn254 bnE8190 = bnE8190 ∧ 0 ≤ BIG_val bn254 bnE8190 ∧
    EXCESS bn254 bnE8190 = 8190 ∧ EXCESS bn254 bnE8190 < FEXCESS bn254 ∧
    ¬ (EXCESS bn254 bnE8190 + 1
        ≥ Int.tdiv (FEXCESS bn254 - 1) (EXCESS bn254 bnE8190 + 1)) ∧
    Modulus_val bn254 * pow2 (bn254.BASEBITS * bn254.NLEN)
      ≤ DBIG_val bn254 (FP_mul_prod bn254 bnE8190 bnE8190) ∧
    Modulus_val bn254 * pow2 (bn254.BASEBITS * bn254.NLEN)
      ≤ DBIG_val bn254 (FP_sqr_prod bn254 bnE8190) := by
  decide

/-- The amended C24 on two BN254 BIGs. -/
theorem FP_mul_sqr_prod_bound_witness :
    WF bn254 ∧
    DBIG_val bn254 (FP_mul_prod bn254 bnE8190 bnB)
      < pow2 bn254.MODBITS * pow2 (bn254.BASEBITS * bn254.NLEN) ∧
    DBIG_val bn254 (FP_sqr_prod bn254 bnE8190)
      < pow2 bn254.MODBITS * pow2 (bn254.BASEBITS * bn254.NLEN) :=
  ⟨by decide,
    (FP_mul_sqr_prod_bound bn254 (by decide) bnE8190 bnB (by decide) (by decide)).2.2.1.2.1,
    (FP_mul_sqr_prod_bound bn254 (by decide) bnE8190 bnB (by decide) (by decide)).2.2.2.2.1⟩

/-- The bound of C25 at the largest PIN. -/
theorem MAXPIN_fits_PBLEN_witness : 9999 < MAXPIN ∧ 9999 < 2 ^ PBLEN :=
  ⟨by decide, MAXPIN_fits_PBLEN.2.2.2 9999 (by decide)⟩

/-- The recombination of C27 with the toy collaborator: an invalid input and a valid
pair. -/
theorem MPIN_RECOMBINE_spec_witness :
    toyGroup.fromOctet [9] = none ∧
    MPIN_RECOMBINE_G1 toyGroup [9] [5] [0] = (-14, [0]) ∧
    MPIN_RECOMBINE_G2 toyGroup [3] [5] [0] = (0, [1]) :=
  ⟨rfl,
    (MPIN_RECOMBINE_spec toyGroup toyGroup [9] [5] [0]).2.2.1 (Or.inl rfl),
    (MPIN_RECOMBINE_spec toyGroup toyGroup [3] [5] [0]).2.2.2.2.2 (3 : Nat) (5 : Nat) rfl rfl⟩

/-- The equality of C28 on a BN254 product. -/
theorem FP_mod_NS_comba_eq_loop_witness :
    WF bn254 ∧ BIG_dnorm bn254 (BIG_mul bn254 bnA bnB) = BIG_mul bn254 bnA bnB ∧
    FP_mod_NS_comba bn254 (BIG_mul bn254 bnA bnB)
      = FP_mod_NS_loop bn254 (BIG_mul bn254 bnA bnB) :=
  ⟨by decide, by decide,
    FP_mod_NS_comba_eq_loop bn254 (by decide) rfl (BIG_mul bn254 bnA bnB) (by decide)
      (by decide) (by decide)⟩

/-- The reduction of C29 on a square in the build `mf254`. -/
theorem FP_mod_MF_montgomery_witness :
    WF mf254 ∧ BIG_dnorm mf254 (BIG_mul mf254 mfA mfA) = BIG_mul mf254 mfA mfA ∧
    BIG_val mf254 (FP_mod mf254 (BIG_mul mf254 mfA mfA)) * pow2 (mf254.BASEBITS * mf254.NLEN)
      ≡ DBIG_val mf254 (BIG_mul mf254 mfA mfA) [ZMOD Modulus_val mf254] :=
  ⟨by decide, by decide,
    (FP_mod_MF_montgomery mf254 (by decide) rfl (BIG_mul mf254 mfA mfA) (by decide)
      (by decide) (by decide)).2.1⟩

/-- The reduction of C30 on a square in the build `gold448`. -/
theorem FP_mod_GM_congr_witness :
    WF gold448 ∧ InField gold448 goldA ∧
    BIG_val gold448 (FP_mod gold448 (BIG_mul gold448 goldA goldA))
      ≡ DBIG_val gold448 (BIG_mul gold448 goldA goldA) [ZMOD Modulus_val gold448] :=
  ⟨by decide, by decide,
    (FP_mod_GM_congr gold448 (by decide) rfl (BIG_mul gold448 goldA goldA)).2.1⟩

theorem ediv_split (x M K : Int) (hM : 0 < M) :
    x % (M * K) / M + x / (M * K) * K = x / M := by
  have hx := Int.emod_add_ediv x (M * K)
  have e : x / M = (x % (M * K) + M * (K * (x / (M * K)))) / M := by
    rw [← mul_assoc, hx]
  rw [e, Int.add_mul_ediv_left _ _ (ne_of_gt hM)]
  ring

theorem FP_mod_PM_val (P : Config) (d : DBIG) (hB : 0 < P.BASEBITS) (hN : 0 < P.NLEN)
    (h1 : P.BASEBITS * (P.NLEN - 1) ≤ P.MODBITS) (h2 : P.MODBITS < P.BASEBITS * P.NLEN)
    (h16 : P.CHUNK = 16 → 2 ≤ P.NLEN) :
    BIG_val P (FP_mod_PM P d)
      = DBIG_val P d / pow2 P.MODBITS * P.MConst % pow2 P.MODBITS
        + P.MConst * (DBIG_val P d / pow2 P.MODBITS * P.MConst / pow2 P.MODBITS)
        + DBIG_val P d % pow2 P.MODBITS := by
  have hMpos := pow2_pos P.MODBITS
  have hR : pow2 (P.BASEBITS * P.NLEN) = pow2 P.MODBITS * pow2 (P.BASEBITS - TBITS P) := by
    rw [← pow2_add]; congr 1
    have := TBITS_eq P hB hN h1 h2
    have hN1 : P.BASEBITS * P.NLEN = P.BASEBITS * (P.NLEN - 1) + P.BASEBITS := by
      rw [← Nat.mul_succ]; congr 1; omega
    omega
  unfold FP_mod_PM
  simp only [BIG_split, shr, maskLow, shl]
  rw [BIG_val_norm P _ hN, BIG_val_add, BIG_val_toLimbs P _ hN]
  by_cases hbr : P.MConst < NEXCESS P
  · simp only [hbr, if_true]
    have hnorm : BIG_norm P (BIG_imul P (toLimbs P P.NLEN (DBIG_val P d / pow2 P.MODBITS)) P.MConst)
        = toLimbs P P.NLEN (DBIG_val P d / pow2 P.MODBITS * P.MConst) := by
      unfold BIG_norm
      rw [BIG_val_imul, BIG_val_toLimbs P _ hN]
    rw [hnorm, PM_fold_val P _ _ hN (length_toLimbs _ _ _) hB h1 h2,
      limb_top_ediv P _ hB hN h1 h2, BIG_val_toLimbs P _ hN]
    have hh := Int.emod_add_ediv (DBIG_val P d / pow2 P.MODBITS * P.MConst) (pow2 P.MODBITS)
    linear_combination -hh
  · simp only [hbr, if_false, BIG_pmul, shr, maskLow]
    rw [BIG_val_toLimbs P _ hN]
    generalize DBIG_val P d / pow2 P.MODBITS * P.MConst = x
    have hdvd : pow2 P.MODBITS ∣ pow2 (P.BASEBITS * P.NLEN) := ⟨_, hR⟩
    have hlow : x % pow2 (P.BASEBITS * P.NLEN) % pow2 P.MODBITS = x % pow2 P.MODBITS :=
      Int.emod_emod_of_dvd x hdvd
    have hq : x % pow2 (P.BASEBITS * P.NLEN) / pow2 P.MODBITS
        + x / pow2 (P.BASEBITS * P.NLEN) * pow2 (P.BASEBITS - TBITS P) = x / pow2 P.MODBITS := by
      rw [hR]
      exact ediv_split x _ _ hMpos
    have hh := Int.emod_add_ediv (x % pow2 (P.BASEBITS * P.NLEN)) (pow2 P.MODBITS)
    rw [hlow] at hh
    by_cases h16c : P.CHUNK = 16
    · simp only [h16c, if_true]
      rw [PM_fold16_val P _ _ _ (h16 h16c) (length_toLimbs _ _ _) hB h1 h2,
        limb_top_ediv P _ hB hN h1 h2, BIG_val_toLimbs P _ hN, hq]
      linear_combination -hh
    · simp only [h16c, if_false]
      rw [PM_fold_val P _ _ hN (length_toLimbs _ _ _) hB h1 h2,
        limb_top_ediv P _ hB hN h1 h2, BIG_val_toLimbs P _ hN, hq]
      linear_combination -hh

/-- C31, as the code has it: for `MODTYPE == PSEUDO_MERSENNE` and every DBIG `d` with
`0 <= d < Modulus * 2^(NLEN*BASEBITS)`, the output `r` of `FP_mod` is the sum of the two
folded parts, each below `2^MODBITS`, and of `MConst` times the carry of the fold, so
`0 <= r < 2^(MODBITS+1) + MConst^2 * 2^(NLEN*BASEBITS - MODBITS)`. -/
theorem FP_mod_PM_bound (P : Config) (h : WF P)
    (hT : P.MODTYPE = ModType.PSEUDO_MERSENNE) (d : DBIG) (h0 : 0 ≤ DBIG_val P d)
    (hlt : DBIG_val P d < Modulus_val P * pow2 (P.NLEN * P.BASEBITS)) :
    0 ≤ BIG_val P (FP_mod P d) ∧
    BIG_val P (FP_mod P d) < pow2 (P.MODBITS + 1) + P.MConst ^ 2 * FEXCESS P := by
  have hFE := FE_pow2 P h
  have hpM : Modulus_val P < pow2 P.MODBITS := h.2.2.2.2.2.2.2.2.1
  obtain ⟨hB, _, hN, _, h5, h6, _, _, _, _, r2, _, _⟩ := h
  obtain ⟨_, hc, h16⟩ := r2 hT
  have e : FP_mod P d = FP_mod_PM P d := by unfold FP_mod; rw [hT]
  rw [e, FP_mod_PM_val P d hB hN h5 h6 h16]
  have hMpos := pow2_pos P.MODBITS
  have hFpos : 0 < FEXCESS P := pow2_pos _
  have hM1 : pow2 (P.MODBITS + 1) = pow2 P.MODBITS * 2 := by
    rw [pow2_add]; simp [pow2]
  rw [Nat.mul_comm] at hlt
  rw [← hFE] at hlt
  have ht0 : 0 ≤ DBIG_val P d / pow2 P.MODBITS := Int.ediv_nonneg h0 (le_of_lt hMpos)
  have ht1 : DBIG_val P d / pow2 P.MODBITS < pow2 P.MODBITS * FEXCESS P := by
    apply Int.ediv_lt_of_lt_mul hMpos
    have hR0 : 0 < FEXCESS P * pow2 P.MODBITS := by positivity
    nlinarith
  have hb0 := Int.emod_nonneg (DBIG_val P d) (ne_of_gt hMpos)
  have hb1 := Int.emod_lt_of_pos (DBIG_val P d) hMpos
  generalize DBIG_val P d / pow2 P.MODBITS = t at ht0 ht1 ⊢
  generalize DBIG_val P d % pow2 P.MODBITS = b at hb0 hb1 ⊢
  have hl0 := Int.emod_nonneg (t * P.MConst) (ne_of_gt hMpos)
  have hl1 := Int.emod_lt_of_pos (t * P.MConst) hMpos
  have hq0 : 0 ≤ t * P.MConst / pow2 P.MODBITS :=
    Int.ediv_nonneg (by positivity) (le_of_lt hMpos)
  have hq1 : t * P.MConst / pow2 P.MODBITS < P.MConst * FEXCESS P := by
    apply Int.ediv_lt_of_lt_mul hMpos
    nlinarith
  constructor
  · have : 0 ≤ P.MConst * (t * P.MConst / pow2 P.MODBITS) := by positivity
    linarith
  · rw [hM1]
    have : P.MConst * (t * P.MConst / pow2 P.MODBITS) < P.MConst * (P.MConst * FEXCESS P) :=
      mul_lt_mul_of_pos_left hq1 hc
    nlinarith

/-- The bound of C31 as stated fails in the build `c25519`: the DBIG `c25519_edge` is
normalised and lies in `[0, Modulus * 2^(NLEN*BASEBITS))`, and `FP_mod` returns
`2^256 + 207` for it, which is not below `2^(MODBITS+1)`. -/
theorem FP_mod_PM_exceeds_one_bit :
    c25519.MODTYPE = ModType.PSEUDO_MERSENNE ∧
    BIG_dnorm c25519 c25519_edge = c25519_edge ∧
    0 ≤ DBIG_val c25519 c25519_edge ∧
    DBIG_val c25519 c25519_edge < Modulus_val c25519 * pow2 (c25519.NLEN * c25519.BASEBITS) ∧
    BIG_val c25519 (FP_mod c25519 c25519_edge) = pow2 (c25519.MODBITS + 1) + 207 := by
  decide

/-- The bound of C31, as amended, on the DBIG `c25519_edge` of the build `c25519`. -/
theorem FP_mod_PM_bound_witness :
    WF c25519 ∧ 0 ≤ DBIG_val c25519 c25519_edge ∧
    0 ≤ BIG_val c25519 (FP_mod c25519 c25519_edge) ∧
    BIG_val c25519 (FP_mod c25519 c25519_edge)
      < pow2 (c25519.MODBITS + 1) + c25519.MConst ^ 2 * FEXCESS c25519 :=
  ⟨by decide, by decide,
    FP_mod_PM_bound c25519 (by decide) rfl c25519_edge (by decide) (by decide)⟩

/-- C32: the call `FP_sqr(r,a)` leaves the same `r`, and the same operand `a`, as the
call `FP_mul(r,a,a)`, in which `b` is the same array as `a`: the excess test and the
choice between `FP_reduce` and `BIG_norm` are the same, the later `BIG_norm(b)` changes
nothing, and the two products agree whenever `BIG_sqr(d,x)` is `BIG_mul(d,x,x)`. -/
theorem FP_sqr_eq_mul_same (P : Config) (hN : 0 < P.NLEN) (a : BIG)
    (hsq : ∀ x : BIG, BIG_sqr P x = BIG_mul P x x) :
    FP_sqr P a = (FP_mul_same_state P a).1 ∧
    (FP_sqr_state P a).2 = (FP_mul_same_state P a).2 := by
  unfold FP_sqr FP_sqr_state FP_mul_same_state
  simp only []
  by_cases hc : EXCESS P a + 1 ≥ Int.tdiv (FEXCESS P - 1) (EXCESS P a + 1)
  · have e : BIG_norm P (FP_reduce P a) = FP_reduce P a := by
      unfold FP_reduce BIG_mod
      split_ifs
      · exact BIG_norm_idem P _ hN
      · exact BIG_norm_toLimbs P _ hN
    simp only [hc, if_true, e, hsq]
    exact ⟨trivial, trivial⟩
  · simp only [hc, if_false, BIG_norm_idem P a hN, hsq]
    exact ⟨trivial, trivial⟩

/-- C33: `FP_one` is the multiplicative identity in n-residue form, for every modulus
type: `FP_redc` takes it back to `BIG_one`, of value 1, and for every field element `a`
in `[0, Modulus)` the product `FP_mul(r, a, FP_one())` is congruent to `a` modulo the
modulus and `FP_equals` finds it equal to `a`. -/
theorem FP_one_identity (P : Config) (h : WF P) (h1 : 1 < Modulus_val P) :
    FP_redc P (FP_one P) = BIG_one P ∧ BIG_val P (FP_redc P (FP_one P)) = 1 ∧
    ∀ a : BIG, InField P a →
      BIG_val P (FP_mul P a (FP_one P)) ≡ BIG_val P a [ZMOD Modulus_val P] ∧
      FP_equals P (FP_mul P a (FP_one P)) a = 1 := by
  have hB := h.1
  have hN := h.2.2.1
  have hone : FP_redc P (FP_one P) = BIG_one P := by
    unfold FP_one
    apply FP_nres_redc_id P h
    refine ⟨BIG_one_norm P hB hN, ?_, ?_⟩
    · rw [BIG_one_val P hN]; norm_num
    · rw [BIG_one_val P hN]; exact h1
  refine ⟨hone, ?_, ?_⟩
  · rw [hone, BIG_one_val P hN]
  · intro a ha
    obtain ⟨hv1, hm1⟩ := FP_one_spec P h
    have hva := Valid_of_InField P h a ha
    obtain ⟨hvr, hmr⟩ := FP_mul_spec P h a (FP_one P) hva hv1
    have hc : BIG_val P (FP_mul P a (FP_one P)) * nres_R P
        ≡ BIG_val P a * nres_R P [ZMOD Modulus_val P] := by
      refine hmr.trans ?_
      have := Int.ModEq.mul_left (BIG_val P a) hm1
      simpa using this
    have hcong := modEq_cancel_R P h _ _ hc
    exact ⟨hcong, FP_equals_of_modEq P _ _ hvr.2.1 ha.2.1 hcong⟩

/-- C35: when `MOD8` is 1, `FP_sqrt(r,a)` enters neither branch: `r` is returned as it
was, and `a` is left as `BIG_mod(a,m)` has it, which is `FP_reduce(a)`: congruent to
`a` modulo the modulus, and `a mod Modulus` for a non-negative `a`. -/
theorem FP_sqrt_mod8_one (P : Config) (h : WF P) (h8 : P.MOD8 = 1) (r a : BIG) :
    FP_sqrt P r a = some (r, FP_reduce P a) ∧
    BIG_val P (FP_reduce P a) ≡ BIG_val P a [ZMOD Modulus_val P] ∧
    (0 ≤ BIG_val P a → BIG_val P (FP_reduce P a) = BIG_val P a % Modulus_val P) := by
  refine ⟨?_, FP_reduce_modEq P h.2.2.1 a, FP_reduce_val P h a⟩
  unfold FP_sqrt
  simp [h8, FP_reduce]

/-- C36: after `FP_mul(r,a,b)` with `r` a third array, the operand `a`, rewritten by
`FP_reduce` or `BIG_norm`, and the operand `b`, rewritten by `BIG_norm`, are congruent
modulo the modulus to what they were, and `b` has the integer value it had. -/
theorem FP_mul_operands (P : Config) (hN : 0 < P.NLEN) (a b : BIG) :
    BIG_val P (FP_mul_state P a b).2.1 ≡ BIG_val P a [ZMOD Modulus_val P] ∧
    BIG_val P (FP_mul_state P a b).2.2 ≡ BIG_val P b [ZMOD Modulus_val P] ∧
    BIG_val P (FP_mul_state P a b).2.2 = BIG_val P b := by
  unfold FP_mul_state
  simp only []
  refine ⟨?_, ?_, BIG_val_norm P b hN⟩
  · split_ifs
    · exact FP_reduce_modEq P hN a
    · rw [BIG_val_norm P a hN]
  · rw [BIG_val_norm P b hN]

theorem FP_pow_turns_unfold (P : Config) (f : Nat) (r w z : BIG) :
    FP_pow_turns P (f + 1) r w z
      = (if BIG_comp P (BIG_fshr P z 1) (BIG_zero P) = 0 then
          some ((if BIG_parity z ≠ 0 then
            ((FP_mul_state P r w).1, (FP_mul_state P r w).2.2) else (r, w)).1, 1)
        else (FP_pow_turns P f
          (if BIG_parity z ≠ 0 then
            ((FP_mul_state P r w).1, (FP_mul_state P r w).2.2) else (r, w)).1
          (FP_sqr P (if BIG_parity z ≠ 0 then
            ((FP_mul_state P r w).1, (FP_mul_state P r w).2.2) else (r, w)).2)
          (BIG_fshr P z 1)).map (fun x => (x.1, x.2 + 1))) := rfl

theorem FP_pow_loop_unfold (P : Config) (f : Nat) (r w z : BIG) :
    FP_pow_loop P (f + 1) r w z
      = (if BIG_comp P (BIG_fshr P z 1) (BIG_zero P) = 0 then
          some (if BIG_parity z ≠ 0 then
            ((FP_mul_state P r w).1, (FP_mul_state P r w).2.2) else (r, w)).1
        else FP_pow_loop P f
          (if BIG_parity z ≠ 0 then
            ((FP_mul_state P r w).1, (FP_mul_state P r w).2.2) else (r, w)).1
          (FP_sqr P (if BIG_parity z ≠ 0 then
            ((FP_mul_state P r w).1, (FP_mul_state P r w).2.2) else (r, w)).2)
          (BIG_fshr P z 1)) := rfl

theorem FP_pow_turns_fst (P : Config) : ∀ (fuel : Nat) (r w z : BIG),
    (FP_pow_turns P fuel r w z).map Prod.fst = FP_pow_loop P fuel r w z := by
  intro fuel
  induction fuel with
  | zero => intro r w z; rfl
  | succ f ih =>
    intro r w z
    rw [FP_pow_turns_unfold, FP_pow_loop_unfold]
    by_cases hc : BIG_comp P (BIG_fshr P z 1) (BIG_zero P) = 0
    · rw [if_pos hc, if_pos hc]
      rfl
    · rw [if_neg hc, if_neg hc, ← ih, Option.map_map]
      rfl

theorem BIG_fshr_one_toLimbs (P : Config) (hN : 0 < P.NLEN) (v : Int) :
    BIG_fshr P (toLimbs P P.NLEN v) 1 = toLimbs P P.NLEN (v / 2) := by
  unfold BIG_fshr shr
  rw [BIG_val_toLimbs P _ hN]
  rfl

theorem FP_pow_turns_count (P : Config) (hN : 0 < P.NLEN) : ∀ (n fuel : Nat) (r w : BIG) (v : Int),
    n + 1 ≤ fuel → 0 ≤ v → v < pow2 (n + 1) → (0 < n → pow2 n ≤ v) →
    ∃ r1, FP_pow_turns P fuel r w (toLimbs P P.NLEN v) = some (r1, n + 1) := by
  intro n
  induction n with
  | zero =>
    intro fuel r w v hf h0 h1 _
    obtain ⟨f, rfl⟩ : ∃ f, fuel = f + 1 := ⟨fuel - 1, by omega⟩
    rw [FP_pow_turns_unfold, BIG_fshr_one_toLimbs P hN]
    have h2 : v < 2 := by simpa [pow2] using h1
    have hz : v / 2 = 0 := by omega
    rw [if_pos ((BIG_comp_zero_iff P hN _).mpr hz)]
    exact ⟨_, rfl⟩
  | succ m ih =>
    intro fuel r w v hf h0 h1 h2
    obtain ⟨f, rfl⟩ : ∃ f, fuel = f + 1 := ⟨fuel - 1, by omega⟩
    rw [FP_pow_turns_unfold, BIG_fshr_one_toLimbs P hN]
    have hlo := h2 (by omega)
    have hp1 : pow2 (m + 1) = pow2 m * 2 := by rw [pow2_add]; simp [pow2]
    have hp2 : pow2 (m + 1 + 1) = pow2 (m + 1) * 2 := by rw [pow2_add]; simp [pow2]
    have hmpos := pow2_pos m
    have hz : ¬ (v / 2 = 0) := by omega
    rw [if_neg (fun hc => hz ((BIG_comp_zero_iff P hN _).mp hc))]
    obtain ⟨r1, e1⟩ := ih f
      (if BIG_parity (toLimbs P P.NLEN v) ≠ 0 then
        ((FP_mul_state P r w).1, (FP_mul_state P r w).2.2) else (r, w)).1
      (FP_sqr P (if BIG_parity (toLimbs P P.NLEN v) ≠ 0 then
        ((FP_mul_state P r w).1, (FP_mul_state P r w).2.2) else (r, w)).2)
      (v / 2) (by omega) (by omega) (by omega) (fun _ => by omega)
    rw [e1]
    exact ⟨r1, rfl⟩

theorem FP_pow_turns_short (P : Config) (hN : 0 < P.NLEN) : ∀ (fuel n : Nat) (r w : BIG) (v : Int),
    fuel ≤ n → pow2 n ≤ v → FP_pow_turns P fuel r w (toLimbs P P.NLEN v) = none := by
  intro fuel
  induction fuel with
  | zero => intro n r w v _ _; rfl
  | succ f ih =>
    intro n r w v hf hv
    obtain ⟨m, rfl⟩ : ∃ m, n = m + 1 := ⟨n - 1, by omega⟩
    rw [FP_pow_turns_unfold, BIG_fshr_one_toLimbs P hN]
    have hp1 : pow2 (m + 1) = pow2 m * 2 := by rw [pow2_add]; simp [pow2]
    have hmpos := pow2_pos m
    have hz : ¬ (v / 2 = 0) := by omega
    rw [if_neg (fun hc => hz ((BIG_comp_zero_iff P hN _).mp hc)),
      ih m _ _ (v / 2) (by omega) (by omega)]
    rfl

theorem bitlength_bounds (v : Int) (h0 : 0 ≤ v) :
    v < pow2 (max 1 (bitlength v)) ∧
    (1 < max 1 (bitlength v) → pow2 (max 1 (bitlength v) - 1) ≤ v) := by
  unfold bitlength
  obtain ⟨N, rfl⟩ : ∃ N : Nat, v = (N : Int) := ⟨v.toNat, (Int.toNat_of_nonneg h0).symm⟩
  simp only [Int.toNat_ofNat, pow2]
  constructor
  · have : N < 2 ^ (max 1 (Nat.size N)) := Nat.size_le.mp (le_max_right _ _)
    exact_mod_cast this
  · intro h1
    have hs : max 1 (Nat.size N) - 1 < Nat.size N := by omega
    have : 2 ^ (max 1 (Nat.size N) - 1) ≤ N := Nat.lt_size.mp hs
    exact_mod_cast this

/-- C34: the `while(1)` loop of `FP_pow` ends for every exponent `b` of non-negative
value: from the start state of `FP_pow` it makes exactly `max(1, bitlength(b))` turns,
whatever number of turns at least that is allowed, and has not ended with fewer; so
`FP_pow` returns whenever `b` is below `2^(CHUNK*NLEN)`, as an array of `NLEN` chunks is. -/
theorem FP_pow_terminates (P : Config) (h : WF P) (a b : BIG) (h0 : 0 ≤ BIG_val P b) :
    (∀ fuel, max 1 (bitlength (BIG_val P b)) ≤ fuel →
      ∃ r1, FP_pow_turns P fuel (FP_one P) (BIG_copy P a) (BIG_copy P (BIG_norm P b))
          = some (r1, max 1 (bitlength (BIG_val P b))) ∧
        FP_pow_loop P fuel (FP_one P) (BIG_copy P a) (BIG_copy P (BIG_norm P b)) = some r1) ∧
    (∀ fuel, fuel < max 1 (bitlength (BIG_val P b)) →
      FP_pow_turns P fuel (FP_one P) (BIG_copy P a) (BIG_copy P (BIG_norm P b)) = none) ∧
    (BIG_val P b < pow2 (P.CHUNK * P.NLEN) → ∃ r, FP_pow P a b = some r) := by
  have hN := h.2.2.1
  have hz : BIG_copy P (BIG_norm P b) = toLimbs P P.NLEN (BIG_val P b) := by
    rw [BIG_copy_eq P (BIG_norm P b) (length_toLimbs _ _ _)]
    rfl
  obtain ⟨hb1, hb2⟩ := bitlength_bounds (BIG_val P b) h0
  have hL : max 1 (bitlength (BIG_val P b)) - 1 + 1 = max 1 (bitlength (BIG_val P b)) := by
    omega
  have key : ∀ fuel, max 1 (bitlength (BIG_val P b)) ≤ fuel →
      ∃ r1, FP_pow_turns P fuel (FP_one P) (BIG_copy P a) (BIG_copy P (BIG_norm P b))
          = some (r1, max 1 (bitlength (BIG_val P b))) ∧
        FP_pow_loop P fuel (FP_one P) (BIG_copy P a) (BIG_copy P (BIG_norm P b)) = some r1 := by
    intro fuel hf
    obtain ⟨r1, e1⟩ := FP_pow_turns_count P hN (max 1 (bitlength (BIG_val P b)) - 1) fuel
      (FP_one P) (BIG_copy P a) (BIG_val P b) (by omega) h0 (by rw [hL]; exact hb1)
      (fun hpos => hb2 (by omega))
    rw [hL] at e1
    refine ⟨r1, by rw [hz]; exact e1, ?_⟩
    rw [← FP_pow_turns_fst, hz, e1]
    rfl
  refine ⟨key, ?_, ?_⟩
  · intro fuel hf
    rw [hz]
    by_cases h1 : 1 < max 1 (bitlength (BIG_val P b))
    · exact FP_pow_turns_short P hN fuel (max 1 (bitlength (BIG_val P b)) - 1) _ _ _
        (by omega) (hb2 h1)
    · have : fuel = 0 := by omega
      rw [this]
      rfl
  · intro hlt
    have hle : max 1 (bitlength (BIG_val P b)) ≤ P.CHUNK * P.NLEN := by
      have hC : 1 ≤ P.CHUNK * P.NLEN := Nat.mul_pos (by have := h.1; have := h.2.1; omega) hN
      refine max_le hC ?_
      unfold bitlength
      apply Nat.size_le.mpr
      have e : BIG_val P b = ((BIG_val P b).toNat : Int) := (Int.toNat_of_nonneg h0).symm
      rw [e] at hlt
      unfold pow2 at hlt
      exact_mod_cast hlt
    obtain ⟨r1, _, e2⟩ := key _ hle
    refine ⟨FP_reduce P r1, ?_⟩
    unfold FP_pow
    rw [e2]
    rfl

theorem charAt_set (l : List Int) (i j : Nat) (a : Int) :
    charAt (l.set i a) j = if i = j ∧ i < l.length then a else charAt l j := by
  unfold charAt
  simp only [List.getD_eq_getElem?_getD, List.getElem?_set]
  by_cases h : i = j
  · subst h
    by_cases h2 : i < l.length
    · simp [h2]
    · simp [h2]
      rw [List.getElem?_eq_none (by omega)]
      rfl
  · simp [h]

theorem charAt_take (l : List Int) (n j : Nat) (hj : j < n) :
    charAt (l.take n) j = charAt l j := by
  unfold charAt
  simp only [List.getD_eq_getElem?_getD, List.getElem?_take, hj, if_true]

theorem list_eq_of_charAt (l1 l2 : List Int) (hl : l1.length = l2.length)
    (h : ∀ j, j < l1.length → charAt l1 j = charAt l2 j) : l1 = l2 := by
  apply List.ext_getElem hl
  intro n h1 h2
  have e := h n h1
  unfold charAt at e
  rw [List.getD_eq_getElem _ _ h1, List.getD_eq_getElem _ _ h2] at e
  exact e

theorem foldl_set_spec (f : Nat → Int) : ∀ (n : Nat) (dst : List Int),
    ((List.range n).foldl (fun d i => d.set i (f i)) dst).length = dst.length ∧
    ∀ j, charAt ((List.range n).foldl (fun d i => d.set i (f i)) dst) j
      = if j < n ∧ j < dst.length then f j else charAt dst j := by
  intro n
  induction n with
  | zero => intro dst; simp
  | succ n ih =>
    intro dst
    obtain ⟨hl, hc⟩ := ih dst
    rw [List.range_succ, List.foldl_append]
    simp only [List.foldl_cons, List.foldl_nil, List.length_set]
    refine ⟨hl, fun j => ?_⟩
    rw [charAt_set, hl, hc j]
    by_cases h1 : n = j
    · subst h1
      by_cases h2 : n < dst.length
      · simp [h2]
      · simp [h2]
    · have e1 : (j < n + 1 ∧ j < dst.length) ↔ (j < n ∧ j < dst.length) := by
        constructor
        · rintro ⟨a, b⟩; exact ⟨by omega, b⟩
        · rintro ⟨a, b⟩; exact ⟨by omega, b⟩
      simp only [h1, false_and, if_false, e1]

theorem foldl_set_congr (f g : Nat → Int) : ∀ (n : Nat) (dst : List Int),
    (∀ i, i < n → f i = g i) →
    (List.range n).foldl (fun d i => d.set i (f i)) dst
      = (List.range n).foldl (fun d i => d.set i (g i)) dst := by
  intro n
  induction n with
  | zero => intro dst _; rfl
  | succ n ih =>
    intro dst h
    rw [List.range_succ, List.foldl_append, List.foldl_append, ih dst (fun i hi => h i (by omega))]
    simp only [List.foldl_cons, List.foldl_nil]
    rw [h n (by omega)]

theorem amcl_hex2bin_charAt (sgn : Bool) (src dst : List Int) (src_len : Int)
    (h0 : 0 ≤ src_len) :
    (amcl_hex2bin sgn src dst src_len).length = dst.length ∧
    ∀ j, charAt (amcl_hex2bin sgn src dst src_len) j
      = if j < (src_len / 2).toNat ∧ j < dst.length then
          amcl_hex2bin_byte sgn (charAt src (2 * j)) (charAt src (2 * j + 1))
        else charAt dst j := by
  have hdiv : Int.tdiv src_len 2 = src_len / 2 := Int.tdiv_eq_ediv h0 (by norm_num)
  unfold amcl_hex2bin
  rw [hdiv]
  exact foldl_set_spec
    (fun i => amcl_hex2bin_byte sgn (charAt src (2 * i)) (charAt src (2 * i + 1)))
    (src_len / 2).toNat dst

/-- C39: for every `src_len >= 0` and every `dst` with room for `floor(src_len/2)`
bytes, `amcl_hex2bin` stores a byte in each of `dst[0..floor(src_len/2)-1]`, the one made
from the characters `src[2j]` and `src[2j+1]`, and leaves every other element of `dst` as
it was; it reads only the first `2*floor(src_len/2)` characters of `src`, so for an odd
`src_len` the last character `src[src_len-1]` has no effect. -/
theorem amcl_hex2bin_frame (sgn : Bool) (src dst : List Int) (src_len : Int)
    (h0 : 0 ≤ src_len) (hd : (src_len / 2).toNat ≤ dst.length) :
    (amcl_hex2bin sgn src dst src_len).length = dst.length ∧
    (∀ j, j < (src_len / 2).toNat →
      charAt (amcl_hex2bin sgn src dst src_len) j
        = amcl_hex2bin_byte sgn (charAt src (2 * j)) (charAt src (2 * j + 1))) ∧
    (∀ j, (src_len / 2).toNat ≤ j →
      charAt (amcl_hex2bin sgn src dst src_len) j = charAt dst j) ∧
    (∀ src2 : List Int, (∀ k, k < 2 * (src_len / 2).toNat → charAt src2 k = charAt src k) →
      amcl_hex2bin sgn src2 dst src_len = amcl_hex2bin sgn src dst src_len) ∧
    (src_len % 2 = 1 → ∀ c : Int,
      amcl_hex2bin sgn (src.set (src_len - 1).toNat c) dst src_len
        = amcl_hex2bin sgn src dst src_len) := by
  have hdiv : Int.tdiv src_len 2 = src_len / 2 := Int.tdiv_eq_ediv h0 (by norm_num)
  obtain ⟨hl, hc⟩ := amcl_hex2bin_charAt sgn src dst src_len h0
  have hread : ∀ src2 : List Int,
      (∀ k, k < 2 * (src_len / 2).toNat → charAt src2 k = charAt src k) →
      amcl_hex2bin sgn src2 dst src_len = amcl_hex2bin sgn src dst src_len := by
    intro src2 h2
    unfold amcl_hex2bin
    rw [hdiv]
    apply foldl_set_congr
    intro i hi
    rw [h2 (2 * i) (by omega), h2 (2 * i + 1) (by omega)]
  refine ⟨hl, ?_, ?_, hread, ?_⟩
  · intro j hj
    rw [hc j, if_pos ⟨hj, by omega⟩]
  · intro j hj
    rw [hc j, if_neg (fun hh => by omega)]
  · intro hodd c
    apply hread
    intro k hk
    rw [charAt_set, if_neg]
    intro hh
    omega

theorem amcl_hex2bin_byte_eq (sgn : Bool) (c1 c2 : Int) :
    amcl_hex2bin_byte sgn c1 c2
      = (hexDigitValue c2).elim 0
          (fun lo => toChar sgn (toChar sgn (shl ((hexDigitValue c1).elim 0 (toChar sgn)) 4) + lo)) := by
  unfold amcl_hex2bin_byte hexDigitValue
  simp only [ge_iff_le]
  split_ifs <;> rfl

theorem toChar_nibbles (sgn : Bool) (hi lo : Int) (h1 : 0 ≤ hi) (h2 : hi < 16) (h3 : 0 ≤ lo)
    (h4 : lo < 16) :
    toChar sgn (toChar sgn (shl (toChar sgn hi) 4) + lo) = toChar sgn (16 * hi + lo) ∧
    toUChar (toChar sgn (16 * hi + lo)) = 16 * hi + lo := by
  have h16 : pow2 4 = 16 := by decide
  unfold toChar toUChar shl
  rw [h16]
  cases sgn
  · simp only [Bool.false_eq_true, if_false]
    omega
  · simp only [if_true]
    omega

theorem hexdigit_spec (n : Int) (h0 : 0 ≤ n) (h1 : n < 16) :
    hexDigitValue (hexdigit n) = some n ∧
    ((48 ≤ hexdigit n ∧ hexdigit n ≤ 57) ∨ (97 ≤ hexdigit n ∧ hexdigit n ≤ 102)) := by
  unfold hexdigit
  by_cases h : n < 10
  · simp only [h, if_true]
    refine ⟨?_, Or.inl ⟨by omega, by omega⟩⟩
    unfold hexDigitValue
    rw [if_pos ⟨by omega, by omega⟩]
    congr 1
    omega
  · simp only [h, if_false]
    refine ⟨?_, Or.inr ⟨by omega, by omega⟩⟩
    unfold hexDigitValue
    rw [if_neg (fun hh => by omega), if_neg (fun hh => by omega), if_pos ⟨by omega, by omega⟩]
    congr 1
    omega

theorem hex_byte_round_trip (sgn : Bool) (x : Int) (hx : toChar sgn x = x) :
    amcl_hex2bin_byte sgn (hexdigit (toUChar x / 16)) (hexdigit (toUChar x % 16)) = x := by
  have hu0 : 0 ≤ toUChar x := Int.emod_nonneg x (by norm_num)
  have hu1 : toUChar x < 256 := Int.emod_lt_of_pos x (by norm_num)
  have hh0 : 0 ≤ toUChar x / 16 := by omega
  have hh1 : toUChar x / 16 < 16 := by omega
  have hl0 : 0 ≤ toUChar x % 16 := by omega
  have hl1 : toUChar x % 16 < 16 := by omega
  rw [amcl_hex2bin_byte_eq, (hexdigit_spec _ hh0 hh1).1, (hexdigit_spec _ hl0 hl1).1]
  simp only [Option.elim]
  rw [(toChar_nibbles sgn _ _ hh0 hh1 hl0 hl1).1]
  have e : 16 * (toUChar x / 16) + toUChar x % 16 = toUChar x := by omega
  rw [e]
  conv_rhs => rw [← hx]
  unfold toChar toUChar
  cases sgn
  · simp only [Bool.false_eq_true, if_false]
    omega
  · simp only [if_true]
    omega

theorem writeAt_three (d : List Int) (k : Nat) (a b c : Int) :
    writeAt d k [a, b, c] = ((d.set k a).set (k + 1) b).set (k + 1 + 1) c := rfl

theorem bin2hex_spec (u : Nat → Int) : ∀ (n : Nat) (dst : List Int), 2 * n + 1 ≤ dst.length →
    ((List.range n).foldl (fun d i => writeAt d (i * 2) (sprintf_02x (u i))) dst).length
      = dst.length ∧
    ∀ j, charAt ((List.range n).foldl (fun d i => writeAt d (i * 2) (sprintf_02x (u i))) dst) j
      = if j < 2 * n then
          (if j % 2 = 0 then hexdigit (u (j / 2) / 16) else hexdigit (u (j / 2) % 16))
        else if j = 2 * n ∧ 0 < n then 0 else charAt dst j := by
  intro n
  induction n with
  | zero => intro dst _; simp
  | succ n ih =>
    intro dst hd
    obtain ⟨hl, hc⟩ := ih dst (by omega)
    rw [List.range_succ, List.foldl_append]
    simp only [List.foldl_cons, List.foldl_nil]
    generalize (List.range n).foldl (fun d i => writeAt d (i * 2) (sprintf_02x (u i))) dst = F
      at hl hc ⊢
    unfold sprintf_02x
    rw [writeAt_three]
    refine ⟨by simp only [List.length_set, hl], fun j => ?_⟩
    rw [charAt_set, charAt_set, charAt_set, hc j]
    simp only [List.length_set, hl]
    by_cases h1 : j < 2 * n
    · have a1 : ¬ (n * 2 + 1 + 1 = j ∧ n * 2 + 1 + 1 < dst.length) := fun hh => by omega
      have a2 : ¬ (n * 2 + 1 = j ∧ n * 2 + 1 < dst.length) := fun hh => by omega
      have a3 : ¬ (n * 2 = j ∧ n * 2 < dst.length) := fun hh => by omega
      have a4 : j < 2 * (n + 1) := by omega
      rw [if_neg a1, if_neg a2, if_neg a3, if_pos h1, if_pos a4]
    · by_cases h2 : j = n * 2
      · subst h2
        have a1 : ¬ (n * 2 + 1 + 1 = n * 2 ∧ n * 2 + 1 + 1 < dst.length) := fun hh => by omega
        have a2 : ¬ (n * 2 + 1 = n * 2 ∧ n * 2 + 1 < dst.length) := fun hh => by omega
        have a3 : (n * 2 = n * 2 ∧ n * 2 < dst.length) := ⟨rfl, by omega⟩
        have a4 : n * 2 < 2 * (n + 1) := by omega
        have a5 : n * 2 % 2 = 0 := by omega
        have a6 : n * 2 / 2 = n := by omega
        rw [if_neg a1, if_neg a2, if_pos a3, if_pos a4, if_pos a5, a6]
      · by_cases h3 : j = n * 2 + 1
        · subst h3
          have a1 : ¬ (n * 2 + 1 + 1 = n * 2 + 1 ∧ n * 2 + 1 + 1 < dst.length) :=
            fun hh => by omega
          have a2 : (n * 2 + 1 = n * 2 + 1 ∧ n * 2 + 1 < dst.length) := ⟨rfl, by omega⟩
          have a4 : n * 2 + 1 < 2 * (n + 1) := by omega
          have a5 : ¬ ((n * 2 + 1) % 2 = 0) := by omega
          have a6 : (n * 2 + 1) / 2 = n := by omega
          rw [if_neg a1, if_pos a2, if_pos a4, if_neg a5, a6]
        · by_cases h4 : j = n * 2 + 1 + 1
          · subst h4
            have a1 : (n * 2 + 1 + 1 = n * 2 + 1 + 1 ∧ n * 2 + 1 + 1 < dst.length) :=
              ⟨rfl, by omega⟩
            have a4 : ¬ (n * 2 + 1 + 1 < 2 * (n + 1)) := by omega
            have a5 : (n * 2 + 1 + 1 = 2 * (n + 1) ∧ 0 < n + 1) := ⟨by omega, by omega⟩
            rw [if_pos a1, if_neg a4, if_pos a5]
          · have a1 : ¬ (n * 2 + 1 + 1 = j ∧ n * 2 + 1 + 1 < dst.length) := fun hh => by omega
            have a2 : ¬ (n * 2 + 1 = j ∧ n * 2 + 1 < dst.length) := fun hh => by omega
            have a3 : ¬ (n * 2 = j ∧ n * 2 < dst.length) := fun hh => by omega
            have a4 : ¬ (j < 2 * (n + 1)) := by omega
            have a5 : ¬ (j = 2 * (n + 1) ∧ 0 < n + 1) := fun hh => by omega
            have a6 : ¬ (j = 2 * n ∧ 0 < n) := fun hh => by omega
            rw [if_neg a1, if_neg a2, if_neg a3, if_neg h1, if_neg a4, if_neg a5, if_neg a6]

/-- C37, as the code has it: for every sequence `b` of `n` values of type `char` and
every `dst` with room for `2n+1` characters, `amcl_bin2hex(b, dst, n)` stores `2n`
characters, each one of the digits 0 to 9 or the small letters a to f, in
`dst[0..2n-1]`, and after them (when `n > 0`) the null character of `sprintf` in
`dst[2n]`, and leaves the rest of `dst` as it was; and `amcl_hex2bin` on those `2n`
characters gives back exactly the `n` values of `b`. -/
theorem hex_codec_round_trip (sgn : Bool) (b dst out : List Int)
    (hb : ∀ j, j < b.length → toChar sgn (charAt b j) = charAt b j)
    (hd : 2 * b.length + 1 ≤ dst.length) (ho : b.length ≤ out.length) :
    (amcl_hex2bin sgn (amcl_bin2hex b dst b.length) out (2 * b.length)).take b.length = b ∧
    (amcl_bin2hex b dst b.length).length = dst.length ∧
    (∀ j, j < 2 * b.length →
      (48 ≤ charAt (amcl_bin2hex b dst b.length) j ∧ charAt (amcl_bin2hex b dst b.length) j ≤ 57)
      ∨ (97 ≤ charAt (amcl_bin2hex b dst b.length) j
          ∧ charAt (amcl_bin2hex b dst b.length) j ≤ 102)) ∧
    (0 < b.length → charAt (amcl_bin2hex b dst b.length) (2 * b.length) = 0) ∧
    (∀ j, 2 * b.length < j → charAt (amcl_bin2hex b dst b.length) j = charAt dst j) := by
  obtain ⟨hl, hc⟩ := bin2hex_spec (fun i => toUChar (charAt b i)) b.length dst hd
  have hfold : amcl_bin2hex b dst b.length
      = (List.range b.length).foldl
          (fun d i => writeAt d (i * 2) (sprintf_02x (toUChar (charAt b i)))) dst := by
    unfold amcl_bin2hex
    rw [Int.toNat_ofNat]
  rw [← hfold] at hl hc
  have hu : ∀ i, 0 ≤ toUChar (charAt b i) ∧ toUChar (charAt b i) < 256 := fun i =>
    ⟨Int.emod_nonneg _ (by norm_num), Int.emod_lt_of_pos _ (by norm_num)⟩
  refine ⟨?_, hl, ?_, ?_, ?_⟩
  · have hdiv : ((2 * b.length : Nat) : Int) / 2 = (b.length : Int) := by omega
    obtain ⟨fl, fc⟩ := amcl_hex2bin_charAt sgn (amcl_bin2hex b dst b.length) out
      ((2 * b.length : Nat) : Int) (by omega)
    rw [hdiv, Int.toNat_ofNat] at fc
    have hcast : (2 * (b.length : Int)) = ((2 * b.length : Nat) : Int) := by push_cast; ring
    rw [hcast]
    apply list_eq_of_charAt
    · rw [List.length_take, fl]
      omega
    · intro j hj
      rw [List.length_take, fl] at hj
      have hjb : j < b.length := by omega
      rw [charAt_take _ _ _ hjb, fc j, if_pos ⟨hjb, by omega⟩, hc (2 * j), hc (2 * j + 1)]
      have a1 : 2 * j < 2 * b.length := by omega
      have a2 : 2 * j + 1 < 2 * b.length := by omega
      have a3 : 2 * j % 2 = 0 := by omega
      have a4 : ¬ ((2 * j + 1) % 2 = 0) := by omega
      have a5 : 2 * j / 2 = j := by omega
      have a6 : (2 * j + 1) / 2 = j := by omega
      rw [if_pos a1, if_pos a2, if_pos a3, if_neg a4, a5, a6]
      exact hex_byte_round_trip sgn (charAt b j) (hb j hjb)
  · intro j hj
    rw [hc j, if_pos hj]
    obtain ⟨u0, u1⟩ := hu (j / 2)
    by_cases h2 : j % 2 = 0
    · rw [if_pos h2]
      exact (hexdigit_spec _ (by omega) (by omega)).2
    · rw [if_neg h2]
      exact (hexdigit_spec _ (by omega) (by omega)).2
  · intro hn
    rw [hc, if_neg (by omega), if_pos ⟨rfl, hn⟩]
  · intro j hj
    rw [hc, if_neg (by omega), if_neg (fun hh => by omega)]

/-- The count of C37 as stated fails for one byte: `amcl_bin2hex` on the byte ab and a
`dst` of three characters stores three characters, the digits a and b and the null
character in `dst[2]`, which held 1 before. -/
theorem amcl_bin2hex_stores_null :
    amcl_bin2hex [-85] [1, 1, 1] ([(-85 : Int)].length) = [97, 98, 0] ∧
    charAt [1, 1, 1] 2 = 1 ∧
    charAt (amcl_bin2hex [-85] [1, 1, 1] ([(-85 : Int)].length)) (2 * [(-85 : Int)].length) = 0 := by
  decide

/-- C40: for every six values returned by `RAND_byte`, each read as a C `char` `b_i`,
`generateOTP` returns the sum over `i = 0..5` of `(|b_i| mod 10) * 10^i`, which lies in
`[0, 999999]`. -/
theorem generateOTP_spec (sgn : Bool) (rnd : List Int) :
    generateOTP sgn rnd
      = ∑ i in Finset.range 6, (|toChar sgn (charAt rnd i)| % 10) * 10 ^ i ∧
    0 ≤ generateOTP sgn rnd ∧ generateOTP sgn rnd ≤ 999999 := by
  have key : ∀ x : Int, Int.tmod |x| 10 = |x| % 10 := fun x =>
    Int.tmod_eq_emod (abs_nonneg x) (by norm_num)
  have hr : List.range 6 = [0, 1, 2, 3, 4, 5] := rfl
  have hval : generateOTP sgn rnd
      = ∑ i in Finset.range 6, (|toChar sgn (charAt rnd i)| % 10) * 10 ^ i := by
    unfold generateOTP
    rw [hr]
    simp only [List.foldl_cons, List.foldl_nil, Finset.sum_range_succ, Finset.sum_range_zero,
      key]
    ring
  refine ⟨hval, ?_⟩
  rw [hval]
  simp only [Finset.sum_range_succ, Finset.sum_range_zero]
  have h0 := Int.emod_nonneg |toChar sgn (charAt rnd 0)| (show (10 : Int) ≠ 0 by norm_num)
  have h1 := Int.emod_nonneg |toChar sgn (charAt rnd 1)| (show (10 : Int) ≠ 0 by norm_num)
  have h2 := Int.emod_nonneg |toChar sgn (charAt rnd 2)| (show (10 : Int) ≠ 0 by norm_num)
  have h3 := Int.emod_nonneg |toChar sgn (charAt rnd 3)| (show (10 : Int) ≠ 0 by norm_num)
  have h4 := Int.emod_nonneg |toChar sgn (charAt rnd 4)| (show (10 : Int) ≠ 0 by norm_num)
  have h5 := Int.emod_nonneg |toChar sgn (charAt rnd 5)| (show (10 : Int) ≠ 0 by norm_num)
  have g0 := Int.emod_lt_of_pos |toChar sgn (charAt rnd 0)| (show (0 : Int) < 10 by norm_num)
  have g1 := Int.emod_lt_of_pos |toChar sgn (charAt rnd 1)| (show (0 : Int) < 10 by norm_num)
  have g2 := Int.emod_lt_of_pos |toChar sgn (charAt rnd 2)| (show (0 : Int) < 10 by norm_num)
  have g3 := Int.emod_lt_of_pos |toChar sgn (charAt rnd 3)| (show (0 : Int) < 10 by norm_num)
  have g4 := Int.emod_lt_of_pos |toChar sgn (charAt rnd 4)| (show (0 : Int) < 10 by norm_num)
  have g5 := Int.emod_lt_of_pos |toChar sgn (charAt rnd 5)| (show (0 : Int) < 10 by norm_num)
  generalize |toChar sgn (charAt rnd 0)| % 10 = d0 at *
  generalize |toChar sgn (charAt rnd 1)| % 10 = d1 at *
  generalize |toChar sgn (charAt rnd 2)| % 10 = d2 at *
  generalize |toChar sgn (charAt rnd 3)| % 10 = d3 at *
  generalize |toChar sgn (charAt rnd 4)| % 10 = d4 at *
  generalize |toChar sgn (charAt rnd 5)| % 10 = d5 at *
  constructor <;> norm_num <;> omega

/-- The agreement of C32 on a BN254 field element. -/
theorem FP_sqr_eq_mul_same_witness :
    0 < bn254.NLEN ∧ (∀ x : BIG, BIG_sqr bn254 x = BIG_mul bn254 x x) ∧
    FP_sqr bn254 bnA = (FP_mul_same_state bn254 bnA).1 :=
  ⟨by decide, fun _ => rfl,
    (FP_sqr_eq_mul_same bn254 (by decide) bnA (fun _ => rfl)).1⟩

/-- The identity of C33 in the build `ns20`. -/
theorem FP_one_identity_witness :
    WF ns20 ∧ 1 < Modulus_val ns20 ∧ FP_redc ns20 (FP_one ns20) = BIG_one ns20 :=
  ⟨by decide, by decide, (FP_one_identity ns20 (by decide) (by decide)).1⟩

/-- The loop of C34 in the build `ns20` on the exponent 5: `FP_pow` returns. -/
theorem FP_pow_terminates_witness :
    WF ns20 ∧ 0 ≤ BIG_val ns20 [5, 0] ∧ BIG_val ns20 [5, 0] < pow2 (ns20.CHUNK * ns20.NLEN) ∧
    ∃ r, FP_pow ns20 [3, 0] [5, 0] = some r :=
  ⟨by decide, by decide, by decide,
    (FP_pow_terminates ns20 (by decide) [3, 0] [5, 0] (by decide)).2.2 (by decide)⟩

/-- The frame of C35 in the build `ns20m1`, whose modulus is 1 mod 8. -/
theorem FP_sqrt_mod8_one_witness :
    WF ns20m1 ∧ ns20m1.MOD8 = 1 ∧ Modulus_val ns20m1 % 8 = 1 ∧
    FP_sqrt ns20m1 [7, 7] [3, 500] = some ([7, 7], FP_reduce ns20m1 [3, 500]) :=
  ⟨by decide, rfl, by decide, (FP_sqrt_mod8_one ns20m1 (by decide) rfl [7, 7] [3, 500]).1⟩

/-- The frame of C36 on two BN254 field elements. -/
theorem FP_mul_operands_witness :
    0 < bn254.NLEN ∧ BIG_val bn254 (FP_mul_state bn254 bnA bnB).2.2 = BIG_val bn254 bnB :=
  ⟨by decide, (FP_mul_operands bn254 (by decide) bnA bnB).2.2⟩

/-- The round trip of C37 with a signed `char` on the bytes ab, 00, 7f. -/
theorem hex_codec_round_trip_witness :
    (∀ j, j < [(-85 : Int), 0, 127].length →
      toChar true (charAt [-85, 0, 127] j) = charAt [-85, 0, 127] j) ∧
    (amcl_hex2bin true
        (amcl_bin2hex [-85, 0, 127] [1, 1, 1, 1, 1, 1, 1, 1] ([(-85 : Int), 0, 127].length))
        [9, 9, 9, 9] (2 * [(-85 : Int), 0, 127].length)).take [(-85 : Int), 0, 127].length
      = [-85, 0, 127] :=
  ⟨by decide,
    (hex_codec_round_trip true [-85, 0, 127] [1, 1, 1, 1, 1, 1, 1, 1] [9, 9, 9, 9]
      (by decide) (by decide) (by decide)).1⟩

/-- The frame of C39 on the five characters 1a2b3: `dst[2]` is left as it was. -/
theorem amcl_hex2bin_frame_witness :
    (0 : Int) ≤ 5 ∧ ((5 : Int) / 2).toNat ≤ [(9 : Int), 9, 9].length ∧
    charAt (amcl_hex2bin true [49, 97, 50, 98, 51] [9, 9, 9] 5) 2 = charAt [9, 9, 9] 2 :=
  ⟨by decide, by decide,
    (amcl_hex2bin_frame true [49, 97, 50, 98, 51] [9, 9, 9] 5 (by decide) (by decide)).2.2.1 2
      (by decide)⟩
